import Mathlib

/-!
# Verification development for `dashing.go`

A shallow embedding of the selector-driven extraction and markup-mutation
engine of `dashing.go` (entity re-encoding, anchor/link generation, the
reference finder and the page processor), followed by theorems about it.

Conventions.
* A Go `string` is a Lean `String`; a `range` loop over a string yields its
  code points in order, which is `String.data`.
* A Go map lookup of an absent key yields the zero value (`""` for strings).
* The Go `int` is taken to be 64 bits wide; arithmetic on it wraps.
* The nodes of `golang.org/x/net/html` live in a heap, a list of nodes, and a
  pointer is an index into it. Package variables are passed in and out.
* A function that can panic or loop returns `Except Fault`: `Fault.panic` for
  a run-time panic, `Fault.fuel` when the evaluation budget `fuel` is used up.
  The loop of `findRefs` reads the child pointers of the tree while its body
  changes the tree, as the Go iterator does, and need not end: a rule that
  matches the `link` elements appended to the head keeps it going.
* A statement `... = Except.ok r → ...` speaks of a completed run. That the
  loop body and `findRefs` do complete, for every large enough fuel, on a
  well-formed document whose rules in force match no appended `link` element,
  is shown in the section "enough fuel gives a result" and is part of the
  theorems on rule matches and runs.
* The records `Hit` and `Visit` note which node was visited and which rule
  matched; the program does not read them.
* Output written with `fmt.Printf` is left out.
-/

namespace DashDocset

/-! ## Entity re-encoding -/

/-- The literal of the map `point_to_entity`, in source order: code point and
named entity. -/
def point_to_entity_table : List (Nat × String) := [
  (8704, "&forall;"), (8194, "&ensp;"), (8195, "&emsp;"), (8709, "&empty;"),
  (8711, "&nabla;"), (8712, "&isin;"), (8201, "&thinsp;"), (8715, "&ni;"),
  (8204, "&zwnj;"), (8205, "&zwj;"), (8206, "&lrm;"), (8719, "&prod;"),
  (8721, "&sum;"), (8722, "&minus;"), (8211, "&ndash;"), (8212, "&mdash;"),
  (8727, "&lowast;"), (8216, "&lsquo;"), (8217, "&rsquo;"), (8730, "&radic;"),
  (175, "&macr;"), (8220, "&ldquo;"), (8221, "&rdquo;"), (8222, "&bdquo;"),
  (8224, "&dagger;"), (8225, "&Dagger;"), (8226, "&bull;"), (8230, "&hellip;"),
  (8743, "&and;"), (8744, "&or;"), (8745, "&cap;"), (8746, "&cup;"),
  (8747, "&int;"), (8240, "&permil;"), (8242, "&prime;"), (8243, "&Prime;"),
  (8756, "&there4;"), (8713, "&notin;"), (8249, "&lsaquo;"), (8250, "&rsaquo;"),
  (8764, "&sim;"), (8629, "&crarr;"), (9824, "&spades;"), (8260, "&frasl;"),
  (8773, "&cong;"), (8776, "&asymp;"), (8207, "&rlm;"), (9829, "&hearts;"),
  (8800, "&ne;"), (8801, "&equiv;"), (9827, "&clubs;"), (8804, "&le;"),
  (8805, "&ge;"), (9830, "&diams;"), (8834, "&sub;"), (8835, "&sup;"),
  (8836, "&nsub;"), (8838, "&sube;"), (8839, "&supe;"), (8853, "&oplus;"),
  (8855, "&otimes;"), (8734, "&infin;"), (8218, "&sbquo;"), (8901, "&sdot;"),
  (160, "&nbsp;"), (161, "&iexcl;"), (162, "&cent;"), (163, "&pound;"),
  (164, "&curren;"), (8869, "&perp;"), (166, "&brvbar;"), (167, "&sect;"),
  (168, "&uml;"), (169, "&copy;"), (170, "&ordf;"), (171, "&laquo;"),
  (8364, "&euro;"), (173, "&shy;"), (174, "&reg;"), (8733, "&prop;"),
  (176, "&deg;"), (177, "&plusmn;"), (178, "&sup2;"), (179, "&sup3;"),
  (180, "&acute;"), (181, "&micro;"), (182, "&para;"), (183, "&middot;"),
  (184, "&cedil;"), (185, "&sup1;"), (186, "&ordm;"), (187, "&raquo;"),
  (188, "&frac14;"), (189, "&frac12;"), (190, "&frac34;"), (191, "&iquest;"),
  (192, "&Agrave;"), (193, "&Aacute;"), (194, "&Acirc;"), (195, "&Atilde;"),
  (196, "&Auml;"), (197, "&Aring;"), (198, "&AElig;"), (199, "&Ccedil;"),
  (200, "&Egrave;"), (201, "&Eacute;"), (202, "&Ecirc;"), (203, "&Euml;"),
  (204, "&Igrave;"), (205, "&Iacute;"), (206, "&Icirc;"), (207, "&Iuml;"),
  (208, "&ETH;"), (209, "&Ntilde;"), (210, "&Ograve;"), (211, "&Oacute;"),
  (212, "&Ocirc;"), (213, "&Otilde;"), (214, "&Ouml;"), (215, "&times;"),
  (216, "&Oslash;"), (217, "&Ugrave;"), (218, "&Uacute;"), (219, "&Ucirc;"),
  (220, "&Uuml;"), (221, "&Yacute;"), (222, "&THORN;"), (223, "&szlig;"),
  (224, "&agrave;"), (225, "&aacute;"), (226, "&acirc;"), (227, "&atilde;"),
  (228, "&auml;"), (229, "&aring;"), (230, "&aelig;"), (231, "&ccedil;"),
  (232, "&egrave;"), (234, "&ecirc;"), (235, "&euml;"), (236, "&igrave;"),
  (8658, "&rArr;"), (238, "&icirc;"), (239, "&iuml;"), (240, "&eth;"),
  (241, "&ntilde;"), (242, "&ograve;"), (243, "&oacute;"), (244, "&ocirc;"),
  (245, "&otilde;"), (246, "&ouml;"), (247, "&divide;"), (248, "&oslash;"),
  (249, "&ugrave;"), (250, "&uacute;"), (251, "&ucirc;"), (252, "&uuml;"),
  (253, "&yacute;"), (254, "&thorn;"), (255, "&yuml;"), (172, "&not;"),
  (8968, "&lceil;"), (8969, "&rceil;"), (8970, "&lfloor;"), (8971, "&rfloor;"),
  (8465, "&image;"), (8472, "&weierp;"), (8476, "&real;"), (8482, "&trade;"),
  (732, "&tilde;"), (9002, "&rang;"), (8736, "&ang;"), (402, "&fnof;"),
  (8706, "&part;"), (8501, "&alefsym;"), (710, "&circ;"), (338, "&OElig;"),
  (339, "&oelig;"), (352, "&Scaron;"), (353, "&scaron;"), (8593, "&uarr;"),
  (8594, "&rarr;"), (8707, "&exist;"), (8595, "&darr;"), (8254, "&oline;"),
  (233, "&eacute;"), (376, "&Yuml;"), (916, "&Delta;"), (237, "&iacute;"),
  (8592, "&larr;"), (913, "&Alpha;"), (914, "&Beta;"), (915, "&Gamma;"),
  (8596, "&harr;"), (917, "&Epsilon;"), (918, "&Zeta;"), (919, "&Eta;"),
  (920, "&Theta;"), (921, "&Iota;"), (922, "&Kappa;"), (923, "&Lambda;"),
  (924, "&Mu;"), (925, "&Nu;"), (926, "&Xi;"), (927, "&Omicron;"),
  (928, "&Pi;"), (929, "&Rho;"), (931, "&Sigma;"), (932, "&Tau;"),
  (933, "&Upsilon;"), (934, "&Phi;"), (935, "&Chi;"), (936, "&Psi;"),
  (937, "&Omega;"), (945, "&alpha;"), (946, "&beta;"), (947, "&gamma;"),
  (948, "&delta;"), (949, "&epsilon;"), (950, "&zeta;"), (951, "&eta;"),
  (952, "&theta;"), (953, "&iota;"), (954, "&kappa;"), (955, "&lambda;"),
  (956, "&mu;"), (957, "&nu;"), (958, "&xi;"), (959, "&omicron;"),
  (960, "&pi;"), (961, "&rho;"), (962, "&sigmaf;"), (963, "&sigma;"),
  (964, "&tau;"), (965, "&upsilon;"), (966, "&phi;"), (967, "&chi;"),
  (968, "&psi;"), (969, "&omega;"), (9674, "&loz;"), (8656, "&lArr;"),
  (977, "&thetasym;"), (978, "&upsih;"), (8659, "&dArr;"), (8660, "&hArr;"),
  (982, "&piv;"), (165, "&yen;"), (8657, "&uArr;"), (9001, "&lang;")
]

/-- The map lookup `point_to_entity[c]`; an absent key gives `""`. -/
def point_to_entity (c : Char) : String :=
  match point_to_entity_table.lookup c.toNat with
  | some e => e
  | none => ""

/-- The function `encodeHTMLentities`: every code point with a table entry is
written as its entity, every other code point is written as itself. -/
def encodeHTMLentities (orig : String) : String :=
  orig.data.foldl
    (fun escaped c =>
      if point_to_entity c = "" then escaped.push c
      else escaped ++ point_to_entity c)
    ""

/-- The text written for one code point by the loop body of
`encodeHTMLentities`. -/
def encodedRune (c : Char) : List Char :=
  if point_to_entity c = "" then [c] else (point_to_entity c).data

/-! ## Library functions the program calls

Models of the functions of the Go standard library, `golang.org/x/net/html`
and `cascadia` that the program uses, following their documented behaviour. -/

/-- The Go `int`, 64 bits wide: the value an arithmetic result wraps to. -/
def wrapInt (x : Int) : Int := (x + 2 ^ 63) % 2 ^ 64 - 2 ^ 63

/-- The verb `%d` of `fmt.Sprintf`: the decimal text of an integer. -/
def fmtInt (n : Int) : String := toString n

/-- The UTF-8 bytes of one code point. -/
def utf8Bytes (c : Char) : List Nat :=
  let n := c.toNat
  if n < 128 then [n]
  else if n < 2048 then [192 + n / 64, 128 + n % 64]
  else if n < 65536 then [224 + n / 4096, 128 + n / 64 % 64, 128 + n % 64]
  else [240 + n / 262144, 128 + n / 4096 % 64, 128 + n / 64 % 64, 128 + n % 64]

/-- The bytes of a Go string. -/
def stringBytes (s : String) : List Nat := s.data.flatMap utf8Bytes

/-- The function `shouldEscape` of `net/url` in the mode
`encodeQueryComponent`: only letters, digits and `-`, `_`, `.`, `~` are kept. -/
def shouldEscape (c : Nat) : Bool :=
  if (97 ≤ c ∧ c ≤ 122) ∨ (65 ≤ c ∧ c ≤ 90) ∨ (48 ≤ c ∧ c ≤ 57) then false
  else if c = 45 ∨ c = 95 ∨ c = 46 ∨ c = 126 then false
  else true

/-- The constant `upperhex` of `net/url`. -/
def upperhex : String := "0123456789ABCDEF"

/-- The text `%XX` of one byte. -/
def percentHex (c : Nat) : List Char :=
  ['%', upperhex.data.getD (c / 16) '0', upperhex.data.getD (c % 16) '0']

/-- What `url.QueryEscape` writes for one byte: `+` for a space, `%XX` for a
byte that must be escaped, the byte itself otherwise. -/
def escapeByte (c : Nat) : List Char :=
  if c = 32 then ['+']
  else if shouldEscape c then percentHex c
  else [Char.ofNat c]

/-- The function `url.QueryEscape`. -/
def QueryEscape (s : String) : String := String.mk ((stringBytes s).flatMap escapeByte)

/-- The call `strings.Replace(s, old, new, -1)` for a one-character `old`. -/
def stringsReplaceAll (s : String) (old : Char) (new : String) : String :=
  String.mk (s.data.flatMap (fun c => if c = old then new.data else [c]))

/-- The function `strings.HasPrefix`. -/
def stringsHasPrefix (s p : String) : Bool := p.data.isPrefixOf s.data

/-- The function `strings.HasSuffix`. -/
def stringsHasSuffix (s p : String) : Bool := p.data.reverse.isPrefixOf s.data.reverse

/-- The predicate `unicode.IsSpace`. -/
def unicodeIsSpace (c : Char) : Bool :=
  let n := c.toNat
  (9 ≤ n && n ≤ 13) || n = 32 || n = 133 || n = 160 || n = 5760
    || (8192 ≤ n && n ≤ 8202) || n = 8232 || n = 8233 || n = 8239 || n = 8287
    || n = 12288

/-- The function `strings.TrimSpace`. -/
def stringsTrimSpace (s : String) : String :=
  String.mk ((s.data.dropWhile unicodeIsSpace).reverse.dropWhile unicodeIsSpace).reverse

/-- How a call can fail to return: a run-time panic, or the evaluation budget
of the model is used up. -/
inductive Fault where
  | panic
  | fuel
deriving DecidableEq, Repr

deriving instance DecidableEq for Except

/-- The constants `html.NodeType`. -/
inductive NodeType where
  | ErrorNode
  | TextNode
  | DocumentNode
  | ElementNode
  | CommentNode
  | DoctypeNode
  | RawNode
deriving DecidableEq, Repr

/-- The struct `html.Attribute`. -/
structure Attribute where
  Namespace : String
  Key : String
  Val : String
deriving DecidableEq, Repr

/-- The struct `html.Node`, stored in a heap and addressed by its index. The
sibling chain `FirstChild`, `NextSibling`, ... of a node is kept as the list
`Children` of its children in order; `DataAtom` is determined by `Data`. -/
structure Node where
  Parent : Option Nat
  Children : List Nat
  Typ : NodeType
  Data : String
  Attr : List Attribute
deriving DecidableEq, Repr

/-- The heap of nodes: the pointer `p` is the node at index `p`. -/
abbrev Heap := List Node

/-- Dereference of a node pointer. -/
def deref (h : Heap) (p : Nat) : Except Fault Node :=
  match h[p]? with
  | some nd => .ok nd
  | none => .error .panic

/-- Use of a pointer that must not be nil: a nil pointer panics. -/
def nonNil (p : Option Nat) : Except Fault Nat :=
  match p with
  | some q => pure q
  | none => throw Fault.panic

/-- Allocation `&html.Node{...}`: the new pointer and the grown heap. -/
def alloc (h : Heap) (nd : Node) : Nat × Heap := (h.length, h ++ [nd])

/-- The field `FirstChild`. -/
def FirstChild (h : Heap) (n : Nat) : Except Fault (Option Nat) := do
  let nd ← deref h n
  pure nd.Children.head?

/-- The element that follows the first occurrence of `c` in a list. -/
def nextIn (c : Nat) : List Nat → Option Nat
  | [] => none
  | x :: xs => if x = c then xs.head? else nextIn c xs

/-- The field `NextSibling`: the child that follows `c` under its parent. -/
def NextSibling (h : Heap) (c : Nat) : Except Fault (Option Nat) := do
  let cn ← deref h c
  match cn.Parent with
  | none => pure none
  | some p =>
    let pn ← deref h p
    pure (nextIn c pn.Children)

/-- Insertion of `newChild` right before the first occurrence of `oldChild`. -/
def insertBeforeIn (newChild oldChild : Nat) : List Nat → Option (List Nat)
  | [] => none
  | x :: xs =>
    if x = oldChild then some (newChild :: x :: xs)
    else (insertBeforeIn newChild oldChild xs).map (fun r => x :: r)

/-- The method `(*Node).AppendChild`: `c` becomes the last child of `n`; it
panics when `c` already has a parent. -/
def AppendChild (h : Heap) (n c : Nat) : Except Fault Heap := do
  let cn ← deref h c
  if cn.Parent.isSome then throw Fault.panic
  else do
    let nn ← deref h n
    let h1 := h.set n { nn with Children := nn.Children ++ [c] }
    let cn1 ← deref h1 c
    pure (h1.set c { cn1 with Parent := some n })

/-- The method `(*Node).InsertBefore` with a non-nil `oldChild`: `newChild`
becomes the child of `n` right before `oldChild`; it panics when `newChild`
already has a parent. In a tree `oldChild` is a child of `n`; where it is not,
the model faults. -/
def InsertBefore (h : Heap) (n newChild oldChild : Nat) : Except Fault Heap := do
  let cn ← deref h newChild
  if cn.Parent.isSome then throw Fault.panic
  else do
    let nn ← deref h n
    match insertBeforeIn newChild oldChild nn.Children with
    | none => throw Fault.panic
    | some cs =>
      let h1 := h.set n { nn with Children := cs }
      let cn1 ← deref h1 newChild
      pure (h1.set newChild { cn1 with Parent := some n })

/-- The method `(*Node).RemoveChild`: `c` is detached from `n`; it panics when
`c` is not a child of `n`. -/
def RemoveChild (h : Heap) (n c : Nat) : Except Fault Heap := do
  let cn ← deref h c
  if cn.Parent ≠ some n then throw Fault.panic
  else do
    let nn ← deref h n
    let h1 := h.set n { nn with Children := nn.Children.erase c }
    let cn1 ← deref h1 c
    pure (h1.set c { cn1 with Parent := none })

/-- A compiled selector, `cascadia.Sel`: whether it matches a node is decided
from the node and the tree around it. -/
abbrev Matcher := Heap → Nat → Bool

/-- The first success of `f` over a list, left to right. -/
def firstSome (f : Nat → Except Fault (Option Nat)) : List Nat → Except Fault (Option Nat)
  | [] => pure none
  | c :: cs => do
    match ← f c with
    | some r => pure (some r)
    | none => firstSome f cs

/-- The method `Selector.MatchFirst`: the first node in depth-first order, `n`
included, that the selector matches. -/
def MatchFirst (m : Matcher) (h : Heap) : Nat → Nat → Except Fault (Option Nat)
  | 0, _ => throw Fault.fuel
  | fuel + 1, n =>
    if m h n then pure (some n)
    else do
      let nd ← deref h n
      firstSome (MatchFirst m h fuel) nd.Children

/-- The function `cascadia.Query`: the first node strictly below `n`, in
depth-first order, that the selector matches. -/
def Query (m : Matcher) (h : Heap) : Nat → Nat → Except Fault (Option Nat)
  | 0, _ => throw Fault.fuel
  | fuel + 1, n => do
    let nd ← deref h n
    firstSome
      (fun c => if m h c then pure (some c) else Query m h fuel c)
      nd.Children

/-- The method `Selector.MatchAll`: every node the selector matches, `n`
included, in depth-first order. -/
def MatchAll (m : Matcher) (h : Heap) : Nat → Nat → Except Fault (List Nat)
  | 0, _ => throw Fault.fuel
  | fuel + 1, n => do
    let nd ← deref h n
    let below ← nd.Children.mapM (MatchAll m h fuel)
    pure ((if m h n then [n] else []) ++ below.flatten)

/-- The selector compiled from a tag name, such as `head` or `body`. -/
def tagSelector (tag : String) : Matcher := fun h n =>
  match h[n]? with
  | some nd => nd.Typ = NodeType.ElementNode && nd.Data = tag
  | none => false

/-! ## The program -/

/-- The type `regexpYaml`: a compiled regular expression, used through
`MatchString`. -/
structure regexpYaml where
  MatchString : String → Bool

/-- The type `cssSelectorYaml`: a compiled selector, used through `Match` and
`String()`. -/
structure cssSelectorYaml where
  Match : Matcher
  Str : String

/-- The struct `Transform`; the field `Type` is `Typ` here. -/
structure Transform where
  CssSelector : cssSelectorYaml
  Typ : String
  Attribute : String
  RequireText : Option regexpYaml
  SkipText : Option regexpYaml
  MatchPath : Option regexpYaml
  TOCRoot : Bool
  TOCChild : Bool
  CssSelectorForSearchPrefix : Option cssSelectorYaml

/-- The fields of the struct `Dashing` that `parseHTML` and `findRefs` read. -/
structure Dashing where
  Selectors : List Transform
  BackupSelectors : List Transform
  RemoveElements : List cssSelectorYaml
  CssSelectorForBody : Option cssSelectorYaml
  CssSelectorForTitle : Option cssSelectorYaml

/-- The struct `reference`. -/
structure reference where
  selector : String
  name : String
  etype : String
  href : String
  menuDescription : String
deriving DecidableEq, Repr

/-- The loop of `attr` over the attributes of a node. -/
def attrIn (key : String) : List Attribute → String
  | [] => ""
  | a :: as => if a.Key = key then a.Val else attrIn key as

/-- The function `attr`: the value of the first attribute with the given key,
`""` when there is none. -/
def attr (h : Heap) (node : Nat) (key : String) : Except Fault String := do
  let nd ← deref h node
  pure (attrIn key nd.Attr)

/-- The function `text`: the text nodes below a node, concatenated depth
first, every level trimmed of surrounding white space. -/
def text (h : Heap) : Nat → Nat → Except Fault String
  | 0, _ => throw Fault.fuel
  | fuel + 1, node => do
    let nd ← deref h node
    let b ← nd.Children.foldlM
      (fun (b : String) (c : Nat) => do
        let cn ← deref h c
        if cn.Typ = NodeType.TextNode then pure (b ++ cn.Data)
        else if cn.Typ = NodeType.ElementNode then do
          let t ← text h fuel c
          pure (b ++ t)
        else pure b)
      ""
    pure (stringsTrimSpace b)

/-- The string `target` that `tocAnchorAndLinkNode` formats. -/
def tocTarget (counter : Int) (name etype : String) (isSectionHeader : Bool) : String :=
  let name := stringsReplaceAll (QueryEscape name) '+' "%20"
  let tocLevel : Int := if isSectionHeader then 1 else 0
  "//dash_ref_" ++ fmtInt counter ++ "/" ++ etype ++ "/" ++ name ++ "/" ++ fmtInt tocLevel

/-- The result of `tocAnchorAndLinkNode`: the two new nodes, the heap that
holds them and the package variable `counter` after the call. -/
structure TocNodes where
  tocAnchor : Nat
  linkNode : Nat
  heap : Heap
  counter : Int

/-- The function `tocAnchorAndLinkNode`, with the package variable `counter`
passed in and out. -/
def tocAnchorAndLinkNode (h : Heap) (counter : Int) (name etype : String)
    (isSectionHeader : Bool) : TocNodes :=
  let target := tocTarget counter name etype isSectionHeader
  let counter := wrapInt (counter + 1)
  let a := alloc h
    { Parent := none, Children := [], Typ := NodeType.ElementNode, Data := "a",
      Attr := [⟨"", "class", "dashAnchor"⟩, ⟨"", "name", target⟩] }
  let l := alloc a.2
    { Parent := none, Children := [], Typ := NodeType.ElementNode, Data := "link",
      Attr := [⟨"", "href", target⟩] }
  { tocAnchor := a.1, linkNode := l.1, heap := l.2, counter := counter }

/-- Record of one rule match at a node, kept for the statements only: the
index of the rule among the rules in force, the two nodes injected for it and
the reference appended for it, if any. The program does not read it. -/
structure Hit where
  rule : Nat
  tocAnchor : Nat
  linkNode : Nat
  ref : Option reference
deriving DecidableEq, Repr

/-- Record of one node yielded by the traversal and of the rule matches found
at it, kept for the statements only. -/
structure Visit where
  node : Nat
  hits : List Hit
deriving DecidableEq, Repr

/-- The state `findRefs` works on: the node heap, the package variable
`counter`, the slice `refs`, and the record of the traversal. -/
structure Run where
  heap : Heap
  counter : Int
  refs : List reference
  visits : List Visit
deriving DecidableEq, Repr

/-- The loop of `findRefs` that keeps the rules whose `MatchPath` is absent or
matches the file path. -/
def matchingSelectors (selectors : List Transform) (filepath : String) : List Transform :=
  selectors.foldl
    (fun acc sel =>
      match sel.MatchPath with
      | none => acc ++ [sel]
      | some re => if re.MatchString filepath then acc ++ [sel] else acc)
    []

/-- The name prefix a rule computes for an entry whose text is `textString`. -/
def searchPrefix (fuel : Nat) (h : Heap) (top : Nat) (sel : Transform) (textString : String) :
    Except Fault String :=
  match sel.CssSelectorForSearchPrefix with
  | none => pure ""
  | some ps => do
    match ← Query ps.Match h fuel top with
    | none => pure ""
    | some node => do
      let nodeText ← text h fuel node
      if nodeText ≠ textString then pure (nodeText ++ ".") else pure ""

/-- The in-page fragment of a matched node. -/
def linkHrefOf (h : Heap) (n : Nat) : Except Fault String := do
  let linkHref ← attr h n "href"
  if !stringsHasPrefix linkHref "#" || linkHref = "" then
    (attr h n "id").map (fun id => "#" ++ id)
  else pure linkHref

/-- The tail of the loop body of `findRefs`: the anchor and link nodes are
made, the link is appended to the head and the anchor is inserted before the
matched node. -/
def inject (h : Heap) (counter : Int) (headNode : Option Nat) (n : Nat)
    (name etype : String) (isSectionHeader : Bool) : Except Fault TocNodes := do
  let t := tocAnchorAndLinkNode h counter name etype isSectionHeader
  let head ← nonNil headNode
  let h2 ← AppendChild t.heap head t.linkNode
  let nn ← deref h2 n
  let parent ← nonNil nn.Parent
  let h3 ← InsertBefore h2 parent t.tocAnchor n
  pure { t with heap := h3 }

/-- The test `sel.RequireText != nil && !sel.RequireText.MatchString(textString)`
of `findRefs`, negated: the rule has no required text or the text matches it. -/
def requireTextOk (sel : Transform) (textString : String) : Bool :=
  match sel.RequireText with
  | some re => re.MatchString textString
  | none => true

/-- The test `sel.SkipText != nil && sel.SkipText.MatchString(textString)` of
`findRefs`. -/
def skipTextHit (sel : Transform) (textString : String) : Bool :=
  match sel.SkipText with
  | some re => re.MatchString textString
  | none => false

/-- The body of the inner loop of `findRefs`: one rule `sel`, the `idx`-th of
the rules in force, tried at the node `n`. -/
def visitRule (fuel : Nat) (top : Nat) (titleString filepath : String)
    (headNode : Option Nat) (n : Nat) (idx : Nat) (sel : Transform) (r : Run) :
    Except Fault (Run × Option Hit) := do
  if !sel.CssSelector.Match r.heap n then pure (r, none)
  else do
    let textString ← text r.heap fuel n
    if !requireTextOk sel textString then pure (r, none)
    else do
      if skipTextHit sel textString then pure (r, none)
      else do
        let name ← (if sel.Attribute ≠ "" then attr r.heap n sel.Attribute
          else pure textString)
        let pfx ← searchPrefix fuel r.heap top sel textString
        let ref ← (if !stringsHasSuffix filepath "-2.html" then
            (linkHrefOf r.heap n).map (fun linkHref =>
              some
                { selector := sel.CssSelector.Str, name := pfx ++ name, etype := sel.Typ,
                  href := filepath ++ linkHref, menuDescription := titleString : reference })
          else pure none)
        let refs := match ref with
          | some x => r.refs ++ [x]
          | none => r.refs
        let t ← inject r.heap r.counter headNode n name sel.Typ sel.TOCRoot
        pure ({ r with heap := t.heap, counter := t.counter, refs := refs },
          some { rule := idx, tocAnchor := t.tocAnchor, linkNode := t.linkNode, ref := ref })

/-- The inner loop of `findRefs` at the node `n`: the rules in force, in
order, from index `idx` on. -/
def visitRules (fuel : Nat) (top : Nat) (titleString filepath : String)
    (headNode : Option Nat) (n : Nat) :
    Nat → List Transform → Run → Except Fault (Run × List Hit)
  | _, [], r => pure (r, [])
  | idx, sel :: sels, r => do
    let (r1, hit) ← visitRule fuel top titleString filepath headNode n idx sel r
    let (r2, hits) ← visitRules fuel top titleString filepath headNode n (idx + 1) sels r1
    pure (r2, hit.toList ++ hits)

/-- The body of the outer loop of `findRefs` at the node `n`. -/
def visitNode (fuel : Nat) (top : Nat) (titleString filepath : String)
    (headNode : Option Nat) (sels : List Transform) (n : Nat) (r : Run) : Except Fault Run := do
  let (r1, hits) ← visitRules fuel top titleString filepath headNode n 0 sels r
  pure { r1 with visits := r1.visits ++ [{ node := n, hits := hits }] }

mutual
/-- The loop `for n := range top.Descendants()`: the nodes below `n` are
yielded depth first, each before its own descendants; the child pointers are
read after the loop body has run. -/
def descendants (body : Nat → Run → Except Fault Run) : Nat → Nat → Run → Except Fault Run
  | 0, _, _ => throw Fault.fuel
  | fuel + 1, n, r => do
    let c ← FirstChild r.heap n
    childNodes body fuel c r
/-- The loop `for c := n.FirstChild; c != nil; c = c.NextSibling` inside
`Descendants`. -/
def childNodes (body : Nat → Run → Except Fault Run) : Nat → Option Nat → Run → Except Fault Run
  | 0, _, _ => throw Fault.fuel
  | _ + 1, none, r => pure r
  | fuel + 1, some c, r => do
    let r1 ← body c r
    let r2 ← descendants body fuel c r1
    let nx ← NextSibling r2.heap c
    childNodes body fuel nx r2
end

/-- The title string `findRefs` computes first. -/
def titleOf (fuel : Nat) (h : Heap) (top : Nat) (dashing : Dashing) : Except Fault String :=
  match dashing.CssSelectorForTitle with
  | none => pure ""
  | some ts => do
    match ← MatchFirst ts.Match h fuel top with
    | none => pure ""
    | some title => text h fuel title

/-- The function `findRefs`, on the heap and the counter it is entered with. -/
def findRefs (fuel : Nat) (h : Heap) (counter : Int) (top : Nat) (selectors : List Transform)
    (dashing : Dashing) (filepath : String) (headNode : Option Nat) : Except Fault Run := do
  let titleString ← titleOf fuel h top dashing
  let sels := matchingSelectors selectors filepath
  descendants (visitNode fuel top titleString filepath headNode sels) fuel top
    { heap := h, counter := counter, refs := [], visits := [] }

/-- The fields of `url.URL` that `parseHTML` reads. -/
structure URL where
  Scheme : String
  Host : String
  Path : String

/-- The functions of `net/url` and `path` that `parseHTML` calls on attribute
values: `url.Parse` (`none` for an error) and `path.Join(path.Dir(a), b)`. -/
structure PathLib where
  urlParse : String → Option URL
  joinDir : String → String → String

/-- The struct `parseResult`, with the heap that `htmlNode` points into and
the package variable `counter` after the call. -/
structure parseResult where
  refs : List reference
  usedFiles : List String
  htmlNode : Nat
  heap : Heap
  counter : Int

/-- The selector compiled from `*[href],*[src]`. -/
def hrefOrSrcSelector : Matcher := fun h n =>
  match h[n]? with
  | some nd =>
    nd.Typ = NodeType.ElementNode && nd.Attr.any (fun a => a.Key = "href" || a.Key = "src")
  | none => false

/-- The loop of `parseHTML` over the attributes of one node with an `href` or
`src` attribute: the file the node refers to, if it is a relative path. -/
def usedFileOf (lib : PathLib) (filepath : String) : List Attribute → Option String
  | [] => none
  | a :: as =>
    if a.Key = "href" || a.Key = "src" then
      match lib.urlParse a.Val with
      | none => usedFileOf lib filepath as
      | some url =>
        if url.Scheme = "" && url.Host = "" && url.Path ≠ "" then
          some (lib.joinDir filepath url.Path)
        else none
    else usedFileOf lib filepath as

/-- The loop of `parseHTML` that collects `usedFiles`. -/
def usedFilesOf (lib : PathLib) (filepath : String) (h : Heap) :
    List Nat → Except Fault (List String)
  | [] => pure []
  | node :: rest => do
    let nd ← deref h node
    let more ← usedFilesOf lib filepath h rest
    pure ((usedFileOf lib filepath nd.Attr).toList ++ more)

/-- The inner loop of the removal pass: each matched node is detached from
its parent. -/
def removeNodes : Heap → List Nat → Except Fault Heap
  | h, [] => pure h
  | h, node :: rest => do
    let nd ← deref h node
    let p ← nonNil nd.Parent
    let h1 ← RemoveChild h p node
    removeNodes h1 rest

/-- The removal pass of `parseHTML` over `dashing.RemoveElements`. -/
def removeElements (fuel : Nat) (top : Nat) : List cssSelectorYaml → Heap → Except Fault Heap
  | [], h => pure h
  | selector :: rest, h => do
    let nodes ← MatchAll selector.Match h fuel top
    let h1 ← removeNodes h nodes
    removeElements fuel top rest h1

/-- The body replacement of `parseHTML`. -/
def replaceBody (fuel : Nat) (top : Nat) (dashing : Dashing) (h : Heap) : Except Fault Heap :=
  match dashing.CssSelectorForBody with
  | none => pure h
  | some bs => do
    let bodyNode ← MatchFirst (tagSelector "body") h fuel top
    let bodyNodeContent ← MatchFirst bs.Match h fuel top
    match bodyNodeContent with
    | none => pure h
    | some bc => do
      let bcn ← deref h bc
      let p ← nonNil bcn.Parent
      let h1 ← RemoveChild h p bc
      let bcn1 ← deref h1 bc
      let h2 := h1.set bc { bcn1 with Attr := bcn1.Attr ++ [⟨"", "style", "max-width: 100%;"⟩] }
      let body ← nonNil bodyNode
      let bn ← deref h2 body
      let nb := alloc h2
        { Parent := none, Children := [], Typ := NodeType.ElementNode, Data := "body",
          Attr := bn.Attr }
      let h4 ← AppendChild nb.2 nb.1 bc
      let bn4 ← deref h4 body
      let bp ← nonNil bn4.Parent
      let h5 ← InsertBefore h4 bp nb.1 body
      RemoveChild h5 bp body

/-- The part of `parseHTML` before the references are looked for: the head is
found, the used files are collected, the removal rules and the body
replacement are applied. It returns the head, the used files and the heap. -/
def prepare (lib : PathLib) (fuel : Nat) (h : Heap) (top : Nat) (filepath : String)
    (dashing : Dashing) : Except Fault (Option Nat × List String × Heap) := do
  let headNode ← MatchFirst (tagSelector "head") h fuel top
  let roots ← MatchAll hrefOrSrcSelector h fuel top
  let usedFiles ← usedFilesOf lib filepath h roots
  let h1 ← removeElements fuel top dashing.RemoveElements h
  let h2 ← replaceBody fuel top dashing h1
  pure (headNode, usedFiles, h2)

/-- The function `parseHTML`, on the document `top` that `html.Parse` built in
the heap `h`. -/
def parseHTML (lib : PathLib) (fuel : Nat) (h : Heap) (counter : Int) (top : Nat)
    (filepath : String) (dashing : Dashing) : Except Fault parseResult := do
  let (headNode, usedFiles, h2) ← prepare lib fuel h top filepath dashing
  let r ← findRefs fuel h2 counter top dashing.Selectors dashing filepath headNode
  let r ← (if r.refs.length = 0 then
      findRefs fuel r.heap r.counter top dashing.BackupSelectors dashing filepath headNode
    else pure r)
  pure { refs := r.refs, usedFiles := usedFiles, htmlNode := top, heap := r.heap,
         counter := r.counter }

/-! ## Definitions used to state the properties -/

/-- The percent-encoding of a name in which only letters, digits and `-`,
`_`, `.`, `~` stay as they are and every other byte, the space included, is
written `%XX`. -/
def percentEncoded (name : String) : String :=
  String.mk ((stringBytes name).flatMap
    (fun b => if shouldEscape b then percentHex b else [Char.ofNat b]))

/-- One call of `tocAnchorAndLinkNode` in a run: the heap it finds and its
arguments. -/
structure TocCall where
  heap : Heap
  name : String
  etype : String
  isSectionHeader : Bool

/-- A sequence of calls of `tocAnchorAndLinkNode` in one run: `counter` is
carried from each call to the next; the results are listed in call order. -/
def tocCalls : Int → List TocCall → List TocNodes
  | _, [] => []
  | counter, c :: cs =>
    let t := tocAnchorAndLinkNode c.heap counter c.name c.etype c.isSectionHeader
    t :: tocCalls t.counter cs

/-- The value of `counter` that each call of a sequence formats into its
target. -/
def tocSuffixes : Int → List TocCall → List Int
  | _, [] => []
  | counter, c :: cs =>
    counter ::
      tocSuffixes (tocAnchorAndLinkNode c.heap counter c.name c.etype c.isSectionHeader).counter cs

/-- The targets of the link nodes made by a sequence of calls. -/
def tocTargets (counter : Int) (calls : List TocCall) : List String :=
  (tocCalls counter calls).map (fun t =>
    match t.heap[t.linkNode]? with
    | some nd => attrIn "href" nd.Attr
    | none => "")

/-- The children of the old node `i` after one injection for a match at `n`:
the link is appended if `i` is the head, then the anchor is put before `n` if
`i` is the parent of `n`. -/
def childrenAfter (head link parent anchor n i : Nat) (cs : List Nat) : List Nat :=
  let cs1 := if i = head then cs ++ [link] else cs
  if i = parent then
    match insertBeforeIn anchor n cs1 with
    | some r => r
    | none => cs1
  else cs1

/-- The anchor node of a target, as `tocAnchorAndLinkNode` makes it. -/
def anchorNodeOf (target : String) : Node :=
  { Parent := none, Children := [], Typ := NodeType.ElementNode, Data := "a",
    Attr := [⟨"", "class", "dashAnchor"⟩, ⟨"", "name", target⟩] }

/-- The link node of a target, as `tocAnchorAndLinkNode` makes it. -/
def linkNodeOf (target : String) : Node :=
  { Parent := none, Children := [], Typ := NodeType.ElementNode, Data := "link",
    Attr := [⟨"", "href", target⟩] }

/-- The heap `h2` keeps every node of `h` with its parent, type, data and
attributes, and with its children still there in the same order. -/
def Grows (h h2 : Heap) : Prop :=
  ∀ (i : Nat) (nd : Node), h[i]? = some nd →
    ∃ nd2, h2[i]? = some nd2 ∧ nd2.Parent = nd.Parent ∧ nd2.Typ = nd.Typ
      ∧ nd2.Data = nd.Data ∧ nd2.Attr = nd.Attr ∧ nd.Children.Sublist nd2.Children

/-- The in-page fragment of a node with the given attributes: its `href`
value when that starts with `#`, and `#` followed by its `id` otherwise. -/
def fragmentOf (attrs : List Attribute) : String :=
  if stringsHasPrefix (attrIn "href" attrs) "#" then attrIn "href" attrs
  else "#" ++ attrIn "id" attrs

/-- The references recorded for the rule matches of a traversal, in order. -/
def refsOfVisits (visits : List Visit) : List reference :=
  visits.flatMap (fun v => v.hits.filterMap (fun k => k.ref))

/-- What holds of the state of `findRefs` after every node: the head pointer
is in the heap, the heap has grown from the initial one, the references are
those of the recorded matches, every recorded match satisfies `Φ` in the
current heap and names one of the `nsels` rules in force, and the matches at
one node are in rule order. -/
def RunInv (Φ : Heap → Nat → Hit → Prop) (headNode : Option Nat) (h0 : Heap) (nsels : Nat)
    (r : Run) : Prop :=
  (∀ p, headNode = some p → p < r.heap.length)
    ∧ Grows h0 r.heap
    ∧ r.refs = refsOfVisits r.visits
    ∧ ∀ v ∈ r.visits,
        (∀ k ∈ v.hits, Φ r.heap v.node k ∧ k.rule < nsels)
          ∧ (v.hits.map (fun k => k.rule)).Pairwise (fun a b => a < b)

/-- The node `nd` with its parent pointer set to `p`. -/
def attachedTo (nd : Node) (p : Nat) : Node := { nd with Parent := some p }

/-- The parent pointer of the node `n` in the heap `h`. -/
def parentOf (h : Heap) (n : Nat) : Option Nat :=
  match h[n]? with
  | some nd => nd.Parent
  | none => none

/-- The number of rule matches recorded by a traversal. -/
def totalHits (visits : List Visit) : Nat :=
  (visits.map (fun v => v.hits.length)).sum

/-- The number of recorded rule matches at nodes whose parent is `head`. -/
def hitsUnder (h : Heap) (head : Nat) (visits : List Visit) : Nat :=
  (visits.map (fun v => if parentOf h v.node = some head then v.hits.length else 0)).sum

/-- The number of children of the node `n`, 0 when `n` is not in the heap. -/
def childCount (h : Heap) (n : Nat) : Nat :=
  match h[n]? with
  | some nd => nd.Children.length
  | none => 0

/-- The children of the node `n`, none when `n` is not in the heap. -/
def childrenOf (h : Heap) (n : Nat) : List Nat :=
  match h[n]? with
  | some nd => nd.Children
  | none => []

/-- The heap is a forest: the children of every node are pairwise different
nodes of the heap whose parent pointer is that node, and every parent pointer
points into the heap. -/
def WellFormed (h : Heap) : Prop :=
  ∀ n, n < h.length →
    (childrenOf h n).Nodup
      ∧ (∀ c ∈ childrenOf h n, c < h.length ∧ parentOf h c = some n)
      ∧ (match parentOf h n with
          | some q => q < h.length
          | none => True)

/-- No node is its own ancestor: some height strictly decreases from every
parent to its child. -/
def Acyclic (h : Heap) : Prop :=
  ∃ height : Nat → Nat, ∀ c p, parentOf h c = some p → height c < height p

/-- The node `a` is `b` or an ancestor of `b`. -/
inductive Below (h : Heap) : Nat → Nat → Prop where
  | refl (a : Nat) : Below h a a
  | step {a b p : Nat} : parentOf h b = some p → Below h a p → Below h a b

/-- The nodes `a` and `b` are children of one node, `a` before `b`. -/
def SibBefore (h : Heap) (a b : Nat) : Prop :=
  ∃ (p : Nat) (nd : Node), h[p]? = some nd ∧ [a, b].Sublist nd.Children

/-- Depth-first document order: `a` comes before `b` when `a` is a proper
ancestor of `b`, or when `a` lies in or below a child and `b` in or below a
later child of one node. -/
def DocBefore (h : Heap) (a b : Nat) : Prop :=
  (a ≠ b ∧ Below h a b) ∨ ∃ a2 b2, SibBefore h a2 b2 ∧ Below h a2 a ∧ Below h b2 b

/-- Whether a rule stays in force for a file path: it has no path filter or
the filter matches the path. -/
def pathMatches (filepath : String) (sel : Transform) : Bool :=
  match sel.MatchPath with
  | none => true
  | some re => re.MatchString filepath

/-- The state of `findRefs` is sound: the head pointer is in the heap and the
heap is an acyclic forest. -/
def RunOK (headNode : Option Nat) (r : Run) : Prop :=
  (∀ p, headNode = some p → p < r.heap.length) ∧ WellFormed r.heap ∧ Acyclic r.heap

/-- A check of the conditions of `WellFormed` at one node. -/
def wellFormedAt (h : Heap) (n : Nat) : Bool :=
  decide (childrenOf h n).Nodup
    && (childrenOf h n).all (fun c => decide (c < h.length) && decide (parentOf h c = some n))
    && (match parentOf h n with
        | some q => decide (q < h.length)
        | none => true)

/-- A check that every parent pointer goes to a node with a smaller index. -/
def parentsFirst (h : Heap) : Bool :=
  (List.range h.length).all (fun c =>
    match parentOf h c with
    | some p => decide (p < c)
    | none => true)

/-- The level `lvl` strictly decreases from every parent to its child. -/
def Layered (lvl : Nat → Nat) (h : Heap) : Prop :=
  ∀ c p, parentOf h c = some p → lvl c < lvl p

/-- The heap is sound for a run of `findRefs` that started with `n0` nodes:
it is a forest layered by `lvl`, the nodes made since then have no children
and level 0, the older ones a positive level, and the head and the document
are among the older ones. -/
def Sound (n0 : Nat) (lvl : Nat → Nat) (head top : Nat) (h : Heap) : Prop :=
  WellFormed h ∧ Layered lvl h ∧ n0 ≤ h.length
    ∧ (∀ i, n0 ≤ i → childrenOf h i = [])
    ∧ head < n0 ∧ top < n0
    ∧ (∀ i, n0 ≤ i → lvl i = 0) ∧ (∀ i, i < n0 → 0 < lvl i)

/-- The heap `h2` grows from `h` and every child it adds to a node of `h` is
a node that `h` does not have. -/
def Extends (h h2 : Heap) : Prop :=
  Grows h h2
    ∧ ∀ i, i < h.length → ∀ x ∈ childrenOf h2 i, x ∈ childrenOf h i ∨ h.length ≤ x

/-- The node `y` lies strictly below the node `n`. -/
def InSub (h : Heap) (n y : Nat) : Prop :=
  ∃ c, parentOf h c = some n ∧ Below h c y

/-- The node `y` lies in or below `c` or in or below a later sibling of `c`:
it is still to be visited when the traversal reaches `c`. -/
def InReg (h : Heap) (c y : Nat) : Prop :=
  ∃ x, (x = c ∨ SibBefore h c x) ∧ Below h x y

/-- The fuel set aside for one node: `w` for a node of the document the run
started with, 3 for a node made since. -/
def nodeCost (n0 w : Nat) (y : Nat) : Nat := if y < n0 then w else 3

/-- The number 1 for a node of the document the run started with, 0 else. -/
def isOld (n0 : Nat) (y : Nat) : Nat := if y < n0 then 1 else 0

/-- The node `y` of the heap is a `link` element as `findRefs` appends it to
the head: childless, with the head as parent and `href` as only attribute. -/
def isLink (h : Heap) (head y : Nat) : Prop :=
  ∃ target, h[y]? = some (attachedTo (linkNodeOf target) head)

/-- No rule of the list matches, in any heap, a `link` element that `findRefs`
appended to the head. -/
def Fresh (head : Nat) (sels : List Transform) : Prop :=
  ∀ sel ∈ sels, ∀ (h2 : Heap) (x : Nat), isLink h2 head x → sel.CssSelector.Match h2 x = false

/-- Every node the heap `h2` has from the index `len` on is a link of the head
or a child of `p` placed before `c`. -/
def MadeAt (head p c len : Nat) (h2 : Heap) : Prop :=
  ∀ y, len ≤ y → y < h2.length →
    isLink h2 head y ∨ (parentOf h2 y = some p ∧ SibBefore h2 y c)

/-- Every node the heap `h2` has from the index `len` on is a link of the head
or lies strictly below `q`. -/
def MadeBelow (head q len : Nat) (h2 : Heap) : Prop :=
  ∀ y, len ≤ y → y < h2.length → isLink h2 head y ∨ InSub h2 q y

/-- The node `y` is reached from `n` by going down the child lists at least
once. -/
inductive Under (h : Heap) : Nat → Nat → Prop where
  | child {n c : Nat} : c ∈ childrenOf h n → Under h n c
  | step {n c y : Nat} : c ∈ childrenOf h n → Under h c y → Under h n y

/-- The node `y` is `c`, a later sibling of `c`, or reached from one of these
by going down the child lists. -/
def Ahead (h : Heap) (c y : Nat) : Prop :=
  ∃ x, (x = c ∨ SibBefore h c x) ∧ (x = y ∨ Under h x y)

/-- The node `y` has been the node of a round of the outer loop. -/
def Visited (r : Run) (y : Nat) : Prop := y ∈ r.visits.map (fun v => v.node)

/-- The outcome `res` of a stretch of the traversal started in the run `r` is
a run whose heap is sound and extends the heap of `r` by at most `2 * R` nodes
for each node of `s` that the document started with, every node made being a
link of the head or a node strictly below `q`; the nodes visited before are
still recorded and every node of `reg` has been visited. -/
def Done (n0 : Nat) (lvl : Nat → Nat) (head top R : Nat) (s : Finset Nat) (q : Nat)
    (reg : Nat → Prop) (r : Run) (res : Except Fault Run) : Prop :=
  ∃ r2, res = Except.ok r2 ∧ Sound n0 lvl head top r2.heap ∧ Extends r.heap r2.heap
    ∧ r2.heap.length ≤ r.heap.length + 2 * R * s.sum (isOld n0)
    ∧ MadeBelow head q r.heap.length r2.heap
    ∧ (∀ y, Visited r y → Visited r2 y) ∧ (∀ y, reg y → Visited r2 y)

/-! ## Sample documents and rules -/

/-- An element node. -/
def elementNode (parent : Option Nat) (children : List Nat) (tag : String)
    (attrs : List Attribute) : Node :=
  { Parent := parent, Children := children, Typ := NodeType.ElementNode, Data := tag,
    Attr := attrs }

/-- A text node. -/
def textNode (parent : Option Nat) (s : String) : Node :=
  { Parent := parent, Children := [], Typ := NodeType.TextNode, Data := s, Attr := [] }

/-- The document node. -/
def documentNode (children : List Nat) : Node :=
  { Parent := none, Children := children, Typ := NodeType.DocumentNode, Data := "", Attr := [] }

/-- The page `<html><head></head><body><h2 id="x">Intro</h2></body></html>`:
node 0 is the document, 2 the head, 4 the `h2`. -/
def pageDoc : Heap :=
  [ documentNode [1],
    elementNode (some 0) [2, 3] "html" [],
    elementNode (some 1) [] "head" [],
    elementNode (some 1) [4] "body" [],
    elementNode (some 3) [5] "h2" [⟨"", "id", "x"⟩],
    textNode (some 4) "Intro" ]

/-- A rule with the given selector and type and nothing else set. -/
def plainRule (sel : cssSelectorYaml) (etype : String) (tocRoot : Bool) : Transform :=
  { CssSelector := sel, Typ := etype, Attribute := "", RequireText := none, SkipText := none,
    MatchPath := none, TOCRoot := tocRoot, TOCChild := false,
    CssSelectorForSearchPrefix := none }

/-- The rule `{selector: "h2", type: "Section", toc_root: true}`. -/
def h2Rule : Transform := plainRule ⟨tagSelector "h2", "h2"⟩ "Section" true

/-- The rule `{selector: "h3", type: "Function"}`. -/
def h3Rule : Transform := plainRule ⟨tagSelector "h3", "h3"⟩ "Function" false

/-- A configuration with the given primary and backup rules and nothing else. -/
def rulesOnly (primary backup : List Transform) : Dashing :=
  { Selectors := primary, BackupSelectors := backup, RemoveElements := [],
    CssSelectorForBody := none, CssSelectorForTitle := none }

/-- A stand-in for `net/url` and `path` on pages without links. -/
def noPaths : PathLib := { urlParse := fun _ => none, joinDir := fun _ b => b }

/-- The page `<html><head><title>T</title></head><body><h1>Pkg</h1>
<h2 id="x">Intro</h2></body></html>`: node 2 is the head, 3 the title, 6 the
`h1`, 8 the `h2`. -/
def titledDoc : Heap :=
  [ documentNode [1],
    elementNode (some 0) [2, 5] "html" [],
    elementNode (some 1) [3] "head" [],
    elementNode (some 2) [4] "title" [],
    textNode (some 3) "T",
    elementNode (some 1) [6, 8] "body" [],
    elementNode (some 5) [7] "h1" [],
    textNode (some 6) "Pkg",
    elementNode (some 5) [9] "h2" [⟨"", "id", "x"⟩],
    textNode (some 8) "Intro" ]

/-- The rule `h2` of type `Section` with the prefix selector `h1`. -/
def h2PrefixedRule : Transform :=
  { h2Rule with CssSelectorForSearchPrefix := some ⟨tagSelector "h1", "h1"⟩ }

/-- The rule `{selector: "title", type: "Guide"}`. -/
def titleRule : Transform := plainRule ⟨tagSelector "title", "title"⟩ "Guide" false

/-- The rule that matches `h1` and `h2` elements, of type `Section`. -/
def headingRule : Transform :=
  plainRule ⟨fun h n => tagSelector "h1" h n || tagSelector "h2" h n, "h1,h2"⟩ "Section" true

/-- The rule `{selector: "h2", type: "Function"}` restricted to paths for
which `onlyIf` holds. -/
def h2FunctionRule (onlyIf : String → Bool) : Transform :=
  { plainRule ⟨tagSelector "h2", "h2"⟩ "Function" false with MatchPath := some ⟨onlyIf⟩ }

/-! ## Definitions used to state the properties of the removal pass -/

/-- The heap `h2` has the nodes of `h` with the same type, data and
attributes; a node has its old children or fewer of them, in the old order,
and its old parent or none. -/
def Shrinks (h h2 : Heap) : Prop :=
  h2.length = h.length ∧ ∀ (i : Nat) (nd : Node), h[i]? = some nd →
    ∃ nd2, h2[i]? = some nd2 ∧ nd2.Typ = nd.Typ ∧ nd2.Data = nd.Data ∧ nd2.Attr = nd.Attr
      ∧ nd2.Children.Sublist nd.Children ∧ (nd2.Parent = nd.Parent ∨ nd2.Parent = none)

/-- The node `y` has no parent and is in no list of children. -/
def Detached (h : Heap) (y : Nat) : Prop :=
  parentOf h y = none ∧ ∀ n, y ∉ childrenOf h n

/-- The node `y` is one of the nodes that a selector of the list found with
`MatchAll` when its turn came in the removal pass started on the heap `h`. -/
inductive RemovedBy (fuel top : Nat) : List cssSelectorYaml → Heap → Nat → Prop where
  | here {sel : cssSelectorYaml} {rest : List cssSelectorYaml} {h : Heap} {nodes : List Nat}
      {y : Nat} : MatchAll sel.Match h fuel top = Except.ok nodes → y ∈ nodes →
      RemovedBy fuel top (sel :: rest) h y
  | later {sel : cssSelectorYaml} {rest : List cssSelectorYaml} {h h1 : Heap}
      {nodes : List Nat} {y : Nat} : MatchAll sel.Match h fuel top = Except.ok nodes →
      removeNodes h nodes = Except.ok h1 → RemovedBy fuel top rest h1 y →
      RemovedBy fuel top (sel :: rest) h y

/-- A selector that decides from the type, the tag and the attributes of the
node alone, as `.ad` does. -/
def LocalMatcher (m : Matcher) : Prop :=
  ∀ (h h2 : Heap) (n : Nat) (nd nd2 : Node), h[n]? = some nd → h2[n]? = some nd2 →
    nd2.Typ = nd.Typ → nd2.Data = nd.Data → nd2.Attr = nd.Attr → m h2 n = m h n

/-! ## More sample documents and rules -/

/-- The function `matchInclude` of cascadia, case-sensitive: whether `val` is
one of the words of the attribute value, the words being separated by space,
tab, carriage return, line feed or form feed. The word read so far is `acc`. -/
def matchInclude (val : List Char) : List Char → List Char → Bool
  | acc, [] => acc ≠ [] && acc = val
  | acc, c :: cs =>
    if c = ' ' ∨ c = '\t' ∨ c = '\r' ∨ c = '\n' ∨ c = Char.ofNat 12 then
      acc = val || matchInclude val [] cs
    else matchInclude val (acc ++ [c]) cs

/-- The compiled selector `.cls` of cascadia: an element with a `class`
attribute that has `cls` among its words. -/
def classSelector (cls : String) : Matcher := fun h n =>
  match h[n]? with
  | some nd =>
    nd.Typ = NodeType.ElementNode
      && nd.Attr.any (fun a => a.Key = "class" && matchInclude cls.data [] a.Val.data)
  | none => false

/-- The page `<html><head></head><body><div class="ad"><p>buy</p></div>
<p>text</p></body></html>`: node 3 is the body, 4 the `div`, 7 the second
`p`. -/
def adDoc : Heap :=
  [ documentNode [1],
    elementNode (some 0) [2, 3] "html" [],
    elementNode (some 1) [] "head" [],
    elementNode (some 1) [4, 7] "body" [],
    elementNode (some 3) [5] "div" [⟨"", "class", "ad"⟩],
    elementNode (some 4) [6] "p" [],
    textNode (some 5) "buy",
    elementNode (some 3) [8] "p" [],
    textNode (some 7) "text" ]

/-- The configuration with the removal rule `{selector: ".ad"}` and nothing
else. -/
def adConfig : Dashing :=
  { Selectors := [], BackupSelectors := [], RemoveElements := [⟨classSelector "ad", ".ad"⟩],
    CssSelectorForBody := none, CssSelectorForTitle := none }

/-- The configuration with the body selector `h2` and nothing else. -/
def contentIsH2 : Dashing :=
  { Selectors := [], BackupSelectors := [], RemoveElements := [],
    CssSelectorForBody := some ⟨tagSelector "h2", "h2"⟩, CssSelectorForTitle := none }

/-- The configuration with the body selector `body` and nothing else. -/
def contentIsBody : Dashing :=
  { Selectors := [], BackupSelectors := [], RemoveElements := [],
    CssSelectorForBody := some ⟨tagSelector "body", "body"⟩, CssSelectorForTitle := none }

/-- The configuration `{css_selector_for_body: "html"}`. -/
def contentIsHtml : Dashing :=
  { rulesOnly [] [] with CssSelectorForBody := some ⟨tagSelector "html", "html"⟩ }

/-! ## The links of the head during the traversal -/

/-- Every link of the head that the heap `h2` has beyond the nodes of `h`
comes after every child the head has in `h`. -/
def LinksAfter (head : Nat) (h h2 : Heap) : Prop :=
  ∀ y, h.length ≤ y → y < h2.length → isLink h2 head y →
    ∀ z ∈ childrenOf h head, SibBefore h2 z y

/-- The link node of every hit of the list is a link of the head that the
heap `h2` has from the index `len` on. -/
def HitsMade (head len : Nat) (h2 : Heap) (hits : List Hit) : Prop :=
  ∀ k ∈ hits, len ≤ k.linkNode ∧ k.linkNode < h2.length ∧ isLink h2 head k.linkNode

/-- What a stretch of the traversal below `q` that led from the run `r` to the
run `r2` has done: the heap is sound and extended, the links made come after
the children the head had, every node of `reg` has been visited, the rounds
added are rounds at nodes strictly below `q` whose hits made their links
during the stretch, and the links made in a stretch below the head, or in a
round at a node strictly below the head, have been visited in it. -/
def Toured (n0 : Nat) (lvl : Nat → Nat) (head top q : Nat) (reg : Nat → Prop)
    (r r2 : Run) : Prop :=
  Sound n0 lvl head top r2.heap ∧ Extends r.heap r2.heap
    ∧ LinksAfter head r.heap r2.heap
    ∧ (∀ y, reg y → Visited r2 y)
    ∧ (q = head → ∀ y, r.heap.length ≤ y → y < r2.heap.length → isLink r2.heap head y →
        Visited r2 y)
    ∧ ∃ added, r2.visits = r.visits ++ added
        ∧ (∀ v ∈ added, InSub r2.heap q v.node ∧ HitsMade head r.heap.length r2.heap v.hits)
        ∧ (Below r.heap q head → ∀ v ∈ added, InSub r2.heap head v.node →
            ∀ k ∈ v.hits, Visited r2 k.linkNode)

/-! ## A sample page with a stylesheet link -/

/-- The rule `{selector: "link", type: "Style"}`. -/
def linkRule : Transform := plainRule ⟨tagSelector "link", "link"⟩ "Style" false

/-- The page `<html><head><link href="s.css"></head><body></body></html>`:
node 2 is the head, 4 the `link`. -/
def linkedDoc : Heap :=
  [ documentNode [1],
    elementNode (some 0) [2, 3] "html" [],
    elementNode (some 1) [4] "head" [],
    elementNode (some 1) [] "body" [],
    elementNode (some 2) [] "link" [⟨"", "href", "s.css"⟩] ]

/-! ## Definitions used to state which rules match at a node -/

/-- The tests of the inner loop of `findRefs` that come before the entry is
made: the selector of the rule matches the node, `text` returns, and the text
passes the `RequireText` and `SkipText` filters. -/
def ruleFires (fuel : Nat) (sel : Transform) (h : Heap) (n : Nat) : Bool :=
  sel.CssSelector.Match h n &&
    match text h fuel n with
    | Except.ok textString => requireTextOk sel textString && !skipTextHit sel textString
    | Except.error _ => false

/-- The round `v` of the outer loop has tried every rule of `sels` at its
node: its hits are in rule order, at most one for a rule, and for every rule
there is a heap between `h0` and `h2`, the heap the rule was tried on, such
that the round has a hit for the rule exactly when the rule matches the node
on that heap. -/
def Tested (fuel : Nat) (sels : List Transform) (h0 h2 : Heap) (v : Visit) : Prop :=
  (v.hits.map (fun k => k.rule)).Pairwise (fun a b => a < b)
    ∧ (∀ k ∈ v.hits, k.rule < sels.length)
    ∧ ∀ i sel, sels[i]? = some sel →
        ∃ h1, Grows h0 h1 ∧ Grows h1 h2
          ∧ ((∃ k ∈ v.hits, k.rule = i) ↔ ruleFires fuel sel h1 v.node = true)
/-! ## Theorems: entity re-encoding -/

theorem lookup_mem {α : Type} (k : Nat) (v : α) :
    ∀ l : List (Nat × α), l.lookup k = some v → (k, v) ∈ l := by
  intro l
  induction l with
  | nil => intro h; simp [List.lookup] at h
  | cons p t ih =>
    obtain ⟨a, b⟩ := p
    intro h
    by_cases hk : k = a
    · subst hk
      simp [List.lookup] at h
      simp [h]
    · have hb : (k == a) = false := by simpa using hk
      simp only [List.lookup, hb] at h
      exact List.mem_cons_of_mem _ (ih h)

set_option maxRecDepth 100000 in
theorem point_to_entity_table_shape :
    point_to_entity_table.all
      (fun p => decide (160 ≤ p.1) && p.2.data.all (fun d => decide (d.toNat < 128))
        && p.2 != "") = true := by
  decide

theorem table_entry_shape (k : Nat) (e : String) (h : (k, e) ∈ point_to_entity_table) :
    160 ≤ k ∧ (∀ d ∈ e.data, d.toNat < 128) ∧ e ≠ "" := by
  have hs := point_to_entity_table_shape
  rw [List.all_eq_true] at hs
  have := hs (k, e) h
  simp only [Bool.and_eq_true, decide_eq_true_eq, List.all_eq_true, bne_iff_ne, ne_eq] at this
  exact ⟨this.1.1, this.1.2, this.2⟩

theorem point_to_entity_of_small (d : Char) (h : d.toNat < 160) : point_to_entity d = "" := by
  unfold point_to_entity
  cases hl : point_to_entity_table.lookup d.toNat with
  | none => rfl
  | some e =>
    have := (table_entry_shape _ _ (lookup_mem _ _ _ hl)).1
    omega

theorem point_to_entity_key (c : Char) :
    point_to_entity c ≠ "" ↔ (point_to_entity_table.lookup c.toNat).isSome = true := by
  unfold point_to_entity
  cases hl : point_to_entity_table.lookup c.toNat with
  | none => simp
  | some e =>
    have := (table_entry_shape _ _ (lookup_mem _ _ _ hl)).2.2
    simpa using this

theorem encodedRune_clean (c d : Char) (h : d ∈ encodedRune c) (hc : point_to_entity c ≠ "") :
    d.toNat < 128 := by
  unfold encodedRune at h
  rw [if_neg hc] at h
  unfold point_to_entity at h hc
  cases hl : point_to_entity_table.lookup c.toNat with
  | none => rw [hl] at hc; exact absurd rfl hc
  | some e =>
    rw [hl] at h
    exact (table_entry_shape _ _ (lookup_mem _ _ _ hl)).2.1 d h

theorem encodedRune_fixed (c d : Char) (h : d ∈ encodedRune c) : point_to_entity d = "" := by
  by_cases hc : point_to_entity c = ""
  · unfold encodedRune at h
    rw [if_pos hc] at h
    simp at h
    rw [h]; exact hc
  · have := encodedRune_clean c d h hc
    exact point_to_entity_of_small d (by omega)

theorem encode_foldl_data (l : List Char) :
    ∀ acc : String,
      (l.foldl (fun escaped c =>
          if point_to_entity c = "" then escaped.push c
          else escaped ++ point_to_entity c) acc).data
        = acc.data ++ l.flatMap encodedRune := by
  induction l with
  | nil => intro acc; simp
  | cons c t ih =>
    intro acc
    rw [List.foldl_cons, ih]
    by_cases hc : point_to_entity c = ""
    · simp [encodedRune, hc, String.push]
    · simp [encodedRune, hc]

theorem encodeHTMLentities_data (s : String) :
    (encodeHTMLentities s).data = s.data.flatMap encodedRune := by
  unfold encodeHTMLentities
  rw [encode_foldl_data]
  simp

theorem bind_encodedRune_fixed (l : List Char) (h : ∀ d ∈ l, point_to_entity d = "") :
    l.flatMap encodedRune = l := by
  induction l with
  | nil => rfl
  | cons c t ih =>
    rw [List.flatMap_cons, ih (fun d hd => h d (List.mem_cons_of_mem _ hd))]
    simp [encodedRune, h c (List.mem_cons_self _ _)]

theorem encodeHTMLentities_output_fixed (s : String) :
    ∀ d ∈ (encodeHTMLentities s).data, point_to_entity d = "" := by
  intro d hd
  rw [encodeHTMLentities_data, List.mem_flatMap] at hd
  obtain ⟨c, _, hdc⟩ := hd
  exact encodedRune_fixed c d hdc

/-- C1: `encodeHTMLentities` is idempotent: encoding the output of an encoding
pass again gives that output back, for every string. -/
theorem C1_encodeHTMLentities_idempotent (s : String) :
    encodeHTMLentities (encodeHTMLentities s) = encodeHTMLentities s := by
  apply String.ext
  rw [encodeHTMLentities_data (encodeHTMLentities s)]
  exact bind_encodedRune_fixed _ (encodeHTMLentities_output_fixed s)

theorem encodedRune_eq_lookup (c : Char) :
    encodedRune c =
      (match point_to_entity_table.lookup c.toNat with
        | some e => e.data
        | none => [c]) := by
  unfold encodedRune point_to_entity
  cases hl : point_to_entity_table.lookup c.toNat with
  | none => simp
  | some e =>
    have := (table_entry_shape _ _ (lookup_mem _ _ _ hl)).2.2
    simp [this]

theorem infix_flatMap_of_mem (f : Char → List Char) (c : Char) :
    ∀ l : List Char, c ∈ l → f c <:+: l.flatMap f := by
  intro l h
  obtain ⟨a, b, rfl⟩ := List.append_of_mem h
  refine ⟨a.flatMap f, b.flatMap f, ?_⟩
  simp [List.flatMap_append, List.flatMap_cons]

/-- C2: `encodeHTMLentities` writes, in order, the entity of every code point
that is a key of `point_to_entity` and every other code point unchanged; its
output holds no key of the table; and an input with an em dash (U+2014) gives
an output that contains `&mdash;` and no em dash. -/
theorem C2_encodeHTMLentities_substitutes (s : String) :
    (encodeHTMLentities s).data =
        s.data.flatMap (fun c =>
          match point_to_entity_table.lookup c.toNat with
          | some e => e.data
          | none => [c])
      ∧ (∀ d ∈ (encodeHTMLentities s).data, point_to_entity_table.lookup d.toNat = none)
      ∧ (Char.ofNat 8212 ∈ s.data →
          "&mdash;".data <:+: (encodeHTMLentities s).data
            ∧ Char.ofNat 8212 ∉ (encodeHTMLentities s).data) := by
  have hfix := encodeHTMLentities_output_fixed s
  have hnone : ∀ d ∈ (encodeHTMLentities s).data,
      point_to_entity_table.lookup d.toNat = none := by
    intro d hd
    have h1 := hfix d hd
    have h2 := (point_to_entity_key d).not
    simp only [ne_eq, not_not] at h2
    have h3 := h2.mp h1
    cases hl : point_to_entity_table.lookup d.toNat with
    | none => rfl
    | some e => rw [hl] at h3; simp at h3
  refine ⟨?_, hnone, ?_⟩
  · rw [encodeHTMLentities_data]
    congr 1
    funext c
    exact encodedRune_eq_lookup c
  · intro hmem
    constructor
    · rw [encodeHTMLentities_data]
      have := infix_flatMap_of_mem encodedRune (Char.ofNat 8212) s.data hmem
      have he : encodedRune (Char.ofNat 8212) = "&mdash;".data := by decide
      rw [he] at this
      exact this
    · intro hbad
      have := hnone _ hbad
      revert this
      decide

/-- C2 at the input `a—b`. -/
theorem C2_encodeHTMLentities_substitutes_witness :
    Char.ofNat 8212 ∈ "a—b".data
      ∧ "&mdash;".data <:+: (encodeHTMLentities "a—b").data
      ∧ Char.ofNat 8212 ∉ (encodeHTMLentities "a—b").data :=
  ⟨by decide, (C2_encodeHTMLentities_substitutes "a—b").2.2 (by decide)⟩

/-! ## Theorems: anchor targets and the anchor counter -/

theorem upperhex_getD_ne_plus (i : Nat) : upperhex.data.getD i '0' ≠ '+' := by
  by_cases h : i < 16
  · interval_cases i <;> decide
  · have : upperhex.data.length ≤ i := by
      have : upperhex.data.length = 16 := by decide
      omega
    rw [List.getD_eq_default _ _ this]
    decide

theorem percentHex_no_plus (b : Nat) : ∀ c ∈ percentHex b, c ≠ '+' := by
  intro c hc
  simp only [percentHex, List.mem_cons, List.mem_singleton, List.not_mem_nil, or_false] at hc
  rcases hc with rfl | rfl | rfl
  · decide
  · exact upperhex_getD_ne_plus _
  · exact upperhex_getD_ne_plus _

theorem shouldEscape_false_le (b : Nat) (h : shouldEscape b = false) : b ≤ 126 := by
  unfold shouldEscape at h
  split at h
  · omega
  · split at h
    · omega
    · simp at h

theorem unescaped_ne_plus (b : Nat) (h : shouldEscape b = false) : Char.ofNat b ≠ '+' := by
  have hb := shouldEscape_false_le b h
  revert h
  interval_cases b <;> decide

theorem replace_fixed (l : List Char) (new : List Char) (h : ∀ c ∈ l, c ≠ '+') :
    l.flatMap (fun c => if c = '+' then new else [c]) = l := by
  induction l with
  | nil => rfl
  | cons c t ih =>
    rw [List.flatMap_cons, ih (fun d hd => h d (List.mem_cons_of_mem _ hd))]
    simp [h c (List.mem_cons_self _ _)]

theorem replace_escapeByte (b : Nat) :
    (escapeByte b).flatMap (fun c => if c = '+' then "%20".data else [c])
      = if shouldEscape b then percentHex b else [Char.ofNat b] := by
  unfold escapeByte
  by_cases h32 : b = 32
  · subst h32; decide
  · rw [if_neg h32]
    by_cases he : shouldEscape b = true
    · rw [if_pos he]
      exact replace_fixed _ _ (percentHex_no_plus b)
    · rw [if_neg he]
      have : shouldEscape b = false := by simpa using he
      simp [unescaped_ne_plus b this]

theorem replace_QueryEscape (name : String) :
    stringsReplaceAll (QueryEscape name) '+' "%20" = percentEncoded name := by
  unfold stringsReplaceAll QueryEscape percentEncoded
  congr 1
  generalize stringBytes name = bs
  induction bs with
  | nil => rfl
  | cons b t ih =>
    simp only [List.flatMap_cons, List.flatMap_append] at ih ⊢
    rw [ih, replace_escapeByte]

theorem getElem?_append_add {α : Type} (h l : List α) (i : Nat) :
    (h ++ l)[h.length + i]? = l[i]? := by
  rw [List.getElem?_append_right (Nat.le_add_right _ _)]
  congr 1
  omega

theorem getElem?_append_length {α : Type} (h l : List α) :
    (h ++ l)[h.length]? = l[0]? := by
  simpa using getElem?_append_add h l 0

theorem tocTarget_eq (counter : Int) (name etype : String) (root : Bool) :
    tocTarget counter name etype root =
      "//dash_ref_" ++ fmtInt counter ++ "/" ++ etype ++ "/" ++ percentEncoded name ++ "/"
        ++ (if root then "1" else "0") := by
  unfold tocTarget
  simp only [replace_QueryEscape]
  cases root
  · have : fmtInt 0 = "0" := by decide
    simp [this]
  · have : fmtInt 1 = "1" := by decide
    simp [this]

theorem tocAnchorAndLinkNode_nodes (h : Heap) (counter : Int) (name etype : String)
    (root : Bool) :
    (tocAnchorAndLinkNode h counter name etype root).tocAnchor = h.length
      ∧ (tocAnchorAndLinkNode h counter name etype root).linkNode = h.length + 1
      ∧ (tocAnchorAndLinkNode h counter name etype root).counter = wrapInt (counter + 1)
      ∧ (tocAnchorAndLinkNode h counter name etype root).heap =
          h ++ [{ Parent := none, Children := [], Typ := NodeType.ElementNode, Data := "a",
                  Attr := [⟨"", "class", "dashAnchor"⟩,
                    ⟨"", "name", tocTarget counter name etype root⟩] },
                { Parent := none, Children := [], Typ := NodeType.ElementNode, Data := "link",
                  Attr := [⟨"", "href", tocTarget counter name etype root⟩] }] := by
  simp [tocAnchorAndLinkNode, alloc]

/-- C3 (amended): the target that `tocAnchorAndLinkNode` puts in the `name`
attribute of the anchor and in the `href` attribute of the link is
`//dash_ref_<n>/<entryType>/<urlEncodedName>/<level>`: `n` is the value of the
counter at the call, the name is percent-encoded byte by byte with the space
written `%20` (which is `url.QueryEscape` with every `+` replaced by `%20`),
and the level is `1` for a root entry and `0` otherwise. -/
theorem C3_tocAnchorAndLinkNode_target (h : Heap) (counter : Int) (name etype : String)
    (root : Bool) :
    (tocAnchorAndLinkNode h counter name etype root).heap[
        (tocAnchorAndLinkNode h counter name etype root).tocAnchor]?
      = some { Parent := none, Children := [], Typ := NodeType.ElementNode, Data := "a",
               Attr := [⟨"", "class", "dashAnchor"⟩,
                 ⟨"", "name", "//dash_ref_" ++ fmtInt counter ++ "/" ++ etype ++ "/"
                    ++ percentEncoded name ++ "/" ++ (if root then "1" else "0")⟩] }
    ∧ (tocAnchorAndLinkNode h counter name etype root).heap[
        (tocAnchorAndLinkNode h counter name etype root).linkNode]?
      = some { Parent := none, Children := [], Typ := NodeType.ElementNode, Data := "link",
               Attr := [⟨"", "href", "//dash_ref_" ++ fmtInt counter ++ "/" ++ etype ++ "/"
                    ++ percentEncoded name ++ "/" ++ (if root then "1" else "0")⟩] }
    ∧ percentEncoded name = stringsReplaceAll (QueryEscape name) '+' "%20" := by
  obtain ⟨ha, hl, _, hh⟩ := tocAnchorAndLinkNode_nodes h counter name etype root
  rw [ha, hl, hh, ← tocTarget_eq]
  refine ⟨?_, ?_, (replace_QueryEscape name).symm⟩
  · rw [getElem?_append_length]; rfl
  · rw [getElem?_append_add]; rfl

/-- C3 as stated fails: for the name `Intro`, the type `Section`, a root rule
and the counter at 0, the link carries `//dash_ref_0/Section/Intro/1`, not the
string `//ref_0/Section/Intro/1` of the stated format. -/
theorem C3_target_not_ref_format :
    ((tocAnchorAndLinkNode [] 0 "Intro" "Section" true).heap[
        (tocAnchorAndLinkNode [] 0 "Intro" "Section" true).linkNode]?).map
          (fun nd => attrIn "href" nd.Attr)
      = some "//dash_ref_0/Section/Intro/1"
    ∧ "//dash_ref_0/Section/Intro/1" ≠
        "//ref_" ++ fmtInt 0 ++ "/" ++ "Section" ++ "/"
          ++ stringsReplaceAll (QueryEscape "Intro") '+' "%20" ++ "/" ++ "1" := by
  decide

theorem wrapInt_of_bounds (x : Int) (h0 : 0 ≤ x) (h1 : x < 2 ^ 63) : wrapInt x = x := by
  unfold wrapInt
  norm_num at h1 ⊢
  omega

theorem tocAnchorAndLinkNode_counter (h : Heap) (counter : Int) (name etype : String)
    (root : Bool) :
    (tocAnchorAndLinkNode h counter name etype root).counter = wrapInt (counter + 1) :=
  (tocAnchorAndLinkNode_nodes h counter name etype root).2.2.1

theorem tocSuffixes_append (a : List TocCall) :
    ∀ (c : Int) (b : List TocCall), 0 ≤ c → c + a.length < 2 ^ 63 →
      tocSuffixes c (a ++ b) = tocSuffixes c a ++ tocSuffixes (c + a.length) b := by
  induction a with
  | nil => intro c b _ _; simp [tocSuffixes]
  | cons x xs ih =>
    intro c b h0 h1
    simp only [List.length_cons, Nat.cast_add, Nat.cast_one] at h1
    have hw : wrapInt (c + 1) = c + 1 := wrapInt_of_bounds _ (by omega) (by omega)
    rw [List.cons_append]
    simp only [tocSuffixes, tocAnchorAndLinkNode_counter, hw, List.length_cons,
      Nat.cast_add, Nat.cast_one, List.cons_append]
    rw [ih (c + 1) b (by omega) (by omega)]
    congr 3
    omega

theorem tocSuffixes_bounded (calls : List TocCall) :
    ∀ c : Int, 0 ≤ c → c + calls.length ≤ 2 ^ 63 →
      tocSuffixes c calls = (List.range calls.length).map (fun (i : Nat) => c + (i : Int)) := by
  induction calls with
  | nil => intro c _ _; simp [tocSuffixes]
  | cons x xs ih =>
    intro c h0 h1
    simp only [List.length_cons, Nat.cast_add, Nat.cast_one] at h1
    rw [List.length_cons, List.range_succ_eq_map, List.map_cons, List.map_map]
    simp only [tocSuffixes, tocAnchorAndLinkNode_counter]
    cases xs with
    | nil => simp [tocSuffixes]
    | cons y ys =>
      simp only [List.length_cons, Nat.cast_add, Nat.cast_one] at h1
      have hw : wrapInt (c + 1) = c + 1 := wrapInt_of_bounds _ (by omega) (by omega)
      rw [hw, ih (c + 1) (by omega) (by simp only [List.length_cons, Nat.cast_add, Nat.cast_one]; omega)]
      simp only [Nat.cast_zero, add_zero, List.cons.injEq, true_and]
      apply List.map_congr_left
      intro i _
      simp only [Function.comp, Nat.cast_succ]
      omega

theorem tocTargets_eq (calls : List TocCall) :
    ∀ c : Int, tocTargets c calls =
      List.zipWith (fun n (k : TocCall) => tocTarget n k.name k.etype k.isSectionHeader)
        (tocSuffixes c calls) calls := by
  induction calls with
  | nil => intro c; rfl
  | cons x xs ih =>
    intro c
    have ih2 := ih (wrapInt (c + 1))
    unfold tocTargets at ih2 ⊢
    simp only [tocCalls, tocSuffixes, List.map_cons, List.zipWith_cons_cons,
      tocAnchorAndLinkNode_counter, ih2, List.cons.injEq, and_true]
    obtain ⟨_, hl, _, hh⟩ := tocAnchorAndLinkNode_nodes x.heap c x.name x.etype x.isSectionHeader
    rw [hl, hh, getElem?_append_add]
    rfl

/-- C4 (amended): in a run, where `counter` starts at 0, over any sequence of
at most `2 ^ 63` calls of `tocAnchorAndLinkNode` the `k`-th call formats the
number `k - 1` into its target and leaves `counter` one higher, so the numeric
suffixes are strictly increasing and pairwise different. -/
theorem C4_anchor_suffixes_increase (calls : List TocCall) (hlen : calls.length ≤ 2 ^ 63) :
    tocSuffixes 0 calls = (List.range calls.length).map (fun (i : Nat) => (i : Int))
      ∧ List.Pairwise (fun a b => a < b) (tocSuffixes 0 calls)
      ∧ (tocSuffixes 0 calls).Nodup
      ∧ tocTargets 0 calls =
          List.zipWith (fun n (k : TocCall) => tocTarget n k.name k.etype k.isSectionHeader)
            (tocSuffixes 0 calls) calls := by
  have hs : tocSuffixes 0 calls = (List.range calls.length).map (fun (i : Nat) => (i : Int)) := by
    have hb : (0 : Int) + calls.length ≤ 2 ^ 63 := by
      have : ((calls.length : Nat) : Int) ≤ ((2 ^ 63 : Nat) : Int) := Int.ofNat_le.mpr hlen
      simpa using this
    rw [tocSuffixes_bounded calls 0 (le_refl _) hb]
    simp
  have hp : List.Pairwise (fun a b => a < b) (tocSuffixes 0 calls) := by
    rw [hs, List.pairwise_map]
    exact (List.pairwise_lt_range _).imp (fun h => Int.ofNat_lt.mpr h)
  refine ⟨hs, hp, ?_, tocTargets_eq calls 0⟩
  exact hp.imp (fun h => ne_of_lt h)

/-- C4 at a run of two calls. -/
theorem C4_anchor_suffixes_increase_witness :
    tocSuffixes 0 [⟨[], "Intro", "Section", true⟩, ⟨[], "f", "Function", false⟩] = [0, 1]
      ∧ tocTargets 0 [⟨[], "Intro", "Section", true⟩, ⟨[], "f", "Function", false⟩]
          = ["//dash_ref_0/Section/Intro/1", "//dash_ref_1/Function/f/0"] := by
  have h := C4_anchor_suffixes_increase
    [⟨[], "Intro", "Section", true⟩, ⟨[], "f", "Function", false⟩] (by norm_num)
  refine ⟨?_, ?_⟩
  · rw [h.1]; decide
  · decide

theorem tocSuffixes_wrap_at (n : Nat) (hn : (n : Int) + 1 = 2 ^ 63) (x : TocCall) :
    ¬ List.Pairwise (fun a b => a < b) (tocSuffixes 0 (List.replicate n x ++ [x, x])) := by
  intro hp
  have hb : (0 : Int) + ((List.replicate n x).length : Int) < 2 ^ 63 := by
    rw [List.length_replicate]
    omega
  rw [tocSuffixes_append _ 0 _ (le_refl _) hb, List.length_replicate] at hp
  have hp2 := (List.pairwise_append.mp hp).2.1
  simp only [tocSuffixes, tocAnchorAndLinkNode_counter,
    List.pairwise_cons, List.mem_singleton, forall_eq] at hp2
  have hlt := hp2.1
  have h1 : (0 : Int) + n + 1 = 2 ^ 63 := by omega
  rw [h1] at hlt
  have h2 : (0 : Int) + n = 2 ^ 63 - 1 := by omega
  rw [h2] at hlt
  unfold wrapInt at hlt
  norm_num at hlt

/-- C4 as stated fails: `counter` is a Go `int`, so in a run of `2 ^ 63 + 1`
calls the last call formats `-2 ^ 63` after `2 ^ 63 - 1`, and the suffixes are
not strictly increasing. -/
theorem C4_suffixes_wrap :
    ¬ List.Pairwise (fun a b => a < b)
        (tocSuffixes 0
          (List.replicate (2 ^ 63 - 1) ⟨[], "", "", false⟩
            ++ [⟨[], "", "", false⟩, ⟨[], "", "", false⟩])) :=
  tocSuffixes_wrap_at (2 ^ 63 - 1) (by norm_num) ⟨[], "", "", false⟩

/-! ## Theorems: the heap operations -/

theorem bind_eq_ok {α β : Type} (x : Except Fault α) (f : α → Except Fault β) (b : β) :
    (x >>= f) = Except.ok b ↔ ∃ a, x = Except.ok a ∧ f a = Except.ok b := by
  cases x with
  | error e => simp [bind, Except.bind]
  | ok a => simp [bind, Except.bind]

theorem ok_of_toBool {α : Type} (x : Except Fault α) (h : x.toBool = true) :
    ∃ a, x = Except.ok a := by
  cases x with
  | ok a => exact ⟨a, rfl⟩
  | error e => exact Bool.noConfusion h

theorem deref_eq_ok (h : Heap) (p : Nat) (nd : Node) :
    deref h p = Except.ok nd ↔ h[p]? = some nd := by
  unfold deref
  cases h[p]? with
  | none => simp
  | some x => simp

theorem nonNil_eq_ok (p : Option Nat) (q : Nat) :
    nonNil p = Except.ok q ↔ p = some q := by
  unfold nonNil
  cases p with
  | none => simp [throw, throwThe, MonadExceptOf.throw]
  | some x => simp [pure, Except.pure]

theorem pure_eq_ok {α : Type} (a b : α) :
    (pure a : Except Fault α) = Except.ok b ↔ a = b := by
  simp [pure, Except.pure]

theorem throw_ne_ok {α : Type} (e : Fault) (b : α) :
    (throw e : Except Fault α) ≠ Except.ok b := by
  simp [throw, throwThe, MonadExceptOf.throw]

theorem insertBeforeIn_eq_some (a b : Nat) :
    ∀ (l cs : List Nat), insertBeforeIn a b l = some cs →
      ∃ pre post, l = pre ++ b :: post ∧ b ∉ pre ∧ cs = pre ++ a :: b :: post := by
  intro l
  induction l with
  | nil => intro cs h; simp [insertBeforeIn] at h
  | cons x xs ih =>
    intro cs h
    unfold insertBeforeIn at h
    by_cases hx : x = b
    · rw [if_pos hx] at h
      cases h
      exact ⟨[], xs, by simp [hx], by simp, by simp [hx]⟩
    · rw [if_neg hx] at h
      cases hr : insertBeforeIn a b xs with
      | none => rw [hr] at h; simp at h
      | some r =>
        rw [hr] at h
        simp only [Option.map_some', Option.some.injEq] at h
        obtain ⟨pre, post, hl, hpre, hcs⟩ := ih r hr
        refine ⟨x :: pre, post, by simp [hl], ?_, by simp [← h, hcs]⟩
        simp only [List.mem_cons, not_or]
        exact ⟨fun hb => hx hb.symm, hpre⟩

theorem AppendChild_lookup (h h2 : Heap) (n c : Nat) (hne : c ≠ n)
    (hok : AppendChild h n c = Except.ok h2) :
    ∃ cn nn, h[c]? = some cn ∧ cn.Parent = none ∧ h[n]? = some nn
      ∧ h2.length = h.length
      ∧ h2[n]? = some { nn with Children := nn.Children ++ [c] }
      ∧ h2[c]? = some { cn with Parent := some n }
      ∧ ∀ i, i ≠ n → i ≠ c → h2[i]? = h[i]? := by
  unfold AppendChild at hok
  obtain ⟨cn, hcn, hok⟩ := (bind_eq_ok _ _ _).mp hok
  rw [deref_eq_ok] at hcn
  by_cases hp : cn.Parent.isSome = true
  · rw [if_pos hp] at hok
    exact absurd hok (throw_ne_ok _ _)
  · rw [if_neg hp] at hok
    obtain ⟨nn, hnn, hok⟩ := (bind_eq_ok _ _ _).mp hok
    rw [deref_eq_ok] at hnn
    obtain ⟨cn1, hcn1, hok⟩ := (bind_eq_ok _ _ _).mp hok
    rw [deref_eq_ok, List.getElem?_set_ne (Ne.symm hne)] at hcn1
    rw [hcn] at hcn1
    cases hcn1
    rw [pure_eq_ok] at hok
    subst hok
    have hnlt : n < h.length := (List.getElem?_eq_some_iff.mp hnn).1
    have hclt : c < h.length := (List.getElem?_eq_some_iff.mp hcn).1
    refine ⟨cn, nn, hcn, by simpa using hp, hnn, by simp, ?_, ?_, ?_⟩
    · rw [List.getElem?_set_ne hne, List.getElem?_set_self hnlt]
    · rw [List.getElem?_set_self (by simpa using hclt)]
    · intro i hin hic
      rw [List.getElem?_set_ne (Ne.symm hic), List.getElem?_set_ne (Ne.symm hin)]

theorem InsertBefore_lookup (h h2 : Heap) (n newChild oldChild : Nat) (hne : newChild ≠ n)
    (hok : InsertBefore h n newChild oldChild = Except.ok h2) :
    ∃ cn nn pre post, h[newChild]? = some cn ∧ cn.Parent = none ∧ h[n]? = some nn
      ∧ nn.Children = pre ++ oldChild :: post ∧ oldChild ∉ pre
      ∧ h2.length = h.length
      ∧ h2[n]? = some { nn with Children := pre ++ newChild :: oldChild :: post }
      ∧ h2[newChild]? = some { cn with Parent := some n }
      ∧ ∀ i, i ≠ n → i ≠ newChild → h2[i]? = h[i]? := by
  unfold InsertBefore at hok
  obtain ⟨cn, hcn, hok⟩ := (bind_eq_ok _ _ _).mp hok
  rw [deref_eq_ok] at hcn
  by_cases hp : cn.Parent.isSome = true
  · rw [if_pos hp] at hok
    exact absurd hok (throw_ne_ok _ _)
  · rw [if_neg hp] at hok
    obtain ⟨nn, hnn, hok⟩ := (bind_eq_ok _ _ _).mp hok
    rw [deref_eq_ok] at hnn
    cases hins : insertBeforeIn newChild oldChild nn.Children with
    | none =>
      rw [hins] at hok
      exact absurd hok (throw_ne_ok _ _)
    | some cs =>
      rw [hins] at hok
      obtain ⟨pre, post, hl, hpre, hcs⟩ := insertBeforeIn_eq_some _ _ _ _ hins
      obtain ⟨cn1, hcn1, hok⟩ := (bind_eq_ok _ _ _).mp hok
      rw [deref_eq_ok, List.getElem?_set_ne (Ne.symm hne)] at hcn1
      rw [hcn] at hcn1
      cases hcn1
      rw [pure_eq_ok] at hok
      subst hok
      have hnlt : n < h.length := (List.getElem?_eq_some_iff.mp hnn).1
      have hclt : newChild < h.length := (List.getElem?_eq_some_iff.mp hcn).1
      refine ⟨cn, nn, pre, post, hcn, by simpa using hp, hnn, hl, hpre, by simp, ?_, ?_, ?_⟩
      · rw [List.getElem?_set_ne hne, List.getElem?_set_self hnlt, hcs]
      · rw [List.getElem?_set_self (by simpa using hclt)]
      · intro i hin hic
        rw [List.getElem?_set_ne (Ne.symm hic), List.getElem?_set_ne (Ne.symm hin)]

theorem InsertBefore_children (h h2 : Heap) (n newChild oldChild : Nat)
    (hok : InsertBefore h n newChild oldChild = Except.ok h2) :
    ∃ nn pre post, h[n]? = some nn ∧ nn.Children = pre ++ oldChild :: post := by
  unfold InsertBefore at hok
  obtain ⟨cn, hcn, hok⟩ := (bind_eq_ok _ _ _).mp hok
  split at hok
  · exact absurd hok (throw_ne_ok _ _)
  obtain ⟨nn, hnn, hok⟩ := (bind_eq_ok _ _ _).mp hok
  rw [deref_eq_ok] at hnn
  cases hins : insertBeforeIn newChild oldChild nn.Children with
  | none =>
    rw [hins] at hok
    exact absurd hok (throw_ne_ok _ _)
  | some cs =>
    obtain ⟨pre, post, hl, _, _⟩ := insertBeforeIn_eq_some _ _ _ _ hins
    exact ⟨nn, pre, post, hnn, hl⟩

theorem insertBeforeIn_append (a b : Nat) (pre post : List Nat) (hb : b ∉ pre) :
    insertBeforeIn a b (pre ++ b :: post) = some (pre ++ a :: b :: post) := by
  induction pre with
  | nil => simp [insertBeforeIn]
  | cons x xs ih =>
    simp only [List.mem_cons, not_or] at hb
    have hx : ¬ x = b := fun h => hb.1 h.symm
    simp [insertBeforeIn, hx, ih hb.2]

theorem inject_lookup (h : Heap) (counter : Int) (headNode : Option Nat) (n : Nat)
    (name etype : String) (root : Bool) (t : TocNodes) (hn : n < h.length)
    (hhead : ∀ p, headNode = some p → p < h.length)
    (hok : inject h counter headNode n name etype root = Except.ok t) :
    ∃ head nn p pre post,
      headNode = some head ∧ h[n]? = some nn ∧ nn.Parent = some p ∧ p < h.length
      ∧ t.tocAnchor = h.length ∧ t.linkNode = h.length + 1
      ∧ t.counter = wrapInt (counter + 1)
      ∧ t.heap.length = h.length + 2
      ∧ t.heap[h.length]? =
          some { anchorNodeOf (tocTarget counter name etype root) with Parent := some p }
      ∧ t.heap[h.length + 1]? =
          some { linkNodeOf (tocTarget counter name etype root) with Parent := some head }
      ∧ (∀ pd : Node, h[p]? = some pd →
          (if p = head then pd.Children ++ [h.length + 1] else pd.Children) = pre ++ n :: post
          ∧ n ∉ pre
          ∧ childrenAfter head (h.length + 1) p h.length n p pd.Children
              = pre ++ h.length :: n :: post)
      ∧ (∀ (i : Nat) (nd : Node), h[i]? = some nd →
          t.heap[i]? = some { nd with
            Children := childrenAfter head (h.length + 1) p h.length n i nd.Children }) := by
  unfold inject at hok
  obtain ⟨ha, hl, hc, hh⟩ := tocAnchorAndLinkNode_nodes h counter name etype root
  obtain ⟨head, hhn, hok⟩ := (bind_eq_ok _ _ _).mp hok
  rw [nonNil_eq_ok] at hhn
  have hheadlt := hhead head hhn
  obtain ⟨h2, hap, hok⟩ := (bind_eq_ok _ _ _).mp hok
  obtain ⟨nn2, hnn2, hok⟩ := (bind_eq_ok _ _ _).mp hok
  rw [deref_eq_ok] at hnn2
  obtain ⟨p, hpar2, hok⟩ := (bind_eq_ok _ _ _).mp hok
  rw [nonNil_eq_ok] at hpar2
  obtain ⟨h3, hins, hok⟩ := (bind_eq_ok _ _ _).mp hok
  rw [pure_eq_ok] at hok
  subst hok
  rw [hl, hh] at hap
  rw [ha] at hins
  obtain ⟨cn, hd, hcn, _, hhd, hlen2, h2head, h2link, h2rest⟩ :=
    AppendChild_lookup _ _ head (h.length + 1) (by omega) hap
  rw [getElem?_append_add] at hcn
  simp only [List.getElem?_cons_succ, List.getElem?_cons_zero, Option.some.injEq] at hcn
  subst hcn
  rw [List.getElem?_append_left hheadlt] at hhd
  have hold2 : ∀ (i : Nat) (nd : Node), h[i]? = some nd →
      h2[i]? = some { nd with
        Children := if i = head then nd.Children ++ [h.length + 1] else nd.Children } := by
    intro i nd hi
    have hilt : i < h.length := (List.getElem?_eq_some_iff.mp hi).1
    by_cases hih : i = head
    · subst hih
      rw [hhd] at hi
      cases hi
      simpa using h2head
    · rw [h2rest i hih (by omega), List.getElem?_append_left hilt, hi]
      simp [hih]
  have hanchor2 : h2[h.length]? = some (anchorNodeOf (tocTarget counter name etype root)) := by
    rw [h2rest _ (by omega) (by omega), getElem?_append_length]
    rfl
  obtain ⟨nn, hnn⟩ : ∃ nn, h[n]? = some nn :=
    ⟨h[n], List.getElem?_eq_some_iff.mpr ⟨hn, rfl⟩⟩
  have hnn2b := hold2 n nn hnn
  rw [hnn2] at hnn2b
  cases hnn2b
  simp only at hpar2
  have hlink2 : h2[h.length + 1]? =
      some { linkNodeOf (tocTarget counter name etype root) with Parent := some head } := h2link
  have hplt : p < h.length := by
    obtain ⟨pn, pre, post, hpn, hch⟩ := InsertBefore_children _ _ _ _ _ hins
    by_contra hge
    have hp2 : p < h2.length := (List.getElem?_eq_some_iff.mp hpn).1
    rw [hlen2] at hp2
    simp only [List.length_append, List.length_cons, List.length_nil] at hp2
    have hcases : p = h.length ∨ p = h.length + 1 := by omega
    rcases hcases with rfl | rfl
    · rw [hanchor2] at hpn
      cases hpn
      simp [anchorNodeOf] at hch
    · rw [hlink2] at hpn
      cases hpn
      simp [linkNodeOf] at hch
  obtain ⟨cn, pn2, pre, post, hcn, _, hpn2, hch, hpre, hlen3, h3p, h3a, h3rest⟩ :=
    InsertBefore_lookup _ _ p h.length n (by omega) hins
  rw [hanchor2] at hcn
  cases hcn
  obtain ⟨pd, hpd⟩ : ∃ pd, h[p]? = some pd :=
    ⟨h[p], List.getElem?_eq_some_iff.mpr ⟨hplt, rfl⟩⟩
  have hpd2 := hold2 p pd hpd
  rw [hpn2] at hpd2
  cases hpd2
  simp only at hch h3p
  have hafter : childrenAfter head (h.length + 1) p h.length n p pd.Children
      = pre ++ h.length :: n :: post := by
    unfold childrenAfter
    simp only [if_true, hch, insertBeforeIn_append _ _ _ _ hpre]
  refine ⟨head, nn, p, pre, post, hhn, hnn, hpar2, hplt, ha, hl, hc, ?_, ?_, ?_, ?_, ?_⟩
  · rw [hlen3, hlen2]
    simp
  · rw [h3a]
  · rw [h3rest _ (by omega) (by omega), hlink2]
  · intro pd2 hpd2
    rw [hpd] at hpd2
    cases hpd2
    exact ⟨hch, hpre, hafter⟩
  · intro i nd hi
    have hilt : i < h.length := (List.getElem?_eq_some_iff.mp hi).1
    by_cases hip : i = p
    · subst hip
      rw [hpd] at hi
      cases hi
      rw [h3p, hafter]
    · rw [h3rest i hip (by omega), hold2 i nd hi]
      simp [childrenAfter, hip]

/-! ## Theorems: one rule at one node -/

theorem visitRule_cases (fuel top : Nat) (titleString filepath : String)
    (headNode : Option Nat) (n idx : Nat) (sel : Transform) (r r2 : Run) (hit : Option Hit)
    (hok : visitRule fuel top titleString filepath headNode n idx sel r = Except.ok (r2, hit)) :
    (hit = none ∧ r2 = r ∧
      (sel.CssSelector.Match r.heap n = false
        ∨ ∃ textString, text r.heap fuel n = Except.ok textString
            ∧ (requireTextOk sel textString = false ∨ skipTextHit sel textString = true)))
    ∨ (sel.CssSelector.Match r.heap n = true ∧
        ∃ textString name pfx ref t,
          text r.heap fuel n = Except.ok textString
          ∧ requireTextOk sel textString = true
          ∧ skipTextHit sel textString = false
          ∧ (if sel.Attribute ≠ "" then attr r.heap n sel.Attribute else pure textString)
              = Except.ok name
          ∧ searchPrefix fuel r.heap top sel textString = Except.ok pfx
          ∧ (if !stringsHasSuffix filepath "-2.html" then
                (linkHrefOf r.heap n).map (fun linkHref =>
                  some
                    { selector := sel.CssSelector.Str, name := pfx ++ name, etype := sel.Typ,
                      href := filepath ++ linkHref, menuDescription := titleString : reference })
              else pure none) = Except.ok ref
          ∧ inject r.heap r.counter headNode n name sel.Typ sel.TOCRoot = Except.ok t
          ∧ r2 = { r with heap := t.heap, counter := t.counter,
                          refs := match ref with
                            | some x => r.refs ++ [x]
                            | none => r.refs }
          ∧ hit = some { rule := idx, tocAnchor := t.tocAnchor, linkNode := t.linkNode,
                         ref := ref }) := by
  unfold visitRule at hok
  by_cases hm : sel.CssSelector.Match r.heap n = true
  · simp only [hm, Bool.not_true, Bool.false_eq_true, if_false] at hok
    obtain ⟨textString, htext, hok⟩ := (bind_eq_ok _ _ _).mp hok
    by_cases hreq : requireTextOk sel textString = true
    · simp only [hreq, Bool.not_true, Bool.false_eq_true, if_false] at hok
      by_cases hskip : skipTextHit sel textString = true
      · simp only [hskip, if_true, pure_eq_ok, Prod.mk.injEq] at hok
        exact Or.inl ⟨hok.2.symm, hok.1.symm, Or.inr ⟨textString, htext, Or.inr hskip⟩⟩
      · have hsf : skipTextHit sel textString = false := by simpa using hskip
        simp only [hsf, Bool.false_eq_true, if_false] at hok
        obtain ⟨name, hname, hok⟩ := (bind_eq_ok _ _ _).mp hok
        obtain ⟨pfx, hpfx, hok⟩ := (bind_eq_ok _ _ _).mp hok
        obtain ⟨ref, href, hok⟩ := (bind_eq_ok _ _ _).mp hok
        obtain ⟨t, ht, hok⟩ := (bind_eq_ok _ _ _).mp hok
        simp only [pure_eq_ok, Prod.mk.injEq] at hok
        exact Or.inr ⟨hm, textString, name, pfx, ref, t, htext, hreq, hsf, hname, hpfx, href,
          ht, hok.1.symm, hok.2.symm⟩
    · have hrf : requireTextOk sel textString = false := by simpa using hreq
      simp only [hrf, Bool.not_false, if_true, pure_eq_ok, Prod.mk.injEq] at hok
      exact Or.inl ⟨hok.2.symm, hok.1.symm, Or.inr ⟨textString, htext, Or.inl hrf⟩⟩
  · have hmf : sel.CssSelector.Match r.heap n = false := by simpa using hm
    simp only [hmf, Bool.not_false, if_true, pure_eq_ok, Prod.mk.injEq] at hok
    exact Or.inl ⟨hok.2.symm, hok.1.symm, Or.inl hmf⟩

theorem map_eq_ok {α β : Type} (x : Except Fault α) (f : α → β) (b : β) :
    x.map f = Except.ok b ↔ ∃ a, x = Except.ok a ∧ f a = b := by
  cases x with
  | error e => simp [Except.map]
  | ok a => simp [Except.map]

theorem searchPrefix_cases (fuel : Nat) (h : Heap) (top : Nat) (sel : Transform)
    (ps : cssSelectorYaml) (textString pfx : String)
    (hps : sel.CssSelectorForSearchPrefix = some ps)
    (hok : searchPrefix fuel h top sel textString = Except.ok pfx) :
    (Query ps.Match h fuel top = Except.ok none ∧ pfx = "")
    ∨ ∃ node nodeText, Query ps.Match h fuel top = Except.ok (some node)
        ∧ text h fuel node = Except.ok nodeText
        ∧ ((nodeText ≠ textString ∧ pfx = nodeText ++ ".")
          ∨ (nodeText = textString ∧ pfx = "")) := by
  unfold searchPrefix at hok
  rw [hps] at hok
  simp only at hok
  obtain ⟨q, hq, hok⟩ := (bind_eq_ok _ _ _).mp hok
  cases q with
  | none =>
    simp only [pure_eq_ok] at hok
    exact Or.inl ⟨hq, hok.symm⟩
  | some node =>
    simp only at hok
    obtain ⟨nodeText, hnt, hok⟩ := (bind_eq_ok _ _ _).mp hok
    refine Or.inr ⟨node, nodeText, hq, hnt, ?_⟩
    by_cases hne : nodeText = textString
    · simp only [hne, ne_eq, not_true_eq_false, if_false, pure_eq_ok] at hok
      exact Or.inr ⟨hne, hok.symm⟩
    · simp only [ne_eq, hne, not_false_eq_true, if_true, pure_eq_ok] at hok
      exact Or.inl ⟨hne, hok.symm⟩

/-- For a rule with a prefix selector, the name of the reference made for
a match is `<prefixText>.` followed by the raw name when `Query` finds a node
for the prefix selector below `top` and the text of that node differs from the
text of the matched node; it is the raw name alone when no node is found or
the two texts are equal. -/
theorem visitRule_name (fuel top : Nat) (titleString filepath : String)
    (headNode : Option Nat) (n idx : Nat) (sel : Transform) (ps : cssSelectorYaml)
    (r r2 : Run) (hit : Hit) (ref : reference)
    (hps : sel.CssSelectorForSearchPrefix = some ps)
    (hok : visitRule fuel top titleString filepath headNode n idx sel r
      = Except.ok (r2, some hit))
    (href : hit.ref = some ref) :
    ∃ textString rawName,
      text r.heap fuel n = Except.ok textString
      ∧ (if sel.Attribute ≠ "" then attr r.heap n sel.Attribute else pure textString)
          = Except.ok rawName
      ∧ ((∃ node prefixText, Query ps.Match r.heap fuel top = Except.ok (some node)
            ∧ text r.heap fuel node = Except.ok prefixText
            ∧ prefixText ≠ textString
            ∧ ref.name = prefixText ++ "." ++ rawName)
        ∨ (Query ps.Match r.heap fuel top = Except.ok none ∧ ref.name = rawName)
        ∨ (∃ node, Query ps.Match r.heap fuel top = Except.ok (some node)
            ∧ text r.heap fuel node = Except.ok textString
            ∧ ref.name = rawName)) := by
  rcases visitRule_cases _ _ _ _ _ _ _ _ _ _ _ hok with ⟨hnone, _⟩ | ⟨_, hcase⟩
  · cases hnone
  · obtain ⟨textString, name, pfx, ref2, t, htext, _, _, hname, hpfx, hrefeq, _, _, hhit⟩ := hcase
    simp only [Option.some.injEq] at hhit
    subst hhit
    simp only at href
    subst href
    refine ⟨textString, name, htext, hname, ?_⟩
    have hrefname : ref.name = pfx ++ name := by
      by_cases hsuf : stringsHasSuffix filepath "-2.html" = true
      · simp only [hsuf, Bool.not_true, Bool.false_eq_true, if_false, pure_eq_ok] at hrefeq
        cases hrefeq
      · have hsf : stringsHasSuffix filepath "-2.html" = false := by simpa using hsuf
        simp only [hsf, Bool.not_false, if_true] at hrefeq
        obtain ⟨linkHref, _, hr⟩ := (map_eq_ok _ _ _).mp hrefeq
        simp only [Option.some.injEq] at hr
        rw [← hr]
    rcases searchPrefix_cases _ _ _ _ ps _ _ hps hpfx with ⟨hq, hp⟩ | ⟨node, nodeText, hq, hnt, hc⟩
    · right; left
      exact ⟨hq, by rw [hrefname, hp, String.empty_append]⟩
    · rcases hc with ⟨hne, hp⟩ | ⟨heq, hp⟩
      · left
        exact ⟨node, nodeText, hq, hnt, hne, by rw [hrefname, hp]⟩
      · right; right
        exact ⟨node, hq, heq ▸ hnt, by rw [hrefname, hp, String.empty_append]⟩

theorem Grows.grows_refl (h : Heap) : Grows h h := by
  intro i nd hi
  exact ⟨nd, hi, rfl, rfl, rfl, rfl, List.Sublist.refl _⟩

theorem Grows.grows_trans {h1 h2 h3 : Heap} (h12 : Grows h1 h2) (h23 : Grows h2 h3) : Grows h1 h3 := by
  intro i nd hi
  obtain ⟨nd2, hi2, hp, ht, hd, ha, hc⟩ := h12 i nd hi
  obtain ⟨nd3, hi3, hp3, ht3, hd3, ha3, hc3⟩ := h23 i nd2 hi2
  exact ⟨nd3, hi3, hp3.trans hp, ht3.trans ht, hd3.trans hd, ha3.trans ha, hc.trans hc3⟩

theorem Grows.grows_length_le {h1 h2 : Heap} (h12 : Grows h1 h2) : h1.length ≤ h2.length := by
  by_contra hlt
  have hlt2 : h2.length < h1.length := by omega
  obtain ⟨nd2, hi2, _⟩ := h12 h2.length (h1[h2.length]) (List.getElem?_eq_some_iff.mpr ⟨hlt2, rfl⟩)
  have := (List.getElem?_eq_some_iff.mp hi2).1
  omega

theorem childrenAfter_sublist (head link parent anchor n i : Nat) (cs : List Nat) :
    cs.Sublist (childrenAfter head link parent anchor n i cs) := by
  unfold childrenAfter
  have h1 : cs.Sublist (if i = head then cs ++ [link] else cs) := by
    split
    · exact List.sublist_append_left _ _
    · exact List.Sublist.refl _
  simp only
  split
  · cases hins : insertBeforeIn anchor n (if i = head then cs ++ [link] else cs) with
    | none => exact h1
    | some r =>
      obtain ⟨pre, post, hl, _, hr⟩ := insertBeforeIn_eq_some _ _ _ _ hins
      simp only
      rw [hl] at h1
      rw [hr]
      exact h1.trans (List.Sublist.append (List.Sublist.refl _) (List.Sublist.cons _ (List.Sublist.refl _)))
  · exact h1

theorem inject_grows (h : Heap) (counter : Int) (headNode : Option Nat) (n : Nat)
    (name etype : String) (root : Bool) (t : TocNodes) (hn : n < h.length)
    (hhead : ∀ p, headNode = some p → p < h.length)
    (hok : inject h counter headNode n name etype root = Except.ok t) : Grows h t.heap := by
  obtain ⟨head, nn, p, pre, post, _, _, _, _, _, _, _, _, _, _, _, hold⟩ :=
    inject_lookup h counter headNode n name etype root t hn hhead hok
  intro i nd hi
  exact ⟨_, hold i nd hi, rfl, rfl, rfl, rfl, childrenAfter_sublist _ _ _ _ _ _ _⟩

theorem text_ok_lt (h : Heap) (fuel n : Nat) (s : String)
    (hok : text h fuel n = Except.ok s) : n < h.length := by
  cases fuel with
  | zero =>
    unfold text at hok
    exact absurd hok (throw_ne_ok _ _)
  | succ fuel =>
    unfold text at hok
    obtain ⟨nd, hnd, _⟩ := (bind_eq_ok _ _ _).mp hok
    rw [deref_eq_ok] at hnd
    exact (List.getElem?_eq_some_iff.mp hnd).1

theorem visitRule_grows (fuel top : Nat) (titleString filepath : String)
    (headNode : Option Nat) (n idx : Nat) (sel : Transform) (r r2 : Run) (hit : Option Hit)
    (hhead : ∀ p, headNode = some p → p < r.heap.length)
    (hok : visitRule fuel top titleString filepath headNode n idx sel r = Except.ok (r2, hit)) :
    Grows r.heap r2.heap := by
  rcases visitRule_cases _ _ _ _ _ _ _ _ _ _ _ hok with ⟨_, hr, _⟩ | ⟨_, hcase⟩
  · rw [hr]
    exact Grows.grows_refl _
  · obtain ⟨textString, name, pfx, ref2, t, htext, _, _, _, _, _, hinj, hr, _⟩ := hcase
    rw [hr]
    exact inject_grows _ _ _ _ _ _ _ _ (text_ok_lt _ _ _ _ htext) hhead hinj

theorem visitRule_shape (fuel top : Nat) (titleString filepath : String)
    (headNode : Option Nat) (n idx : Nat) (sel : Transform) (r r2 : Run) (hit : Option Hit)
    (hok : visitRule fuel top titleString filepath headNode n idx sel r = Except.ok (r2, hit)) :
    r2.visits = r.visits
      ∧ r2.refs = r.refs ++ hit.toList.filterMap (fun k => k.ref)
      ∧ ∀ k, hit = some k → k.rule = idx := by
  rcases visitRule_cases _ _ _ _ _ _ _ _ _ _ _ hok with ⟨hn, hr, _⟩ | ⟨_, hcase⟩
  · subst hn
    subst hr
    simp
  · obtain ⟨textString, name, pfx, ref, t, _, _, _, _, _, _, _, hr, hh⟩ := hcase
    subst hh
    subst hr
    refine ⟨rfl, ?_, ?_⟩
    · cases ref with
      | none => simp
      | some x => simp
    · intro k hk
      simp only [Option.some.injEq] at hk
      rw [← hk]

theorem visitRules_spec (Φ : Heap → Nat → Hit → Prop) (fuel top : Nat)
    (titleString filepath : String) (headNode : Option Nat) (n : Nat) (all : List Transform)
    (hmono : ∀ h h2 k, Grows h h2 → Φ h n k → Φ h2 n k)
    (hstep : ∀ idx sel r r2 k, all[idx]? = some sel →
      (∀ p, headNode = some p → p < r.heap.length) →
      visitRule fuel top titleString filepath headNode n idx sel r = Except.ok (r2, some k) →
      Φ r2.heap n k) :
    ∀ (sels : List Transform) (idx : Nat) (r r2 : Run) (hits : List Hit),
      (∀ j sel, sels[j]? = some sel → all[idx + j]? = some sel) →
      (∀ p, headNode = some p → p < r.heap.length) →
      visitRules fuel top titleString filepath headNode n idx sels r = Except.ok (r2, hits) →
      Grows r.heap r2.heap
        ∧ r2.refs = r.refs ++ hits.filterMap (fun k => k.ref)
        ∧ r2.visits = r.visits
        ∧ (∀ k ∈ hits, Φ r2.heap n k ∧ idx ≤ k.rule ∧ k.rule < idx + sels.length)
        ∧ (hits.map (fun k => k.rule)).Pairwise (fun a b => a < b) := by
  intro sels
  induction sels with
  | nil =>
    intro idx r r2 hits _ _ h
    unfold visitRules at h
    simp only [pure_eq_ok, Prod.mk.injEq] at h
    obtain ⟨hr, hh⟩ := h
    subst hr
    subst hh
    exact ⟨Grows.grows_refl _, by simp, rfl, by simp, by simp⟩
  | cons sel sels ih =>
    intro idx r r2 hits hall hhead h
    unfold visitRules at h
    obtain ⟨⟨r1, hit⟩, h1, h⟩ := (bind_eq_ok _ _ _).mp h
    obtain ⟨⟨r3, hits3⟩, h3, h⟩ := (bind_eq_ok _ _ _).mp h
    simp only [pure_eq_ok, Prod.mk.injEq] at h
    obtain ⟨hr, hh⟩ := h
    subst hr
    subst hh
    have hg1 := visitRule_grows _ _ _ _ _ _ _ _ _ _ _ hhead h1
    obtain ⟨hv1, hrefs1, hrule1⟩ := visitRule_shape _ _ _ _ _ _ _ _ _ _ _ h1
    have hhead1 : ∀ p, headNode = some p → p < r1.heap.length :=
      fun p hp => lt_of_lt_of_le (hhead p hp) hg1.grows_length_le
    have hsel : all[idx]? = some sel := by
      have := hall 0 sel (by simp)
      simpa using this
    have hall1 : ∀ j s, sels[j]? = some s → all[idx + 1 + j]? = some s := by
      intro j s hj
      have := hall (j + 1) s (by simpa using hj)
      have he : idx + (j + 1) = idx + 1 + j := by omega
      rw [he] at this
      exact this
    obtain ⟨hg3, hrefs3, hv3, hall3, hpw3⟩ := ih (idx + 1) r1 r3 hits3 hall1 hhead1 h3
    refine ⟨hg1.grows_trans hg3, ?_, hv3.trans hv1, ?_, ?_⟩
    · rw [hrefs3, hrefs1, List.filterMap_append, List.append_assoc]
    · intro k hk
      rw [List.mem_append] at hk
      rcases hk with hk | hk
      · cases hit with
        | none => simp at hk
        | some k0 =>
          simp only [Option.toList_some, List.mem_singleton] at hk
          subst hk
          refine ⟨hmono _ _ _ hg3 (hstep idx sel r r1 k hsel hhead h1), ?_, ?_⟩
          · rw [hrule1 k rfl]
          · rw [hrule1 k rfl]; simp
      · obtain ⟨hΦ, hlo, hhi⟩ := hall3 k hk
        refine ⟨hΦ, by omega, ?_⟩
        simp only [List.length_cons]
        omega
    · rw [List.map_append, List.pairwise_append]
      refine ⟨?_, hpw3, ?_⟩
      · cases hit with
        | none => simp
        | some k0 => simp
      · intro a ha b hb
        cases hit with
        | none => simp at ha
        | some k0 =>
          simp only [Option.toList_some, List.map_cons, List.map_nil, List.mem_singleton] at ha
          rw [List.mem_map] at hb
          obtain ⟨k, hk, hkb⟩ := hb
          have := (hall3 k hk).2.1
          rw [ha, hrule1 k0 rfl, ← hkb]
          omega

/-! ## Theorems: the traversal -/

theorem traverse_invariant (P : Run → Prop) (body : Nat → Run → Except Fault Run)
    (hbody : ∀ c r r2, P r → body c r = Except.ok r2 → P r2) :
    ∀ fuel,
      (∀ n r r2, P r → descendants body fuel n r = Except.ok r2 → P r2)
      ∧ (∀ c r r2, P r → childNodes body fuel c r = Except.ok r2 → P r2) := by
  intro fuel
  induction fuel with
  | zero =>
    constructor
    · intro n r r2 _ h
      unfold descendants at h
      exact absurd h (throw_ne_ok _ _)
    · intro c r r2 _ h
      unfold childNodes at h
      exact absurd h (throw_ne_ok _ _)
  | succ fuel ih =>
    constructor
    · intro n r r2 hP h
      unfold descendants at h
      obtain ⟨c, _, h⟩ := (bind_eq_ok _ _ _).mp h
      exact ih.2 c r r2 hP h
    · intro c r r2 hP h
      cases c with
      | none =>
        unfold childNodes at h
        rw [pure_eq_ok] at h
        exact h ▸ hP
      | some c =>
        unfold childNodes at h
        obtain ⟨r1, h1, h⟩ := (bind_eq_ok _ _ _).mp h
        obtain ⟨r3, h3, h⟩ := (bind_eq_ok _ _ _).mp h
        obtain ⟨nx, _, h⟩ := (bind_eq_ok _ _ _).mp h
        exact ih.2 nx r3 r2 (ih.1 c r1 r3 (hbody c r r1 hP h1) h3) h

theorem descendants_invariant (P : Run → Prop) (body : Nat → Run → Except Fault Run)
    (hbody : ∀ c r r2, P r → body c r = Except.ok r2 → P r2)
    (fuel n : Nat) (r r2 : Run) (hP : P r)
    (h : descendants body fuel n r = Except.ok r2) : P r2 :=
  (traverse_invariant P body hbody fuel).1 n r r2 hP h

theorem visitRules_invariant (P : Run → Prop) (fuel top : Nat) (titleString filepath : String)
    (headNode : Option Nat) (n : Nat)
    (hrule : ∀ idx sel r r2 hit, P r →
      visitRule fuel top titleString filepath headNode n idx sel r = Except.ok (r2, hit) → P r2) :
    ∀ (sels : List Transform) (idx : Nat) (r r2 : Run) (hits : List Hit), P r →
      visitRules fuel top titleString filepath headNode n idx sels r = Except.ok (r2, hits) →
      P r2 := by
  intro sels
  induction sels with
  | nil =>
    intro idx r r2 hits hP h
    unfold visitRules at h
    simp only [pure_eq_ok, Prod.mk.injEq] at h
    exact h.1 ▸ hP
  | cons sel sels ih =>
    intro idx r r2 hits hP h
    unfold visitRules at h
    obtain ⟨⟨r1, hit⟩, h1, h⟩ := (bind_eq_ok _ _ _).mp h
    obtain ⟨⟨r3, hits3⟩, h3, h⟩ := (bind_eq_ok _ _ _).mp h
    simp only [pure_eq_ok, Prod.mk.injEq] at h
    exact h.1 ▸ ih (idx + 1) r1 r3 hits3 (hrule idx sel r r1 hit hP h1) h3

theorem visitNode_inv (Φ : Heap → Nat → Hit → Prop) (fuel top : Nat)
    (titleString filepath : String) (headNode : Option Nat) (sels : List Transform) (h0 : Heap)
    (hmono : ∀ h h2 n k, Grows h h2 → Φ h n k → Φ h2 n k)
    (hstep : ∀ n idx sel r r2 k, sels[idx]? = some sel →
      (∀ p, headNode = some p → p < r.heap.length) →
      visitRule fuel top titleString filepath headNode n idx sel r = Except.ok (r2, some k) →
      Φ r2.heap n k)
    (n : Nat) (r r2 : Run) (hinv : RunInv Φ headNode h0 sels.length r)
    (hok : visitNode fuel top titleString filepath headNode sels n r = Except.ok r2) :
    RunInv Φ headNode h0 sels.length r2 := by
  unfold visitNode at hok
  obtain ⟨⟨r1, hits⟩, h1, hok⟩ := (bind_eq_ok _ _ _).mp hok
  rw [pure_eq_ok] at hok
  subst hok
  obtain ⟨hhead, hg0, hrefs, hvis⟩ := hinv
  obtain ⟨hg1, hrefs1, hv1, hall1, hpw1⟩ :=
    visitRules_spec Φ fuel top titleString filepath headNode n sels
      (fun h h2 k => hmono h h2 n k) (fun idx sel r r2 k => hstep n idx sel r r2 k)
      sels 0 r r1 hits (fun j s hj => by simpa using hj) hhead h1
  refine ⟨fun p hp => lt_of_lt_of_le (hhead p hp) hg1.grows_length_le, hg0.grows_trans hg1, ?_, ?_⟩
  · simp only [refsOfVisits, List.flatMap_append, List.flatMap_cons, List.flatMap_nil,
      List.append_nil, hv1]
    rw [hrefs1, hrefs]
    rfl
  · intro v hv
    simp only [hv1, List.mem_append, List.mem_singleton] at hv
    rcases hv with hv | hv
    · obtain ⟨ha, hp⟩ := hvis v hv
      exact ⟨fun k hk => ⟨hmono _ _ _ _ hg1 (ha k hk).1, (ha k hk).2⟩, hp⟩
    · subst hv
      refine ⟨fun k hk => ⟨(hall1 k hk).1, ?_⟩, hpw1⟩
      have := (hall1 k hk).2.2
      omega

theorem findRefs_inv (Φ : Heap → Nat → Hit → Prop) (fuel : Nat) (h : Heap) (counter : Int)
    (top : Nat) (selectors : List Transform) (dashing : Dashing) (filepath : String)
    (headNode : Option Nat)
    (hmono : ∀ h h2 n k, Grows h h2 → Φ h n k → Φ h2 n k)
    (hstep : ∀ titleString n idx sel r r2 k,
      (matchingSelectors selectors filepath)[idx]? = some sel →
      (∀ p, headNode = some p → p < r.heap.length) →
      visitRule fuel top titleString filepath headNode n idx sel r = Except.ok (r2, some k) →
      Φ r2.heap n k)
    (r : Run) (hhead : ∀ p, headNode = some p → p < h.length)
    (hok : findRefs fuel h counter top selectors dashing filepath headNode = Except.ok r) :
    RunInv Φ headNode h (matchingSelectors selectors filepath).length r := by
  unfold findRefs at hok
  obtain ⟨titleString, _, hok⟩ := (bind_eq_ok _ _ _).mp hok
  refine descendants_invariant
    (RunInv Φ headNode h (matchingSelectors selectors filepath).length) _
    (fun c r r2 hP hb =>
      visitNode_inv Φ fuel top titleString filepath headNode _ h hmono
        (hstep titleString) c r r2 hP hb)
    fuel top _ r ?_ hok
  exact ⟨hhead, Grows.grows_refl _, rfl, by simp⟩

/-! ## Theorems: the references -/

theorem attr_eq_ok (h : Heap) (n : Nat) (key v : String) :
    attr h n key = Except.ok v ↔ ∃ nd, h[n]? = some nd ∧ v = attrIn key nd.Attr := by
  unfold attr
  rw [bind_eq_ok]
  constructor
  · rintro ⟨nd, hnd, hv⟩
    rw [deref_eq_ok] at hnd
    rw [pure_eq_ok] at hv
    exact ⟨nd, hnd, hv.symm⟩
  · rintro ⟨nd, hnd, hv⟩
    exact ⟨nd, (deref_eq_ok _ _ _).mpr hnd, (pure_eq_ok _ _).mpr hv.symm⟩

theorem hasPrefix_hash_ne_empty (s : String) (hs : stringsHasPrefix s "#" = true) : s ≠ "" := by
  intro he
  subst he
  revert hs
  decide

theorem linkHrefOf_ok (h : Heap) (n : Nat) (s : String)
    (hok : linkHrefOf h n = Except.ok s) :
    ∃ nd, h[n]? = some nd ∧ s = fragmentOf nd.Attr := by
  unfold linkHrefOf at hok
  obtain ⟨linkHref, hl, hok⟩ := (bind_eq_ok _ _ _).mp hok
  obtain ⟨nd, hnd, hlv⟩ := (attr_eq_ok _ _ _ _).mp hl
  refine ⟨nd, hnd, ?_⟩
  unfold fragmentOf
  by_cases hp : stringsHasPrefix linkHref "#" = true
  · have hne := hasPrefix_hash_ne_empty _ hp
    simp only [hp, Bool.not_true, Bool.false_or, decide_eq_true_eq, hne, if_false,
      pure_eq_ok] at hok
    rw [← hlv, if_pos hp, hok]
  · have hpf : stringsHasPrefix linkHref "#" = false := by simpa using hp
    simp only [hpf, Bool.not_false, Bool.true_or, if_true] at hok
    obtain ⟨id, hid, hs⟩ := (map_eq_ok _ _ _).mp hok
    obtain ⟨nd2, hnd2, hidv⟩ := (attr_eq_ok _ _ _ _).mp hid
    rw [hnd] at hnd2
    cases hnd2
    rw [← hlv, if_neg hp, ← hs, hidv]

theorem visitRule_href (fuel top : Nat) (titleString filepath : String)
    (headNode : Option Nat) (n idx : Nat) (sel : Transform) (r r2 : Run) (k : Hit)
    (hhead : ∀ p, headNode = some p → p < r.heap.length)
    (hok : visitRule fuel top titleString filepath headNode n idx sel r
      = Except.ok (r2, some k)) :
    ∀ ref, k.ref = some ref →
      ∃ nd, r2.heap[n]? = some nd ∧ ref.href = filepath ++ fragmentOf nd.Attr := by
  intro ref href
  have hg := visitRule_grows _ _ _ _ _ _ _ _ _ _ _ hhead hok
  rcases visitRule_cases _ _ _ _ _ _ _ _ _ _ _ hok with ⟨hnone, _⟩ | ⟨_, hcase⟩
  · cases hnone
  · obtain ⟨textString, name, pfx, ref2, t, _, _, _, _, _, hrefeq, _, _, hhit⟩ := hcase
    simp only [Option.some.injEq] at hhit
    subst hhit
    simp only at href
    subst href
    by_cases hsuf : stringsHasSuffix filepath "-2.html" = true
    · simp only [hsuf, Bool.not_true, Bool.false_eq_true, if_false, pure_eq_ok] at hrefeq
      cases hrefeq
    · have hsf : stringsHasSuffix filepath "-2.html" = false := by simpa using hsuf
      simp only [hsf, Bool.not_false, if_true] at hrefeq
      obtain ⟨linkHref, hlh, hr⟩ := (map_eq_ok _ _ _).mp hrefeq
      simp only [Option.some.injEq] at hr
      obtain ⟨nd, hnd, hfrag⟩ := linkHrefOf_ok _ _ _ hlh
      obtain ⟨nd2, hnd2, _, _, _, hattr, _⟩ := hg n nd hnd
      exact ⟨nd2, hnd2, by rw [← hr, hattr, hfrag]⟩

/-- When `findRefs` returns, its references are those recorded for the
rule matches, and the `href` of the reference of a match is the file path
followed by the fragment of the matched node: the node's `href` value when
that starts with `#`, and `#` followed by the node's `id` value otherwise. -/
theorem findRefs_href (fuel : Nat) (h : Heap) (counter : Int) (top : Nat)
    (selectors : List Transform) (dashing : Dashing) (filepath : String)
    (headNode : Option Nat) (r : Run)
    (hhead : ∀ p, headNode = some p → p < h.length)
    (hok : findRefs fuel h counter top selectors dashing filepath headNode = Except.ok r) :
    r.refs = refsOfVisits r.visits
      ∧ ∀ v ∈ r.visits, ∀ k ∈ v.hits, ∀ ref, k.ref = some ref →
          ∃ nd, r.heap[v.node]? = some nd ∧ ref.href = filepath ++ fragmentOf nd.Attr := by
  have hinv := findRefs_inv
    (fun hp n k => ∀ ref, k.ref = some ref →
      ∃ nd, hp[n]? = some nd ∧ ref.href = filepath ++ fragmentOf nd.Attr)
    fuel h counter top selectors dashing filepath headNode
    (fun h1 h2 n k hg hΦ ref href => by
      obtain ⟨nd, hnd, hhref⟩ := hΦ ref href
      obtain ⟨nd2, hnd2, _, _, _, hattr, _⟩ := hg n nd hnd
      exact ⟨nd2, hnd2, by rw [hattr, hhref]⟩)
    (fun titleString n idx sel r1 r2 k _ hh hv =>
      visitRule_href fuel top titleString filepath headNode n idx sel r1 r2 k hh hv)
    r hhead hok
  exact ⟨hinv.2.2.1, fun v hv k hk => ((hinv.2.2.2 v hv).1 k hk).1⟩

/-! ## Theorems: anchor and link injection -/

theorem getLast?_insert_before (pre post : List Nat) (a n : Nat) :
    (pre ++ a :: n :: post).getLast? = (pre ++ n :: post).getLast? := by
  rw [List.getLast?_append_cons, List.getLast?_append_cons, List.getLast?_cons_cons]

theorem inject_head_last (h : Heap) (counter : Int) (headNode : Option Nat) (n : Nat)
    (name etype : String) (root : Bool) (t : TocNodes) (hn : n < h.length)
    (hhead : ∀ p, headNode = some p → p < h.length)
    (hok : inject h counter headNode n name etype root = Except.ok t) :
    ∃ head hd hd2, headNode = some head ∧ h[head]? = some hd ∧ t.heap[head]? = some hd2
      ∧ hd2.Children.getLast? = some t.linkNode
      ∧ ∃ parent nn, h[n]? = some nn ∧ nn.Parent = some parent
        ∧ hd2.Children.length
            = hd.Children.length + 1 + (if parent = head then 1 else 0) := by
  obtain ⟨head, nn, p, pre, post, hhn, hnn, hpar, hplt, _, hl, _, _, _, _, hpd, hold⟩ :=
    inject_lookup h counter headNode n name etype root t hn hhead hok
  have hheadlt := hhead head hhn
  obtain ⟨hd, hhd⟩ : ∃ hd, h[head]? = some hd :=
    ⟨h[head], List.getElem?_eq_some_iff.mpr ⟨hheadlt, rfl⟩⟩
  refine ⟨head, hd, _, hhn, hhd, hold head hd hhd, ?_, p, nn, hnn, hpar, ?_⟩
  · simp only
    by_cases hph : p = head
    · subst hph
      obtain ⟨hch, _, hafter⟩ := hpd hd hhd
      rw [hafter, getLast?_insert_before, ← hch, if_pos rfl, List.getLast?_concat, hl]
    · have hph2 : ¬ head = p := fun e => hph e.symm
      simp only [childrenAfter, if_true, hph2, if_false, List.getLast?_concat, hl]
  · simp only
    by_cases hph : p = head
    · subst hph
      obtain ⟨hch, _, hafter⟩ := hpd hd hhd
      have hlen := congrArg List.length hch
      simp only [if_true, List.length_append, List.length_cons, List.length_nil] at hlen
      rw [hafter]
      simp only [List.length_append, List.length_cons, if_true]
      omega
    · have hph2 : ¬ head = p := fun e => hph e.symm
      simp [childrenAfter, hph, hph2]

theorem visitRule_injects (fuel top : Nat) (titleString filepath : String)
    (headNode : Option Nat) (n idx : Nat) (sel : Transform) (r r2 : Run)
    (hitOpt : Option Hit)
    (hhead : ∀ p, headNode = some p → p < r.heap.length)
    (hok : visitRule fuel top titleString filepath headNode n idx sel r
      = Except.ok (r2, hitOpt)) :
    (hitOpt.isSome = true ↔
        (sel.CssSelector.Match r.heap n = true
          ∧ ∃ textString, text r.heap fuel n = Except.ok textString
              ∧ requireTextOk sel textString = true ∧ skipTextHit sel textString = false))
    ∧ ∀ k, hitOpt = some k →
        ∃ head parent rawName pre post pd2 hd2,
          headNode = some head
          ∧ (∃ nn, r.heap[n]? = some nn ∧ nn.Parent = some parent)
          ∧ (∃ textString, text r.heap fuel n = Except.ok textString
              ∧ (if sel.Attribute ≠ "" then attr r.heap n sel.Attribute else pure textString)
                  = Except.ok rawName)
          ∧ r2.heap[k.tocAnchor]? =
              some (attachedTo (anchorNodeOf (tocTarget r.counter rawName sel.Typ sel.TOCRoot)) parent)
          ∧ r2.heap[k.linkNode]? =
              some (attachedTo (linkNodeOf (tocTarget r.counter rawName sel.Typ sel.TOCRoot)) head)
          ∧ r.heap.length ≤ k.tocAnchor ∧ r.heap.length ≤ k.linkNode
          ∧ r2.heap[parent]? = some pd2
          ∧ pd2.Children = pre ++ k.tocAnchor :: n :: post ∧ n ∉ pre
          ∧ r2.heap[head]? = some hd2
          ∧ hd2.Children.getLast? = some k.linkNode := by
  rcases visitRule_cases _ _ _ _ _ _ _ _ _ _ _ hok with ⟨hnone, hr, hwhy⟩ | ⟨hm, hcase⟩
  · subst hnone
    refine ⟨?_, fun k hk => by cases hk⟩
    constructor
    · intro hs
      simp at hs
    · rintro ⟨hm, textString, htext, hreq, hskip⟩
      rcases hwhy with hmf | ⟨ts2, htext2, hfail⟩
      · rw [hm] at hmf
        cases hmf
      · rw [htext] at htext2
        cases htext2
        rcases hfail with hf | hf
        · rw [hreq] at hf
          cases hf
        · rw [hskip] at hf
          cases hf
  · obtain ⟨textString, name, pfx, ref, t, htext, hreq, hskip, hname, _, _, hinj, hr, hhit⟩ :=
      hcase
    subst hhit
    refine ⟨⟨fun _ => ⟨hm, textString, htext, hreq, hskip⟩, fun _ => rfl⟩, ?_⟩
    intro k hk
    simp only [Option.some.injEq] at hk
    subst hk
    subst hr
    have hn := text_ok_lt _ _ _ _ htext
    obtain ⟨head, nn, p, pre, post, hhn, hnn, hpar, hplt, ha, hl, _, _, hanchor, hlink, hpd,
      hold⟩ := inject_lookup _ _ _ _ _ _ _ t hn hhead hinj
    obtain ⟨head2, hd, hd2, hhn2, _, hhd2, hlast, _⟩ :=
      inject_head_last _ _ _ _ _ _ _ t hn hhead hinj
    rw [hhn] at hhn2
    cases hhn2
    obtain ⟨pd, hpdl⟩ : ∃ pd, r.heap[p]? = some pd :=
      ⟨r.heap[p], List.getElem?_eq_some_iff.mpr ⟨hplt, rfl⟩⟩
    obtain ⟨_, hpre, hafter⟩ := hpd pd hpdl
    refine ⟨head, p, name, pre, post, _, hd2, hhn, ⟨nn, hnn, hpar⟩, ⟨textString, htext, hname⟩,
      ?_, ?_, ?_, ?_, hold p pd hpdl, ?_, hpre, hhd2, hlast⟩
    · simp only [ha]
      exact hanchor
    · simp only [hl]
      exact hlink
    · simp only [ha]
      exact le_refl _
    · simp only [hl]
      omega
    · simp only [ha]
      exact hafter

/-! ## Theorems: the children of the head -/

theorem parentOf_grows (h h2 : Heap) (n : Nat) (hg : Grows h h2) (hn : n < h.length) :
    parentOf h2 n = parentOf h n := by
  obtain ⟨nd2, hnd2, hp, _⟩ := hg n h[n] (List.getElem?_eq_some_iff.mpr ⟨hn, rfl⟩)
  unfold parentOf
  rw [hnd2, List.getElem?_eq_some_iff.mpr ⟨hn, rfl⟩]
  exact hp

theorem visitRule_childCount (fuel top : Nat) (titleString filepath : String)
    (head n idx : Nat) (sel : Transform) (r r2 : Run) (hit : Option Hit)
    (hhead : head < r.heap.length)
    (hok : visitRule fuel top titleString filepath (some head) n idx sel r
      = Except.ok (r2, hit)) :
    childCount r2.heap head = childCount r.heap head
        + hit.toList.length * (1 + if parentOf r.heap n = some head then 1 else 0)
      ∧ (hit.isSome = true → n < r.heap.length) := by
  rcases visitRule_cases _ _ _ _ _ _ _ _ _ _ _ hok with ⟨hn, hr, _⟩ | ⟨_, hcase⟩
  · subst hn
    subst hr
    simp
  · obtain ⟨textString, name, pfx, ref, t, htext, _, _, _, _, _, hinj, hr, hh⟩ := hcase
    subst hh
    subst hr
    have hn := text_ok_lt _ _ _ _ htext
    obtain ⟨head2, hd, hd2, hhn, hhd, hhd2, _, parent, nn, hnn, hpar, hlen⟩ :=
      inject_head_last _ _ _ _ _ _ _ t hn (fun p hp => by cases hp; exact hhead) hinj
    cases hhn
    refine ⟨?_, fun _ => hn⟩
    simp only [childCount, hhd2, hhd, hlen, parentOf, hnn, hpar, Option.toList_some,
      List.length_singleton, one_mul, Option.some.injEq]
    omega

theorem visitRules_childCount (fuel top : Nat) (titleString filepath : String)
    (head n : Nat) :
    ∀ (sels : List Transform) (idx : Nat) (r r2 : Run) (hits : List Hit),
      head < r.heap.length →
      visitRules fuel top titleString filepath (some head) n idx sels r
        = Except.ok (r2, hits) →
      childCount r2.heap head = childCount r.heap head
          + hits.length * (1 + if parentOf r.heap n = some head then 1 else 0)
        ∧ (hits ≠ [] → n < r.heap.length) := by
  intro sels
  induction sels with
  | nil =>
    intro idx r r2 hits _ h
    unfold visitRules at h
    simp only [pure_eq_ok, Prod.mk.injEq] at h
    obtain ⟨hr, hh⟩ := h
    subst hr
    subst hh
    simp
  | cons sel sels ih =>
    intro idx r r2 hits hhead h
    unfold visitRules at h
    obtain ⟨⟨r1, hit⟩, h1, h⟩ := (bind_eq_ok _ _ _).mp h
    obtain ⟨⟨r3, hits3⟩, h3, h⟩ := (bind_eq_ok _ _ _).mp h
    simp only [pure_eq_ok, Prod.mk.injEq] at h
    obtain ⟨hr, hh⟩ := h
    subst hr
    subst hh
    have hg1 := visitRule_grows _ _ _ _ _ _ _ _ _ _ _
      (fun p hp => by cases hp; exact hhead) h1
    obtain ⟨hc1, hv1⟩ := visitRule_childCount _ _ _ _ _ _ _ _ _ _ _ hhead h1
    obtain ⟨hc3, hv3⟩ := ih (idx + 1) r1 r3 hits3 (lt_of_lt_of_le hhead hg1.grows_length_le) h3
    have hnvalid : hit.toList ++ hits3 ≠ [] → n < r.heap.length := by
      intro hne
      cases hit with
      | some k => exact hv1 rfl
      | none =>
        have hr1 : r1 = r := by
          rcases visitRule_cases _ _ _ _ _ _ _ _ _ _ _ h1 with ⟨_, hr, _⟩ | ⟨_, hc⟩
          · exact hr
          · obtain ⟨_, _, _, _, _, _, _, _, _, _, _, _, _, hh⟩ := hc
            cases hh
        rw [hr1] at hv3
        exact hv3 (by simpa using hne)
    refine ⟨?_, hnvalid⟩
    by_cases hempty : hit.toList ++ hits3 = []
    · have h1e : hit.toList = [] := (List.append_eq_nil.mp hempty).1
      have h3e : hits3 = [] := (List.append_eq_nil.mp hempty).2
      rw [hc3, hc1, h1e, h3e]
      simp
    · have hn := hnvalid hempty
      have hpar : parentOf r1.heap n = parentOf r.heap n := parentOf_grows _ _ _ hg1 hn
      rw [hc3, hc1, hpar, List.length_append]
      ring

theorem hitsUnder_grows (h h2 : Heap) (head : Nat) (hg : Grows h h2) :
    ∀ visits : List Visit, (∀ v ∈ visits, v.hits ≠ [] → v.node < h.length) →
      hitsUnder h2 head visits = hitsUnder h head visits := by
  intro visits
  induction visits with
  | nil => intro _; rfl
  | cons v vs ih =>
    intro hv
    have ih2 := ih (fun w hw => hv w (List.mem_cons_of_mem _ hw))
    unfold hitsUnder at ih2 ⊢
    simp only [List.map_cons, List.sum_cons, ih2]
    congr 1
    by_cases he : v.hits = []
    · simp [he]
    · rw [parentOf_grows _ _ _ hg (hv v (List.mem_cons_self _ _) he)]

theorem visitNode_count (fuel top : Nat) (titleString filepath : String) (head : Nat)
    (sels : List Transform) (h0 : Heap) (n : Nat) (r r2 : Run)
    (hinv : head < r.heap.length
      ∧ childCount r.heap head
          = childCount h0 head + totalHits r.visits + hitsUnder r.heap head r.visits
      ∧ ∀ v ∈ r.visits, v.hits ≠ [] → v.node < r.heap.length)
    (hok : visitNode fuel top titleString filepath (some head) sels n r = Except.ok r2) :
    head < r2.heap.length
      ∧ childCount r2.heap head
          = childCount h0 head + totalHits r2.visits + hitsUnder r2.heap head r2.visits
      ∧ ∀ v ∈ r2.visits, v.hits ≠ [] → v.node < r2.heap.length := by
  unfold visitNode at hok
  obtain ⟨⟨r1, hits⟩, h1, hok⟩ := (bind_eq_ok _ _ _).mp hok
  rw [pure_eq_ok] at hok
  subst hok
  obtain ⟨hhead, hcount, hvalid⟩ := hinv
  obtain ⟨hg1, _, hv1, _, _⟩ :=
    visitRules_spec (fun _ _ _ => True) fuel top titleString filepath (some head) n sels
      (fun _ _ _ _ _ => trivial) (fun _ _ _ _ _ _ _ _ => trivial)
      sels 0 r r1 hits (fun j s hj => by simpa using hj)
      (fun p hp => by cases hp; exact hhead) h1
  obtain ⟨hc1, hn1⟩ := visitRules_childCount _ _ _ _ _ _ _ _ _ _ _ hhead h1
  have hle := hg1.grows_length_le
  refine ⟨lt_of_lt_of_le hhead hle, ?_, ?_⟩
  · have hu : hitsUnder r1.heap head r.visits = hitsUnder r.heap head r.visits :=
      hitsUnder_grows _ _ _ hg1 _ hvalid
    have hlast : (if parentOf r1.heap n = some head then hits.length else 0)
        = hits.length * (if parentOf r.heap n = some head then 1 else 0) := by
      by_cases he : hits = []
      · simp [he]
      · rw [parentOf_grows _ _ _ hg1 (hn1 he)]
        split <;> simp
    simp only [hv1, totalHits, hitsUnder, List.map_append, List.sum_append, List.map_cons,
      List.map_nil, List.sum_cons, List.sum_nil, add_zero]
    unfold totalHits hitsUnder at hcount
    unfold hitsUnder at hu
    rw [hu, hlast, hc1, hcount]
    ring
  · intro v hv
    simp only [hv1, List.mem_append, List.mem_singleton] at hv
    intro hne
    rcases hv with hv | hv
    · exact lt_of_lt_of_le (hvalid v hv hne) hle
    · subst hv
      exact lt_of_lt_of_le (hn1 hne) hle

theorem findRefs_count (fuel : Nat) (h : Heap) (counter : Int) (top : Nat)
    (selectors : List Transform) (dashing : Dashing) (filepath : String) (head : Nat)
    (r : Run) (hhead : head < h.length)
    (hok : findRefs fuel h counter top selectors dashing filepath (some head) = Except.ok r) :
    childCount r.heap head
      = childCount h head + totalHits r.visits + hitsUnder r.heap head r.visits := by
  unfold findRefs at hok
  obtain ⟨titleString, _, hok⟩ := (bind_eq_ok _ _ _).mp hok
  have hfin := descendants_invariant
    (fun r => head < r.heap.length
      ∧ childCount r.heap head
          = childCount h head + totalHits r.visits + hitsUnder r.heap head r.visits
      ∧ ∀ v ∈ r.visits, v.hits ≠ [] → v.node < r.heap.length) _
    (fun c r r2 hP hb =>
      visitNode_count fuel top titleString filepath head _ h c r r2 hP hb)
    fuel top _ r ⟨hhead, by simp [totalHits, hitsUnder], by simp⟩ hok
  exact hfin.2.1

theorem visitRule_ref_none (fuel top : Nat) (titleString filepath : String)
    (headNode : Option Nat) (n idx : Nat) (sel : Transform) (r r2 : Run) (k : Hit)
    (hsuf : stringsHasSuffix filepath "-2.html" = true)
    (hok : visitRule fuel top titleString filepath headNode n idx sel r
      = Except.ok (r2, some k)) : k.ref = none := by
  rcases visitRule_cases _ _ _ _ _ _ _ _ _ _ _ hok with ⟨hnone, _⟩ | ⟨_, hcase⟩
  · cases hnone
  · obtain ⟨textString, name, pfx, ref, t, _, _, _, _, _, hrefeq, _, _, hhit⟩ := hcase
    simp only [Option.some.injEq] at hhit
    subst hhit
    simp only [hsuf, Bool.not_true, Bool.false_eq_true, if_false, pure_eq_ok] at hrefeq
    exact hrefeq.symm

theorem visitRule_nodes_present (fuel top : Nat) (titleString filepath : String)
    (head n idx : Nat) (sel : Transform) (r r2 : Run) (k : Hit)
    (hhead : head < r.heap.length)
    (hok : visitRule fuel top titleString filepath (some head) n idx sel r
      = Except.ok (r2, some k)) :
    ∃ a l, r2.heap[k.tocAnchor]? = some a ∧ a.Typ = NodeType.ElementNode ∧ a.Data = "a"
      ∧ a.Parent = parentOf r2.heap n ∧ a.Parent ≠ none
      ∧ r2.heap[k.linkNode]? = some l ∧ l.Typ = NodeType.ElementNode ∧ l.Data = "link"
      ∧ l.Parent = some head := by
  have hh : ∀ p, some head = some p → p < r.heap.length := fun p hp => by cases hp; exact hhead
  have hg := visitRule_grows _ _ _ _ _ _ _ _ _ _ _ hh hok
  obtain ⟨head2, parent, rawName, pre, post, pd2, hd2, hhn, ⟨nn, hnn, hpar⟩, _, ha, hl, _⟩ :=
    (visitRule_injects _ _ _ _ _ _ _ _ _ _ _ hh hok).2 k rfl
  cases hhn
  have hn : n < r.heap.length := (List.getElem?_eq_some_iff.mp hnn).1
  have hp2 : parentOf r2.heap n = some parent := by
    rw [parentOf_grows _ _ _ hg hn]
    simp [parentOf, hnn, hpar]
  exact ⟨_, _, ha, rfl, rfl, by rw [hp2]; rfl, by simp [attachedTo], hl, rfl, rfl, rfl⟩

/-- For a file path that ends in `-2.html`, when `findRefs`
returns, its reference list is empty, yet every recorded rule match has its
anchor and its link in the heap, the anchor under the parent of the matched
node and the link under the head; the number of children of the head has
grown by the number of matches plus the number of matches at nodes that are
themselves children of the head, whose anchors go into the head too. -/
theorem findRefs_continuation (fuel : Nat) (h : Heap) (counter : Int) (top : Nat)
    (selectors : List Transform) (dashing : Dashing) (filepath : String) (head : Nat)
    (r : Run) (hsuf : stringsHasSuffix filepath "-2.html" = true) (hhead : head < h.length)
    (hok : findRefs fuel h counter top selectors dashing filepath (some head) = Except.ok r) :
    r.refs = []
      ∧ childCount r.heap head
          = childCount h head + totalHits r.visits + hitsUnder r.heap head r.visits
      ∧ ∀ v ∈ r.visits, ∀ k ∈ v.hits,
          k.ref = none
          ∧ ∃ a l, r.heap[k.tocAnchor]? = some a ∧ a.Data = "a"
              ∧ a.Parent = parentOf r.heap v.node
              ∧ r.heap[k.linkNode]? = some l ∧ l.Data = "link" ∧ l.Parent = some head := by
  have hinv := findRefs_inv
    (fun hp n k => k.ref = none
      ∧ ∃ a l, hp[k.tocAnchor]? = some a ∧ a.Data = "a"
          ∧ a.Parent = parentOf hp n ∧ a.Parent ≠ none
          ∧ hp[k.linkNode]? = some l ∧ l.Data = "link" ∧ l.Parent = some head)
    fuel h counter top selectors dashing filepath (some head)
    (fun h1 h2 n k hg hΦ => by
      obtain ⟨hnone, a, l, ha, had, hap, hasome, hl, hld, hlp⟩ := hΦ
      obtain ⟨a2, ha2, hap2, _, had2, _, _⟩ := hg _ a ha
      obtain ⟨l2, hl2, hlp2, _, hld2, _, _⟩ := hg _ l hl
      have hn : n < h1.length := by
        by_contra hge
        have : h1[n]? = none := List.getElem?_eq_none (by omega)
        simp [parentOf, this] at hap
        exact hasome hap
      refine ⟨hnone, a2, l2, ha2, had2.trans had, ?_, by rw [hap2]; exact hasome, hl2,
        hld2.trans hld, hlp2.trans hlp⟩
      rw [hap2, hap, parentOf_grows _ _ _ hg hn])
    (fun titleString n idx sel r1 r2 k _ hh hv => by
      have hlt : head < r1.heap.length := hh head rfl
      obtain ⟨a, l, ha, _, had, hap, hasome, hl, _, hld, hlp⟩ :=
        visitRule_nodes_present _ _ _ _ _ _ _ _ _ _ _ hlt hv
      exact ⟨visitRule_ref_none _ _ _ _ _ _ _ _ _ _ _ hsuf hv,
        a, l, ha, had, hap, hasome, hl, hld, hlp⟩)
    r (fun p hp => by cases hp; exact hhead) hok
  obtain ⟨_, _, hrefs, hvis⟩ := hinv
  refine ⟨?_, findRefs_count _ _ _ _ _ _ _ _ _ hhead hok, ?_⟩
  · rw [hrefs]
    unfold refsOfVisits
    rw [List.flatMap_eq_nil_iff]
    intro v hv
    rw [List.filterMap_eq_nil_iff]
    intro k hk
    exact ((hvis v hv).1 k hk).1.1
  · intro v hv k hk
    obtain ⟨⟨hnone, a, l, ha, had, hap, _, hl, hld, hlp⟩, _⟩ := (hvis v hv).1 k hk
    exact ⟨hnone, a, l, ha, had, hap, hl, hld, hlp⟩

/-! ## Theorems: document order -/

theorem parentOf_eq_some (h : Heap) (n p : Nat) :
    parentOf h n = some p ↔ ∃ nd, h[n]? = some nd ∧ nd.Parent = some p := by
  unfold parentOf
  cases h[n]? with
  | none => simp
  | some nd => simp

theorem childrenOf_eq (h : Heap) (n : Nat) (nd : Node) (hn : h[n]? = some nd) :
    childrenOf h n = nd.Children := by
  simp [childrenOf, hn]

theorem parentOf_grows_some (h h2 : Heap) (n p : Nat) (hg : Grows h h2)
    (hp : parentOf h n = some p) : parentOf h2 n = some p := by
  obtain ⟨nd, hnd, hpar⟩ := (parentOf_eq_some _ _ _).mp hp
  obtain ⟨nd2, hnd2, hp2, _⟩ := hg n nd hnd
  exact (parentOf_eq_some _ _ _).mpr ⟨nd2, hnd2, hp2.trans hpar⟩

theorem Below.below_grows {h h2 : Heap} {a b : Nat} (hg : Grows h h2) (hb : Below h a b) :
    Below h2 a b := by
  induction hb with
  | refl => exact Below.refl _
  | step hp _ ih => exact Below.step (parentOf_grows_some _ _ _ _ hg hp) ih

theorem Below.below_trans {h : Heap} {a b c : Nat} (hab : Below h a b) (hbc : Below h b c) :
    Below h a c := by
  induction hbc with
  | refl => exact hab
  | step hp _ ih => exact Below.step hp ih

theorem SibBefore.sib_grows {h h2 : Heap} {a b : Nat} (hg : Grows h h2) (hs : SibBefore h a b) :
    SibBefore h2 a b := by
  obtain ⟨p, nd, hnd, hsub⟩ := hs
  obtain ⟨nd2, hnd2, _, _, _, _, hc⟩ := hg p nd hnd
  exact ⟨p, nd2, hnd2, hsub.trans hc⟩

theorem DocBefore.doc_grows {h h2 : Heap} {a b : Nat} (hg : Grows h h2) (hd : DocBefore h a b) :
    DocBefore h2 a b := by
  rcases hd with ⟨hne, hb⟩ | ⟨a2, b2, hs, ha, hb⟩
  · exact Or.inl ⟨hne, hb.below_grows hg⟩
  · exact Or.inr ⟨a2, b2, hs.sib_grows hg, ha.below_grows hg, hb.below_grows hg⟩

theorem Below.below_height_le {h : Heap} {a b : Nat} (height : Nat → Nat)
    (hr : ∀ c p, parentOf h c = some p → height c < height p) (hb : Below h a b) :
    height b ≤ height a := by
  induction hb with
  | refl => exact le_refl _
  | step hp _ ih => exact le_of_lt (lt_of_lt_of_le (hr _ _ hp) ih)

theorem childrenAfter_mem (head link parent anchor n i c : Nat) (cs : List Nat)
    (hc : c ∈ childrenAfter head link parent anchor n i cs) :
    c ∈ cs ∨ (c = link ∧ i = head) ∨ (c = anchor ∧ i = parent) := by
  unfold childrenAfter at hc
  simp only at hc
  have h1 : ∀ x, x ∈ (if i = head then cs ++ [link] else cs) → x ∈ cs ∨ (x = link ∧ i = head) := by
    intro x hx
    split at hx
    · rename_i hih
      rw [List.mem_append, List.mem_singleton] at hx
      exact hx.imp id (fun e => ⟨e, hih⟩)
    · exact Or.inl hx
  split at hc
  · rename_i hip
    cases hins : insertBeforeIn anchor n (if i = head then cs ++ [link] else cs) with
    | none =>
      rw [hins] at hc
      rcases h1 c hc with h | h
      · exact Or.inl h
      · exact Or.inr (Or.inl h)
    | some r =>
      rw [hins] at hc
      obtain ⟨pre, post, hl, _, hr⟩ := insertBeforeIn_eq_some _ _ _ _ hins
      simp only [hr, List.mem_append, List.mem_cons] at hc
      have hmem : c = anchor ∨ c ∈ (if i = head then cs ++ [link] else cs) := by
        rw [hl]
        simp only [List.mem_append, List.mem_cons]
        tauto
      rcases hmem with h | h
      · exact Or.inr (Or.inr ⟨h, hip⟩)
      · rcases h1 c h with h | h
        · exact Or.inl h
        · exact Or.inr (Or.inl h)
  · rcases h1 c hc with h | h
    · exact Or.inl h
    · exact Or.inr (Or.inl h)

theorem childrenAfter_nodup (head link parent anchor n i : Nat) (cs : List Nat)
    (hnd : cs.Nodup) (hl : link ∉ cs) (ha : anchor ∉ cs) (hne : anchor ≠ link) :
    (childrenAfter head link parent anchor n i cs).Nodup := by
  unfold childrenAfter
  simp only
  have h1 : (if i = head then cs ++ [link] else cs).Nodup
      ∧ anchor ∉ (if i = head then cs ++ [link] else cs) := by
    split
    · refine ⟨?_, ?_⟩
      · rw [List.nodup_append]
        exact ⟨hnd, by simp, by
          intro a ha1 hb1
          rw [List.mem_singleton] at hb1
          exact hl (hb1 ▸ ha1)⟩
      · simp only [List.mem_append, List.mem_singleton, not_or]
        exact ⟨ha, hne⟩
    · exact ⟨hnd, ha⟩
  split
  · cases hins : insertBeforeIn anchor n (if i = head then cs ++ [link] else cs) with
    | none => exact h1.1
    | some r =>
      obtain ⟨pre, post, hlst, _, hr⟩ := insertBeforeIn_eq_some _ _ _ _ hins
      simp only [hr]
      rw [hlst] at h1
      have hperm : (pre ++ anchor :: n :: post).Perm (anchor :: (pre ++ n :: post)) :=
        List.perm_middle
      rw [hperm.nodup_iff, List.nodup_cons]
      exact ⟨h1.2, h1.1⟩
  · exact h1.1

theorem parentOf_lt (h : Heap) (n p : Nat) (hp : parentOf h n = some p) : n < h.length := by
  obtain ⟨nd, hnd, _⟩ := (parentOf_eq_some _ _ _).mp hp
  exact (List.getElem?_eq_some_iff.mp hnd).1

theorem inject_wellFormed (h : Heap) (counter : Int) (headNode : Option Nat) (n : Nat)
    (name etype : String) (root : Bool) (t : TocNodes) (hn : n < h.length)
    (hhead : ∀ p, headNode = some p → p < h.length) (hwf : WellFormed h)
    (hok : inject h counter headNode n name etype root = Except.ok t) :
    WellFormed t.heap := by
  have hg := inject_grows h counter headNode n name etype root t hn hhead hok
  obtain ⟨head, nn, p, pre, post, hhn, hnn, hpar, hplt, _, _, _, hlen, hanchor, hlink, _,
    hold⟩ := inject_lookup h counter headNode n name etype root t hn hhead hok
  have hheadlt := hhead head hhn
  have hpa : parentOf t.heap h.length = some p :=
    (parentOf_eq_some _ _ _).mpr ⟨_, hanchor, rfl⟩
  have hpl : parentOf t.heap (h.length + 1) = some head :=
    (parentOf_eq_some _ _ _).mpr ⟨_, hlink, rfl⟩
  intro m hm
  rw [hlen] at hm
  by_cases hmold : m < h.length
  · obtain ⟨hnd, hch, hpp⟩ := hwf m hmold
    have hmnd : h[m]? = some h[m] := List.getElem?_eq_some_iff.mpr ⟨hmold, rfl⟩
    have hm2 := hold m h[m] hmnd
    rw [childrenOf_eq _ _ _ hmnd] at hnd hch
    rw [childrenOf_eq _ _ _ hm2]
    simp only
    refine ⟨?_, ?_, ?_⟩
    · apply childrenAfter_nodup _ _ _ _ _ _ _ hnd
      · intro hmem
        have := (hch _ hmem).1
        omega
      · intro hmem
        have := (hch _ hmem).1
        omega
      · omega
    · intro c hc
      rcases childrenAfter_mem _ _ _ _ _ _ _ _ hc with hcs | ⟨hcl, hmh⟩ | ⟨hca, hmp⟩
      · obtain ⟨hclt, hcp⟩ := hch c hcs
        exact ⟨by rw [hlen]; omega, parentOf_grows_some _ _ _ _ hg hcp⟩
      · subst hcl
        subst hmh
        exact ⟨by rw [hlen]; omega, hpl⟩
      · subst hca
        subst hmp
        exact ⟨by rw [hlen]; omega, hpa⟩
    · rw [parentOf_grows _ _ _ hg hmold]
      cases hq : parentOf h m with
      | none => trivial
      | some q =>
        rw [hq] at hpp
        simp only at hpp ⊢
        rw [hlen]
        omega
  · have hcases : m = h.length ∨ m = h.length + 1 := by omega
    rcases hcases with rfl | rfl
    · rw [childrenOf_eq _ _ _ hanchor, hpa]
      simp only [attachedTo, anchorNodeOf, List.nodup_nil, List.not_mem_nil, false_implies,
        implies_true, true_and]
      rw [hlen]
      omega
    · rw [childrenOf_eq _ _ _ hlink, hpl]
      simp only [attachedTo, linkNodeOf, List.nodup_nil, List.not_mem_nil, false_implies,
        implies_true, true_and]
      rw [hlen]
      omega

theorem inject_acyclic (h : Heap) (counter : Int) (headNode : Option Nat) (n : Nat)
    (name etype : String) (root : Bool) (t : TocNodes) (hn : n < h.length)
    (hhead : ∀ p, headNode = some p → p < h.length) (hwf : WellFormed h) (hac : Acyclic h)
    (hok : inject h counter headNode n name etype root = Except.ok t) :
    Acyclic t.heap := by
  have hg := inject_grows h counter headNode n name etype root t hn hhead hok
  obtain ⟨head, nn, p, pre, post, hhn, hnn, hpar, hplt, _, _, _, hlen, hanchor, hlink, _,
    hold⟩ := inject_lookup h counter headNode n name etype root t hn hhead hok
  have hheadlt := hhead head hhn
  obtain ⟨rank, hrank⟩ := hac
  refine ⟨fun i => if i = h.length then 0
    else if i = h.length + 1 then 0 else rank i + 1, ?_⟩
  intro c q hcq
  have hclt := parentOf_lt _ _ _ hcq
  rw [hlen] at hclt
  by_cases hcold : c < h.length
  · rw [parentOf_grows _ _ _ hg hcold] at hcq
    have hq : q < h.length := by
      have := (hwf c hcold).2.2
      rw [hcq] at this
      exact this
    have h1 : ¬ c = h.length := by omega
    have h2 : ¬ c = h.length + 1 := by omega
    have h3 : ¬ q = h.length := by omega
    have h4 : ¬ q = h.length + 1 := by omega
    simp only [h1, h2, h3, h4, if_false]
    exact Nat.succ_lt_succ (hrank c q hcq)
  · have hcases : c = h.length ∨ c = h.length + 1 := by omega
    rcases hcases with rfl | rfl
    · obtain ⟨nd, hnd, hp⟩ := (parentOf_eq_some _ _ _).mp hcq
      rw [hanchor] at hnd
      cases hnd
      simp only [attachedTo, Option.some.injEq] at hp
      subst hp
      have h3 : ¬ p = h.length := by omega
      have h4 : ¬ p = h.length + 1 := by omega
      simp [h3, h4]
    · obtain ⟨nd, hnd, hp⟩ := (parentOf_eq_some _ _ _).mp hcq
      rw [hlink] at hnd
      cases hnd
      simp only [attachedTo, Option.some.injEq] at hp
      subst hp
      have h3 : ¬ head = h.length := by omega
      have h4 : ¬ head = h.length + 1 := by omega
      simp [h3, h4]

theorem visitRule_ok (fuel top : Nat) (titleString filepath : String)
    (headNode : Option Nat) (n idx : Nat) (sel : Transform) (r r2 : Run) (hit : Option Hit)
    (hinv : RunOK headNode r)
    (hok : visitRule fuel top titleString filepath headNode n idx sel r = Except.ok (r2, hit)) :
    RunOK headNode r2 := by
  obtain ⟨hhead, hwf, hac⟩ := hinv
  have hg := visitRule_grows _ _ _ _ _ _ _ _ _ _ _ hhead hok
  rcases visitRule_cases _ _ _ _ _ _ _ _ _ _ _ hok with ⟨_, hr, _⟩ | ⟨_, hcase⟩
  · rw [hr]
    exact ⟨hhead, hwf, hac⟩
  · obtain ⟨textString, name, pfx, ref2, t, htext, _, _, _, _, _, hinj, hr, _⟩ := hcase
    have hn := text_ok_lt _ _ _ _ htext
    refine ⟨fun p hp => lt_of_lt_of_le (hhead p hp) hg.grows_length_le, ?_, ?_⟩
    · rw [hr]
      exact inject_wellFormed _ _ _ _ _ _ _ _ hn hhead hwf hinj
    · rw [hr]
      exact inject_acyclic _ _ _ _ _ _ _ _ hn hhead hwf hac hinj

theorem visitNode_step (fuel top : Nat) (titleString filepath : String)
    (headNode : Option Nat) (sels : List Transform) (n : Nat) (r r2 : Run)
    (hinv : RunOK headNode r)
    (hok : visitNode fuel top titleString filepath headNode sels n r = Except.ok r2) :
    RunOK headNode r2 ∧ Grows r.heap r2.heap
      ∧ ∃ hits, r2.visits = r.visits ++ [{ node := n, hits := hits }] := by
  unfold visitNode at hok
  obtain ⟨⟨r1, hits⟩, h1, hok⟩ := (bind_eq_ok _ _ _).mp hok
  rw [pure_eq_ok] at hok
  subst hok
  have hok1 := visitRules_invariant (RunOK headNode) fuel top titleString filepath headNode n
    (fun idx sel r r2 hit hP hv => visitRule_ok _ _ _ _ _ _ _ _ _ _ _ hP hv)
    sels 0 r r1 hits hinv h1
  obtain ⟨hg1, _, hv1, _, _⟩ :=
    visitRules_spec (fun _ _ _ => True) fuel top titleString filepath headNode n sels
      (fun _ _ _ _ _ => trivial) (fun _ _ _ _ _ _ _ _ => trivial)
      sels 0 r r1 hits (fun j s hj => by simpa using hj) hinv.1 h1
  exact ⟨hok1, hg1, hits, by simp [hv1]⟩

theorem nextIn_sublist (c nx : Nat) :
    ∀ l : List Nat, nextIn c l = some nx → [c, nx].Sublist l := by
  intro l
  induction l with
  | nil => intro h; simp [nextIn] at h
  | cons x xs ih =>
    intro h
    unfold nextIn at h
    by_cases hx : x = c
    · rw [if_pos hx] at h
      cases xs with
      | nil => simp at h
      | cons y ys =>
        simp only [List.head?_cons, Option.some.injEq] at h
        subst hx
        subst h
        exact List.Sublist.cons₂ _ (List.Sublist.cons₂ _ (List.nil_sublist _))
    · rw [if_neg hx] at h
      exact List.Sublist.cons _ (ih h)

theorem NextSibling_sibBefore (h : Heap) (c nx : Nat)
    (hok : NextSibling h c = Except.ok (some nx)) : SibBefore h c nx := by
  unfold NextSibling at hok
  obtain ⟨cn, hcn, hok⟩ := (bind_eq_ok _ _ _).mp hok
  cases hp : cn.Parent with
  | none =>
    rw [hp] at hok
    simp only [pure_eq_ok] at hok
    cases hok
  | some p =>
    rw [hp] at hok
    simp only at hok
    obtain ⟨pn, hpn, hok⟩ := (bind_eq_ok _ _ _).mp hok
    rw [deref_eq_ok] at hpn
    rw [pure_eq_ok] at hok
    exact ⟨p, pn, hpn, nextIn_sublist _ _ _ hok⟩

theorem FirstChild_mem (h : Heap) (n c : Nat)
    (hok : FirstChild h n = Except.ok (some c)) : n < h.length ∧ c ∈ childrenOf h n := by
  unfold FirstChild at hok
  obtain ⟨nd, hnd, hok⟩ := (bind_eq_ok _ _ _).mp hok
  rw [deref_eq_ok] at hnd
  rw [pure_eq_ok] at hok
  refine ⟨(List.getElem?_eq_some_iff.mp hnd).1, ?_⟩
  rw [childrenOf_eq _ _ _ hnd]
  exact List.mem_of_mem_head? hok

theorem pair_sublist_trans (a b c : Nat) :
    ∀ l : List Nat, l.Nodup → [a, b].Sublist l → [b, c].Sublist l → [a, c].Sublist l := by
  intro l
  induction l with
  | nil => intro _ h _; cases h
  | cons x xs ih =>
    intro hnd hab hbc
    rw [List.nodup_cons] at hnd
    cases hab with
    | cons _ hab1 =>
      cases hbc with
      | cons _ hbc1 => exact List.Sublist.cons _ (ih hnd.2 hab1 hbc1)
      | cons₂ _ hbc1 =>
        exfalso
        exact hnd.1 (hab1.subset (by simp))
    | cons₂ _ hab1 =>
      cases hbc with
      | cons _ hbc1 =>
        refine List.Sublist.cons₂ _ ?_
        exact (List.Sublist.cons _ (List.Sublist.refl [c])).trans hbc1 |>.trans (List.Sublist.refl _)
      | cons₂ _ hbc1 =>
        exfalso
        exact hnd.1 (hab1.subset (by simp))

theorem SibBefore.sib_parents {h : Heap} {a b : Nat} (hwf : WellFormed h) (hs : SibBefore h a b) :
    ∃ p nd, h[p]? = some nd ∧ [a, b].Sublist nd.Children ∧ nd.Children.Nodup
      ∧ parentOf h a = some p ∧ parentOf h b = some p := by
  obtain ⟨p, nd, hnd, hsub⟩ := hs
  have hp : p < h.length := (List.getElem?_eq_some_iff.mp hnd).1
  obtain ⟨hnodup, hch, _⟩ := hwf p hp
  rw [childrenOf_eq _ _ _ hnd] at hnodup hch
  exact ⟨p, nd, hnd, hsub, hnodup, (hch a (hsub.subset (by simp))).2,
    (hch b (hsub.subset (by simp))).2⟩

theorem SibBefore.sib_trans {h : Heap} {a b c : Nat} (hwf : WellFormed h)
    (hab : SibBefore h a b) (hbc : SibBefore h b c) : SibBefore h a c := by
  obtain ⟨p, nd, hnd, hsub, hnodup, _, hpb⟩ := hab.sib_parents hwf
  obtain ⟨q, nd2, hnd2, hsub2, _, hqb, _⟩ := hbc.sib_parents hwf
  rw [hpb] at hqb
  cases hqb
  rw [hnd] at hnd2
  cases hnd2
  exact ⟨p, nd, hnd, pair_sublist_trans _ _ _ _ hnodup hsub hsub2⟩

theorem childNodes_none (body : Nat → Run → Except Fault Run) (fuel : Nat) (r r2 : Run)
    (hok : childNodes body fuel none r = Except.ok r2) : r2 = r := by
  cases fuel with
  | zero =>
    unfold childNodes at hok
    exact absurd hok (throw_ne_ok _ _)
  | succ fuel =>
    unfold childNodes at hok
    rw [pure_eq_ok] at hok
    exact hok.symm

theorem Below.below_of_parent {h : Heap} {c n : Nat} (hp : parentOf h c = some n) : Below h n c :=
  Below.step hp (Below.refl n)

theorem Below.below_ne_of_child {h : Heap} {n c x : Nat} (hac : Acyclic h)
    (hp : parentOf h c = some n) (hb : Below h c x) : n ≠ x := by
  obtain ⟨rank, hrank⟩ := hac
  have h1 := hrank c n hp
  have h2 := hb.below_height_le rank hrank
  intro he
  subst he
  omega

theorem traverse_order (headNode : Option Nat) (body : Nat → Run → Except Fault Run)
    (hbody : ∀ c r r2, RunOK headNode r → body c r = Except.ok r2 →
      RunOK headNode r2 ∧ Grows r.heap r2.heap
        ∧ ∃ hits, r2.visits = r.visits ++ [{ node := c, hits := hits }]) :
    ∀ fuel,
      (∀ n r r2, RunOK headNode r → descendants body fuel n r = Except.ok r2 →
        RunOK headNode r2 ∧ Grows r.heap r2.heap
          ∧ ∃ V : List Visit, r2.visits = r.visits ++ V
            ∧ (∀ x ∈ V.map (fun v => v.node),
                ∃ c, parentOf r2.heap c = some n ∧ Below r2.heap c x)
            ∧ (V.map (fun v => v.node)).Pairwise (DocBefore r2.heap))
      ∧ (∀ c r r2, RunOK headNode r → childNodes body fuel (some c) r = Except.ok r2 →
        RunOK headNode r2 ∧ Grows r.heap r2.heap
          ∧ ∃ V : List Visit, r2.visits = r.visits ++ V
            ∧ (∀ x ∈ V.map (fun v => v.node),
                ∃ c2, (c2 = c ∨ SibBefore r2.heap c c2) ∧ Below r2.heap c2 x)
            ∧ (V.map (fun v => v.node)).Pairwise (DocBefore r2.heap)) := by
  intro fuel
  induction fuel with
  | zero =>
    constructor
    · intro n r r2 _ h
      unfold descendants at h
      exact absurd h (throw_ne_ok _ _)
    · intro c r r2 _ h
      unfold childNodes at h
      exact absurd h (throw_ne_ok _ _)
  | succ fuel ih =>
    constructor
    · intro n r r2 hinv h
      unfold descendants at h
      obtain ⟨fc, hfc, h⟩ := (bind_eq_ok _ _ _).mp h
      cases fc with
      | none =>
        have := childNodes_none _ _ _ _ h
        subst this
        exact ⟨hinv, Grows.grows_refl _, [], by simp, by simp, by simp⟩
      | some c =>
        obtain ⟨hok2, hg, V, hV, hbelow, hpw⟩ := ih.2 c r r2 hinv h
        obtain ⟨hnlt, hcmem⟩ := FirstChild_mem _ _ _ hfc
        have hpc : parentOf r.heap c = some n := ((hinv.2.1 n hnlt).2.1 c hcmem).2
        have hpc2 : parentOf r2.heap c = some n := parentOf_grows_some _ _ _ _ hg hpc
        refine ⟨hok2, hg, V, hV, ?_, hpw⟩
        intro x hx
        obtain ⟨c2, hc2, hb⟩ := hbelow x hx
        rcases hc2 with rfl | hs
        · exact ⟨c2, hpc2, hb⟩
        · obtain ⟨p, _, _, _, _, hpa, hpb⟩ := hs.sib_parents hok2.2.1
          rw [hpc2] at hpa
          cases hpa
          exact ⟨c2, hpb, hb⟩
    · intro c r r2 hinv h
      unfold childNodes at h
      obtain ⟨r1, h1, h⟩ := (bind_eq_ok _ _ _).mp h
      obtain ⟨r3, h3, h⟩ := (bind_eq_ok _ _ _).mp h
      obtain ⟨nx, hnx, h⟩ := (bind_eq_ok _ _ _).mp h
      obtain ⟨hok1, hg01, hits, hv1⟩ := hbody c r r1 hinv h1
      obtain ⟨hok3, hg13, V1, hV1, hbelow1, hpw1⟩ := ih.1 c r1 r3 hok1 h3
      have hrest : RunOK headNode r2 ∧ Grows r3.heap r2.heap
          ∧ ∃ V2 : List Visit, r2.visits = r3.visits ++ V2
            ∧ (∀ x ∈ V2.map (fun v => v.node),
                ∃ c2, SibBefore r2.heap c c2 ∧ Below r2.heap c2 x)
            ∧ (V2.map (fun v => v.node)).Pairwise (DocBefore r2.heap) := by
        cases nx with
        | none =>
          have := childNodes_none _ _ _ _ h
          subst this
          exact ⟨hok3, Grows.grows_refl _, [], by simp, by simp, by simp⟩
        | some c1 =>
          obtain ⟨hok2, hg32, V2, hV2, hbelow2, hpw2⟩ := ih.2 c1 r3 r2 hok3 h
          have hs : SibBefore r2.heap c c1 := (NextSibling_sibBefore _ _ _ hnx).sib_grows hg32
          refine ⟨hok2, hg32, V2, hV2, ?_, hpw2⟩
          intro x hx
          obtain ⟨c2, hc2, hb⟩ := hbelow2 x hx
          rcases hc2 with rfl | hs2
          · exact ⟨c2, hs, hb⟩
          · exact ⟨c2, hs.sib_trans hok2.2.1 hs2, hb⟩
      obtain ⟨hok2, hg32, V2, hV2, hbelow2, hpw2⟩ := hrest
      have hbelow1b : ∀ x ∈ V1.map (fun v => v.node), c ≠ x ∧ Below r2.heap c x := by
        intro x hx
        obtain ⟨c1, hpc1, hb⟩ := hbelow1 x hx
        exact ⟨Below.below_ne_of_child hok3.2.2 hpc1 hb,
          ((Below.below_of_parent hpc1).below_trans hb).below_grows hg32⟩
      refine ⟨hok2, (hg01.grows_trans hg13).grows_trans hg32,
        ({ node := c, hits := hits } : Visit) :: (V1 ++ V2), ?_, ?_, ?_⟩
      · rw [hV2, hV1, hv1]
        simp
      · intro x hx
        simp only [List.map_cons, List.map_append, List.mem_cons, List.mem_append] at hx
        rcases hx with rfl | hx | hx
        · exact ⟨x, Or.inl rfl, Below.refl _⟩
        · exact ⟨c, Or.inl rfl, (hbelow1b x hx).2⟩
        · obtain ⟨c2, hs, hb⟩ := hbelow2 x hx
          exact ⟨c2, Or.inr hs, hb⟩
      · simp only [List.map_cons, List.map_append, List.pairwise_cons, List.mem_append]
        refine ⟨?_, ?_⟩
        · intro x hx
          rcases hx with hx | hx
          · exact Or.inl (hbelow1b x hx)
          · obtain ⟨c2, hs, hb⟩ := hbelow2 x hx
            exact Or.inr ⟨c, c2, hs, Below.refl _, hb⟩
        · rw [List.pairwise_append]
          refine ⟨hpw1.imp (fun hd => hd.doc_grows hg32), hpw2, ?_⟩
          intro x1 hx1 x2 hx2
          obtain ⟨c2, hs, hb⟩ := hbelow2 x2 hx2
          exact Or.inr ⟨c, c2, hs, (hbelow1b x1 hx1).2, hb⟩

theorem wellFormed_of_check (h : Heap)
    (hc : (List.range h.length).all (wellFormedAt h) = true) : WellFormed h := by
  intro n hn
  rw [List.all_eq_true] at hc
  have := hc n (List.mem_range.mpr hn)
  unfold wellFormedAt at this
  simp only [Bool.and_eq_true, decide_eq_true_eq, List.all_eq_true] at this
  obtain ⟨⟨h1, h2⟩, h3⟩ := this
  refine ⟨h1, h2, ?_⟩
  cases hq : parentOf h n with
  | none => trivial
  | some q =>
    rw [hq] at h3
    simpa using h3

theorem acyclic_of_check (h : Heap) (hc : parentsFirst h = true) : Acyclic h := by
  refine ⟨fun i => h.length - i, ?_⟩
  intro c p hp
  unfold parentsFirst at hc
  rw [List.all_eq_true] at hc
  have hlt := parentOf_lt _ _ _ hp
  have := hc c (List.mem_range.mpr hlt)
  rw [hp] at this
  have hpc : p < c := by simpa using this
  show h.length - c < h.length - p
  omega

theorem matchingSelectors_foldl (filepath : String) (l : List Transform) :
    ∀ acc : List Transform,
      l.foldl
        (fun acc sel =>
          match sel.MatchPath with
          | none => acc ++ [sel]
          | some re => if re.MatchString filepath then acc ++ [sel] else acc)
        acc
      = acc ++ l.filter (pathMatches filepath) := by
  induction l with
  | nil => intro acc; simp
  | cons sel sels ih =>
    intro acc
    rw [List.foldl_cons, ih]
    cases hm : sel.MatchPath with
    | none => simp [pathMatches, hm, List.filter_cons]
    | some re =>
      by_cases hre : re.MatchString filepath = true
      · simp [pathMatches, hm, hre, List.filter_cons]
      · simp [pathMatches, hm, hre, List.filter_cons]

theorem matchingSelectors_eq_filter (selectors : List Transform) (filepath : String) :
    matchingSelectors selectors filepath = selectors.filter (pathMatches filepath) := by
  unfold matchingSelectors
  rw [matchingSelectors_foldl]
  rfl

theorem Below.below_cases_parent {h : Heap} {x y : Nat} (hb : Below h x y) :
    x = y ∨ ∃ p, parentOf h y = some p ∧ Below h x p := by
  cases hb with
  | refl => exact Or.inl rfl
  | step hp hxp => exact Or.inr ⟨_, hp, hxp⟩

theorem Below.below_linear {h : Heap} {x y a : Nat} (hx : Below h x a) (hy : Below h y a) :
    Below h x y ∨ Below h y x := by
  induction hx with
  | refl => exact Or.inr hy
  | step hp hxp ih =>
    rcases hy.below_cases_parent with rfl | ⟨q, hq, hyq⟩
    · exact Or.inl (Below.step hp hxp)
    · rw [hp] at hq
      cases hq
      exact ih hyq

theorem siblings_not_below {h : Heap} {a b p : Nat} (hac : Acyclic h) (hne : a ≠ b)
    (hpa : parentOf h a = some p) (hpb : parentOf h b = some p) : ¬ Below h a b := by
  intro hb
  obtain ⟨rank, hrank⟩ := hac
  rcases hb.below_cases_parent with he | ⟨q, hq, haq⟩
  · exact hne he
  · rw [hpb] at hq
    cases hq
    have h1 := haq.below_height_le rank hrank
    have h2 := hrank a p hpa
    omega

theorem DocBefore.doc_irrefl {h : Heap} (hwf : WellFormed h) (hac : Acyclic h) (a : Nat) :
    ¬ DocBefore h a a := by
  rintro (⟨hne, _⟩ | ⟨a2, b2, hs, ha, hb⟩)
  · exact hne rfl
  · obtain ⟨p, nd, _, hsub, hnodup, hpa, hpb⟩ := hs.sib_parents hwf
    have hne : a2 ≠ b2 := by
      intro he
      subst he
      have := hsub.nodup hnodup
      simp at this
    rcases ha.below_linear hb with h1 | h1
    · exact siblings_not_below hac hne hpa hpb h1
    · exact siblings_not_below hac (Ne.symm hne) hpb hpa h1

theorem visitRule_ref_rule (fuel top : Nat) (titleString filepath : String)
    (headNode : Option Nat) (n idx : Nat) (sel : Transform) (r r2 : Run) (k : Hit)
    (hok : visitRule fuel top titleString filepath headNode n idx sel r
      = Except.ok (r2, some k)) :
    ∀ ref, k.ref = some ref →
      ref.selector = sel.CssSelector.Str ∧ ref.etype = sel.Typ
        ∧ ref.menuDescription = titleString := by
  intro ref href
  rcases visitRule_cases _ _ _ _ _ _ _ _ _ _ _ hok with ⟨hnone, _⟩ | ⟨_, hcase⟩
  · cases hnone
  · obtain ⟨textString, name, pfx, ref2, t, _, _, _, _, _, hrefeq, _, _, hhit⟩ := hcase
    simp only [Option.some.injEq] at hhit
    subst hhit
    simp only at href
    subst href
    by_cases hsuf : stringsHasSuffix filepath "-2.html" = true
    · simp only [hsuf, Bool.not_true, Bool.false_eq_true, if_false, pure_eq_ok] at hrefeq
      cases hrefeq
    · have hsf : stringsHasSuffix filepath "-2.html" = false := by simpa using hsuf
      simp only [hsf, Bool.not_false, if_true] at hrefeq
      obtain ⟨linkHref, _, hr⟩ := (map_eq_ok _ _ _).mp hrefeq
      simp only [Option.some.injEq] at hr
      rw [← hr]
      exact ⟨rfl, rfl, rfl⟩

theorem findRefs_order (fuel : Nat) (h : Heap) (counter : Int) (top : Nat)
    (selectors : List Transform) (dashing : Dashing) (filepath : String)
    (headNode : Option Nat) (r : Run)
    (hhead : ∀ p, headNode = some p → p < h.length) (hwf : WellFormed h) (hac : Acyclic h)
    (hok : findRefs fuel h counter top selectors dashing filepath headNode = Except.ok r) :
    WellFormed r.heap ∧ Acyclic r.heap
      ∧ (r.visits.map (fun v => v.node)).Pairwise (DocBefore r.heap) := by
  unfold findRefs at hok
  obtain ⟨titleString, _, hok⟩ := (bind_eq_ok _ _ _).mp hok
  obtain ⟨hok2, _, V, hV, _, hpw⟩ :=
    (traverse_order headNode _
      (fun c r r2 hP hb =>
        visitNode_step fuel top titleString filepath headNode _ c r r2 hP hb) fuel).1
      top _ r ⟨hhead, hwf, hac⟩ hok
  simp only [List.nil_append] at hV
  rw [hV]
  exact ⟨hok2.2.1, hok2.2.2, hpw⟩

/-- When `findRefs` returns on a well-formed document, the rules in force
are the declared rules without those whose path filter rejects the file
path, in declaration order; the reference list is the concatenation, over the
visited nodes in visiting order, of the references of the matches at each
node; the visited nodes are pairwise in depth-first document order, so no
node comes twice; and the matches at one node are in strictly increasing rule
order, the reference of a match carrying the selector and type of its rule. -/
theorem findRefs_ordered (fuel : Nat) (h : Heap) (counter : Int)
    (top : Nat) (selectors : List Transform) (dashing : Dashing) (filepath : String)
    (headNode : Option Nat) (r : Run)
    (hhead : ∀ p, headNode = some p → p < h.length) (hwf : WellFormed h) (hac : Acyclic h)
    (hok : findRefs fuel h counter top selectors dashing filepath headNode = Except.ok r) :
    matchingSelectors selectors filepath = selectors.filter (pathMatches filepath)
      ∧ r.refs = r.visits.flatMap (fun v => v.hits.filterMap (fun k => k.ref))
      ∧ (r.visits.map (fun v => v.node)).Pairwise (DocBefore r.heap)
      ∧ (r.visits.map (fun v => v.node)).Nodup
      ∧ ∀ v ∈ r.visits,
          (v.hits.map (fun k => k.rule)).Pairwise (fun a b => a < b)
          ∧ ∀ k ∈ v.hits, ∀ ref, k.ref = some ref →
              ∃ sel, (selectors.filter (pathMatches filepath))[k.rule]? = some sel
                ∧ ref.selector = sel.CssSelector.Str ∧ ref.etype = sel.Typ := by
  have hfilter := matchingSelectors_eq_filter selectors filepath
  have hinv := findRefs_inv
    (fun _ _ k => ∀ ref, k.ref = some ref →
      ∃ sel, (selectors.filter (pathMatches filepath))[k.rule]? = some sel
        ∧ ref.selector = sel.CssSelector.Str ∧ ref.etype = sel.Typ)
    fuel h counter top selectors dashing filepath headNode
    (fun _ _ _ _ _ hΦ => hΦ)
    (fun titleString n idx sel r1 r2 k hsel _ hv ref href => by
      obtain ⟨_, _, hrule⟩ := visitRule_shape _ _ _ _ _ _ _ _ _ _ _ hv
      obtain ⟨h1, h2, _⟩ := visitRule_ref_rule _ _ _ _ _ _ _ _ _ _ _ hv ref href
      rw [hfilter] at hsel
      exact ⟨sel, by rw [hrule k rfl]; exact hsel, h1, h2⟩)
    r hhead hok
  obtain ⟨hwf2, hac2, hpw⟩ :=
    findRefs_order fuel h counter top selectors dashing filepath headNode r hhead hwf hac hok
  refine ⟨hfilter, hinv.2.2.1, hpw, ?_, ?_⟩
  · exact hpw.imp_of_mem (fun _ _ hd he => DocBefore.doc_irrefl hwf2 hac2 _ (he ▸ hd))
  · intro v hv
    exact ⟨(hinv.2.2.2 v hv).2, fun k hk => ((hinv.2.2.2 v hv).1 k hk).1⟩

/-! ## Theorems: the page processor -/

/-- When `parseHTML` returns, its reference list is the list `findRefs`
gives for the primary rules if that list is not empty; if it is empty,
`findRefs` is run once more, for the backup rules, on the heap and counter the
first run left, and the reference list is the list of that run alone. -/
theorem parseHTML_cases (lib : PathLib) (fuel : Nat) (h : Heap)
    (counter : Int) (top : Nat) (filepath : String) (dashing : Dashing) (res : parseResult)
    (hres : parseHTML lib fuel h counter top filepath dashing = Except.ok res) :
    ∃ headNode usedFiles h2 r1,
      prepare lib fuel h top filepath dashing = Except.ok (headNode, usedFiles, h2)
      ∧ findRefs fuel h2 counter top dashing.Selectors dashing filepath headNode = Except.ok r1
      ∧ (r1.refs ≠ [] → res.refs = r1.refs)
      ∧ (r1.refs = [] → ∃ r2,
          findRefs fuel r1.heap r1.counter top dashing.BackupSelectors dashing filepath headNode
            = Except.ok r2
          ∧ res.refs = r2.refs) := by
  unfold parseHTML at hres
  obtain ⟨⟨headNode, usedFiles, h2⟩, hprep, hres⟩ := (bind_eq_ok _ _ _).mp hres
  obtain ⟨r1, hr1, hres⟩ := (bind_eq_ok _ _ _).mp hres
  obtain ⟨r, hr, hres⟩ := (bind_eq_ok _ _ _).mp hres
  refine ⟨headNode, usedFiles, h2, r1, hprep, hr1, ?_, ?_⟩
  · intro hne
    have hlen : ¬ r1.refs.length = 0 := by
      simpa [List.length_eq_zero] using hne
    rw [if_neg hlen] at hr
    cases hr
    cases hres
    rfl
  · intro he
    have hlen : r1.refs.length = 0 := by simp [he]
    rw [if_pos hlen] at hr
    refine ⟨r, hr, ?_⟩
    cases hres
    rfl

/-! ## Theorems: enough fuel gives a result -/

theorem bind_ok_exists {α β : Type} (x : Except Fault α) (f : α → Except Fault β) (a : α)
    (hx : x = Except.ok a) (hf : ∃ b, f a = Except.ok b) : ∃ b, (x >>= f) = Except.ok b := by
  obtain ⟨b, hb⟩ := hf
  exact ⟨b, (bind_eq_ok _ _ _).mpr ⟨a, hx, hb⟩⟩

theorem deref_ok_of_lt (h : Heap) (n : Nat) (hn : n < h.length) :
    deref h n = Except.ok h[n] :=
  (deref_eq_ok _ _ _).mpr (List.getElem?_eq_some_iff.mpr ⟨hn, rfl⟩)

theorem foldlM_ok {β : Type} (step : β → Nat → Except Fault β) :
    ∀ (l : List Nat) (b : β), (∀ c ∈ l, ∀ b, ∃ b2, step b c = Except.ok b2) →
      ∃ r, l.foldlM step b = Except.ok r := by
  intro l
  induction l with
  | nil => intro b _; exact ⟨b, rfl⟩
  | cons c cs ih =>
    intro b hstep
    rw [List.foldlM_cons]
    obtain ⟨b2, hb2⟩ := hstep c (List.mem_cons_self _ _) b
    exact bind_ok_exists _ _ b2 hb2 (ih b2 (fun d hd => hstep d (List.mem_cons_of_mem _ hd)))

theorem firstSome_ok (f : Nat → Except Fault (Option Nat)) :
    ∀ l : List Nat, (∀ c ∈ l, ∃ r, f c = Except.ok r) →
      ∃ r, firstSome f l = Except.ok r := by
  intro l
  induction l with
  | nil => intro _; exact ⟨none, rfl⟩
  | cons c cs ih =>
    intro hstep
    unfold firstSome
    obtain ⟨r, hr⟩ := hstep c (List.mem_cons_self _ _)
    refine bind_ok_exists _ _ r hr ?_
    cases r with
    | some x => exact ⟨some x, rfl⟩
    | none => exact ih (fun d hd => hstep d (List.mem_cons_of_mem _ hd))

theorem firstSome_mem (f : Nat → Except Fault (Option Nat)) (P : Nat → Prop) :
    ∀ l : List Nat, (∀ c ∈ l, ∀ x, f c = Except.ok (some x) → P x) →
      ∀ x, firstSome f l = Except.ok (some x) → P x := by
  intro l
  induction l with
  | nil =>
    intro _ x h
    simp [firstSome, pure, Except.pure] at h
  | cons c cs ih =>
    intro hstep x h
    unfold firstSome at h
    obtain ⟨r, hr, h⟩ := (bind_eq_ok _ _ _).mp h
    cases r with
    | some y =>
      simp only [pure_eq_ok, Option.some.injEq] at h
      subst h
      exact hstep c (List.mem_cons_self _ _) y hr
    | none => exact ih (fun d hd => hstep d (List.mem_cons_of_mem _ hd)) x h

theorem wf_child (h : Heap) (hwf : WellFormed h) (n c : Nat) (hn : n < h.length)
    (hc : c ∈ childrenOf h n) : c < h.length ∧ parentOf h c = some n :=
  (hwf n hn).2.1 c hc

theorem text_terminates (lvl : Nat → Nat) (h : Heap) (hwf : WellFormed h)
    (hlay : Layered lvl h) :
    ∀ f n, n < h.length → lvl n < f → ∃ s, text h f n = Except.ok s := by
  intro f
  induction f with
  | zero => intro n _ hl; omega
  | succ f ih =>
    intro n hn hl
    unfold text
    refine bind_ok_exists _ _ _ (deref_ok_of_lt h n hn) ?_
    have hch : childrenOf h n = h[n].Children :=
      childrenOf_eq _ _ _ (List.getElem?_eq_some_iff.mpr ⟨hn, rfl⟩)
    have hfold := foldlM_ok
      (fun (b : String) (c : Nat) => do
        let cn ← deref h c
        if cn.Typ = NodeType.TextNode then pure (b ++ cn.Data)
        else if cn.Typ = NodeType.ElementNode then do
          let t ← text h f c
          pure (b ++ t)
        else pure b)
      h[n].Children ""
      (by
        intro c hc b
        obtain ⟨hclt, hcp⟩ := wf_child h hwf n c hn (hch ▸ hc)
        refine bind_ok_exists _ _ _ (deref_ok_of_lt h c hclt) ?_
        by_cases ht : h[c].Typ = NodeType.TextNode
        · rw [if_pos ht]
          exact ⟨_, rfl⟩
        · rw [if_neg ht]
          by_cases he : h[c].Typ = NodeType.ElementNode
          · rw [if_pos he]
            have := hlay c n hcp
            obtain ⟨t, ht2⟩ := ih c hclt (by omega)
            exact bind_ok_exists _ _ t ht2 ⟨_, rfl⟩
          · rw [if_neg he]
            exact ⟨_, rfl⟩)
    obtain ⟨b, hb⟩ := hfold
    exact bind_ok_exists _ _ b hb ⟨_, rfl⟩

theorem MatchFirst_terminates (m : Matcher) (lvl : Nat → Nat) (h : Heap)
    (hwf : WellFormed h) (hlay : Layered lvl h) :
    ∀ f n, n < h.length → lvl n < f →
      ∃ r, MatchFirst m h f n = Except.ok r ∧ ∀ x, r = some x → x < h.length := by
  intro f
  induction f with
  | zero => intro n _ hl; omega
  | succ f ih =>
    intro n hn hl
    unfold MatchFirst
    by_cases hm : m h n = true
    · rw [if_pos hm]
      exact ⟨some n, rfl, fun x hx => by cases hx; exact hn⟩
    · rw [if_neg hm]
      have hch : childrenOf h n = h[n].Children :=
        childrenOf_eq _ _ _ (List.getElem?_eq_some_iff.mpr ⟨hn, rfl⟩)
      have hsub : ∀ c ∈ h[n].Children, c < h.length ∧ lvl c < f := by
        intro c hc
        obtain ⟨hclt, hcp⟩ := wf_child h hwf n c hn (hch ▸ hc)
        have := hlay c n hcp
        exact ⟨hclt, by omega⟩
      obtain ⟨r, hr⟩ := firstSome_ok (MatchFirst m h f) h[n].Children
        (fun c hc => by
          obtain ⟨r, hr, _⟩ := ih c (hsub c hc).1 (hsub c hc).2
          exact ⟨r, hr⟩)
      refine ⟨r, (bind_eq_ok _ _ _).mpr ⟨_, deref_ok_of_lt h n hn, hr⟩, ?_⟩
      intro x hx
      subst hx
      exact firstSome_mem (MatchFirst m h f) (fun x => x < h.length) h[n].Children
        (fun c hc y hy => by
          obtain ⟨r2, hr2, hv⟩ := ih c (hsub c hc).1 (hsub c hc).2
          rw [hy] at hr2
          cases hr2
          exact hv y rfl) x hr

theorem Query_terminates (m : Matcher) (lvl : Nat → Nat) (h : Heap)
    (hwf : WellFormed h) (hlay : Layered lvl h) :
    ∀ f n, n < h.length → lvl n < f →
      ∃ r, Query m h f n = Except.ok r ∧ ∀ x, r = some x → x < h.length := by
  intro f
  induction f with
  | zero => intro n _ hl; omega
  | succ f ih =>
    intro n hn hl
    unfold Query
    have hch : childrenOf h n = h[n].Children :=
      childrenOf_eq _ _ _ (List.getElem?_eq_some_iff.mpr ⟨hn, rfl⟩)
    have hsub : ∀ c ∈ h[n].Children, c < h.length ∧ lvl c < f := by
      intro c hc
      obtain ⟨hclt, hcp⟩ := wf_child h hwf n c hn (hch ▸ hc)
      have := hlay c n hcp
      exact ⟨hclt, by omega⟩
    have hstep : ∀ c ∈ h[n].Children,
        ∃ r, (if m h c then pure (some c) else Query m h f c) = Except.ok r
          ∧ ∀ x, r = some x → x < h.length := by
      intro c hc
      by_cases hm : m h c = true
      · rw [if_pos hm]
        exact ⟨some c, rfl, fun x hx => by cases hx; exact (hsub c hc).1⟩
      · rw [if_neg hm]
        exact ih c (hsub c hc).1 (hsub c hc).2
    obtain ⟨r, hr⟩ := firstSome_ok
      (fun c => if m h c then pure (some c) else Query m h f c) h[n].Children
      (fun c hc => by
        obtain ⟨r, hr, _⟩ := hstep c hc
        exact ⟨r, hr⟩)
    refine ⟨r, (bind_eq_ok _ _ _).mpr ⟨_, deref_ok_of_lt h n hn, hr⟩, ?_⟩
    intro x hx
    subst hx
    exact firstSome_mem (fun c => if m h c then pure (some c) else Query m h f c)
      (fun x => x < h.length) h[n].Children
      (fun c hc y hy => by
        obtain ⟨r2, hr2, hv⟩ := hstep c hc
        have hy2 : (if m h c then pure (some c) else Query m h f c) = Except.ok (some y) := hy
        rw [hy2] at hr2
        cases hr2
        exact hv y rfl) x hr

theorem titleOf_terminates (lvl : Nat → Nat) (h : Heap) (top : Nat) (dashing : Dashing)
    (hwf : WellFormed h) (hlay : Layered lvl h) (htop : top < h.length) (K f : Nat)
    (hK : ∀ i, lvl i ≤ K) (hf : K < f) : ∃ s, titleOf f h top dashing = Except.ok s := by
  unfold titleOf
  cases dashing.CssSelectorForTitle with
  | none => exact ⟨"", rfl⟩
  | some ts =>
    simp only
    obtain ⟨r, hr, hv⟩ := MatchFirst_terminates ts.Match lvl h hwf hlay f top htop
      (lt_of_le_of_lt (hK top) hf)
    refine bind_ok_exists _ _ r hr ?_
    cases r with
    | none => exact ⟨"", rfl⟩
    | some title =>
      exact text_terminates lvl h hwf hlay f title (hv title rfl)
        (lt_of_le_of_lt (hK title) hf)

theorem searchPrefix_terminates (lvl : Nat → Nat) (h : Heap) (top : Nat) (sel : Transform)
    (textString : String)
    (hwf : WellFormed h) (hlay : Layered lvl h) (htop : top < h.length) (K f : Nat)
    (hK : ∀ i, lvl i ≤ K) (hf : K < f) :
    ∃ s, searchPrefix f h top sel textString = Except.ok s := by
  unfold searchPrefix
  cases sel.CssSelectorForSearchPrefix with
  | none => exact ⟨"", rfl⟩
  | some ps =>
    simp only
    obtain ⟨r, hr, hv⟩ := Query_terminates ps.Match lvl h hwf hlay f top htop
      (lt_of_le_of_lt (hK top) hf)
    refine bind_ok_exists _ _ r hr ?_
    cases r with
    | none => exact ⟨"", rfl⟩
    | some node =>
      simp only
      obtain ⟨t, ht⟩ := text_terminates lvl h hwf hlay f node (hv node rfl)
        (lt_of_le_of_lt (hK node) hf)
      refine bind_ok_exists _ _ t ht ?_
      by_cases hne : t ≠ textString
      · rw [if_pos hne]; exact ⟨_, rfl⟩
      · rw [if_neg hne]; exact ⟨_, rfl⟩

theorem AppendChild_ok (h : Heap) (n c : Nat) (cn nn : Node) (hc : h[c]? = some cn)
    (hp : cn.Parent = none) (hn : h[n]? = some nn) :
    ∃ h2, AppendChild h n c = Except.ok h2 := by
  unfold AppendChild
  refine bind_ok_exists _ _ cn ((deref_eq_ok _ _ _).mpr hc) ?_
  rw [if_neg (by simp [hp])]
  refine bind_ok_exists _ _ nn ((deref_eq_ok _ _ _).mpr hn) ?_
  have hclt : c < (h.set n { nn with Children := nn.Children ++ [c] }).length := by
    simpa using (List.getElem?_eq_some_iff.mp hc).1
  exact bind_ok_exists _ _ _ (deref_ok_of_lt _ c hclt) ⟨_, rfl⟩

theorem InsertBefore_ok (h : Heap) (n newChild oldChild : Nat) (cn nn : Node)
    (hc : h[newChild]? = some cn) (hp : cn.Parent = none) (hn : h[n]? = some nn)
    (hold : oldChild ∈ nn.Children) :
    ∃ h2, InsertBefore h n newChild oldChild = Except.ok h2 := by
  unfold InsertBefore
  refine bind_ok_exists _ _ cn ((deref_eq_ok _ _ _).mpr hc) ?_
  rw [if_neg (by simp [hp])]
  refine bind_ok_exists _ _ nn ((deref_eq_ok _ _ _).mpr hn) ?_
  obtain ⟨pre, post, hl, hpre⟩ : ∃ pre post, nn.Children = pre ++ oldChild :: post
      ∧ oldChild ∉ pre := by
    obtain ⟨pre, post, hl, hpre⟩ := List.eq_append_cons_of_mem hold
    exact ⟨pre, post, hl, hpre⟩
  rw [hl, insertBeforeIn_append _ _ _ _ hpre]
  simp only
  have hclt : newChild
      < (h.set n { nn with Children := pre ++ newChild :: oldChild :: post }).length := by
    simpa using (List.getElem?_eq_some_iff.mp hc).1
  exact bind_ok_exists _ _ _ (deref_ok_of_lt _ newChild hclt) ⟨_, rfl⟩

theorem inject_succeeds (h : Heap) (counter : Int) (head c p : Nat) (name etype : String)
    (root : Bool) (hhead : head < h.length)
    (hp : parentOf h c = some p) (hplt : p < h.length) (hmem : c ∈ childrenOf h p) :
    ∃ t, inject h counter (some head) c name etype root = Except.ok t := by
  unfold inject
  obtain ⟨ha, hl, _, hh⟩ := tocAnchorAndLinkNode_nodes h counter name etype root
  simp only
  refine bind_ok_exists _ _ head rfl ?_
  rw [hl, ha, hh]
  have hlink : (h ++ [anchorNodeOf (tocTarget counter name etype root),
      linkNodeOf (tocTarget counter name etype root)])[h.length + 1]?
      = some (linkNodeOf (tocTarget counter name etype root)) := by
    rw [getElem?_append_add]; rfl
  have hheadnd : (h ++ [anchorNodeOf (tocTarget counter name etype root),
      linkNodeOf (tocTarget counter name etype root)])[head]? = some h[head] := by
    rw [List.getElem?_append_left hhead]
    exact List.getElem?_eq_some_iff.mpr ⟨hhead, rfl⟩
  obtain ⟨h2, hap⟩ := AppendChild_ok _ head (h.length + 1) _ _ hlink rfl hheadnd
  refine bind_ok_exists _ _ h2 hap ?_
  obtain ⟨cn, hd, hcn, _, hhd, hlen2, h2head, h2link, h2rest⟩ :=
    AppendChild_lookup _ _ head (h.length + 1) (by omega) hap
  rw [hheadnd] at hhd
  cases hhd
  have hold2 : ∀ (i : Nat) (nd : Node), h[i]? = some nd →
      h2[i]? = some { nd with
        Children := if i = head then nd.Children ++ [h.length + 1] else nd.Children } := by
    intro i nd hi
    have hilt : i < h.length := (List.getElem?_eq_some_iff.mp hi).1
    by_cases hih : i = head
    · subst hih
      have : nd = h[i] := by
        rw [List.getElem?_eq_some_iff.mpr ⟨hilt, rfl⟩] at hi
        exact (Option.some.inj hi).symm
      subst this
      simpa using h2head
    · rw [h2rest i hih (by omega), List.getElem?_append_left hilt, hi]
      simp [hih]
  obtain ⟨nd, hnd, hpar⟩ := (parentOf_eq_some _ _ _).mp hp
  refine bind_ok_exists _ _ _ ((deref_eq_ok _ _ _).mpr (hold2 c nd hnd)) ?_
  simp only [hpar]
  refine bind_ok_exists _ _ p rfl ?_
  have hanchor2 : h2[h.length]? = some (anchorNodeOf (tocTarget counter name etype root)) := by
    rw [h2rest _ (by omega) (by omega), getElem?_append_length]
    rfl
  obtain ⟨pd, hpd⟩ : ∃ pd, h[p]? = some pd :=
    ⟨h[p], List.getElem?_eq_some_iff.mpr ⟨hplt, rfl⟩⟩
  have hmem2 : c ∈ (if p = head then pd.Children ++ [h.length + 1] else pd.Children) := by
    rw [childrenOf_eq _ _ _ hpd] at hmem
    split
    · exact List.mem_append_left _ hmem
    · exact hmem
  obtain ⟨h3, hins⟩ :=
    InsertBefore_ok h2 p h.length c _ _ hanchor2 rfl (hold2 p pd hpd) hmem2
  exact bind_ok_exists _ _ h3 hins ⟨_, rfl⟩

theorem childrenOf_of_ge (h : Heap) (i : Nat) (hi : h.length ≤ i) : childrenOf h i = [] := by
  simp [childrenOf, List.getElem?_eq_none hi]

theorem inject_sound (n0 : Nat) (lvl : Nat → Nat) (head top : Nat) (h : Heap) (counter : Int)
    (c p : Nat) (name etype : String) (root : Bool) (t : TocNodes)
    (hs : Sound n0 lvl head top h) (hp : parentOf h c = some p) (hmem : c ∈ childrenOf h p)
    (hok : inject h counter (some head) c name etype root = Except.ok t) :
    Sound n0 lvl head top t.heap ∧ Extends h t.heap ∧ t.heap.length = h.length + 2 := by
  obtain ⟨hwf, hlay, hn0, hleaf, hheadn0, htop, hl0, hlpos⟩ := hs
  have hc : c < h.length := parentOf_lt _ _ _ hp
  have hhead : ∀ q, some head = some q → q < h.length := fun q hq => by
    cases hq
    omega
  have hg := inject_grows h counter (some head) c name etype root t hc hhead hok
  obtain ⟨head2, nn, p2, pre, post, hhn, hnn, hpar, hplt, _, _, _, hlen, hanchor, hlink, _,
    hold⟩ := inject_lookup h counter (some head) c name etype root t hc hhead hok
  cases hhn
  have hpp : p2 = p := by
    obtain ⟨nd, hnd, hpd⟩ := (parentOf_eq_some _ _ _).mp hp
    rw [hnn] at hnd
    cases hnd
    rw [hpar] at hpd
    exact Option.some.inj hpd
  subst hpp
  have hpn0 : p2 < n0 := by
    by_contra hge
    have := hleaf p2 (by omega)
    rw [this] at hmem
    cases hmem
  have hpa : parentOf t.heap h.length = some p2 :=
    (parentOf_eq_some _ _ _).mpr ⟨_, hanchor, rfl⟩
  have hpl : parentOf t.heap (h.length + 1) = some head :=
    (parentOf_eq_some _ _ _).mpr ⟨_, hlink, rfl⟩
  refine ⟨⟨inject_wellFormed _ _ _ _ _ _ _ _ hc hhead hwf hok, ?_, by omega, ?_, hheadn0, htop,
    hl0, hlpos⟩, ⟨hg, ?_⟩, hlen⟩
  · intro x q hxq
    have hxlt := parentOf_lt _ _ _ hxq
    rw [hlen] at hxlt
    by_cases hxold : x < h.length
    · rw [parentOf_grows _ _ _ hg hxold] at hxq
      exact hlay x q hxq
    · have hcases : x = h.length ∨ x = h.length + 1 := by omega
      rcases hcases with rfl | rfl
      · rw [hpa] at hxq
        cases hxq
        rw [hl0 _ hn0]
        exact hlpos _ hpn0
      · rw [hpl] at hxq
        cases hxq
        rw [hl0 _ (by omega)]
        exact hlpos _ hheadn0
  · intro i hi
    by_cases hilt : i < h.length
    · have hind : h[i]? = some h[i] := List.getElem?_eq_some_iff.mpr ⟨hilt, rfl⟩
      have hch := hleaf i hi
      rw [childrenOf_eq _ _ _ hind] at hch
      rw [childrenOf_eq _ _ _ (hold i _ hind), hch]
      have h1 : ¬ i = head := by omega
      have h2 : ¬ i = p2 := by omega
      simp [childrenAfter, h1, h2]
    · by_cases hia : i = h.length
      · subst hia
        rw [childrenOf_eq _ _ _ hanchor]
        rfl
      · by_cases hil : i = h.length + 1
        · subst hil
          rw [childrenOf_eq _ _ _ hlink]
          rfl
        · exact childrenOf_of_ge _ _ (by omega)
  · intro i hilt x hx
    have hind : h[i]? = some h[i] := List.getElem?_eq_some_iff.mpr ⟨hilt, rfl⟩
    rw [childrenOf_eq _ _ _ (hold i _ hind)] at hx
    rw [childrenOf_eq _ _ _ hind]
    rcases childrenAfter_mem _ _ _ _ _ _ _ _ hx with h1 | ⟨h1, _⟩ | ⟨h1, _⟩
    · exact Or.inl h1
    · exact Or.inr (by omega)
    · exact Or.inr (by omega)

theorem isLink_grows (h h2 : Heap) (head y : Nat) (hg : Grows h h2)
    (hleaf : childrenOf h2 y = []) (hl : isLink h head y) : isLink h2 head y := by
  obtain ⟨target, ht⟩ := hl
  obtain ⟨nd2, hnd2, hp, hty, hd, ha, _⟩ := hg y _ ht
  rw [childrenOf_eq _ _ _ hnd2] at hleaf
  refine ⟨target, ?_⟩
  rw [hnd2]
  congr 1
  cases nd2
  simp only [attachedTo, linkNodeOf] at *
  simp only [hp, hty, hd, ha, hleaf]

theorem InSub_grows {h h2 : Heap} {n y : Nat} (hg : Grows h h2) (hi : InSub h n y) :
    InSub h2 n y := by
  obtain ⟨c, hc, hb⟩ := hi
  exact ⟨c, parentOf_grows_some _ _ _ _ hg hc, hb.below_grows hg⟩

theorem inject_made (h : Heap) (counter : Int) (head c p : Nat) (name etype : String)
    (root : Bool) (t : TocNodes) (hhead : head < h.length) (hp : parentOf h c = some p)
    (hok : inject h counter (some head) c name etype root = Except.ok t) :
    MadeAt head p c h.length t.heap := by
  have hc : c < h.length := parentOf_lt _ _ _ hp
  have hhead2 : ∀ q, some head = some q → q < h.length := fun q hq => by
    cases hq
    exact hhead
  obtain ⟨head2, nn, p2, pre, post, hhn, hnn, hpar, hplt, _, _, _, hlen, hanchor, hlink, hkids,
    hold⟩ := inject_lookup h counter (some head) c name etype root t hc hhead2 hok
  cases hhn
  have hpp : p2 = p := by
    obtain ⟨nd, hnd, hpd⟩ := (parentOf_eq_some _ _ _).mp hp
    rw [hnn] at hnd
    cases hnd
    rw [hpar] at hpd
    exact Option.some.inj hpd
  subst hpp
  intro y hy hylt
  rw [hlen] at hylt
  have hcases : y = h.length ∨ y = h.length + 1 := by omega
  rcases hcases with rfl | rfl
  · refine Or.inr ⟨(parentOf_eq_some _ _ _).mpr ⟨_, hanchor, rfl⟩, ?_⟩
    have hpnd : h[p2]? = some h[p2] := List.getElem?_eq_some_iff.mpr ⟨hplt, rfl⟩
    refine ⟨p2, _, hold p2 _ hpnd, ?_⟩
    show [h.length, c].Sublist (childrenAfter head (h.length + 1) p2 h.length c p2 h[p2].Children)
    rw [(hkids _ hpnd).2.2]
    exact List.Sublist.trans
      (List.Sublist.cons₂ _ (List.Sublist.cons₂ _ (List.nil_sublist _)))
      (List.sublist_append_right pre _)
  · exact Or.inl ⟨_, hlink⟩

theorem MadeAt_trans (head p c len : Nat) (h1 h2 : Heap) (hg : Grows h1 h2)
    (hleaf : ∀ y, len ≤ y → childrenOf h2 y = [])
    (m1 : MadeAt head p c len h1) (m2 : MadeAt head p c h1.length h2) :
    MadeAt head p c len h2 := by
  intro y hy hylt
  by_cases hy1 : y < h1.length
  · rcases m1 y hy hy1 with hl | ⟨hpar, hsib⟩
    · exact Or.inl (isLink_grows _ _ _ _ hg (hleaf y hy) hl)
    · exact Or.inr ⟨parentOf_grows_some _ _ _ _ hg hpar, hsib.sib_grows hg⟩
  · exact m2 y (by omega) hylt

theorem Extends_refl (h : Heap) : Extends h h :=
  ⟨Grows.grows_refl h, fun _ _ _ hx => Or.inl hx⟩

theorem Extends_trans {h1 h2 h3 : Heap} (h12 : Extends h1 h2) (h23 : Extends h2 h3) :
    Extends h1 h3 := by
  refine ⟨h12.1.grows_trans h23.1, ?_⟩
  intro i hi x hx
  have hle := h12.1.grows_length_le
  rcases h23.2 i (by omega) x hx with h | h
  · exact h12.2 i hi x h
  · exact Or.inr (by omega)

theorem attr_ok_of_lt (h : Heap) (n : Nat) (key : String) (hn : n < h.length) :
    ∃ v, attr h n key = Except.ok v := by
  unfold attr
  exact bind_ok_exists _ _ _ (deref_ok_of_lt h n hn) ⟨_, rfl⟩

theorem linkHrefOf_ok_of_lt (h : Heap) (n : Nat) (hn : n < h.length) :
    ∃ v, linkHrefOf h n = Except.ok v := by
  unfold linkHrefOf
  obtain ⟨v, hv⟩ := attr_ok_of_lt h n "href" hn
  refine bind_ok_exists _ _ v hv ?_
  split
  · obtain ⟨w, hw⟩ := attr_ok_of_lt h n "id" hn
    exact ⟨_, (map_eq_ok _ _ _).mpr ⟨w, hw, rfl⟩⟩
  · exact ⟨_, rfl⟩

theorem visitRule_total (n0 : Nat) (lvl : Nat → Nat) (head top F K : Nat)
    (hK : ∀ i, lvl i ≤ K) (hF : K < F) (titleString filepath : String) (c p idx : Nat)
    (sel : Transform) (r : Run) (hs : Sound n0 lvl head top r.heap)
    (hp : parentOf r.heap c = some p) (hmem : c ∈ childrenOf r.heap p)
    (hfr : n0 ≤ c → sel.CssSelector.Match r.heap c = false) :
    ∃ r2 hit, visitRule F top titleString filepath (some head) c idx sel r
        = Except.ok (r2, hit)
      ∧ Sound n0 lvl head top r2.heap ∧ Extends r.heap r2.heap
      ∧ r2.heap.length ≤ r.heap.length + 2 ∧ (n0 ≤ c → r2.heap = r.heap)
      ∧ MadeAt head p c r.heap.length r2.heap := by
  have hc : c < r.heap.length := parentOf_lt _ _ _ hp
  obtain ⟨hwf, hlay, hn0, hleaf, hheadn0, htop, hl0, hlpos⟩ := hs
  have hs : Sound n0 lvl head top r.heap := ⟨hwf, hlay, hn0, hleaf, hheadn0, htop, hl0, hlpos⟩
  have hplt : p < r.heap.length := by
    have := (hwf c hc).2.2
    rw [hp] at this
    exact this
  have hex : ∃ x, visitRule F top titleString filepath (some head) c idx sel r
      = Except.ok x := by
    unfold visitRule
    by_cases hm : (!sel.CssSelector.Match r.heap c) = true
    · rw [if_pos hm]
      exact ⟨_, rfl⟩
    · rw [if_neg hm]
      obtain ⟨textString, htext⟩ := text_terminates lvl r.heap hwf hlay F c hc
        (lt_of_le_of_lt (hK c) hF)
      refine bind_ok_exists _ _ textString htext ?_
      by_cases hreq : (!requireTextOk sel textString) = true
      · rw [if_pos hreq]
        exact ⟨_, rfl⟩
      · rw [if_neg hreq]
        by_cases hskip : skipTextHit sel textString = true
        · rw [if_pos hskip]
          exact ⟨_, rfl⟩
        · rw [if_neg hskip]
          have hname : ∃ name, (if sel.Attribute ≠ "" then attr r.heap c sel.Attribute
              else pure textString) = Except.ok name := by
            split
            · exact attr_ok_of_lt _ _ _ hc
            · exact ⟨_, rfl⟩
          obtain ⟨name, hname⟩ := hname
          refine bind_ok_exists _ _ name hname ?_
          obtain ⟨pfx, hpfx⟩ := searchPrefix_terminates lvl r.heap top sel textString hwf hlay
            (by omega) K F hK hF
          refine bind_ok_exists _ _ pfx hpfx ?_
          have href : ∃ ref, (if !stringsHasSuffix filepath "-2.html" then
                (linkHrefOf r.heap c).map (fun linkHref =>
                  some
                    { selector := sel.CssSelector.Str, name := pfx ++ name, etype := sel.Typ,
                      href := filepath ++ linkHref, menuDescription := titleString : reference })
              else pure none) = Except.ok ref := by
            split
            · obtain ⟨v, hv⟩ := linkHrefOf_ok_of_lt r.heap c hc
              exact ⟨_, (map_eq_ok _ _ _).mpr ⟨v, hv, rfl⟩⟩
            · exact ⟨_, rfl⟩
          obtain ⟨ref, href⟩ := href
          refine bind_ok_exists _ _ ref href ?_
          obtain ⟨t, ht⟩ := inject_succeeds r.heap r.counter head c p name sel.Typ sel.TOCRoot
            (by omega) hp hplt hmem
          exact bind_ok_exists _ _ t ht ⟨_, rfl⟩
  obtain ⟨⟨r2, hit⟩, hok⟩ := hex
  refine ⟨r2, hit, hok, ?_⟩
  rcases visitRule_cases _ _ _ _ _ _ _ _ _ _ _ hok with ⟨_, hr, _⟩ | ⟨hmatch, hcase⟩
  · subst hr
    exact ⟨hs, Extends_refl _, by omega, fun _ => rfl, fun y h1 h2 => by omega⟩
  · obtain ⟨textString, name, pfx, ref2, t, _, _, _, _, _, _, hinj, hr, _⟩ := hcase
    obtain ⟨hs2, hext, hlen⟩ := inject_sound n0 lvl head top r.heap r.counter c p name sel.Typ
      sel.TOCRoot t hs hp hmem hinj
    have hmade := inject_made r.heap r.counter head c p name sel.Typ sel.TOCRoot t (by omega)
      hp hinj
    subst hr
    refine ⟨hs2, hext, by simp only; omega, ?_, hmade⟩
    intro hge
    rw [hfr hge] at hmatch
    cases hmatch

theorem childrenOf_mem_grows (h h2 : Heap) (i x : Nat) (hg : Grows h h2)
    (hx : x ∈ childrenOf h i) : x ∈ childrenOf h2 i := by
  by_cases hi : i < h.length
  · have hind : h[i]? = some h[i] := List.getElem?_eq_some_iff.mpr ⟨hi, rfl⟩
    obtain ⟨nd2, hnd2, _, _, _, _, hsub⟩ := hg i _ hind
    rw [childrenOf_eq _ _ _ hind] at hx
    rw [childrenOf_eq _ _ _ hnd2]
    exact hsub.subset hx
  · rw [childrenOf_of_ge _ _ (by omega)] at hx
    cases hx

theorem visitRules_total (n0 : Nat) (lvl : Nat → Nat) (head top F K : Nat)
    (hK : ∀ i, lvl i ≤ K) (hF : K < F) (titleString filepath : String) (c p : Nat) :
    ∀ (sels : List Transform) (idx : Nat) (r : Run),
      Sound n0 lvl head top r.heap → parentOf r.heap c = some p → c ∈ childrenOf r.heap p →
      (n0 ≤ c → ∀ sel ∈ sels, sel.CssSelector.Match r.heap c = false) →
      ∃ r2 hits, visitRules F top titleString filepath (some head) c idx sels r
          = Except.ok (r2, hits)
        ∧ Sound n0 lvl head top r2.heap ∧ Extends r.heap r2.heap
        ∧ r2.heap.length ≤ r.heap.length + 2 * sels.length
        ∧ (n0 ≤ c → r2.heap = r.heap) ∧ r2.visits = r.visits
        ∧ MadeAt head p c r.heap.length r2.heap := by
  intro sels
  induction sels with
  | nil =>
    intro idx r hs _ _ _
    exact ⟨r, [], rfl, hs, Extends_refl _, by simp, fun _ => rfl, rfl,
      fun y h1 h2 => by omega⟩
  | cons sel sels ih =>
    intro idx r hs hp hmem hfr
    obtain ⟨r1, hit, h1, hs1, hext1, hlen1, hsame1, hmade1⟩ :=
      visitRule_total n0 lvl head top F K hK hF titleString filepath c p idx sel r hs hp hmem
        (fun hge => hfr hge sel (List.mem_cons_self _ _))
    have hp1 : parentOf r1.heap c = some p := parentOf_grows_some _ _ _ _ hext1.1 hp
    have hmem1 : c ∈ childrenOf r1.heap p := childrenOf_mem_grows _ _ _ _ hext1.1 hmem
    obtain ⟨r2, hits, h2, hs2, hext2, hlen2, hsame2, hv2, hmade2⟩ :=
      ih (idx + 1) r1 hs1 hp1 hmem1 (fun hge s hs => by
        rw [hsame1 hge]
        exact hfr hge s (List.mem_cons_of_mem _ hs))
    have hv1 := (visitRule_shape _ _ _ _ _ _ _ _ _ _ _ h1).1
    refine ⟨r2, hit.toList ++ hits, ?_, hs2, Extends_trans hext1 hext2, ?_, ?_, hv2.trans hv1,
      ?_⟩
    · unfold visitRules
      exact (bind_eq_ok _ _ _).mpr ⟨(r1, hit), h1,
        (bind_eq_ok _ _ _).mpr ⟨(r2, hits), h2, rfl⟩⟩
    · simp only [List.length_cons]
      omega
    · intro hge
      rw [hsame2 hge, hsame1 hge]
    · exact MadeAt_trans head p c _ _ _ hext2.1
        (fun y hy => hs2.2.2.2.1 y (le_trans hs.2.2.1 hy)) hmade1 hmade2

theorem visitNode_total (n0 : Nat) (lvl : Nat → Nat) (head top F K : Nat)
    (hK : ∀ i, lvl i ≤ K) (hF : K < F) (titleString filepath : String)
    (sels : List Transform) (c p : Nat) (r : Run)
    (hs : Sound n0 lvl head top r.heap) (hp : parentOf r.heap c = some p)
    (hmem : c ∈ childrenOf r.heap p) (hfresh : Fresh head sels)
    (hlink : n0 ≤ c → isLink r.heap head c) :
    ∃ r2, visitNode F top titleString filepath (some head) sels c r = Except.ok r2
      ∧ Sound n0 lvl head top r2.heap ∧ Extends r.heap r2.heap
      ∧ r2.heap.length ≤ r.heap.length + 2 * sels.length
      ∧ (n0 ≤ c → r2.heap = r.heap)
      ∧ MadeAt head p c r.heap.length r2.heap
      ∧ ∃ hits, r2.visits = r.visits ++ [{ node := c, hits := hits }] := by
  obtain ⟨r1, hits, h1, hs1, hext1, hlen1, hsame1, hv1, hmade1⟩ :=
    visitRules_total n0 lvl head top F K hK hF titleString filepath c p sels 0 r hs hp hmem
      (fun hge s hs => hfresh s hs r.heap c (hlink hge))
  refine ⟨{ r1 with visits := r1.visits ++ [{ node := c, hits := hits }] }, ?_, hs1, hext1,
    hlen1, hsame1, hmade1, hits, by rw [hv1]⟩
  unfold visitNode
  exact (bind_eq_ok _ _ _).mpr ⟨(r1, hits), h1, rfl⟩

theorem filter_eq_of_sublist (P : Nat → Bool) :
    ∀ {l l2 : List Nat}, l.Sublist l2 → l2.Nodup → (∀ a ∈ l2, a ∈ l ∨ P a = false) →
      (∀ a ∈ l, P a = true) → l2.filter P = l := by
  intro l l2 hsub
  induction hsub with
  | slnil => intro _ _ _; rfl
  | cons a hsub ih =>
    rename_i l1 l3
    intro hnd hnew hall
    rw [List.nodup_cons] at hnd
    have hal : a ∉ l1 := fun ha => hnd.1 (hsub.subset ha)
    have hpa : P a = false := by
      rcases hnew a (List.mem_cons_self _ _) with h | h
      · exact absurd h hal
      · exact h
    rw [List.filter_cons_of_neg (by simp [hpa])]
    exact ih hnd.2 (fun b hb => hnew b (List.mem_cons_of_mem _ hb)) hall
  | cons₂ a hsub ih =>
    rename_i l1 l3
    intro hnd hnew hall
    rw [List.nodup_cons] at hnd
    rw [List.filter_cons_of_pos (hall a (List.mem_cons_self _ _))]
    congr 1
    refine ih hnd.2 ?_ (fun b hb => hall b (List.mem_cons_of_mem _ hb))
    intro b hb
    rcases hnew b (List.mem_cons_of_mem _ hb) with h | h
    · rw [List.mem_cons] at h
      rcases h with h | h
      · subst h
        exact absurd hb hnd.1
      · exact Or.inl h
    · exact Or.inr h

theorem Below_lt {h : Heap} {x y : Nat} (hwf : WellFormed h) (hb : Below h x y)
    (hy : y < h.length) : x < h.length := by
  induction hb with
  | refl => exact hy
  | step hp _ ih =>
    have := (hwf _ hy).2.2
    rw [hp] at this
    exact ih this

theorem Below_reflect {h h2 : Heap} {x y : Nat} (hwf : WellFormed h) (hg : Grows h h2)
    (hb : Below h2 x y) (hy : y < h.length) : Below h x y := by
  induction hb with
  | refl => exact Below.refl _
  | step hp _ ih =>
    rw [parentOf_grows _ _ _ hg hy] at hp
    have := (hwf _ hy).2.2
    rw [hp] at this
    exact Below.step hp (ih this)

theorem SibBefore_reflect {h h2 : Heap} {c x : Nat} (hwf : WellFormed h)
    (hwf2 : WellFormed h2) (hext : Extends h h2) (hs : SibBefore h2 c x)
    (hc : c < h.length) (hx : x < h.length) : SibBefore h c x := by
  obtain ⟨p, nd2, hnd2, hsub, hnodup, hpc, _⟩ := hs.sib_parents hwf2
  rw [parentOf_grows _ _ _ hext.1 hc] at hpc
  have hplt : p < h.length := by
    have := (hwf _ hc).2.2
    rw [hpc] at this
    exact this
  have hpnd : h[p]? = some h[p] := List.getElem?_eq_some_iff.mpr ⟨hplt, rfl⟩
  obtain ⟨nd3, hnd3, _, _, _, _, hsub2⟩ := hext.1 p _ hpnd
  rw [hnd2] at hnd3
  cases hnd3
  have hfilter : nd2.Children.filter (fun a => decide (a < h.length)) = h[p].Children := by
    apply filter_eq_of_sublist _ hsub2 hnodup
    · intro a ha
      have := hext.2 p hplt a (by rw [childrenOf_eq _ _ _ hnd2]; exact ha)
      rw [childrenOf_eq _ _ _ hpnd] at this
      rcases this with h1 | h1
      · exact Or.inl h1
      · exact Or.inr (by simpa using h1)
    · intro a ha
      have := ((hwf p hplt).2.1 a (by rw [childrenOf_eq _ _ _ hpnd]; exact ha)).1
      simpa using this
  refine ⟨p, h[p], hpnd, ?_⟩
  rw [← hfilter]
  have := hsub.filter (fun a => decide (a < h.length))
  simpa [hc, hx] using this

theorem NextSibling_total (h : Heap) (hwf : WellFormed h) (c p : Nat)
    (hp : parentOf h c = some p) :
    ∃ nx, NextSibling h c = Except.ok nx
      ∧ ∀ x, nx = some x → parentOf h x = some p ∧ x ∈ childrenOf h p ∧ SibBefore h c x := by
  have hc := parentOf_lt _ _ _ hp
  have hplt : p < h.length := by
    have := (hwf c hc).2.2
    rw [hp] at this
    exact this
  obtain ⟨nd, hnd, hpar⟩ := (parentOf_eq_some _ _ _).mp hp
  have hpnd : h[p]? = some h[p] := List.getElem?_eq_some_iff.mpr ⟨hplt, rfl⟩
  refine ⟨nextIn c h[p].Children, ?_, ?_⟩
  · unfold NextSibling
    refine (bind_eq_ok _ _ _).mpr ⟨nd, (deref_eq_ok _ _ _).mpr hnd, ?_⟩
    rw [hpar]
    exact (bind_eq_ok _ _ _).mpr ⟨_, deref_ok_of_lt h p hplt, rfl⟩
  · intro x hx
    have hsub := nextIn_sublist _ _ _ hx
    have hxmem : x ∈ childrenOf h p := by
      rw [childrenOf_eq _ _ _ hpnd]
      exact hsub.subset (by simp)
    exact ⟨((hwf p hplt).2.1 x hxmem).2, hxmem, p, _, hpnd, hsub⟩

theorem FirstChild_total (h : Heap) (hwf : WellFormed h) (n : Nat) (hn : n < h.length) :
    ∃ fc, FirstChild h n = Except.ok fc
      ∧ (fc = none → childrenOf h n = [])
      ∧ ∀ c, fc = some c → parentOf h c = some n ∧ c ∈ childrenOf h n
          ∧ ∀ x, x ∈ childrenOf h n → x = c ∨ SibBefore h c x := by
  have hnd : h[n]? = some h[n] := List.getElem?_eq_some_iff.mpr ⟨hn, rfl⟩
  refine ⟨h[n].Children.head?, ?_, ?_, ?_⟩
  · unfold FirstChild
    exact (bind_eq_ok _ _ _).mpr ⟨_, deref_ok_of_lt h n hn, rfl⟩
  · intro he
    rw [childrenOf_eq _ _ _ hnd]
    exact List.head?_eq_none_iff.mp he
  · intro c hc
    rw [childrenOf_eq _ _ _ hnd]
    cases hl : h[n].Children with
    | nil => rw [hl] at hc; cases hc
    | cons a as =>
      rw [hl] at hc
      simp only [List.head?_cons, Option.some.injEq] at hc
      subst hc
      have hmem : a ∈ childrenOf h n := by
        rw [childrenOf_eq _ _ _ hnd, hl]
        exact List.mem_cons_self _ _
      refine ⟨((hwf n hn).2.1 a hmem).2, List.mem_cons_self _ _, ?_⟩
      intro x hx
      rw [List.mem_cons] at hx
      rcases hx with rfl | hx
      · exact Or.inl rfl
      · refine Or.inr ⟨n, _, hnd, ?_⟩
        rw [hl]
        exact List.Sublist.cons₂ _ (List.singleton_sublist.mpr hx)

theorem nextIn_complete (c x : Nat) :
    ∀ l : List Nat, l.Nodup → [c, x].Sublist l →
      ∃ c2, nextIn c l = some c2 ∧ (x = c2 ∨ [c2, x].Sublist l) := by
  intro l
  induction l with
  | nil => intro _ h; cases h
  | cons a as ih =>
    intro hnd hsub
    rw [List.nodup_cons] at hnd
    by_cases hac : a = c
    · subst hac
      have hx : x ∈ as := by
        cases hsub with
        | cons _ h => exact absurd (h.subset (List.mem_cons_self _ _)) hnd.1
        | cons₂ _ h => exact h.subset (List.mem_cons_self _ _)
      cases as with
      | nil => cases hx
      | cons b bs =>
        refine ⟨b, by simp [nextIn], ?_⟩
        rw [List.mem_cons] at hx
        rcases hx with rfl | hx
        · exact Or.inl rfl
        · exact Or.inr (List.Sublist.cons _
            (List.Sublist.cons₂ _ (List.singleton_sublist.mpr hx)))
    · have hsub2 : [c, x].Sublist as := by
        cases hsub with
        | cons _ h => exact h
        | cons₂ _ h => exact absurd rfl hac
      obtain ⟨c2, hc2, hx⟩ := ih hnd.2 hsub2
      refine ⟨c2, by simp [nextIn, hac, hc2], ?_⟩
      rcases hx with rfl | hx
      · exact Or.inl rfl
      · exact Or.inr (List.Sublist.cons _ hx)

theorem NextSibling_complete (h : Heap) (hwf : WellFormed h) (c x : Nat) (nx : Option Nat)
    (hok : NextSibling h c = Except.ok nx) (hs : SibBefore h c x) :
    ∃ c2, nx = some c2 ∧ (x = c2 ∨ SibBefore h c2 x) := by
  obtain ⟨p, nd, hnd, hsub, hnodup, hpc, _⟩ := hs.sib_parents hwf
  obtain ⟨cn, hcn, hcp⟩ := (parentOf_eq_some _ _ _).mp hpc
  unfold NextSibling at hok
  obtain ⟨cn2, hcn2, hok⟩ := (bind_eq_ok _ _ _).mp hok
  rw [deref_eq_ok] at hcn2
  rw [hcn] at hcn2
  cases hcn2
  rw [hcp] at hok
  obtain ⟨pn, hpn, hok⟩ := (bind_eq_ok _ _ _).mp hok
  rw [deref_eq_ok] at hpn
  rw [hnd] at hpn
  cases hpn
  rw [pure_eq_ok] at hok
  obtain ⟨c2, hc2, hx⟩ := nextIn_complete c x nd.Children hnodup hsub
  refine ⟨c2, by rw [← hok, hc2], ?_⟩
  rcases hx with rfl | hx
  · exact Or.inl rfl
  · exact Or.inr ⟨p, nd, hnd, hx⟩

theorem sum_three_le (f : Nat → Nat) (s A L : Finset Nat) (c : Nat) (hc : c ∈ s)
    (hA : A ⊆ s) (hL : L ⊆ s) (hcA : c ∉ A) (hcL : c ∉ L) (hAL : Disjoint A L) :
    f c + A.sum f + L.sum f ≤ s.sum f := by
  have hsub : insert c (A ∪ L) ⊆ s := by
    intro y hy
    rw [Finset.mem_insert, Finset.mem_union] at hy
    rcases hy with rfl | h | h
    · exact hc
    · exact hA h
    · exact hL h
  have h1 : (insert c (A ∪ L)).sum f ≤ s.sum f := Finset.sum_le_sum_of_subset hsub
  have hnot : c ∉ A ∪ L := by
    rw [Finset.mem_union]
    exact fun h => h.elim hcA hcL
  have h2 : (insert c (A ∪ L)).sum f = f c + (A ∪ L).sum f := Finset.sum_insert hnot
  have h3 : (A ∪ L).sum f = A.sum f + L.sum f := Finset.sum_union hAL
  omega

theorem sum_union_le_add (f : Nat → Nat) (A I : Finset Nat) :
    (A ∪ I).sum f ≤ A.sum f + I.sum f := by
  have : (A ∪ I).sum f + (A ∩ I).sum f = A.sum f + I.sum f := Finset.sum_union_inter
  omega

theorem nodeCost_sum_Ico (n0 w a b : Nat) (h : n0 ≤ a) :
    (Finset.Ico a b).sum (nodeCost n0 w) = 3 * (b - a) := by
  rw [Finset.sum_congr rfl (g := fun _ => 3)]
  · simp [mul_comm]
  · intro y hy
    rw [Finset.mem_Ico] at hy
    unfold nodeCost
    rw [if_neg (by omega)]

theorem isOld_sum_Ico (n0 a b : Nat) (h : n0 ≤ a) :
    (Finset.Ico a b).sum (isOld n0) = 0 := by
  rw [Finset.sum_congr rfl (g := fun _ => 0)]
  · simp
  · intro y hy
    rw [Finset.mem_Ico] at hy
    unfold isOld
    rw [if_neg (by omega)]

theorem isOld_le_nodeCost (n0 w : Nat) (s : Finset Nat) :
    w * s.sum (isOld n0) ≤ s.sum (nodeCost n0 w) := by
  rw [Finset.mul_sum]
  apply Finset.sum_le_sum
  intro y _
  unfold isOld nodeCost
  split <;> simp

theorem Sound.acyclic {n0 : Nat} {lvl : Nat → Nat} {head top : Nat} {h : Heap}
    (hs : Sound n0 lvl head top h) : Acyclic h := ⟨lvl, hs.2.1⟩

theorem SibBefore.sib_ne {h : Heap} {a b : Nat} (hwf : WellFormed h) (hs : SibBefore h a b) :
    a ≠ b := by
  obtain ⟨p, nd, _, hsub, hnodup, _, _⟩ := hs.sib_parents hwf
  intro he
  subst he
  have := hsub.nodup hnodup
  simp at this

theorem Below_right_lt {h : Heap} {x y : Nat} (hb : Below h x y) (hx : x < h.length) :
    y < h.length := by
  cases hb with
  | refl => exact hx
  | step hp _ => exact parentOf_lt _ _ _ hp

theorem childNodes_none_ok (body : Nat → Run → Except Fault Run) (fuel : Nat) (r : Run) :
    childNodes body (fuel + 1) none r = Except.ok r := by
  unfold childNodes
  rfl

theorem Under_grows {h h2 : Heap} {n y : Nat} (hg : Grows h h2) (hu : Under h n y) :
    Under h2 n y := by
  induction hu with
  | child hc => exact Under.child (childrenOf_mem_grows _ _ _ _ hg hc)
  | step hc _ ih => exact Under.step (childrenOf_mem_grows _ _ _ _ hg hc) ih

theorem Under_first {h : Heap} {n y : Nat} (hu : Under h n y) :
    ∃ c, c ∈ childrenOf h n ∧ (c = y ∨ Under h c y) := by
  cases hu with
  | child hc => exact ⟨_, hc, Or.inl rfl⟩
  | step hc hu2 => exact ⟨_, hc, Or.inr hu2⟩

theorem traverse_total (n0 : Nat) (lvl : Nat → Nat) (head top F K : Nat)
    (hK : ∀ i, lvl i ≤ K) (hF : K < F) (titleString filepath : String)
    (sels : List Transform) (hfresh : Fresh head sels) :
    ∀ f,
      (∀ n r (s : Finset Nat), Sound n0 lvl head top r.heap → n < r.heap.length →
        (∀ y, InSub r.heap n y → y ∈ s) →
        (∀ y, InSub r.heap n y → n0 ≤ y → isLink r.heap head y) →
        2 + s.sum (nodeCost n0 (6 * sels.length + 3)) ≤ f →
        Done n0 lvl head top sels.length s n (Under r.heap n) r
          (descendants (visitNode F top titleString filepath (some head) sels) f n r))
      ∧ (∀ c p r (s : Finset Nat), Sound n0 lvl head top r.heap →
        parentOf r.heap c = some p → c ∈ childrenOf r.heap p →
        (∀ y, InReg r.heap c y → y ∈ s) →
        (∀ y, InReg r.heap c y → n0 ≤ y → isLink r.heap head y) →
        1 + s.sum (nodeCost n0 (6 * sels.length + 3)) ≤ f →
        Done n0 lvl head top sels.length s p (Ahead r.heap c) r
          (childNodes (visitNode F top titleString filepath (some head) sels) f (some c) r)) := by
  classical
  intro f
  induction f with
  | zero => exact ⟨fun _ _ _ _ _ _ _ hf => by omega, fun _ _ _ _ _ _ _ _ _ hf => by omega⟩
  | succ f ih =>
    obtain ⟨ihD, ihC⟩ := ih
    constructor
    · intro n r s hs hn hcov hkind hf
      obtain ⟨fc, hfc, hnone, hsome⟩ := FirstChild_total r.heap hs.1 n hn
      cases fc with
      | none =>
        obtain ⟨f2, rfl⟩ : ∃ f2, f = f2 + 1 := ⟨f - 1, by omega⟩
        refine ⟨r, ?_, hs, Extends_refl _, by omega, fun y h1 h2 => by omega, fun _ hv => hv, ?_⟩
        · unfold descendants
          exact (bind_eq_ok _ _ _).mpr ⟨none, hfc, childNodes_none_ok _ _ _⟩
        · intro y hu
          obtain ⟨c, hc, _⟩ := Under_first hu
          rw [hnone rfl] at hc
          cases hc
      | some c =>
        obtain ⟨hpc, hmem, hall⟩ := hsome c rfl
        have hsub : ∀ y, InReg r.heap c y → InSub r.heap n y := by
          intro y ⟨x, hx, hb⟩
          refine ⟨x, ?_, hb⟩
          rcases hx with rfl | hx
          · exact hpc
          · obtain ⟨q, _, _, _, _, hqc, hqx⟩ := hx.sib_parents hs.1
            rw [hpc] at hqc
            cases hqc
            exact hqx
        obtain ⟨r2, h2, hs2, hext2, hlen2, hmade2, hvis2, hreg2⟩ := ihC c n r s hs hpc hmem
          (fun y hy => hcov y (hsub y hy)) (fun y hy => hkind y (hsub y hy)) (by omega)
        refine ⟨r2, ?_, hs2, hext2, hlen2, hmade2, hvis2, ?_⟩
        · unfold descendants
          exact (bind_eq_ok _ _ _).mpr ⟨some c, hfc, h2⟩
        · intro y hu
          obtain ⟨c1, hc1, hy⟩ := Under_first hu
          exact hreg2 y ⟨c1, (hall c1 hc1), hy⟩
    · intro c p r s hs hp hmem hcov hkind hf
      have hwf := hs.1
      have hac := hs.acyclic
      have hn0 : n0 ≤ r.heap.length := hs.2.2.1
      have hclt : c < r.heap.length := parentOf_lt _ _ _ hp
      obtain ⟨r1, h1, hs1, hext1, hlen1, hsame1, hmade1, hits, hv1⟩ :=
        visitNode_total n0 lvl head top F K hK hF titleString filepath sels c p r hs hp hmem
          hfresh (hkind c ⟨c, Or.inl rfl, Below.refl c⟩)
      have hg1 := hext1.1
      have hle1 := hg1.grows_length_le
      have hp1 : parentOf r1.heap c = some p := parentOf_grows_some _ _ _ _ hg1 hp
      have hcs : c ∈ s := hcov c ⟨c, Or.inl rfl, Below.refl c⟩
      have hcA : c ∉ s.filter (fun y => InSub r.heap c y) := by
        intro h
        obtain ⟨_, c1, hc1, hb⟩ := Finset.mem_filter.mp h
        exact Below.below_ne_of_child hac hc1 hb rfl
      have hcL : c ∉ s.filter (fun y => ∃ x, SibBefore r.heap c x ∧ Below r.heap x y) := by
        intro h
        obtain ⟨_, x, hsx, hb⟩ := Finset.mem_filter.mp h
        obtain ⟨q, _, _, _, _, hqc, hqx⟩ := hsx.sib_parents hwf
        exact siblings_not_below hac (hsx.sib_ne hwf).symm hqx hqc hb
      have hAL : Disjoint (s.filter (fun y => InSub r.heap c y))
          (s.filter (fun y => ∃ x, SibBefore r.heap c x ∧ Below r.heap x y)) := by
        rw [Finset.disjoint_left]
        intro y hyA hyL
        obtain ⟨_, c1, hc1, hb1⟩ := Finset.mem_filter.mp hyA
        obtain ⟨_, x, hsx, hbx⟩ := Finset.mem_filter.mp hyL
        obtain ⟨q, _, _, _, _, hqc, hqx⟩ := hsx.sib_parents hwf
        have hcy : Below r.heap c y := (Below.below_of_parent hc1).below_trans hb1
        rcases Below.below_linear hcy hbx with h | h
        · exact siblings_not_below hac (hsx.sib_ne hwf) hqc hqx h
        · exact siblings_not_below hac (hsx.sib_ne hwf).symm hqx hqc h
      generalize hA : s.filter (fun y => InSub r.heap c y) = A at hcA hAL
      generalize hL : s.filter (fun y => ∃ x, SibBefore r.heap c x ∧ Below r.heap x y) = L
        at hcL hAL
      have hAs : A ⊆ s := hA ▸ Finset.filter_subset _ _
      have hLs : L ⊆ s := hL ▸ Finset.filter_subset _ _
      have hcost := sum_three_le (nodeCost n0 (6 * sels.length + 3)) s A L c hcs hAs hLs
        hcA hcL hAL
      have hold := sum_three_le (isOld n0) s A L c hcs hAs hLs hcA hcL hAL
      -- the subtree of `c`
      have hreflA : ∀ y, InSub r1.heap c y → y < r.heap.length → InSub r.heap c y := by
        intro y ⟨c1, hc1, hb⟩ hy
        have hb0 := Below_reflect hwf hg1 hb hy
        have hc1lt := Below_lt hwf hb0 hy
        have hc10 : parentOf r.heap c1 = some c := by
          rw [← parentOf_grows _ _ _ hg1 hc1lt]
          exact hc1
        exact ⟨c1, hc10, hb0⟩
      have hsubA : ∀ y, InSub r.heap c y → InReg r.heap c y := by
        intro y ⟨c1, hc1, hb⟩
        exact ⟨c, Or.inl rfl, (Below.below_of_parent hc1).below_trans hb⟩
      have hcovA : ∀ y, InSub r1.heap c y →
          y ∈ A ∪ Finset.Ico r.heap.length r1.heap.length := by
        intro y hy1
        have hylt1 : y < r1.heap.length := by
          obtain ⟨c1, hc1, hb⟩ := hy1
          exact Below_right_lt hb (parentOf_lt _ _ _ hc1)
        by_cases hy : y < r.heap.length
        · have hin := hreflA y hy1 hy
          refine Finset.mem_union_left _ ?_
          rw [← hA]
          exact Finset.mem_filter.mpr ⟨hcov y (hsubA y hin), hin⟩
        · exact Finset.mem_union_right _ (Finset.mem_Ico.mpr ⟨by omega, hylt1⟩)
      have hkindA : ∀ y, InSub r1.heap c y → n0 ≤ y → isLink r1.heap head y := by
        intro y hy1 hge
        have hylt1 : y < r1.heap.length := by
          obtain ⟨c1, hc1, hb⟩ := hy1
          exact Below_right_lt hb (parentOf_lt _ _ _ hc1)
        by_cases hy : y < r.heap.length
        · exact isLink_grows _ _ _ _ hg1 (hs1.2.2.2.1 y hge)
            (hkind y (hsubA y (hreflA y hy1 hy)) hge)
        · rcases hmade1 y (by omega) hylt1 with hl | ⟨hpy, _⟩
          · exact hl
          · exfalso
            obtain ⟨c1, hc1, hb⟩ := hy1
            have hcy : Below r1.heap c y := (Below.below_of_parent hc1).below_trans hb
            rcases hcy.below_cases_parent with he | ⟨q, hq, hcq⟩
            · omega
            · rw [hpy] at hq
              cases hq
              exact Below.below_ne_of_child hs1.acyclic hp1 hcq rfl
      have hcostA := sum_union_le_add (nodeCost n0 (6 * sels.length + 3)) A
        (Finset.Ico r.heap.length r1.heap.length)
      rw [nodeCost_sum_Ico _ _ _ _ hn0] at hcostA
      have holdA := sum_union_le_add (isOld n0) A (Finset.Ico r.heap.length r1.heap.length)
      rw [isOld_sum_Ico _ _ _ hn0] at holdA
      have hBc : 2 + 3 * (r1.heap.length - r.heap.length)
          ≤ nodeCost n0 (6 * sels.length + 3) c := by
        unfold nodeCost
        by_cases hc0 : c < n0
        · rw [if_pos hc0]
          omega
        · rw [if_neg hc0, hsame1 (by omega)]
          omega
      have hOc : r1.heap.length ≤ r.heap.length + 2 * sels.length * isOld n0 c := by
        unfold isOld
        by_cases hc0 : c < n0
        · rw [if_pos hc0]
          omega
        · rw [if_neg hc0, hsame1 (by omega)]
          omega
      obtain ⟨r3, h3, hs3, hext3, hlen3, hmade3, hvis3, hreg3⟩ := ihD c r1
        (A ∪ Finset.Ico r.heap.length r1.heap.length) hs1 (by omega) hcovA hkindA (by omega)
      have hg3 := hext3.1
      have hle3 := hg3.grows_length_le
      have hg13 : Grows r.heap r3.heap := hg1.grows_trans hg3
      have hext13 : Extends r.heap r3.heap := Extends_trans hext1 hext3
      have hp3 : parentOf r3.heap c = some p := parentOf_grows_some _ _ _ _ hg13 hp
      have hleaf3 := hs3.2.2.2.1
      have hmulA : 2 * sels.length
            * (A ∪ Finset.Ico r.heap.length r1.heap.length).sum (isOld n0)
          ≤ 2 * sels.length * A.sum (isOld n0) := Nat.mul_le_mul_left _ (by omega)
      have hwA : 3 * (2 * sels.length * A.sum (isOld n0))
          ≤ A.sum (nodeCost n0 (6 * sels.length + 3)) := by
        have h6 := isOld_le_nodeCost n0 (6 * sels.length + 3) A
        have h7 : (6 * sels.length + 3) * A.sum (isOld n0)
            = 3 * (2 * sels.length * A.sum (isOld n0)) + 3 * A.sum (isOld n0) := by ring
        omega
      obtain ⟨nx, hnx, hnxp⟩ := NextSibling_total r3.heap hs3.1 c p hp3
      have hmulS : 2 * sels.length * isOld n0 c + 2 * sels.length * A.sum (isOld n0)
            + 2 * sels.length * L.sum (isOld n0)
          ≤ 2 * sels.length * s.sum (isOld n0) := by
        rw [← Nat.mul_add, ← Nat.mul_add]
        exact Nat.mul_le_mul_left _ hold
      -- what has been made so far lies below `p`
      have hmade13 : MadeBelow head p r.heap.length r3.heap := by
        intro y hy hylt
        by_cases hy1 : y < r1.heap.length
        · rcases hmade1 y hy hy1 with hl | ⟨hpy, _⟩
          · exact Or.inl (isLink_grows _ _ _ _ hg3 (hleaf3 y (by omega)) hl)
          · exact Or.inr ⟨y, parentOf_grows_some _ _ _ _ hg3 hpy, Below.refl y⟩
        · rcases hmade3 y (by omega) hylt with hl | ⟨c1, hc1, hb⟩
          · exact Or.inl hl
          · exact Or.inr ⟨c, hp3, (Below.below_of_parent hc1).below_trans hb⟩
      have hvis1 : ∀ y, Visited r y → Visited r1 y := by
        intro y hy
        unfold Visited at hy ⊢
        rw [hv1, List.map_append]
        exact List.mem_append_left _ hy
      have hvc : Visited r1 c := by
        unfold Visited
        rw [hv1, List.map_append]
        exact List.mem_append_right _ (by simp)
      cases nx with
      | none =>
        obtain ⟨f2, rfl⟩ : ∃ f2, f = f2 + 1 := ⟨f - 1, by omega⟩
        refine ⟨r3, ?_, hs3, hext13, by omega, hmade13, fun y hy => hvis3 y (hvis1 y hy), ?_⟩
        · unfold childNodes
          exact (bind_eq_ok _ _ _).mpr ⟨r1, h1, (bind_eq_ok _ _ _).mpr ⟨r3, h3,
            (bind_eq_ok _ _ _).mpr ⟨none, hnx, childNodes_none_ok _ _ _⟩⟩⟩
        · intro y ⟨x, hx, hy⟩
          rcases hx with rfl | hx
          · rcases hy with rfl | hy
            · exact hvis3 _ hvc
            · exact hreg3 y (Under_grows hg1 hy)
          · obtain ⟨c2, hc2, _⟩ := NextSibling_complete r3.heap hs3.1 c x none hnx
              (hx.sib_grows hg13)
            cases hc2
      | some c2 =>
        obtain ⟨hpc2, hmem2, hsib⟩ := hnxp c2 rfl
        have hreflL : ∀ y, InReg r3.heap c2 y → y < r.heap.length →
            ∃ x, SibBefore r.heap c x ∧ Below r.heap x y := by
          intro y ⟨x, hx, hb⟩ hy
          have hsx : SibBefore r3.heap c x := by
            rcases hx with rfl | hx
            · exact hsib
            · exact hsib.sib_trans hs3.1 hx
          have hb0 := Below_reflect hwf hg13 hb hy
          have hxlt := Below_lt hwf hb0 hy
          exact ⟨x, SibBefore_reflect hwf hs3.1 hext13 hsx hclt hxlt, hb0⟩
        have hlt3 : ∀ y, InReg r3.heap c2 y → y < r3.heap.length := by
          intro y ⟨x, hx, hb⟩
          have hxp : parentOf r3.heap x = some p := by
            rcases hx with rfl | hx
            · exact hpc2
            · obtain ⟨q, _, _, _, _, hq1, hq2⟩ := hx.sib_parents hs3.1
              rw [hpc2] at hq1
              cases hq1
              exact hq2
          exact Below_right_lt hb (parentOf_lt _ _ _ hxp)
        have hcovL : ∀ y, InReg r3.heap c2 y →
            y ∈ L ∪ Finset.Ico r.heap.length r3.heap.length := by
          intro y hy3
          by_cases hy : y < r.heap.length
          · obtain ⟨x, hsx0, hb0⟩ := hreflL y hy3 hy
            refine Finset.mem_union_left _ ?_
            rw [← hL]
            exact Finset.mem_filter.mpr ⟨hcov y ⟨x, Or.inr hsx0, hb0⟩, x, hsx0, hb0⟩
          · exact Finset.mem_union_right _ (Finset.mem_Ico.mpr ⟨by omega, hlt3 y hy3⟩)
        have hkindL : ∀ y, InReg r3.heap c2 y → n0 ≤ y → isLink r3.heap head y := by
          intro y hy3 hge
          by_cases hy : y < r.heap.length
          · obtain ⟨x, hsx0, hb0⟩ := hreflL y hy3 hy
            exact isLink_grows _ _ _ _ hg13 (hleaf3 y hge)
              (hkind y ⟨x, Or.inr hsx0, hb0⟩ hge)
          · obtain ⟨x, hx, hb⟩ := hy3
            have hsx : SibBefore r3.heap c x := by
              rcases hx with rfl | hx
              · exact hsib
              · exact hsib.sib_trans hs3.1 hx
            obtain ⟨q, _, _, _, _, hqc, hqx⟩ := hsx.sib_parents hs3.1
            rw [hp3] at hqc
            cases hqc
            have hylt3 : y < r3.heap.length := Below_right_lt hb (parentOf_lt _ _ _ hqx)
            by_cases hy1 : y < r1.heap.length
            · rcases hmade1 y (by omega) hy1 with hl | ⟨hpy, hsy⟩
              · exact isLink_grows _ _ _ _ hg3 (hleaf3 y hge) hl
              · exfalso
                have hpy3 := parentOf_grows_some _ _ _ _ hg3 hpy
                have hsy3 : SibBefore r3.heap y c := hsy.sib_grows hg3
                have hxy : x = y := by
                  by_contra hne
                  exact siblings_not_below hs3.acyclic hne hqx hpy3 hb
                subst hxy
                exact (hsx.sib_trans hs3.1 hsy3).sib_ne hs3.1 rfl
            · rcases hmade3 y (by omega) hylt3 with hl | ⟨c1, hc1, hb1⟩
              · exact hl
              · exfalso
                have hcy : Below r3.heap c y := (Below.below_of_parent hc1).below_trans hb1
                rcases Below.below_linear hcy hb with h | h
                · exact siblings_not_below hs3.acyclic (hsx.sib_ne hs3.1) hp3 hqx h
                · exact siblings_not_below hs3.acyclic (hsx.sib_ne hs3.1).symm hqx hp3 h
        have hcostL := sum_union_le_add (nodeCost n0 (6 * sels.length + 3)) L
          (Finset.Ico r.heap.length r3.heap.length)
        rw [nodeCost_sum_Ico _ _ _ _ hn0] at hcostL
        have holdL := sum_union_le_add (isOld n0) L (Finset.Ico r.heap.length r3.heap.length)
        rw [isOld_sum_Ico _ _ _ hn0] at holdL
        have hmulL : 2 * sels.length
              * (L ∪ Finset.Ico r.heap.length r3.heap.length).sum (isOld n0)
            ≤ 2 * sels.length * L.sum (isOld n0) := Nat.mul_le_mul_left _ (by omega)
        obtain ⟨r2, h2, hs2, hext2, hlen2, hmade2, hvis2, hreg2⟩ := ihC c2 p r3
          (L ∪ Finset.Ico r.heap.length r3.heap.length) hs3 hpc2 hmem2 hcovL hkindL (by omega)
        refine ⟨r2, ?_, hs2, Extends_trans hext13 hext2, by omega, ?_,
          fun y hy => hvis2 y (hvis3 y (hvis1 y hy)), ?_⟩
        · unfold childNodes
          exact (bind_eq_ok _ _ _).mpr ⟨r1, h1, (bind_eq_ok _ _ _).mpr ⟨r3, h3,
            (bind_eq_ok _ _ _).mpr ⟨some c2, hnx, h2⟩⟩⟩
        · intro y hy hylt
          by_cases hy3 : y < r3.heap.length
          · rcases hmade13 y hy hy3 with hl | hin
            · exact Or.inl (isLink_grows _ _ _ _ hext2.1 (hs2.2.2.2.1 y (by omega)) hl)
            · exact Or.inr (InSub_grows hext2.1 hin)
          · exact hmade2 y (by omega) hylt
        · intro y ⟨x, hx, hy⟩
          rcases hx with rfl | hx
          · rcases hy with rfl | hy
            · exact hvis2 _ (hvis3 _ hvc)
            · exact hvis2 _ (hreg3 y (Under_grows hg1 hy))
          · obtain ⟨c3, hc3, hx3⟩ := NextSibling_complete r3.heap hs3.1 c x (some c2) hnx
              (hx.sib_grows hg13)
            cases hc3
            refine hreg2 y ⟨x, hx3, ?_⟩
            rcases hy with rfl | hy
            · exact Or.inl rfl
            · exact Or.inr (Under_grows hg13 hy)

theorem sound_of_acyclic (h : Heap) (head top : Nat) (ht : Nat → Nat)
    (hwf : WellFormed h) (hht : ∀ c p, parentOf h c = some p → ht c < ht p)
    (htop : top < h.length) (hhead : head < h.length) :
    Sound h.length (fun i => if i < h.length then ht i + 1 else 0) head top h := by
  refine ⟨hwf, ?_, le_refl _, fun i hi => childrenOf_of_ge _ _ hi, hhead, htop, ?_, ?_⟩
  · intro c p hcp
    have hc := parentOf_lt _ _ _ hcp
    have hp : p < h.length := by
      have := (hwf c hc).2.2
      rw [hcp] at this
      exact this
    have := hht c p hcp
    simp only [hc, hp, if_true]
    omega
  · intro i hi
    simp only [not_lt.mpr hi, if_false]
  · intro i hi
    simp only [hi, if_true]
    omega

theorem findRefs_terminates (h : Heap) (counter : Int) (top head : Nat)
    (selectors : List Transform) (dashing : Dashing) (filepath : String)
    (hwf : WellFormed h) (hac : Acyclic h) (htop : top < h.length) (hhead : head < h.length)
    (hfresh : Fresh head (matchingSelectors selectors filepath)) :
    ∃ fuel0, ∀ fuel, fuel0 ≤ fuel →
      ∃ r, findRefs fuel h counter top selectors dashing filepath (some head) = Except.ok r
        ∧ WellFormed r.heap ∧ Acyclic r.heap ∧ Extends h r.heap
        ∧ r.heap.length
            ≤ h.length + 2 * (matchingSelectors selectors filepath).length * h.length
        ∧ MadeBelow head top h.length r.heap
        ∧ ∀ y, Under h top y → Visited r y := by
  obtain ⟨ht, hht⟩ := hac
  have hs := sound_of_acyclic h head top ht hwf hht htop hhead
  generalize hlvl : (fun i => if i < h.length then ht i + 1 else 0) = lvl at hs
  have hK : ∀ i, lvl i ≤ (Finset.range h.length).sum lvl := by
    intro i
    by_cases hi : i < h.length
    · exact Finset.single_le_sum (f := lvl) (fun _ _ => Nat.zero_le _)
        (Finset.mem_range.mpr hi)
    · rw [hs.2.2.2.2.2.2.1 i (by omega)]
      exact Nat.zero_le _
  refine ⟨max ((Finset.range h.length).sum lvl + 1)
    (2 + (Finset.range h.length).sum
      (nodeCost h.length (6 * (matchingSelectors selectors filepath).length + 3))), ?_⟩
  intro fuel hfuel
  have hF : (Finset.range h.length).sum lvl < fuel := by
    have := le_max_left ((Finset.range h.length).sum lvl + 1)
      (2 + (Finset.range h.length).sum
        (nodeCost h.length (6 * (matchingSelectors selectors filepath).length + 3)))
    omega
  have hf : 2 + (Finset.range h.length).sum
      (nodeCost h.length (6 * (matchingSelectors selectors filepath).length + 3)) ≤ fuel :=
    le_trans (le_max_right _ _) hfuel
  obtain ⟨titleString, htitle⟩ := titleOf_terminates lvl h top dashing hwf hs.2.1 htop _ fuel
    hK hF
  have hlt : ∀ y, InSub h top y → y < h.length := by
    intro y ⟨c, hc, hb⟩
    exact Below_right_lt hb (parentOf_lt _ _ _ hc)
  obtain ⟨r, hr, hs2, hext, hlen, hmade, _, hreg⟩ :=
    (traverse_total h.length lvl head top fuel _ hK hF titleString filepath
      (matchingSelectors selectors filepath) hfresh fuel).1 top
      { heap := h, counter := counter, refs := [], visits := [] } (Finset.range h.length)
      hs htop (fun y hy => Finset.mem_range.mpr (hlt y hy))
      (fun y hy hge => absurd (hlt y hy) (by simpa using hge)) hf
  refine ⟨r, ?_, hs2.1, hs2.acyclic, hext, ?_, hmade, hreg⟩
  · unfold findRefs
    exact (bind_eq_ok _ _ _).mpr ⟨titleString, htitle, hr⟩
  · have hsum : (Finset.range h.length).sum (isOld h.length) ≤ h.length := by
      have h1 : (Finset.range h.length).sum (isOld h.length)
          ≤ (Finset.range h.length).sum (fun _ => 1) := by
        apply Finset.sum_le_sum
        intro y _
        unfold isOld
        split <;> simp
      simpa using h1
    have := Nat.mul_le_mul_left (2 * (matchingSelectors selectors filepath).length) hsum
    simp only at hlen
    omega

theorem visitRule_terminates (top : Nat) (titleString filepath : String) (head c p idx : Nat)
    (sel : Transform) (r : Run) (hwf : WellFormed r.heap) (hac : Acyclic r.heap)
    (htop : top < r.heap.length) (hhead : head < r.heap.length)
    (hp : parentOf r.heap c = some p) (hmem : c ∈ childrenOf r.heap p) :
    ∃ fuel0, ∀ fuel, fuel0 ≤ fuel →
      ∃ out, visitRule fuel top titleString filepath (some head) c idx sel r
        = Except.ok out := by
  obtain ⟨ht, hht⟩ := hac
  have hs := sound_of_acyclic r.heap head top ht hwf hht htop hhead
  generalize hlvl : (fun i => if i < r.heap.length then ht i + 1 else 0) = lvl at hs
  have hK : ∀ i, lvl i ≤ (Finset.range r.heap.length).sum lvl := by
    intro i
    by_cases hi : i < r.heap.length
    · exact Finset.single_le_sum (f := lvl) (fun _ _ => Nat.zero_le _)
        (Finset.mem_range.mpr hi)
    · rw [hs.2.2.2.2.2.2.1 i (by omega)]
      exact Nat.zero_le _
  refine ⟨(Finset.range r.heap.length).sum lvl + 1, fun fuel hfuel => ?_⟩
  have hc := parentOf_lt _ _ _ hp
  obtain ⟨r2, hit, hok, _⟩ := visitRule_total r.heap.length lvl head top fuel _ hK
    (by omega) titleString filepath c p idx sel r hs hp hmem (fun hge => by omega)
  exact ⟨(r2, hit), hok⟩

theorem tagSelector_isLink (tag : String) (h2 : Heap) (head x : Nat)
    (hl : isLink h2 head x) : tagSelector tag h2 x = decide ("link" = tag) := by
  obtain ⟨target, ht⟩ := hl
  simp [tagSelector, ht, attachedTo, linkNodeOf]

theorem parseHTML_of_runs (lib : PathLib) (fuel : Nat) (h : Heap) (counter : Int) (top : Nat)
    (filepath : String) (dashing : Dashing) (headNode : Option Nat) (usedFiles : List String)
    (h2 : Heap) (r1 : Run)
    (hprep : prepare lib fuel h top filepath dashing = Except.ok (headNode, usedFiles, h2))
    (hr1 : findRefs fuel h2 counter top dashing.Selectors dashing filepath headNode
      = Except.ok r1) :
    (r1.refs ≠ [] →
        ∃ res, parseHTML lib fuel h counter top filepath dashing = Except.ok res
          ∧ res.refs = r1.refs)
    ∧ (r1.refs = [] → ∀ r2,
        findRefs fuel r1.heap r1.counter top dashing.BackupSelectors dashing filepath headNode
          = Except.ok r2 →
        ∃ res, parseHTML lib fuel h counter top filepath dashing = Except.ok res
          ∧ res.refs = r2.refs) := by
  constructor
  · intro hne
    have hlen : ¬ r1.refs.length = 0 := by
      simpa [List.length_eq_zero] using hne
    refine ⟨⟨r1.refs, usedFiles, top, r1.heap, r1.counter⟩, ?_, rfl⟩
    unfold parseHTML
    refine (bind_eq_ok _ _ _).mpr ⟨_, hprep, (bind_eq_ok _ _ _).mpr ⟨r1, hr1,
      (bind_eq_ok _ _ _).mpr ⟨r1, ?_, rfl⟩⟩⟩
    rw [if_neg hlen]
    rfl
  · intro he r2 hr2
    have hlen : r1.refs.length = 0 := by simp [he]
    refine ⟨⟨r2.refs, usedFiles, top, r2.heap, r2.counter⟩, ?_, rfl⟩
    unfold parseHTML
    refine (bind_eq_ok _ _ _).mpr ⟨_, hprep, (bind_eq_ok _ _ _).mpr ⟨r1, hr1,
      (bind_eq_ok _ _ _).mpr ⟨r2, ?_, rfl⟩⟩⟩
    rw [if_pos hlen]
    exact hr2

theorem findRefs_returns (h : Heap) (counter : Int) (top head : Nat)
    (selectors : List Transform) (dashing : Dashing) (filepath : String)
    (hwf : WellFormed h) (hac : Acyclic h) (htop : top < h.length) (hhead : head < h.length)
    (hfresh : Fresh head (matchingSelectors selectors filepath)) :
    ∃ fuel0, ∀ fuel, fuel0 ≤ fuel →
      ∃ r, findRefs fuel h counter top selectors dashing filepath (some head)
        = Except.ok r := by
  obtain ⟨fuel0, hf⟩ := findRefs_terminates h counter top head selectors dashing filepath hwf
    hac htop hhead hfresh
  refine ⟨fuel0, fun fuel hfuel => ?_⟩
  obtain ⟨r, hr, _⟩ := hf fuel hfuel
  exact ⟨r, hr⟩

theorem fresh_tagged (head : Nat) (sels : List Transform)
    (h : ∀ sel ∈ sels, ∀ (h2 : Heap) (x : Nat), sel.CssSelector.Match h2 x = true →
      ∃ nd, h2[x]? = some nd ∧ nd.Data ≠ "link") : Fresh head sels := by
  intro sel hsel h2 x hl
  by_contra hne
  obtain ⟨nd, hnd, hdata⟩ := h sel hsel h2 x (by simpa using hne)
  obtain ⟨target, ht⟩ := hl
  rw [hnd] at ht
  cases ht
  exact hdata rfl

theorem tagSelector_data (tag : String) (h2 : Heap) (x : Nat)
    (hm : tagSelector tag h2 x = true) : ∃ nd, h2[x]? = some nd ∧ nd.Data = tag := by
  unfold tagSelector at hm
  cases hnd : h2[x]? with
  | none => simp [hnd] at hm
  | some nd =>
    simp only [hnd, Bool.and_eq_true, decide_eq_true_eq] at hm
    exact ⟨nd, rfl, hm.2⟩

/-! ## Theorems: the claims about rule matches and runs -/

/-- C7: on a well-formed document and with enough fuel, the loop body returns
for a rule tried at a node that has a parent; and for a rule with a prefix
selector, whenever it returns with a reference, the name of the reference is
`<prefixText>.` followed by the raw name when `Query` finds a node for the
prefix selector below `top` and the text of that node differs from the text of
the matched node; it is the raw name alone when no node is found or the two
texts are equal. -/
theorem C7_reference_name_prefix (top : Nat) (titleString filepath : String)
    (headNode : Option Nat) (n idx : Nat) (sel : Transform) (ps : cssSelectorYaml) (r : Run)
    (hps : sel.CssSelectorForSearchPrefix = some ps) :
    (∀ head p, headNode = some head → head < r.heap.length → top < r.heap.length →
        WellFormed r.heap → Acyclic r.heap → parentOf r.heap n = some p →
        n ∈ childrenOf r.heap p →
        ∃ fuel0, ∀ fuel, fuel0 ≤ fuel → ∃ out,
          visitRule fuel top titleString filepath headNode n idx sel r = Except.ok out)
    ∧ ∀ fuel r2 hit ref,
        visitRule fuel top titleString filepath headNode n idx sel r
          = Except.ok (r2, some hit) →
        hit.ref = some ref →
        ∃ textString rawName,
          text r.heap fuel n = Except.ok textString
          ∧ (if sel.Attribute ≠ "" then attr r.heap n sel.Attribute else pure textString)
              = Except.ok rawName
          ∧ ((∃ node prefixText, Query ps.Match r.heap fuel top = Except.ok (some node)
                ∧ text r.heap fuel node = Except.ok prefixText
                ∧ prefixText ≠ textString
                ∧ ref.name = prefixText ++ "." ++ rawName)
            ∨ (Query ps.Match r.heap fuel top = Except.ok none ∧ ref.name = rawName)
            ∨ (∃ node, Query ps.Match r.heap fuel top = Except.ok (some node)
                ∧ text r.heap fuel node = Except.ok textString
                ∧ ref.name = rawName)) := by
  refine ⟨?_, fun fuel r2 hit ref hok href =>
    visitRule_name fuel top titleString filepath headNode n idx sel ps r r2 hit ref hps hok
      href⟩
  intro head p hh hhead htop hwf hac hp hmem
  subst hh
  exact visitRule_terminates top titleString filepath head n p idx sel r hwf hac htop hhead
    hp hmem

/-- C7 on the page with a title, with the rule `h2` and the prefix selector
`h1`: the loop body returns for every large enough fuel, and with fuel 20 the
reference is named `Pkg.Intro`. -/
theorem C7_reference_name_prefix_witness :
    (∃ fuel0, ∀ fuel, fuel0 ≤ fuel → ∃ out,
        visitRule fuel 0 "" "page.html" (some 2) 8 0 h2PrefixedRule ⟨titledDoc, 0, [], []⟩
          = Except.ok out)
    ∧ ∃ r2 hit ref,
      visitRule 20 0 "" "page.html" (some 2) 8 0 h2PrefixedRule ⟨titledDoc, 0, [], []⟩
        = Except.ok (r2, some hit)
      ∧ hit.ref = some ref
      ∧ ref.name = "Pkg.Intro"
      ∧ ∃ textString rawName,
        text titledDoc 20 8 = Except.ok textString
        ∧ (if h2PrefixedRule.Attribute ≠ "" then attr titledDoc 8 h2PrefixedRule.Attribute
            else pure textString) = Except.ok rawName
        ∧ ((∃ node prefixText,
              Query (tagSelector "h1") titledDoc 20 0 = Except.ok (some node)
              ∧ text titledDoc 20 node = Except.ok prefixText
              ∧ prefixText ≠ textString
              ∧ ref.name = prefixText ++ "." ++ rawName)
          ∨ (Query (tagSelector "h1") titledDoc 20 0 = Except.ok none ∧ ref.name = rawName)
          ∨ (∃ node, Query (tagSelector "h1") titledDoc 20 0 = Except.ok (some node)
              ∧ text titledDoc 20 node = Except.ok textString
              ∧ ref.name = rawName)) := by
  obtain ⟨⟨r2, hit⟩, hrun, hname⟩ := (map_eq_ok
    (visitRule 20 0 "" "page.html" (some 2) 8 0 h2PrefixedRule ⟨titledDoc, 0, [], []⟩)
    (fun x => (x.2.bind (fun k => k.ref)).map (fun f => f.name)) (some "Pkg.Intro")).mp
    (by decide!)
  have hmain := C7_reference_name_prefix 0 "" "page.html" (some 2) 8 0 h2PrefixedRule
    ⟨tagSelector "h1", "h1"⟩ ⟨titledDoc, 0, [], []⟩ rfl
  refine ⟨hmain.1 2 5 rfl (by decide) (by decide) (wellFormed_of_check titledDoc (by decide))
    (acyclic_of_check titledDoc (by decide)) (by decide) (by decide), ?_⟩
  cases hit with
  | none => simp at hname
  | some hit =>
    cases href : hit.ref with
    | none => simp [href] at hname
    | some ref =>
      simp only [Option.bind, href, Option.map_some', Option.some.injEq] at hname
      exact ⟨r2, hit, ref, hrun, href, hname, hmain.2 20 r2 hit ref hrun href⟩

/-- C10: on a well-formed document and with enough fuel, the loop body returns
for a rule tried at a node that has a parent; whenever it returns, it records
a match exactly when the selector of the rule matches the node and the text
filters pass; and for every such match, whether or not a reference is made for
it, the heap afterwards holds a new childless `a` element with class
`dashAnchor` and `name` equal to the target, placed right before the matched
node among the children of its parent, and a new childless `link` element with
`href` equal to the same target as the last child of the head. -/
theorem C10_match_injects_anchor_and_link (top : Nat) (titleString filepath : String)
    (headNode : Option Nat) (n idx : Nat) (sel : Transform) (r : Run)
    (hhead : ∀ p, headNode = some p → p < r.heap.length) :
    (∀ head p, headNode = some head → top < r.heap.length →
        WellFormed r.heap → Acyclic r.heap → parentOf r.heap n = some p →
        n ∈ childrenOf r.heap p →
        ∃ fuel0, ∀ fuel, fuel0 ≤ fuel → ∃ out,
          visitRule fuel top titleString filepath headNode n idx sel r = Except.ok out)
    ∧ ∀ fuel r2 hitOpt,
        visitRule fuel top titleString filepath headNode n idx sel r
          = Except.ok (r2, hitOpt) →
        (hitOpt.isSome = true ↔
            (sel.CssSelector.Match r.heap n = true
              ∧ ∃ textString, text r.heap fuel n = Except.ok textString
                  ∧ requireTextOk sel textString = true
                  ∧ skipTextHit sel textString = false))
        ∧ ∀ k, hitOpt = some k →
            ∃ head parent rawName pre post pd2 hd2,
              headNode = some head
              ∧ (∃ nn, r.heap[n]? = some nn ∧ nn.Parent = some parent)
              ∧ (∃ textString, text r.heap fuel n = Except.ok textString
                  ∧ (if sel.Attribute ≠ "" then attr r.heap n sel.Attribute
                      else pure textString) = Except.ok rawName)
              ∧ r2.heap[k.tocAnchor]? =
                  some (attachedTo
                    (anchorNodeOf (tocTarget r.counter rawName sel.Typ sel.TOCRoot)) parent)
              ∧ r2.heap[k.linkNode]? =
                  some (attachedTo
                    (linkNodeOf (tocTarget r.counter rawName sel.Typ sel.TOCRoot)) head)
              ∧ r.heap.length ≤ k.tocAnchor ∧ r.heap.length ≤ k.linkNode
              ∧ r2.heap[parent]? = some pd2
              ∧ pd2.Children = pre ++ k.tocAnchor :: n :: post ∧ n ∉ pre
              ∧ r2.heap[head]? = some hd2
              ∧ hd2.Children.getLast? = some k.linkNode := by
  refine ⟨?_, fun fuel r2 hitOpt hok =>
    visitRule_injects fuel top titleString filepath headNode n idx sel r r2 hitOpt hhead hok⟩
  intro head p hh htop hwf hac hp hmem
  have hheadlt := hhead head hh
  subst hh
  exact visitRule_terminates top titleString filepath head n p idx sel r hwf hac htop hheadlt
    hp hmem

/-- C10 on the sample page under the name `page-2.html`: the loop body returns
for every large enough fuel, and with fuel 20 no reference is made for the
match of the rule `h2` at node 4, while the anchor goes before node 4 under
the body and the link under the head. -/
theorem C10_match_injects_anchor_and_link_witness :
    (∃ fuel0, ∀ fuel, fuel0 ≤ fuel → ∃ out,
        visitRule fuel 0 "" "page-2.html" (some 2) 4 0 h2Rule ⟨pageDoc, 0, [], []⟩
          = Except.ok out)
    ∧ ∃ r2 k,
      visitRule 20 0 "" "page-2.html" (some 2) 4 0 h2Rule ⟨pageDoc, 0, [], []⟩
        = Except.ok (r2, some k)
      ∧ k.ref = none
      ∧ r2.heap[k.tocAnchor]? =
          some (attachedTo (anchorNodeOf "//dash_ref_0/Section/Intro/1") 3)
      ∧ r2.heap[k.linkNode]? =
          some (attachedTo (linkNodeOf "//dash_ref_0/Section/Intro/1") 2)
      ∧ (∃ pd2, r2.heap[3]? = some pd2 ∧ pd2.Children = [k.tocAnchor, 4])
      ∧ (∃ hd2, r2.heap[2]? = some hd2 ∧ hd2.Children = [k.linkNode])
      ∧ ∀ j, (some k : Option Hit) = some j →
        ∃ head parent rawName pre post pd2 hd2,
          (some 2 : Option Nat) = some head
          ∧ (∃ nn, pageDoc[4]? = some nn ∧ nn.Parent = some parent)
          ∧ (∃ textString, text pageDoc 20 4 = Except.ok textString
              ∧ (if h2Rule.Attribute ≠ "" then attr pageDoc 4 h2Rule.Attribute
                  else pure textString) = Except.ok rawName)
          ∧ r2.heap[j.tocAnchor]? =
              some (attachedTo (anchorNodeOf (tocTarget 0 rawName h2Rule.Typ h2Rule.TOCRoot)) parent)
          ∧ r2.heap[j.linkNode]? =
              some (attachedTo (linkNodeOf (tocTarget 0 rawName h2Rule.Typ h2Rule.TOCRoot)) head)
          ∧ pageDoc.length ≤ j.tocAnchor ∧ pageDoc.length ≤ j.linkNode
          ∧ r2.heap[parent]? = some pd2
          ∧ pd2.Children = pre ++ j.tocAnchor :: 4 :: post ∧ 4 ∉ pre
          ∧ r2.heap[head]? = some hd2
          ∧ hd2.Children.getLast? = some j.linkNode := by
  obtain ⟨⟨r2, hit⟩, hrun, hshape⟩ := (map_eq_ok
    (visitRule 20 0 "" "page-2.html" (some 2) 4 0 h2Rule ⟨pageDoc, 0, [], []⟩)
    (fun x => match x.2 with
      | none => false
      | some k => decide (k.ref = none
          ∧ x.1.heap[k.tocAnchor]? =
              some (attachedTo (anchorNodeOf "//dash_ref_0/Section/Intro/1") 3)
          ∧ x.1.heap[k.linkNode]? =
              some (attachedTo (linkNodeOf "//dash_ref_0/Section/Intro/1") 2)
          ∧ (x.1.heap[3]?).map (fun nd => nd.Children) = some [k.tocAnchor, 4]
          ∧ (x.1.heap[2]?).map (fun nd => nd.Children) = some [k.linkNode]))
    true).mp (by decide!)
  have hmain := C10_match_injects_anchor_and_link 0 "" "page-2.html" (some 2) 4 0 h2Rule
    ⟨pageDoc, 0, [], []⟩ (fun p hp => by cases hp; decide)
  refine ⟨hmain.1 2 3 rfl (by decide) (wellFormed_of_check pageDoc (by decide))
    (acyclic_of_check pageDoc (by decide)) (by decide) (by decide), ?_⟩
  cases hit with
  | none => simp at hshape
  | some k =>
    simp only [decide_eq_true_eq] at hshape
    obtain ⟨h1, h2, h3, h4, h5⟩ := hshape
    refine ⟨r2, k, hrun, h1, h2, h3, ?_, ?_, (hmain.2 20 r2 (some k) hrun).2⟩
    · cases h : r2.heap[3]? with
      | none => simp [h] at h4
      | some pd => exact ⟨pd, rfl, by simpa [h] using h4⟩
    · cases h : r2.heap[2]? with
      | none => simp [h] at h5
      | some hd => exact ⟨hd, rfl, by simpa [h] using h5⟩

/-- C8: on a well-formed document, when no rule in force matches the `link`
elements appended to the head, `findRefs` returns for every large enough fuel;
and whenever `findRefs` returns, its references are those recorded for the
rule matches, and the `href` of the reference of a match is the file path
followed by the fragment of the matched node: the node's `href` value when
that starts with `#`, and `#` followed by the node's `id` value otherwise. -/
theorem C8_reference_href (h : Heap) (counter : Int) (top : Nat)
    (selectors : List Transform) (dashing : Dashing) (filepath : String)
    (headNode : Option Nat) (hhead : ∀ p, headNode = some p → p < h.length) :
    (∀ head, headNode = some head → top < h.length → WellFormed h → Acyclic h →
        Fresh head (matchingSelectors selectors filepath) →
        ∃ fuel0, ∀ fuel, fuel0 ≤ fuel → ∃ r,
          findRefs fuel h counter top selectors dashing filepath headNode = Except.ok r)
    ∧ ∀ fuel r,
        findRefs fuel h counter top selectors dashing filepath headNode = Except.ok r →
        r.refs = refsOfVisits r.visits
          ∧ ∀ v ∈ r.visits, ∀ k ∈ v.hits, ∀ ref, k.ref = some ref →
              ∃ nd, r.heap[v.node]? = some nd
                ∧ ref.href = filepath ++ fragmentOf nd.Attr := by
  refine ⟨?_, fun fuel r hok =>
    findRefs_href fuel h counter top selectors dashing filepath headNode r hhead hok⟩
  intro head hh htop hwf hac hfresh
  have hheadlt := hhead head hh
  subst hh
  exact findRefs_returns h counter top head selectors dashing filepath hwf hac htop hheadlt
    hfresh

/-- C8 on the sample page: the rule `{selector: "h2", type: "Section",
toc_root: true}` on `<h2 id="x">Intro</h2>` in `page.html` returns for every
large enough fuel, and with fuel 20 gives exactly one reference, named
`Intro`, of type `Section`, with href `page.html#x`. -/
theorem C8_reference_href_witness :
    (∃ fuel0, ∀ fuel, fuel0 ≤ fuel → ∃ r,
        findRefs fuel pageDoc 0 0 [h2Rule] (rulesOnly [] []) "page.html" (some 2)
          = Except.ok r)
    ∧ ∃ r, findRefs 20 pageDoc 0 0 [h2Rule] (rulesOnly [] []) "page.html" (some 2)
        = Except.ok r
      ∧ r.refs = [⟨"h2", "Intro", "Section", "page.html#x", ""⟩]
      ∧ r.refs = refsOfVisits r.visits
      ∧ ∀ v ∈ r.visits, ∀ k ∈ v.hits, ∀ ref, k.ref = some ref →
          ∃ nd, r.heap[v.node]? = some nd
            ∧ ref.href = "page.html" ++ fragmentOf nd.Attr := by
  obtain ⟨r, hr, hrefs⟩ := (map_eq_ok
    (findRefs 20 pageDoc 0 0 [h2Rule] (rulesOnly [] []) "page.html" (some 2))
    (fun x => x.refs) [⟨"h2", "Intro", "Section", "page.html#x", ""⟩]).mp (by decide!)
  have hmain := C8_reference_href pageDoc 0 0 [h2Rule] (rulesOnly [] []) "page.html" (some 2)
    (fun p hp => by cases hp; decide)
  have hfresh : Fresh 2 (matchingSelectors [h2Rule] "page.html") := by
    apply fresh_tagged
    intro sel hsel h2 x hm
    have hs : sel = h2Rule := by simpa [matchingSelectors, h2Rule, plainRule] using hsel
    subst hs
    obtain ⟨nd, hnd, hd⟩ := tagSelector_data "h2" h2 x hm
    exact ⟨nd, hnd, by rw [hd]; decide⟩
  exact ⟨hmain.1 2 rfl (by decide) (wellFormed_of_check pageDoc (by decide))
    (acyclic_of_check pageDoc (by decide)) hfresh, r, hr, hrefs, hmain.2 20 r hr⟩

/-- C9: on a well-formed document, when no rule in force matches the `link`
elements appended to the head, `findRefs` returns for every large enough fuel;
and whenever `findRefs` returns, the rules in force are the declared rules
without those whose path filter rejects the file path, in declaration order;
the reference list is the concatenation, over the visited nodes in visiting
order, of the references of the matches at each node; the visited nodes are
pairwise in depth-first document order, so no node comes twice; and the
matches at one node are in strictly increasing rule order, the reference of a
match carrying the selector and type of its rule. -/
theorem C9_references_in_document_then_rule_order (h : Heap) (counter : Int)
    (top : Nat) (selectors : List Transform) (dashing : Dashing) (filepath : String)
    (headNode : Option Nat)
    (hhead : ∀ p, headNode = some p → p < h.length) (hwf : WellFormed h) (hac : Acyclic h) :
    (∀ head, headNode = some head → top < h.length →
        Fresh head (matchingSelectors selectors filepath) →
        ∃ fuel0, ∀ fuel, fuel0 ≤ fuel → ∃ r,
          findRefs fuel h counter top selectors dashing filepath headNode = Except.ok r)
    ∧ ∀ fuel r,
        findRefs fuel h counter top selectors dashing filepath headNode = Except.ok r →
        matchingSelectors selectors filepath = selectors.filter (pathMatches filepath)
          ∧ r.refs = r.visits.flatMap (fun v => v.hits.filterMap (fun k => k.ref))
          ∧ (r.visits.map (fun v => v.node)).Pairwise (DocBefore r.heap)
          ∧ (r.visits.map (fun v => v.node)).Nodup
          ∧ ∀ v ∈ r.visits,
              (v.hits.map (fun k => k.rule)).Pairwise (fun a b => a < b)
              ∧ ∀ k ∈ v.hits, ∀ ref, k.ref = some ref →
                  ∃ sel, (selectors.filter (pathMatches filepath))[k.rule]? = some sel
                    ∧ ref.selector = sel.CssSelector.Str ∧ ref.etype = sel.Typ := by
  refine ⟨?_, fun fuel r hok =>
    findRefs_ordered fuel h counter top selectors dashing filepath headNode r hhead hwf hac
      hok⟩
  intro head hh htop hfresh
  have hheadlt := hhead head hh
  subst hh
  exact findRefs_returns h counter top head selectors dashing filepath hwf hac htop hheadlt
    hfresh

/-- C9 on the page with a title: with the rules `h1,h2` (type `Section`),
`h2` for other paths only (dropped for `page.html`) and `h2` (type
`Function`), `findRefs` returns for every large enough fuel, and with fuel 20
the references come in the order `Pkg`, `Intro` as `Section`, `Intro` as
`Function`. -/
theorem C9_references_in_document_then_rule_order_witness :
    (∃ fuel0, ∀ fuel, fuel0 ≤ fuel → ∃ r,
        findRefs fuel titledDoc 0 0
          [headingRule, h2FunctionRule (fun p => p == "other.html"),
            h2FunctionRule (fun _ => true)]
          (rulesOnly [] []) "page.html" (some 2) = Except.ok r)
    ∧ ∃ r, findRefs 20 titledDoc 0 0
        [headingRule, h2FunctionRule (fun p => p == "other.html"), h2FunctionRule (fun _ => true)]
        (rulesOnly [] []) "page.html" (some 2) = Except.ok r
      ∧ r.refs = [⟨"h1,h2", "Pkg", "Section", "page.html#", ""⟩,
                  ⟨"h1,h2", "Intro", "Section", "page.html#x", ""⟩,
                  ⟨"h2", "Intro", "Function", "page.html#x", ""⟩]
      ∧ r.visits.map (fun v => (v.node, v.hits.map (fun k => k.rule)))
          = [(1, []), (2, []), (3, []), (4, []), (5, []), (6, [0]), (7, []), (8, [0, 1]),
             (9, [])]
      ∧ (r.visits.map (fun v => v.node)).Pairwise (DocBefore r.heap)
      ∧ (r.visits.map (fun v => v.node)).Nodup := by
  obtain ⟨r, hr, hshape⟩ := (map_eq_ok
    (findRefs 20 titledDoc 0 0
      [headingRule, h2FunctionRule (fun p => p == "other.html"), h2FunctionRule (fun _ => true)]
      (rulesOnly [] []) "page.html" (some 2))
    (fun x => decide (x.refs = [⟨"h1,h2", "Pkg", "Section", "page.html#", ""⟩,
                  ⟨"h1,h2", "Intro", "Section", "page.html#x", ""⟩,
                  ⟨"h2", "Intro", "Function", "page.html#x", ""⟩]
      ∧ x.visits.map (fun v => (v.node, v.hits.map (fun k => k.rule)))
          = [(1, []), (2, []), (3, []), (4, []), (5, []), (6, [0]), (7, []), (8, [0, 1]),
             (9, [])]))
    true).mp (by decide!)
  simp only [decide_eq_true_eq] at hshape
  have hmain := C9_references_in_document_then_rule_order titledDoc 0 0
    [headingRule, h2FunctionRule (fun p => p == "other.html"), h2FunctionRule (fun _ => true)]
    (rulesOnly [] []) "page.html" (some 2)
    (fun p hp => by cases hp; decide)
    (wellFormed_of_check titledDoc (by decide))
    (acyclic_of_check titledDoc (by decide))
  have hfresh : Fresh 2 (matchingSelectors
      [headingRule, h2FunctionRule (fun p => p == "other.html"),
        h2FunctionRule (fun _ => true)] "page.html") := by
    apply fresh_tagged
    intro sel hsel h2 x hm
    rw [matchingSelectors_eq_filter] at hsel
    have hmem := List.mem_of_mem_filter hsel
    simp only [List.mem_cons, List.mem_singleton, List.not_mem_nil, or_false] at hmem
    rcases hmem with rfl | rfl | rfl
    · simp only [headingRule, plainRule, Bool.or_eq_true] at hm
      rcases hm with hm | hm
      · obtain ⟨nd, hnd, hd⟩ := tagSelector_data "h1" h2 x hm
        exact ⟨nd, hnd, by rw [hd]; decide⟩
      · obtain ⟨nd, hnd, hd⟩ := tagSelector_data "h2" h2 x hm
        exact ⟨nd, hnd, by rw [hd]; decide⟩
    · obtain ⟨nd, hnd, hd⟩ := tagSelector_data "h2" h2 x hm
      exact ⟨nd, hnd, by rw [hd]; decide⟩
    · obtain ⟨nd, hnd, hd⟩ := tagSelector_data "h2" h2 x hm
      exact ⟨nd, hnd, by rw [hd]; decide⟩
  have hcond := hmain.2 20 r hr
  exact ⟨hmain.1 2 rfl (by decide) hfresh, r, hr, hshape.1, hshape.2, hcond.2.2.1,
    hcond.2.2.2.1⟩

/-! ## Theorems: the page processor, primary and backup rules -/

/-- C5: whenever `parseHTML` returns, its reference list is the list
`findRefs` gives for the primary rules if that list is not empty; if it is
empty, `findRefs` is run once more, for the backup rules, on the heap and
counter the first run left, and the reference list is the list of that run
alone. Conversely, when the preparation and the run for the primary rules
return, `parseHTML` returns the list of that run if it is not empty, and
otherwise returns the list of the run for the backup rules as soon as that
run returns. -/
theorem C5_parseHTML_primary_then_backup (lib : PathLib) (fuel : Nat) (h : Heap)
    (counter : Int) (top : Nat) (filepath : String) (dashing : Dashing) :
    (∀ res, parseHTML lib fuel h counter top filepath dashing = Except.ok res →
      ∃ headNode usedFiles h2 r1,
        prepare lib fuel h top filepath dashing = Except.ok (headNode, usedFiles, h2)
        ∧ findRefs fuel h2 counter top dashing.Selectors dashing filepath headNode
            = Except.ok r1
        ∧ (r1.refs ≠ [] → res.refs = r1.refs)
        ∧ (r1.refs = [] → ∃ r2,
            findRefs fuel r1.heap r1.counter top dashing.BackupSelectors dashing filepath
              headNode = Except.ok r2
            ∧ res.refs = r2.refs))
    ∧ ∀ headNode usedFiles h2 r1,
        prepare lib fuel h top filepath dashing = Except.ok (headNode, usedFiles, h2) →
        findRefs fuel h2 counter top dashing.Selectors dashing filepath headNode
          = Except.ok r1 →
        (r1.refs ≠ [] →
            ∃ res, parseHTML lib fuel h counter top filepath dashing = Except.ok res
              ∧ res.refs = r1.refs)
        ∧ (r1.refs = [] → ∀ r2,
            findRefs fuel r1.heap r1.counter top dashing.BackupSelectors dashing filepath
              headNode = Except.ok r2 →
            ∃ res, parseHTML lib fuel h counter top filepath dashing = Except.ok res
              ∧ res.refs = r2.refs) :=
  ⟨fun res hres => parseHTML_cases lib fuel h counter top filepath dashing res hres,
    fun headNode usedFiles h2 r1 hprep hr1 =>
      parseHTML_of_runs lib fuel h counter top filepath dashing headNode usedFiles h2 r1 hprep
        hr1⟩

/-- C5 on the sample page, where the primary rule `h3` matches nothing and the
backup rule is `h2`: the reference list is the one reference of the backup
run. -/
theorem C5_parseHTML_primary_then_backup_witness :
    ∃ res, parseHTML noPaths 20 pageDoc 0 0 "page.html" (rulesOnly [h3Rule] [h2Rule])
        = Except.ok res
      ∧ res.refs = [⟨"h2", "Intro", "Section", "page.html#x", ""⟩]
      ∧ ∃ headNode usedFiles h2 r1,
        prepare noPaths 20 pageDoc 0 "page.html" (rulesOnly [h3Rule] [h2Rule])
          = Except.ok (headNode, usedFiles, h2)
        ∧ findRefs 20 h2 0 0 (rulesOnly [h3Rule] [h2Rule]).Selectors
            (rulesOnly [h3Rule] [h2Rule]) "page.html" headNode = Except.ok r1
        ∧ (r1.refs ≠ [] → res.refs = r1.refs)
        ∧ (r1.refs = [] → ∃ r2,
            findRefs 20 r1.heap r1.counter 0 (rulesOnly [h3Rule] [h2Rule]).BackupSelectors
              (rulesOnly [h3Rule] [h2Rule]) "page.html" headNode = Except.ok r2
            ∧ res.refs = r2.refs) := by
  obtain ⟨res, hres, hrefs⟩ := (map_eq_ok
    (parseHTML noPaths 20 pageDoc 0 0 "page.html" (rulesOnly [h3Rule] [h2Rule]))
    (fun x => x.refs) [⟨"h2", "Intro", "Section", "page.html#x", ""⟩]).mp (by decide!)
  exact ⟨res, hres, hrefs,
    (C5_parseHTML_primary_then_backup noPaths 20 pageDoc 0 0 "page.html"
      (rulesOnly [h3Rule] [h2Rule])).1 res hres⟩

/-! ## Theorems: detaching nodes -/

theorem RemoveChild_lookup (h : Heap) (p c : Nat) (h2 : Heap)
    (hok : RemoveChild h p c = Except.ok h2) :
    (∃ cn pn, h[c]? = some cn ∧ cn.Parent = some p ∧ h[p]? = some pn)
    ∧ h2.length = h.length
    ∧ ∀ (i : Nat) (nd : Node), h[i]? = some nd →
        h2[i]? = some { nd with
          Children := if i = p then nd.Children.erase c else nd.Children,
          Parent := if i = c then none else nd.Parent } := by
  unfold RemoveChild at hok
  obtain ⟨cn, hcn, hok⟩ := (bind_eq_ok _ _ _).mp hok
  rw [deref_eq_ok] at hcn
  by_cases hpar : cn.Parent ≠ some p
  · rw [if_pos hpar] at hok
    exact absurd hok (throw_ne_ok _ _)
  · rw [if_neg hpar] at hok
    have hpar2 : cn.Parent = some p := by simpa using hpar
    obtain ⟨nn, hnn, hok⟩ := (bind_eq_ok _ _ _).mp hok
    rw [deref_eq_ok] at hnn
    obtain ⟨cn1, hcn1, hok⟩ := (bind_eq_ok _ _ _).mp hok
    rw [deref_eq_ok] at hcn1
    rw [pure_eq_ok] at hok
    subst hok
    have hplt : p < h.length := (List.getElem?_eq_some_iff.mp hnn).1
    have hclt : c < h.length := (List.getElem?_eq_some_iff.mp hcn).1
    refine ⟨⟨cn, nn, hcn, hpar2, hnn⟩, by simp, ?_⟩
    intro i nd hi
    have hilt : i < h.length := (List.getElem?_eq_some_iff.mp hi).1
    by_cases hic : i = c
    · subst hic
      rw [List.getElem?_set_self (by simpa using hilt)]
      by_cases hip : i = p
      · subst hip
        rw [List.getElem?_set_self hilt] at hcn1
        cases hcn1
        rw [hi] at hnn
        cases hnn
        simp
      · rw [List.getElem?_set_ne (Ne.symm hip), hi] at hcn1
        cases hcn1
        simp [hip]
    · rw [List.getElem?_set_ne (Ne.symm hic)]
      by_cases hip : i = p
      · subst hip
        rw [List.getElem?_set_self hilt]
        rw [hi] at hnn
        cases hnn
        simp [hic]
      · rw [List.getElem?_set_ne (Ne.symm hip), hi]
        simp [hic, hip]

theorem RemoveChild_parentOf (h : Heap) (p c : Nat) (h2 : Heap)
    (hok : RemoveChild h p c = Except.ok h2) (i : Nat) :
    parentOf h2 i = if i = c then none else parentOf h i := by
  obtain ⟨_, hlen, hlook⟩ := RemoveChild_lookup h p c h2 hok
  by_cases hi : i < h.length
  · have hind : h[i]? = some h[i] := List.getElem?_eq_some_iff.mpr ⟨hi, rfl⟩
    simp only [parentOf, hlook i _ hind, hind]
  · have h1 : h[i]? = none := List.getElem?_eq_none (by omega)
    have h2n : h2[i]? = none := List.getElem?_eq_none (by omega)
    simp [parentOf, h1, h2n]

theorem RemoveChild_childrenOf (h : Heap) (p c : Nat) (h2 : Heap)
    (hok : RemoveChild h p c = Except.ok h2) (i : Nat) :
    childrenOf h2 i = if i = p then (childrenOf h i).erase c else childrenOf h i := by
  obtain ⟨_, hlen, hlook⟩ := RemoveChild_lookup h p c h2 hok
  by_cases hi : i < h.length
  · have hind : h[i]? = some h[i] := List.getElem?_eq_some_iff.mpr ⟨hi, rfl⟩
    rw [childrenOf_eq _ _ _ (hlook i _ hind), childrenOf_eq _ _ _ hind]
  · rw [childrenOf_of_ge _ _ (by omega), childrenOf_of_ge _ _ (by omega)]
    simp

theorem RemoveChild_shrinks (h : Heap) (p c : Nat) (h2 : Heap)
    (hok : RemoveChild h p c = Except.ok h2) : Shrinks h h2 := by
  obtain ⟨_, hlen, hlook⟩ := RemoveChild_lookup h p c h2 hok
  refine ⟨hlen, fun i nd hi => ⟨_, hlook i nd hi, rfl, rfl, rfl, ?_, ?_⟩⟩
  · simp only
    split
    · exact List.erase_sublist _ _
    · exact List.Sublist.refl _
  · simp only
    split
    · exact Or.inr rfl
    · exact Or.inl rfl

theorem RemoveChild_wellFormed (h : Heap) (p c : Nat) (h2 : Heap) (hwf : WellFormed h)
    (hok : RemoveChild h p c = Except.ok h2) : WellFormed h2 := by
  obtain ⟨⟨cn, pn, hcn, hcp, hpn⟩, hlen, _⟩ := RemoveChild_lookup h p c h2 hok
  have hpc : parentOf h c = some p := (parentOf_eq_some _ _ _).mpr ⟨cn, hcn, hcp⟩
  have hpar := RemoveChild_parentOf h p c h2 hok
  have hch := RemoveChild_childrenOf h p c h2 hok
  intro n hn
  rw [hlen] at hn
  obtain ⟨hnd, hkids, hparent⟩ := hwf n hn
  refine ⟨?_, ?_, ?_⟩
  · rw [hch]
    split
    · exact hnd.erase _
    · exact hnd
  · intro x hx
    rw [hch] at hx
    have hxold : x ∈ childrenOf h n := by
      split at hx
      · exact List.mem_of_mem_erase hx
      · exact hx
    obtain ⟨hxlt, hxp⟩ := hkids x hxold
    have hxc : x ≠ c := by
      intro he
      subst he
      rw [hpc] at hxp
      cases hxp
      rw [if_pos rfl] at hx
      exact (List.Nodup.mem_erase_iff hnd).mp hx |>.1 rfl
    rw [hlen, hpar, if_neg hxc]
    exact ⟨hxlt, hxp⟩
  · rw [hpar]
    by_cases hnc : n = c
    · rw [if_pos hnc]
      trivial
    · rw [if_neg hnc, hlen]
      exact hparent

theorem RemoveChild_detached (h : Heap) (p c : Nat) (h2 : Heap) (hwf : WellFormed h)
    (hok : RemoveChild h p c = Except.ok h2) : Detached h2 c := by
  obtain ⟨⟨cn, pn, hcn, hcp, hpn⟩, hlen, _⟩ := RemoveChild_lookup h p c h2 hok
  have hpc : parentOf h c = some p := (parentOf_eq_some _ _ _).mpr ⟨cn, hcn, hcp⟩
  refine ⟨by rw [RemoveChild_parentOf h p c h2 hok, if_pos rfl], ?_⟩
  intro n hmem
  rw [RemoveChild_childrenOf h p c h2 hok] at hmem
  by_cases hnp : n = p
  · subst hnp
    rw [if_pos rfl] at hmem
    have hplt : n < h.length := (List.getElem?_eq_some_iff.mp hpn).1
    exact ((List.Nodup.mem_erase_iff (hwf n hplt).1).mp hmem).1 rfl
  · rw [if_neg hnp] at hmem
    have hnlt : n < h.length := by
      by_contra hge
      rw [childrenOf_of_ge _ _ (by omega)] at hmem
      cases hmem
    have := ((hwf n hnlt).2.1 c hmem).2
    rw [hpc] at this
    exact hnp (Option.some.inj this).symm

theorem Shrinks.shrinks_refl (h : Heap) : Shrinks h h :=
  ⟨rfl, fun _ nd hi => ⟨nd, hi, rfl, rfl, rfl, List.Sublist.refl _, Or.inl rfl⟩⟩

theorem Shrinks.shrinks_trans {h1 h2 h3 : Heap} (h12 : Shrinks h1 h2) (h23 : Shrinks h2 h3) :
    Shrinks h1 h3 := by
  refine ⟨h23.1.trans h12.1, fun i nd hi => ?_⟩
  obtain ⟨nd2, hi2, ht, hd, ha, hc, hp⟩ := h12.2 i nd hi
  obtain ⟨nd3, hi3, ht3, hd3, ha3, hc3, hp3⟩ := h23.2 i nd2 hi2
  refine ⟨nd3, hi3, ht3.trans ht, hd3.trans hd, ha3.trans ha, hc3.trans hc, ?_⟩
  rcases hp3 with hp3 | hp3
  · rcases hp with hp | hp
    · exact Or.inl (hp3.trans hp)
    · exact Or.inr (hp3.trans hp)
  · exact Or.inr hp3

theorem Shrinks.children_subset {h h2 : Heap} (hs : Shrinks h h2) (n x : Nat)
    (hx : x ∈ childrenOf h2 n) : x ∈ childrenOf h n := by
  by_cases hn : n < h.length
  · have hind : h[n]? = some h[n] := List.getElem?_eq_some_iff.mpr ⟨hn, rfl⟩
    obtain ⟨nd2, hnd2, _, _, _, hsub, _⟩ := hs.2 n _ hind
    rw [childrenOf_eq _ _ _ hnd2] at hx
    rw [childrenOf_eq _ _ _ hind]
    exact hsub.subset hx
  · rw [childrenOf_of_ge _ _ (by rw [hs.1]; omega)] at hx
    cases hx

theorem Shrinks.parent_cases {h h2 : Heap} (hs : Shrinks h h2) (n : Nat) :
    parentOf h2 n = parentOf h n ∨ parentOf h2 n = none := by
  by_cases hn : n < h.length
  · have hind : h[n]? = some h[n] := List.getElem?_eq_some_iff.mpr ⟨hn, rfl⟩
    obtain ⟨nd2, hnd2, _, _, _, _, hp⟩ := hs.2 n _ hind
    simp only [parentOf, hnd2, hind]
    exact hp
  · right
    simp [parentOf, List.getElem?_eq_none (show h2.length ≤ n by rw [hs.1]; omega)]

theorem Under_shrinks {h h2 : Heap} {n y : Nat} (hs : Shrinks h h2) (hu : Under h2 n y) :
    Under h n y := by
  induction hu with
  | child hc => exact Under.child (hs.children_subset _ _ hc)
  | step hc _ ih => exact Under.step (hs.children_subset _ _ hc) ih

theorem Detached_shrinks {h h2 : Heap} {y : Nat} (hs : Shrinks h h2) (hd : Detached h y) :
    Detached h2 y := by
  refine ⟨?_, fun n hmem => hd.2 n (hs.children_subset _ _ hmem)⟩
  rcases hs.parent_cases y with hp | hp
  · rw [hp]
    exact hd.1
  · exact hp

theorem Detached_not_under {h : Heap} {top y : Nat} (hd : Detached h y) : ¬ Under h top y := by
  intro hu
  have key : ∀ n z, Under h n z → ∃ m, z ∈ childrenOf h m := by
    intro n z hz
    induction hz with
    | child hc => exact ⟨_, hc⟩
    | step _ _ ih => exact ih
  obtain ⟨m, hm⟩ := key top y hu
  exact hd.2 m hm

theorem Layered_shrinks {lvl : Nat → Nat} {h h2 : Heap} (hs : Shrinks h h2)
    (hl : Layered lvl h) : Layered lvl h2 := by
  intro c p hcp
  rcases hs.parent_cases c with hp | hp
  · rw [hp] at hcp
    exact hl c p hcp
  · rw [hp] at hcp
    cases hcp

theorem Acyclic_shrinks {h h2 : Heap} (hs : Shrinks h h2) (hac : Acyclic h) : Acyclic h2 := by
  obtain ⟨ht, hht⟩ := hac
  exact ⟨ht, Layered_shrinks hs hht⟩

theorem mapM_eq_ok {α β : Type} (f : α → Except Fault β) :
    ∀ (l : List α) (rs : List β), l.mapM f = Except.ok rs ↔
      List.Forall₂ (fun a r => f a = Except.ok r) l rs := by
  intro l
  induction l with
  | nil =>
    intro rs
    rw [List.mapM_nil, pure_eq_ok]
    constructor
    · intro h
      subst h
      exact List.Forall₂.nil
    · intro h
      cases h
      rfl
  | cons a as ih =>
    intro rs
    rw [List.mapM_cons]
    constructor
    · intro h
      obtain ⟨r, hr, h⟩ := (bind_eq_ok _ _ _).mp h
      obtain ⟨rs2, hrs2, h⟩ := (bind_eq_ok _ _ _).mp h
      rw [pure_eq_ok] at h
      subst h
      exact List.Forall₂.cons hr ((ih rs2).mp hrs2)
    · intro h
      cases h with
      | cons hr hrest =>
        exact (bind_eq_ok _ _ _).mpr ⟨_, hr, (bind_eq_ok _ _ _).mpr ⟨_, (ih _).mpr hrest, rfl⟩⟩

theorem Under_below {h : Heap} (hwf : WellFormed h) {n y : Nat} (hu : Under h n y) :
    Below h n y ∧ ∃ p, parentOf h y = some p := by
  have hpar : ∀ a c, c ∈ childrenOf h a → a < h.length ∧ parentOf h c = some a := by
    intro a c hc
    have ha : a < h.length := by
      by_contra hge
      rw [childrenOf_of_ge _ _ (by omega)] at hc
      cases hc
    exact ⟨ha, ((hwf a ha).2.1 c hc).2⟩
  induction hu with
  | child hc => exact ⟨Below.below_of_parent (hpar _ _ hc).2, _, (hpar _ _ hc).2⟩
  | step hc _ ih =>
    exact ⟨(Below.below_of_parent (hpar _ _ hc).2).below_trans ih.1, ih.2⟩

theorem forall₂_mem_left {α β : Type} {R : α → β → Prop} {l : List α} {rs : List β}
    (hf : List.Forall₂ R l rs) {a : α} (ha : a ∈ l) : ∃ r ∈ rs, R a r := by
  induction hf with
  | nil => cases ha
  | cons hr _ ih =>
    rw [List.mem_cons] at ha
    rcases ha with rfl | ha
    · exact ⟨_, List.mem_cons_self _ _, hr⟩
    · obtain ⟨r, hr2, hR⟩ := ih ha
      exact ⟨r, List.mem_cons_of_mem _ hr2, hR⟩

theorem forall₂_mem_right {α β : Type} {R : α → β → Prop} {l : List α} {rs : List β}
    (hf : List.Forall₂ R l rs) {r : β} (hr : r ∈ rs) : ∃ a ∈ l, R a r := by
  induction hf with
  | nil => cases hr
  | cons hR _ ih =>
    rw [List.mem_cons] at hr
    rcases hr with rfl | hr
    · exact ⟨_, List.mem_cons_self _ _, hR⟩
    · obtain ⟨a, ha, hR2⟩ := ih hr
      exact ⟨a, List.mem_cons_of_mem _ ha, hR2⟩

theorem MatchAll_cases (m : Matcher) (h : Heap) (f n : Nat) (nodes : List Nat)
    (hok : MatchAll m h (f + 1) n = Except.ok nodes) :
    ∃ nd below, h[n]? = some nd
      ∧ List.Forall₂ (fun c r => MatchAll m h f c = Except.ok r) nd.Children below
      ∧ nodes = (if m h n then [n] else []) ++ below.flatten := by
  unfold MatchAll at hok
  obtain ⟨nd, hnd, hok⟩ := (bind_eq_ok _ _ _).mp hok
  rw [deref_eq_ok] at hnd
  obtain ⟨below, hbelow, hok⟩ := (bind_eq_ok _ _ _).mp hok
  rw [pure_eq_ok] at hok
  exact ⟨nd, below, hnd, (mapM_eq_ok _ _ _).mp hbelow, hok.symm⟩

theorem MatchAll_sound (m : Matcher) (h : Heap) :
    ∀ (f n : Nat) (nodes : List Nat), MatchAll m h f n = Except.ok nodes →
      ∀ y ∈ nodes, m h y = true ∧ (y = n ∨ Under h n y) := by
  intro f
  induction f with
  | zero =>
    intro n nodes hok
    unfold MatchAll at hok
    exact absurd hok (throw_ne_ok _ _)
  | succ f ih =>
    intro n nodes hok y hy
    obtain ⟨nd, below, hnd, hall, hnodes⟩ := MatchAll_cases m h f n nodes hok
    subst hnodes
    rw [List.mem_append] at hy
    rcases hy with hy | hy
    · by_cases hm : m h n = true
      · rw [if_pos hm, List.mem_singleton] at hy
        subst hy
        exact ⟨hm, Or.inl rfl⟩
      · rw [if_neg hm] at hy
        cases hy
    · obtain ⟨r, hr, hyr⟩ := List.mem_flatten.mp hy
      obtain ⟨c, hc, hcr⟩ := forall₂_mem_right hall hr
      have hcmem : c ∈ childrenOf h n := by rw [childrenOf_eq _ _ _ hnd]; exact hc
      obtain ⟨hmy, hcase⟩ := ih c r hcr y hyr
      refine ⟨hmy, Or.inr ?_⟩
      rcases hcase with rfl | hu
      · exact Under.child hcmem
      · exact Under.step hcmem hu

theorem MatchAll_complete (m : Matcher) (h : Heap) :
    ∀ (f n : Nat) (nodes : List Nat), MatchAll m h f n = Except.ok nodes →
      (m h n = true → n ∈ nodes) ∧ ∀ y, Under h n y → m h y = true → y ∈ nodes := by
  intro f
  induction f with
  | zero =>
    intro n nodes hok
    unfold MatchAll at hok
    exact absurd hok (throw_ne_ok _ _)
  | succ f ih =>
    intro n nodes hok
    obtain ⟨nd, below, hnd, hall, hnodes⟩ := MatchAll_cases m h f n nodes hok
    subst hnodes
    constructor
    · intro hm
      rw [if_pos hm]
      exact List.mem_append_left _ (List.mem_singleton.mpr rfl)
    · intro y hu hm
      obtain ⟨c, hc, hcy⟩ := Under_first hu
      rw [childrenOf_eq _ _ _ hnd] at hc
      obtain ⟨r, hr, hcr⟩ := forall₂_mem_left hall hc
      refine List.mem_append_right _ (List.mem_flatten.mpr ⟨r, hr, ?_⟩)
      rcases hcy with rfl | hcy
      · exact (ih c r hcr).1 hm
      · exact (ih c r hcr).2 y hcy hm

theorem mapM_ok_exists {α β : Type} (f : α → Except Fault β) :
    ∀ l : List α, (∀ a ∈ l, ∃ r, f a = Except.ok r) → ∃ rs, l.mapM f = Except.ok rs := by
  intro l
  induction l with
  | nil => intro _; exact ⟨[], rfl⟩
  | cons a as ih =>
    intro hall
    obtain ⟨r, hr⟩ := hall a (List.mem_cons_self _ _)
    obtain ⟨rs, hrs⟩ := ih (fun b hb => hall b (List.mem_cons_of_mem _ hb))
    refine ⟨r :: rs, ?_⟩
    rw [List.mapM_cons]
    exact (bind_eq_ok _ _ _).mpr ⟨r, hr, (bind_eq_ok _ _ _).mpr ⟨rs, hrs, rfl⟩⟩

theorem MatchAll_terminates (m : Matcher) (lvl : Nat → Nat) (h : Heap)
    (hwf : WellFormed h) (hlay : Layered lvl h) :
    ∀ f n, n < h.length → lvl n < f → ∃ nodes, MatchAll m h f n = Except.ok nodes := by
  intro f
  induction f with
  | zero => intro n _ hl; omega
  | succ f ih =>
    intro n hn hl
    have hind : h[n]? = some h[n] := List.getElem?_eq_some_iff.mpr ⟨hn, rfl⟩
    have hch : childrenOf h n = h[n].Children := childrenOf_eq _ _ _ hind
    obtain ⟨below, hbelow⟩ := mapM_ok_exists (MatchAll m h f) h[n].Children (by
      intro c hc
      obtain ⟨hclt, hcp⟩ := wf_child h hwf n c hn (hch ▸ hc)
      have := hlay c n hcp
      exact ih c hclt (by omega))
    unfold MatchAll
    exact ⟨_, (bind_eq_ok _ _ _).mpr ⟨_, deref_ok_of_lt h n hn,
      (bind_eq_ok _ _ _).mpr ⟨below, hbelow, rfl⟩⟩⟩

theorem forall₂_pairwise_disjoint {α : Type} {R : α → List Nat → Prop} {l : List α}
    {rs : List (List Nat)} (hf : List.Forall₂ R l rs) (hnd : l.Nodup)
    (hdis : ∀ a b r s, a ≠ b → R a r → R b s → List.Disjoint r s) :
    rs.Pairwise List.Disjoint := by
  induction hf with
  | nil => exact List.Pairwise.nil
  | cons hR hrest ih =>
    rw [List.nodup_cons] at hnd
    refine List.Pairwise.cons ?_ (ih hnd.2)
    intro s hs
    obtain ⟨b, hb, hRb⟩ := forall₂_mem_right hrest hs
    refine hdis _ b _ s ?_ hR hRb
    intro he
    subst he
    exact hnd.1 hb

theorem MatchAll_nodup (m : Matcher) (h : Heap) (hwf : WellFormed h) (hac : Acyclic h) :
    ∀ (f n : Nat) (nodes : List Nat), MatchAll m h f n = Except.ok nodes → nodes.Nodup := by
  intro f
  induction f with
  | zero =>
    intro n nodes hok
    unfold MatchAll at hok
    exact absurd hok (throw_ne_ok _ _)
  | succ f ih =>
    intro n nodes hok
    obtain ⟨nd, below, hnd, hall, hnodes⟩ := MatchAll_cases m h f n nodes hok
    subst hnodes
    have hn : n < h.length := (List.getElem?_eq_some_iff.mp hnd).1
    have hkids : ∀ c ∈ nd.Children, parentOf h c = some n := by
      intro c hc
      exact ((hwf n hn).2.1 c (by rw [childrenOf_eq _ _ _ hnd]; exact hc)).2
    have hsub : ∀ c r y, MatchAll m h f c = Except.ok r → y ∈ r → Below h c y := by
      intro c r y hcr hy
      rcases (MatchAll_sound m h f c r hcr y hy).2 with rfl | hu
      · exact Below.refl _
      · exact (Under_below hwf hu).1
    have hflat : below.flatten.Nodup := by
      rw [List.nodup_flatten]
      constructor
      · intro r hr
        obtain ⟨c, _, hcr⟩ := forall₂_mem_right hall hr
        exact ih c r hcr
      · have hcn : nd.Children.Nodup := by
          have := (hwf n hn).1
          rwa [childrenOf_eq _ _ _ hnd] at this
        have hall2 : List.Forall₂
            (fun c r => c ∈ nd.Children ∧ MatchAll m h f c = Except.ok r) nd.Children below := by
          have key : ∀ (l : List Nat) (rs : List (List Nat)),
              List.Forall₂ (fun c r => MatchAll m h f c = Except.ok r) l rs →
              (∀ c ∈ l, c ∈ nd.Children) →
              List.Forall₂ (fun c r => c ∈ nd.Children ∧ MatchAll m h f c = Except.ok r)
                l rs := by
            intro l rs hf
            induction hf with
            | nil => intro _; exact List.Forall₂.nil
            | cons hr _ ih2 =>
              intro hmem
              exact List.Forall₂.cons ⟨hmem _ (List.mem_cons_self _ _), hr⟩
                (ih2 (fun c hc => hmem c (List.mem_cons_of_mem _ hc)))
          exact key _ _ hall (fun _ hc => hc)
        refine forall₂_pairwise_disjoint hall2 hcn ?_
        intro a b r s hab ⟨ha, har⟩ ⟨hb, hbs⟩ y hyr hys
        have h1 := hsub a r y har hyr
        have h2 := hsub b s y hbs hys
        rcases Below.below_linear h1 h2 with hlin | hlin
        · exact siblings_not_below hac hab (hkids a ha) (hkids b hb) hlin
        · exact siblings_not_below hac (Ne.symm hab) (hkids b hb) (hkids a ha) hlin
    rw [List.nodup_append]
    refine ⟨?_, hflat, ?_⟩
    · split
      · exact List.nodup_singleton _
      · exact List.nodup_nil
    · intro y hy1 hy2
      have hyn : y = n := by
        split at hy1
        · exact List.mem_singleton.mp hy1
        · cases hy1
      subst hyn
      obtain ⟨r, hr, hyr⟩ := List.mem_flatten.mp hy2
      obtain ⟨c, hc, hcr⟩ := forall₂_mem_right hall hr
      exact Below.below_ne_of_child hac (hkids c hc) (hsub c r y hcr hyr) rfl

theorem removeNodes_cons (h : Heap) (node : Nat) (rest : List Nat) (h2 : Heap)
    (hok : removeNodes h (node :: rest) = Except.ok h2) :
    ∃ p h1, parentOf h node = some p ∧ RemoveChild h p node = Except.ok h1
      ∧ removeNodes h1 rest = Except.ok h2 := by
  unfold removeNodes at hok
  obtain ⟨nd, hnd, hok⟩ := (bind_eq_ok _ _ _).mp hok
  rw [deref_eq_ok] at hnd
  obtain ⟨p, hp, hok⟩ := (bind_eq_ok _ _ _).mp hok
  rw [nonNil_eq_ok] at hp
  obtain ⟨h1, h1ok, hok⟩ := (bind_eq_ok _ _ _).mp hok
  exact ⟨p, h1, (parentOf_eq_some _ _ _).mpr ⟨nd, hnd, hp⟩, h1ok, hok⟩

theorem removeNodes_spec :
    ∀ (nodes : List Nat) (h h2 : Heap), WellFormed h → removeNodes h nodes = Except.ok h2 →
      Shrinks h h2 ∧ WellFormed h2 ∧ (∀ y ∈ nodes, Detached h2 y)
        ∧ ∀ i, i ∉ nodes → parentOf h2 i = parentOf h i := by
  intro nodes
  induction nodes with
  | nil =>
    intro h h2 hwf hok
    unfold removeNodes at hok
    rw [pure_eq_ok] at hok
    subst hok
    exact ⟨Shrinks.shrinks_refl _, hwf, fun _ hy => (by cases hy), fun _ _ => rfl⟩
  | cons node rest ih =>
    intro h h2 hwf hok
    obtain ⟨p, h1, _, h1ok, hrest⟩ := removeNodes_cons h node rest h2 hok
    have hwf1 := RemoveChild_wellFormed h p node h1 hwf h1ok
    obtain ⟨hs, hwf2, hdet, hpar⟩ := ih h1 h2 hwf1 hrest
    refine ⟨(RemoveChild_shrinks h p node h1 h1ok).shrinks_trans hs, hwf2, ?_, ?_⟩
    · intro y hy
      rw [List.mem_cons] at hy
      rcases hy with rfl | hy
      · exact Detached_shrinks hs (RemoveChild_detached h p _ h1 hwf h1ok)
      · exact hdet y hy
    · intro i hi
      rw [List.mem_cons, not_or] at hi
      rw [hpar i hi.2, RemoveChild_parentOf h p node h1 h1ok, if_neg hi.1]

theorem RemoveChild_ok (h : Heap) (p c : Nat) (hpc : parentOf h c = some p)
    (hp : p < h.length) : ∃ h2, RemoveChild h p c = Except.ok h2 := by
  obtain ⟨cn, hcn, hcp⟩ := (parentOf_eq_some _ _ _).mp hpc
  have hc : c < h.length := (List.getElem?_eq_some_iff.mp hcn).1
  unfold RemoveChild
  refine bind_ok_exists _ _ cn ((deref_eq_ok _ _ _).mpr hcn) ?_
  rw [if_neg (by simp [hcp])]
  refine bind_ok_exists _ _ _ (deref_ok_of_lt h p hp) ?_
  exact bind_ok_exists _ _ _ (deref_ok_of_lt _ c (by simpa using hc)) ⟨_, rfl⟩

theorem removeNodes_total :
    ∀ (nodes : List Nat) (h : Heap), WellFormed h → nodes.Nodup →
      (∀ y ∈ nodes, ∃ p, parentOf h y = some p) → ∃ h2, removeNodes h nodes = Except.ok h2 := by
  intro nodes
  induction nodes with
  | nil => intro h _ _ _; exact ⟨h, rfl⟩
  | cons node rest ih =>
    intro h hwf hnd hpar
    rw [List.nodup_cons] at hnd
    obtain ⟨p, hp⟩ := hpar node (List.mem_cons_self _ _)
    obtain ⟨nd, hndn, hndp⟩ := (parentOf_eq_some _ _ _).mp hp
    have hnlt : node < h.length := parentOf_lt _ _ _ hp
    have hplt : p < h.length := by
      have := (hwf node hnlt).2.2
      rw [hp] at this
      exact this
    obtain ⟨h1, h1ok⟩ := RemoveChild_ok h p node hp hplt
    obtain ⟨h2, h2ok⟩ := ih h1 (RemoveChild_wellFormed h p node h1 hwf h1ok) hnd.2 (by
      intro y hy
      obtain ⟨q, hq⟩ := hpar y (List.mem_cons_of_mem _ hy)
      refine ⟨q, ?_⟩
      have hne : y ≠ node := by
        intro he
        subst he
        exact hnd.1 hy
      rw [RemoveChild_parentOf h p node h1 h1ok, if_neg hne]
      exact hq)
    refine ⟨h2, ?_⟩
    unfold removeNodes
    exact (bind_eq_ok _ _ _).mpr ⟨nd, (deref_eq_ok _ _ _).mpr hndn,
      (bind_eq_ok _ _ _).mpr ⟨p, (nonNil_eq_ok _ _).mpr hndp,
        (bind_eq_ok _ _ _).mpr ⟨h1, h1ok, h2ok⟩⟩⟩

theorem removeElements_cons (fuel top : Nat) (sel : cssSelectorYaml)
    (rest : List cssSelectorYaml) (h h2 : Heap)
    (hok : removeElements fuel top (sel :: rest) h = Except.ok h2) :
    ∃ nodes h1, MatchAll sel.Match h fuel top = Except.ok nodes
      ∧ removeNodes h nodes = Except.ok h1
      ∧ removeElements fuel top rest h1 = Except.ok h2 := by
  unfold removeElements at hok
  obtain ⟨nodes, hnodes, hok⟩ := (bind_eq_ok _ _ _).mp hok
  obtain ⟨h1, h1ok, hok⟩ := (bind_eq_ok _ _ _).mp hok
  exact ⟨nodes, h1, hnodes, h1ok, hok⟩

theorem removeElements_spec (fuel top : Nat) :
    ∀ (sels : List cssSelectorYaml) (h h2 : Heap), WellFormed h →
      removeElements fuel top sels h = Except.ok h2 →
      Shrinks h h2 ∧ WellFormed h2
        ∧ (∀ y, RemovedBy fuel top sels h y → Detached h2 y ∧ ¬ Under h2 top y)
        ∧ ∀ sel ∈ sels, LocalMatcher sel.Match →
            ∀ y, Under h2 top y → sel.Match h2 y = false := by
  intro sels
  induction sels with
  | nil =>
    intro h h2 hwf hok
    unfold removeElements at hok
    rw [pure_eq_ok] at hok
    subst hok
    exact ⟨Shrinks.shrinks_refl _, hwf, fun y hy => (by cases hy), fun _ hs => (by cases hs)⟩
  | cons sel rest ih =>
    intro h h2 hwf hok
    obtain ⟨nodes, h1, hnodes, h1ok, hrest⟩ := removeElements_cons fuel top sel rest h h2 hok
    obtain ⟨hs1, hwf1, hdet1, _⟩ := removeNodes_spec nodes h h1 hwf h1ok
    obtain ⟨hs2, hwf2, hrem2, hloc2⟩ := ih h1 h2 hwf1 hrest
    have hs := hs1.shrinks_trans hs2
    refine ⟨hs, hwf2, ?_, ?_⟩
    · intro y hy
      cases hy with
      | here hm hy =>
        rw [hnodes] at hm
        cases hm
        have hd := Detached_shrinks hs2 (hdet1 y hy)
        exact ⟨hd, Detached_not_under hd⟩
      | later hm hr hy =>
        rw [hnodes] at hm
        cases hm
        rw [h1ok] at hr
        cases hr
        exact hrem2 y hy
    · intro s hsmem hlocal y hu
      rw [List.mem_cons] at hsmem
      rcases hsmem with rfl | hsmem
      · by_contra hne
        have hm2 : s.Match h2 y = true := by simpa using hne
        have hu0 : Under h top y := Under_shrinks hs hu
        obtain ⟨_, q, hq⟩ := Under_below hwf hu0
        have hylt : y < h.length := parentOf_lt _ _ _ hq
        have hind : h[y]? = some h[y] := List.getElem?_eq_some_iff.mpr ⟨hylt, rfl⟩
        obtain ⟨nd2, hnd2, ht, hd, ha, _, _⟩ := hs.2 y _ hind
        have hm0 : s.Match h y = true := by
          rw [← hlocal h h2 y _ nd2 hind hnd2 ht hd ha]
          exact hm2
        have hy := (MatchAll_complete s.Match h fuel top nodes hnodes).2 y hu0 hm0
        exact Detached_not_under (Detached_shrinks hs2 (hdet1 y hy)) hu
      · exact hloc2 s hsmem hlocal y hu

theorem removeElements_total (fuel top K : Nat) (lvl : Nat → Nat) (h0 : Heap)
    (hK : ∀ i, lvl i ≤ K) (hF : K < fuel) (htop : top < h0.length) :
    ∀ (sels : List cssSelectorYaml) (h : Heap), Shrinks h0 h → WellFormed h → Layered lvl h →
      (∀ sel ∈ sels, ∀ h2, Shrinks h0 h2 → sel.Match h2 top = false) →
      ∃ h2, removeElements fuel top sels h = Except.ok h2 := by
  intro sels
  induction sels with
  | nil => intro h _ _ _ _; exact ⟨h, rfl⟩
  | cons sel rest ih =>
    intro h hs hwf hlay hroot
    have htoplt : top < h.length := by rw [hs.1]; exact htop
    obtain ⟨nodes, hnodes⟩ := MatchAll_terminates sel.Match lvl h hwf hlay fuel top htoplt
      (lt_of_le_of_lt (hK top) hF)
    have hnd := MatchAll_nodup sel.Match h hwf ⟨lvl, hlay⟩ fuel top nodes hnodes
    obtain ⟨h1, h1ok⟩ := removeNodes_total nodes h hwf hnd (by
      intro y hy
      obtain ⟨hm, hcase⟩ := MatchAll_sound sel.Match h fuel top nodes hnodes y hy
      rcases hcase with rfl | hu
      · rw [hroot sel (List.mem_cons_self _ _) h hs] at hm
        cases hm
      · exact (Under_below hwf hu).2)
    obtain ⟨hs1, hwf1, _, _⟩ := removeNodes_spec nodes h h1 hwf h1ok
    obtain ⟨h2, h2ok⟩ := ih h1 (hs.shrinks_trans hs1) hwf1 (Layered_shrinks hs1 hlay)
      (fun s hsm => hroot s (List.mem_cons_of_mem _ hsm))
    refine ⟨h2, ?_⟩
    unfold removeElements
    exact (bind_eq_ok _ _ _).mpr ⟨nodes, hnodes, (bind_eq_ok _ _ _).mpr ⟨h1, h1ok, h2ok⟩⟩

theorem Below_shrinks {h h2 : Heap} {a b : Nat} (hs : Shrinks h h2) (hb : Below h2 a b) :
    Below h a b := by
  induction hb with
  | refl => exact Below.refl _
  | step hp _ ih =>
    rcases hs.parent_cases _ with hq | hq
    · rw [hq] at hp
      exact Below.step hp ih
    · rw [hq] at hp
      cases hp

theorem Below_antisymm {h : Heap} (hac : Acyclic h) {a b : Nat} (hab : Below h a b)
    (hba : Below h b a) : a = b := by
  obtain ⟨ht, hht⟩ := hac
  rcases hab.below_cases_parent with he | ⟨p, hp, hap⟩
  · exact he
  · have h1 := hht b p hp
    have h2 := hap.below_height_le ht hht
    have h3 := hba.below_height_le ht hht
    omega

theorem detached_subtree {h : Heap} (hwf : WellFormed h) {top x z : Nat}
    (hdet : Detached h x) (hx : x ≠ top) (hnot : ¬ Below h x top) (hb : Below h x z) :
    ¬ Under h top z ∧ z ≠ top := by
  constructor
  · intro hu
    rcases Below.below_linear (Under_below hwf hu).1 hb with hl | hl
    · rcases hl.below_cases_parent with he | ⟨p, hp, _⟩
      · exact hx he.symm
      · rw [hdet.1] at hp
        cases hp
    · exact hnot hl
  · intro he
    subst he
    exact hnot hb

theorem removeElements_subtrees (fuel top : Nat) :
    ∀ (sels : List cssSelectorYaml) (h h2 : Heap), WellFormed h → Acyclic h →
      removeElements fuel top sels h = Except.ok h2 →
      ∀ x, RemovedBy fuel top sels h x → x ≠ top →
        ∀ z, Below h2 x z → ¬ Under h2 top z ∧ z ≠ top := by
  intro sels
  induction sels with
  | nil => intro h h2 _ _ _ x hx; cases hx
  | cons sel rest ih =>
    intro h h2 hwf hac hok x hx hxtop z hz
    obtain ⟨nodes, h1, hnodes, h1ok, hrest⟩ := removeElements_cons fuel top sel rest h h2 hok
    obtain ⟨hs1, hwf1, hdet1, _⟩ := removeNodes_spec nodes h h1 hwf h1ok
    obtain ⟨hs2, hwf2, _, _⟩ := removeElements_spec fuel top rest h1 h2 hwf1 hrest
    cases hx with
    | here hm hy =>
      rw [hnodes] at hm
      cases hm
      have hd := Detached_shrinks hs2 (hdet1 x hy)
      refine detached_subtree hwf2 hd hxtop ?_ hz
      intro hb
      have hb0 : Below h x top := Below_shrinks (hs1.shrinks_trans hs2) hb
      rcases (MatchAll_sound sel.Match h fuel top nodes hnodes x hy).2 with he | hu
      · exact hxtop he
      · exact hxtop (Below_antisymm hac hb0 (Under_below hwf hu).1)
    | later hm hr hy =>
      rw [hnodes] at hm
      cases hm
      rw [h1ok] at hr
      cases hr
      exact ih h1 h2 hwf1 (Acyclic_shrinks hs1 hac) hrest x hy hxtop z hz

theorem removeElements_terminates (top : Nat) (sels : List cssSelectorYaml) (h : Heap)
    (hwf : WellFormed h) (hac : Acyclic h) (htop : top < h.length)
    (hroot : ∀ sel ∈ sels, ∀ h2, Shrinks h h2 → sel.Match h2 top = false) :
    ∃ fuel0, ∀ fuel, fuel0 ≤ fuel → ∃ h2, removeElements fuel top sels h = Except.ok h2 := by
  obtain ⟨ht, hht⟩ := hac
  refine ⟨(Finset.range h.length).sum (fun i => ht i) + h.length + 1, fun fuel hfuel => ?_⟩
  have hlay : Layered (fun i => if i < h.length then ht i else 0) h := by
    intro c p hcp
    have hc := parentOf_lt _ _ _ hcp
    have hp : p < h.length := by
      have := (hwf c hc).2.2
      rw [hcp] at this
      exact this
    simp only [hc, hp, if_true]
    exact hht c p hcp
  refine removeElements_total fuel top ((Finset.range h.length).sum (fun i => ht i))
    (fun i => if i < h.length then ht i else 0) h ?_ (by omega) htop sels h
    (Shrinks.shrinks_refl h) hwf hlay hroot
  intro i
  by_cases hi : i < h.length
  · simp only [hi, if_true]
    exact Finset.single_le_sum (f := fun i => ht i) (fun _ _ => Nat.zero_le _)
      (Finset.mem_range.mpr hi)
  · simp only [hi, if_false]
    exact Nat.zero_le _

theorem prepare_cases (lib : PathLib) (fuel : Nat) (h : Heap) (top : Nat) (filepath : String)
    (dashing : Dashing) (headNode : Option Nat) (usedFiles : List String) (h3 : Heap)
    (hok : prepare lib fuel h top filepath dashing = Except.ok (headNode, usedFiles, h3)) :
    MatchFirst (tagSelector "head") h fuel top = Except.ok headNode
      ∧ ∃ h2, removeElements fuel top dashing.RemoveElements h = Except.ok h2
        ∧ replaceBody fuel top dashing h2 = Except.ok h3 := by
  unfold prepare at hok
  obtain ⟨hd, hhd, hok⟩ := (bind_eq_ok _ _ _).mp hok
  obtain ⟨roots, _, hok⟩ := (bind_eq_ok _ _ _).mp hok
  obtain ⟨uf, _, hok⟩ := (bind_eq_ok _ _ _).mp hok
  obtain ⟨h1, h1ok, hok⟩ := (bind_eq_ok _ _ _).mp hok
  obtain ⟨h2, h2ok, hok⟩ := (bind_eq_ok _ _ _).mp hok
  rw [pure_eq_ok] at hok
  cases hok
  exact ⟨hhd, h1, h1ok, h2ok⟩

theorem classSelector_local (cls : String) : LocalMatcher (classSelector cls) := by
  intro h h2 n nd nd2 hnd hnd2 ht _ ha
  simp only [classSelector, hnd, hnd2, ht, ha]

/-! ## Theorems: the removal pass -/

/-- C11: on a well-formed document, when no removal selector matches the root
`top`, the removal pass returns for every large enough fuel; it is the pass
`prepare` runs inside `parseHTML`; and whenever it returns, every node that a
removal selector found with `MatchAll` when its turn came has no parent, is in
no list of children and is not reachable from `top`, and neither is any node
of the subtree under it; the other nodes keep their type, tag and attributes;
and for a selector that decides from the node alone, as `.ad` does, no node
reachable from `top` after the pass is matched by it. -/
theorem C11_removed_nodes_detached (lib : PathLib) (top : Nat) (filepath : String)
    (dashing : Dashing) (h : Heap)
    (hwf : WellFormed h) (hac : Acyclic h) (htop : top < h.length) :
    ((∀ sel ∈ dashing.RemoveElements, ∀ h2, Shrinks h h2 → sel.Match h2 top = false) →
        ∃ fuel0, ∀ fuel, fuel0 ≤ fuel →
          ∃ h2, removeElements fuel top dashing.RemoveElements h = Except.ok h2)
    ∧ (∀ fuel headNode usedFiles h3,
        prepare lib fuel h top filepath dashing = Except.ok (headNode, usedFiles, h3) →
        ∃ h2, removeElements fuel top dashing.RemoveElements h = Except.ok h2
          ∧ replaceBody fuel top dashing h2 = Except.ok h3)
    ∧ ∀ fuel h2, removeElements fuel top dashing.RemoveElements h = Except.ok h2 →
        Shrinks h h2 ∧ WellFormed h2
        ∧ (∀ y, RemovedBy fuel top dashing.RemoveElements h y →
            Detached h2 y ∧ ¬ Under h2 top y
            ∧ (y ≠ top → ∀ z, Below h2 y z → ¬ Under h2 top z ∧ z ≠ top))
        ∧ ∀ sel ∈ dashing.RemoveElements, LocalMatcher sel.Match →
            ∀ y, Under h2 top y → sel.Match h2 y = false := by
  refine ⟨fun hroot => removeElements_terminates top dashing.RemoveElements h hwf hac htop hroot,
    fun fuel headNode usedFiles h3 hok =>
      (prepare_cases lib fuel h top filepath dashing headNode usedFiles h3 hok).2, ?_⟩
  intro fuel h2 hok
  obtain ⟨hs, hwf2, hrem, hloc⟩ := removeElements_spec fuel top dashing.RemoveElements h h2 hwf hok
  refine ⟨hs, hwf2, fun y hy => ⟨(hrem y hy).1, (hrem y hy).2, fun hne z hz => ?_⟩, hloc⟩
  exact removeElements_subtrees fuel top dashing.RemoveElements h h2 hwf hac hok y hy hne z hz

/-- C11 on the page with `<div class="ad">` and the removal rule `.ad`: the
pass returns for every large enough fuel, and with fuel 20 the `div`, node 4,
is found and detached, the body keeps its other child only, neither the `div`
nor a node under it is reachable from the document, and no node that is
reachable is matched by `.ad`. -/
theorem C11_removed_nodes_detached_witness :
    (∃ fuel0, ∀ fuel, fuel0 ≤ fuel →
        ∃ h2, removeElements fuel 0 adConfig.RemoveElements adDoc = Except.ok h2)
    ∧ MatchAll (classSelector "ad") adDoc 20 0 = Except.ok [4]
    ∧ ∃ h2, removeElements 20 0 adConfig.RemoveElements adDoc = Except.ok h2
      ∧ childrenOf h2 3 = [7]
      ∧ Detached h2 4 ∧ ¬ Under h2 0 4
      ∧ (∀ z, Below h2 4 z → ¬ Under h2 0 z ∧ z ≠ 0)
      ∧ ∀ y, Under h2 0 y → classSelector "ad" h2 y = false := by
  have hmatch : MatchAll (classSelector "ad") adDoc 20 0 = Except.ok [4] := by decide!
  obtain ⟨h2, hrun, hkids⟩ := (map_eq_ok
    (removeElements 20 0 adConfig.RemoveElements adDoc)
    (fun x => childrenOf x 3) [7]).mp (by decide!)
  have hmain := C11_removed_nodes_detached noPaths 0 "page.html" adConfig adDoc
    (wellFormed_of_check adDoc (by decide)) (acyclic_of_check adDoc (by decide)) (by decide)
  have hroot : ∀ sel ∈ adConfig.RemoveElements, ∀ h2, Shrinks adDoc h2 →
      sel.Match h2 0 = false := by
    intro sel hsel h3 hs
    have hsel2 : sel = ⟨classSelector "ad", ".ad"⟩ := by simpa [adConfig] using hsel
    subst hsel2
    obtain ⟨nd2, hnd2, ht, _, _, _, _⟩ := hs.2 0 _ (by rfl)
    have ht2 : nd2.Typ = NodeType.DocumentNode := ht
    simp [classSelector, hnd2, ht2]
  obtain ⟨_, _, hrem, hloc⟩ := hmain.2.2 20 h2 hrun
  have hby : RemovedBy 20 0 adConfig.RemoveElements adDoc 4 :=
    @RemovedBy.here 20 0 ⟨classSelector "ad", ".ad"⟩ [] adDoc [4] 4 hmatch (by simp)
  obtain ⟨hdet, hnot, hsub⟩ := hrem 4 hby
  exact ⟨hmain.1 hroot, hmatch, h2, hrun, hkids, hdet, hnot, hsub (by decide),
    hloc ⟨classSelector "ad", ".ad"⟩ (by simp [adConfig]) (classSelector_local "ad")⟩

/-! ## Theorems: the first match and the heap operations of the body replacement -/

theorem firstSome_none (f : Nat → Except Fault (Option Nat)) :
    ∀ l : List Nat, firstSome f l = Except.ok none → ∀ c ∈ l, f c = Except.ok none := by
  intro l
  induction l with
  | nil => intro _ c hc; cases hc
  | cons a as ih =>
    intro h c hc
    unfold firstSome at h
    obtain ⟨r, hr, h⟩ := (bind_eq_ok _ _ _).mp h
    cases r with
    | some y =>
      simp only [pure_eq_ok] at h
      cases h
    | none =>
      rw [List.mem_cons] at hc
      rcases hc with rfl | hc
      · exact hr
      · exact ih h c hc

theorem MatchFirst_sound (m : Matcher) (h : Heap) :
    ∀ (f n x : Nat), MatchFirst m h f n = Except.ok (some x) →
      m h x = true ∧ (x = n ∨ Under h n x) := by
  intro f
  induction f with
  | zero =>
    intro n x hok
    unfold MatchFirst at hok
    exact absurd hok (throw_ne_ok _ _)
  | succ f ih =>
    intro n x hok
    unfold MatchFirst at hok
    by_cases hm : m h n = true
    · rw [if_pos hm, pure_eq_ok] at hok
      cases hok
      exact ⟨hm, Or.inl rfl⟩
    · rw [if_neg hm] at hok
      obtain ⟨nd, hnd, hok⟩ := (bind_eq_ok _ _ _).mp hok
      rw [deref_eq_ok] at hnd
      have key := firstSome_mem (MatchFirst m h f) (fun x => m h x = true ∧ Under h n x)
        nd.Children (by
          intro c hc y hy
          have hcmem : c ∈ childrenOf h n := by rw [childrenOf_eq _ _ _ hnd]; exact hc
          obtain ⟨hmy, hcase⟩ := ih c y hy
          refine ⟨hmy, ?_⟩
          rcases hcase with rfl | hu
          · exact Under.child hcmem
          · exact Under.step hcmem hu) x hok
      exact ⟨key.1, Or.inr key.2⟩

theorem MatchFirst_none (m : Matcher) (h : Heap) :
    ∀ (f n : Nat), MatchFirst m h f n = Except.ok none →
      m h n = false ∧ ∀ y, Under h n y → m h y = false := by
  intro f
  induction f with
  | zero =>
    intro n hok
    unfold MatchFirst at hok
    exact absurd hok (throw_ne_ok _ _)
  | succ f ih =>
    intro n hok
    unfold MatchFirst at hok
    by_cases hm : m h n = true
    · rw [if_pos hm, pure_eq_ok] at hok
      cases hok
    · rw [if_neg hm] at hok
      obtain ⟨nd, hnd, hok⟩ := (bind_eq_ok _ _ _).mp hok
      rw [deref_eq_ok] at hnd
      have hnone := firstSome_none _ _ hok
      refine ⟨by simpa using hm, ?_⟩
      intro y hu
      obtain ⟨c, hc, hcy⟩ := Under_first hu
      rw [childrenOf_eq _ _ _ hnd] at hc
      obtain ⟨h1, h2⟩ := ih c (hnone c hc)
      rcases hcy with rfl | hcy
      · exact h1
      · exact h2 y hcy

theorem replaceBody_none (fuel top : Nat) (dashing : Dashing) (h : Heap)
    (hbs : dashing.CssSelectorForBody = none) : replaceBody fuel top dashing h = Except.ok h := by
  unfold replaceBody
  rw [hbs]
  rfl

theorem replaceBody_cases (fuel top : Nat) (dashing : Dashing) (bs : cssSelectorYaml)
    (h h6 : Heap) (hbs : dashing.CssSelectorForBody = some bs)
    (hok : replaceBody fuel top dashing h = Except.ok h6) :
    ∃ bodyNode found,
      MatchFirst (tagSelector "body") h fuel top = Except.ok bodyNode
      ∧ MatchFirst bs.Match h fuel top = Except.ok found
      ∧ (found = none → h6 = h)
      ∧ ∀ bc, found = some bc →
          ∃ bcn p h1 bcn1 b bn h4 bn4 bp h5,
            h[bc]? = some bcn ∧ bcn.Parent = some p
            ∧ RemoveChild h p bc = Except.ok h1
            ∧ h1[bc]? = some bcn1
            ∧ bodyNode = some b
            ∧ (h1.set bc { bcn1 with Attr := bcn1.Attr ++ [⟨"", "style", "max-width: 100%;"⟩] })[b]?
                = some bn
            ∧ AppendChild
                ((h1.set bc
                    { bcn1 with Attr := bcn1.Attr ++ [⟨"", "style", "max-width: 100%;"⟩] })
                  ++ [{ Parent := none, Children := [], Typ := NodeType.ElementNode,
                        Data := "body", Attr := bn.Attr }])
                h1.length bc = Except.ok h4
            ∧ h4[b]? = some bn4 ∧ bn4.Parent = some bp
            ∧ InsertBefore h4 bp h1.length b = Except.ok h5
            ∧ RemoveChild h5 bp b = Except.ok h6 := by
  unfold replaceBody at hok
  rw [hbs] at hok
  simp only at hok
  obtain ⟨bodyNode, hbody, hok⟩ := (bind_eq_ok _ _ _).mp hok
  obtain ⟨found, hfound, hok⟩ := (bind_eq_ok _ _ _).mp hok
  refine ⟨bodyNode, found, hbody, hfound, ?_, ?_⟩
  · intro hnone
    subst hnone
    simp only [pure_eq_ok] at hok
    exact hok.symm
  · intro bc hbc
    subst hbc
    simp only at hok
    obtain ⟨bcn, hbcn, hok⟩ := (bind_eq_ok _ _ _).mp hok
    rw [deref_eq_ok] at hbcn
    obtain ⟨p, hp, hok⟩ := (bind_eq_ok _ _ _).mp hok
    rw [nonNil_eq_ok] at hp
    obtain ⟨h1, h1ok, hok⟩ := (bind_eq_ok _ _ _).mp hok
    obtain ⟨bcn1, hbcn1, hok⟩ := (bind_eq_ok _ _ _).mp hok
    rw [deref_eq_ok] at hbcn1
    obtain ⟨b, hb, hok⟩ := (bind_eq_ok _ _ _).mp hok
    rw [nonNil_eq_ok] at hb
    obtain ⟨bn, hbn, hok⟩ := (bind_eq_ok _ _ _).mp hok
    rw [deref_eq_ok] at hbn
    obtain ⟨h4, h4ok, hok⟩ := (bind_eq_ok _ _ _).mp hok
    obtain ⟨bn4, hbn4, hok⟩ := (bind_eq_ok _ _ _).mp hok
    rw [deref_eq_ok] at hbn4
    obtain ⟨bp, hbp, hok⟩ := (bind_eq_ok _ _ _).mp hok
    rw [nonNil_eq_ok] at hbp
    obtain ⟨h5, h5ok, hok⟩ := (bind_eq_ok _ _ _).mp hok
    simp only [alloc, List.length_set] at h4ok h5ok
    exact ⟨bcn, p, h1, bcn1, b, bn, h4, bn4, bp, h5, hbcn, hp, h1ok, hbcn1, hb, hbn, h4ok,
      hbn4, hbp, h5ok, hok⟩

theorem parentOf_congr {h h2 : Heap} {i : Nat} (he : h2[i]? = h[i]?) :
    parentOf h2 i = parentOf h i := by
  simp only [parentOf, he]

theorem childrenOf_congr {h h2 : Heap} {i : Nat} (he : h2[i]? = h[i]?) :
    childrenOf h2 i = childrenOf h i := by
  simp only [childrenOf, he]

theorem parentOf_of_lookup {h : Heap} {i : Nat} {nd : Node} (he : h[i]? = some nd) :
    parentOf h i = nd.Parent := by
  simp only [parentOf, he]

theorem AppendChild_parentOf (h h2 : Heap) (n c : Nat) (hne : c ≠ n)
    (hok : AppendChild h n c = Except.ok h2) (i : Nat) :
    parentOf h2 i = if i = c then some n else parentOf h i := by
  obtain ⟨cn, nn, hcn, _, hnn, _, hn2, hc2, hrest⟩ := AppendChild_lookup h h2 n c hne hok
  by_cases hic : i = c
  · subst hic
    rw [if_pos rfl, parentOf_of_lookup hc2]
  · rw [if_neg hic]
    by_cases hin : i = n
    · subst hin
      rw [parentOf_of_lookup hn2, parentOf_of_lookup hnn]
    · exact parentOf_congr (hrest i hin hic)

theorem AppendChild_childrenOf (h h2 : Heap) (n c : Nat) (hne : c ≠ n)
    (hok : AppendChild h n c = Except.ok h2) (i : Nat) :
    childrenOf h2 i = if i = n then childrenOf h n ++ [c] else childrenOf h i := by
  obtain ⟨cn, nn, hcn, _, hnn, _, hn2, hc2, hrest⟩ := AppendChild_lookup h h2 n c hne hok
  by_cases hin : i = n
  · subst hin
    rw [if_pos rfl, childrenOf_eq _ _ _ hn2, childrenOf_eq _ _ _ hnn]
  · rw [if_neg hin]
    by_cases hic : i = c
    · subst hic
      rw [childrenOf_eq _ _ _ hc2, childrenOf_eq _ _ _ hcn]
    · exact childrenOf_congr (hrest i hin hic)

theorem InsertBefore_parentOf (h h2 : Heap) (n newChild oldChild : Nat) (hne : newChild ≠ n)
    (hok : InsertBefore h n newChild oldChild = Except.ok h2) (i : Nat) :
    parentOf h2 i = if i = newChild then some n else parentOf h i := by
  obtain ⟨cn, nn, pre, post, hcn, _, hnn, _, _, _, hn2, hc2, hrest⟩ :=
    InsertBefore_lookup h h2 n newChild oldChild hne hok
  by_cases hic : i = newChild
  · subst hic
    rw [if_pos rfl, parentOf_of_lookup hc2]
  · rw [if_neg hic]
    by_cases hin : i = n
    · subst hin
      rw [parentOf_of_lookup hn2, parentOf_of_lookup hnn]
    · exact parentOf_congr (hrest i hin hic)

theorem InsertBefore_childrenOf (h h2 : Heap) (n newChild oldChild : Nat) (hne : newChild ≠ n)
    (hok : InsertBefore h n newChild oldChild = Except.ok h2) :
    (∃ pre post, childrenOf h n = pre ++ oldChild :: post ∧ oldChild ∉ pre
        ∧ childrenOf h2 n = pre ++ newChild :: oldChild :: post)
    ∧ ∀ i, i ≠ n → childrenOf h2 i = childrenOf h i := by
  obtain ⟨cn, nn, pre, post, hcn, _, hnn, hkids, hpre, _, hn2, hc2, hrest⟩ :=
    InsertBefore_lookup h h2 n newChild oldChild hne hok
  refine ⟨⟨pre, post, by rw [childrenOf_eq _ _ _ hnn, hkids], hpre,
    by rw [childrenOf_eq _ _ _ hn2]⟩, ?_⟩
  intro i hin
  by_cases hic : i = newChild
  · subst hic
    rw [childrenOf_eq _ _ _ hc2, childrenOf_eq _ _ _ hcn]
  · exact childrenOf_congr (hrest i hin hic)

theorem payload_RemoveChild (h : Heap) (p c : Nat) (h2 : Heap)
    (hok : RemoveChild h p c = Except.ok h2) (i : Nat) (nd : Node) (hi : h[i]? = some nd) :
    ∃ nd2, h2[i]? = some nd2 ∧ nd2.Typ = nd.Typ ∧ nd2.Data = nd.Data ∧ nd2.Attr = nd.Attr :=
  ⟨_, (RemoveChild_lookup h p c h2 hok).2.2 i nd hi, rfl, rfl, rfl⟩

theorem payload_AppendChild (h h2 : Heap) (n c : Nat) (hne : c ≠ n)
    (hok : AppendChild h n c = Except.ok h2) (i : Nat) (nd : Node) (hi : h[i]? = some nd) :
    ∃ nd2, h2[i]? = some nd2 ∧ nd2.Typ = nd.Typ ∧ nd2.Data = nd.Data ∧ nd2.Attr = nd.Attr := by
  obtain ⟨cn, nn, hcn, _, hnn, _, hn2, hc2, hrest⟩ := AppendChild_lookup h h2 n c hne hok
  by_cases hin : i = n
  · subst hin
    rw [hi] at hnn
    cases hnn
    exact ⟨_, hn2, rfl, rfl, rfl⟩
  · by_cases hic : i = c
    · subst hic
      rw [hi] at hcn
      cases hcn
      exact ⟨_, hc2, rfl, rfl, rfl⟩
    · exact ⟨nd, by rw [hrest i hin hic]; exact hi, rfl, rfl, rfl⟩

theorem payload_InsertBefore (h h2 : Heap) (n newChild oldChild : Nat) (hne : newChild ≠ n)
    (hok : InsertBefore h n newChild oldChild = Except.ok h2) (i : Nat) (nd : Node)
    (hi : h[i]? = some nd) :
    ∃ nd2, h2[i]? = some nd2 ∧ nd2.Typ = nd.Typ ∧ nd2.Data = nd.Data ∧ nd2.Attr = nd.Attr := by
  obtain ⟨cn, nn, pre, post, hcn, _, hnn, _, _, _, hn2, hc2, hrest⟩ :=
    InsertBefore_lookup h h2 n newChild oldChild hne hok
  by_cases hin : i = n
  · subst hin
    rw [hi] at hnn
    cases hnn
    exact ⟨_, hn2, rfl, rfl, rfl⟩
  · by_cases hic : i = newChild
    · subst hic
      rw [hi] at hcn
      cases hcn
      exact ⟨_, hc2, rfl, rfl, rfl⟩
    · exact ⟨nd, by rw [hrest i hin hic]; exact hi, rfl, rfl, rfl⟩

theorem erase_middle (pre post : List Nat) (a b : Nat) (hb : b ∉ pre) (hab : a ≠ b) :
    (pre ++ a :: b :: post).erase b = pre ++ a :: post := by
  rw [List.erase_append_right _ hb, List.erase_cons_tail (by simpa using hab),
    List.erase_cons_head]

theorem replaceBody_shape (fuel top : Nat) (dashing : Dashing) (bs : cssSelectorYaml)
    (h h6 : Heap) (bc b : Nat) (hbs : dashing.CssSelectorForBody = some bs)
    (hwf : WellFormed h)
    (hfound : MatchFirst bs.Match h fuel top = Except.ok (some bc))
    (hbody : MatchFirst (tagSelector "body") h fuel top = Except.ok (some b))
    (hne : bc ≠ b)
    (hok : replaceBody fuel top dashing h = Except.ok h6) :
    ∃ p bp bcn bnd pre post,
      h[bc]? = some bcn ∧ h[b]? = some bnd ∧ bcn.Parent = some p ∧ bnd.Parent = some bp
      ∧ p < h.length ∧ bp < h.length
      ∧ h6.length = h.length + 1
      ∧ (if bp = p then (childrenOf h bp).erase bc else childrenOf h bp) = pre ++ b :: post
      ∧ b ∉ pre
      ∧ (∀ i, parentOf h6 i =
          if i = b then none else if i = h.length then some bp
          else if i = bc then some h.length else parentOf h i)
      ∧ (∀ i, childrenOf h6 i =
          if i = bp then pre ++ h.length :: post else if i = h.length then [bc]
          else if i = p then (childrenOf h i).erase bc else childrenOf h i)
      ∧ (∃ nd, h6[h.length]? = some nd ∧ nd.Typ = NodeType.ElementNode ∧ nd.Data = "body"
          ∧ nd.Attr = bnd.Attr)
      ∧ ∀ (i : Nat) (nd : Node), h[i]? = some nd →
          ∃ nd6, h6[i]? = some nd6 ∧ nd6.Typ = nd.Typ ∧ nd6.Data = nd.Data
            ∧ nd6.Attr = if i = bc then nd.Attr ++ [⟨"", "style", "max-width: 100%;"⟩]
                else nd.Attr := by
  obtain ⟨bodyNode, found, hbody2, hfound2, _, hsome⟩ :=
    replaceBody_cases fuel top dashing bs h h6 hbs hok
  rw [hfound] at hfound2
  cases hfound2
  rw [hbody] at hbody2
  cases hbody2
  obtain ⟨bcn, p, h1, bcn1, b2, bn, h4, bn4, bp, h5, hbcn, hbcp, h1ok, hbcn1, hb2, hbn, h4ok,
    hbn4, hbp, h5ok, h6ok⟩ := hsome bc rfl
  cases hb2
  obtain ⟨⟨_, pn, _, _, hpn⟩, hlen1, hlook1⟩ := RemoveChild_lookup h p bc h1 h1ok
  have hP1 := RemoveChild_parentOf h p bc h1 h1ok
  have hC1 := RemoveChild_childrenOf h p bc h1 h1ok
  have hplt : p < h.length := (List.getElem?_eq_some_iff.mp hpn).1
  have hbclt : bc < h.length := (List.getElem?_eq_some_iff.mp hbcn).1
  rw [hlen1] at h4ok h5ok
  -- the heap after the attribute is added
  generalize hAdef : h1.set bc
    { bcn1 with Attr := bcn1.Attr ++ [⟨"", "style", "max-width: 100%;"⟩] } = hA at hbn h4ok
  have hAlen : hA.length = h.length := by rw [← hAdef, List.length_set, hlen1]
  have hAbc : hA[bc]? = some
      { bcn1 with Attr := bcn1.Attr ++ [⟨"", "style", "max-width: 100%;"⟩] } := by
    rw [← hAdef, List.getElem?_set_self (by rw [hlen1]; exact hbclt)]
  have hAne : ∀ i, i ≠ bc → hA[i]? = h1[i]? := by
    intro i hi
    rw [← hAdef, List.getElem?_set_ne (Ne.symm hi)]
  have hPA : ∀ i, parentOf hA i = parentOf h1 i := by
    intro i
    by_cases hi : i = bc
    · subst hi
      rw [parentOf_of_lookup hAbc, parentOf_of_lookup hbcn1]
    · exact parentOf_congr (hAne i hi)
  have hCA : ∀ i, childrenOf hA i = childrenOf h1 i := by
    intro i
    by_cases hi : i = bc
    · subst hi
      rw [childrenOf_eq _ _ _ hAbc, childrenOf_eq _ _ _ hbcn1]
    · exact childrenOf_congr (hAne i hi)
  have hblt : b < h.length := by
    rw [← hAlen]
    exact (List.getElem?_eq_some_iff.mp hbn).1
  -- the heap with the new body node
  generalize hBdef : hA ++ [(
    { Parent := none, Children := [], Typ := NodeType.ElementNode, Data := "body",
      Attr := bn.Attr } : Node)] = hB at h4ok
  have hBold : ∀ i, i < h.length → hB[i]? = hA[i]? := by
    intro i hi
    rw [← hBdef, List.getElem?_append_left (by rw [hAlen]; exact hi)]
  have hBnew : hB[h.length]? = some (
      { Parent := none, Children := [], Typ := NodeType.ElementNode, Data := "body",
        Attr := bn.Attr } : Node) := by
    rw [← hBdef, ← hAlen, List.getElem?_append_right (le_refl _)]
    simp
  have hBlen : hB.length = h.length + 1 := by rw [← hBdef, List.length_append, hAlen]; rfl
  have hbcnb : bc ≠ h.length := by omega
  obtain ⟨_, _, _, _, _, hlen4, _, _, _⟩ := AppendChild_lookup hB h4 h.length bc hbcnb h4ok
  have hP4 := AppendChild_parentOf hB h4 h.length bc hbcnb h4ok
  have hC4 := AppendChild_childrenOf hB h4 h.length bc hbcnb h4ok
  have hold : ∀ i, i ≠ h.length →
      parentOf hB i = parentOf h1 i ∧ childrenOf hB i = childrenOf h1 i := by
    intro i hi
    by_cases hilt : i < h.length
    · rw [parentOf_congr (hBold i hilt), childrenOf_congr (hBold i hilt), hPA, hCA]
      exact ⟨rfl, rfl⟩
    · have e1 : hB[i]? = none := List.getElem?_eq_none (by omega)
      have e2 : h1[i]? = none := List.getElem?_eq_none (by omega)
      simp [parentOf, childrenOf, e1, e2]
  -- the parent of the body
  have hbnd : h[b]? = some h[b] := List.getElem?_eq_some_iff.mpr ⟨hblt, rfl⟩
  have hbpar : parentOf h b = some bp := by
    have h1b : parentOf h4 b = some bp := by rw [parentOf_of_lookup hbn4, hbp]
    rw [hP4, if_neg (Ne.symm hne), (hold b (by omega)).1, hP1, if_neg (Ne.symm hne)] at h1b
    exact h1b
  have hbplt : bp < h.length := by
    have := (hwf b hblt).2.2
    rw [hbpar] at this
    exact this
  have hnbbp : h.length ≠ bp := by omega
  obtain ⟨_, _, _, _, _, _, _, _, _, hlen5, _, _, _⟩ :=
    InsertBefore_lookup h4 h5 bp h.length b hnbbp h5ok
  have hP5 := InsertBefore_parentOf h4 h5 bp h.length b hnbbp h5ok
  obtain ⟨⟨pre, post, hkids4, hpre, hkids5⟩, hC5⟩ :=
    InsertBefore_childrenOf h4 h5 bp h.length b hnbbp h5ok
  obtain ⟨_, hlen6, _⟩ := RemoveChild_lookup h5 bp b h6 h6ok
  have hP6 := RemoveChild_parentOf h5 bp b h6 h6ok
  have hC6 := RemoveChild_childrenOf h5 bp b h6 h6ok
  have hbnattr : bn.Attr = h[b].Attr := by
    obtain ⟨nd2, hnd2, _, _, ha⟩ := payload_RemoveChild h p bc h1 h1ok b _ hbnd
    rw [hAne b (Ne.symm hne), hnd2] at hbn
    cases hbn
    exact ha
  refine ⟨p, bp, bcn, h[b], pre, post, hbcn, hbnd, hbcp, ?_, hplt, hbplt, ?_, ?_, hpre, ?_, ?_,
    ?_, ?_⟩
  · rw [← parentOf_of_lookup hbnd]
    exact hbpar
  · rw [hlen6, hlen5, hlen4, hBlen]
  · rw [← hkids4, hC4, if_neg (Ne.symm hnbbp), (hold bp (Ne.symm hnbbp)).2, hC1]
  · intro i
    rw [hP6]
    by_cases hib : i = b
    · rw [if_pos hib, if_pos hib]
    · rw [if_neg hib, if_neg hib, hP5]
      by_cases hin : i = h.length
      · rw [if_pos hin, if_pos hin]
      · rw [if_neg hin, if_neg hin, hP4]
        by_cases hic : i = bc
        · rw [if_pos hic, if_pos hic]
        · rw [if_neg hic, if_neg hic, (hold i hin).1, hP1, if_neg hic]
  · intro i
    rw [hC6]
    by_cases hib : i = bp
    · subst hib
      rw [if_pos rfl, if_pos rfl, hkids5, erase_middle _ _ _ _ hpre (by omega)]
    · rw [if_neg hib, if_neg hib, hC5 i hib, hC4]
      by_cases hin : i = h.length
      · rw [if_pos hin, if_pos hin, childrenOf_eq _ _ _ hBnew]
        rfl
      · rw [if_neg hin, if_neg hin, (hold i hin).2, hC1]
  · obtain ⟨n4, hn4, t4, d4, a4⟩ := payload_AppendChild hB h4 h.length bc hbcnb h4ok _ _ hBnew
    obtain ⟨n5, hn5, t5, d5, a5⟩ := payload_InsertBefore h4 h5 bp h.length b hnbbp h5ok _ _ hn4
    obtain ⟨n6, hn6, t6, d6, a6⟩ := payload_RemoveChild h5 bp b h6 h6ok _ _ hn5
    exact ⟨n6, hn6, by rw [t6, t5, t4], by rw [d6, d5, d4], by rw [a6, a5, a4, hbnattr]⟩
  · intro i nd hi
    have hilt : i < h.length := (List.getElem?_eq_some_iff.mp hi).1
    obtain ⟨n1, hn1, t1, d1, a1⟩ := payload_RemoveChild h p bc h1 h1ok i nd hi
    have hnA : ∃ nA, hA[i]? = some nA ∧ nA.Typ = nd.Typ ∧ nA.Data = nd.Data
        ∧ nA.Attr = if i = bc then nd.Attr ++ [⟨"", "style", "max-width: 100%;"⟩]
            else nd.Attr := by
      by_cases hic : i = bc
      · subst hic
        rw [hn1] at hbcn1
        cases hbcn1
        exact ⟨_, hAbc, t1, d1, by rw [if_pos rfl, ← a1]⟩
      · exact ⟨n1, by rw [hAne i hic]; exact hn1, t1, d1, by rw [if_neg hic]; exact a1⟩
    obtain ⟨nA, hnA, tA, dA, aA⟩ := hnA
    have hnB : hB[i]? = some nA := by rw [hBold i hilt]; exact hnA
    obtain ⟨n4, hn4, t4, d4, a4⟩ := payload_AppendChild hB h4 h.length bc hbcnb h4ok _ _ hnB
    obtain ⟨n5, hn5, t5, d5, a5⟩ := payload_InsertBefore h4 h5 bp h.length b hnbbp h5ok _ _ hn4
    obtain ⟨n6, hn6, t6, d6, a6⟩ := payload_RemoveChild h5 bp b h6 h6ok _ _ hn5
    exact ⟨n6, hn6, by rw [t6, t5, t4, tA], by rw [d6, d5, d4, dA], by rw [a6, a5, a4, aA]⟩

theorem Under_parent {h : Heap} (hwf : WellFormed h) {n y : Nat} (hu : Under h n y) :
    ∃ q, parentOf h y = some q ∧ y ∈ childrenOf h q ∧ q < h.length ∧ y < h.length := by
  have key : ∀ a c, c ∈ childrenOf h a →
      parentOf h c = some a ∧ c ∈ childrenOf h a ∧ a < h.length ∧ c < h.length := by
    intro a c hc
    have ha : a < h.length := by
      by_contra hge
      rw [childrenOf_of_ge _ _ (by omega)] at hc
      cases hc
    exact ⟨((hwf a ha).2.1 c hc).2, hc, ha, ((hwf a ha).2.1 c hc).1⟩
  induction hu with
  | child hc => exact ⟨_, key _ _ hc⟩
  | step _ _ ih => exact ih

theorem replaceBody_total (fuel top K : Nat) (lvl : Nat → Nat) (dashing : Dashing)
    (bs : cssSelectorYaml) (h : Heap) (hbs : dashing.CssSelectorForBody = some bs)
    (hwf : WellFormed h) (hlay : Layered lvl h) (hK : ∀ i, lvl i ≤ K) (hF : K < fuel)
    (htop : top < h.length) (hM : bs.Match h top = false)
    (hB1 : tagSelector "body" h top = false)
    (hB2 : ∃ y, Under h top y ∧ tagSelector "body" h y = true)
    (hMb : ∀ y, bs.Match h y = true → tagSelector "body" h y = false) :
    ∃ h6, replaceBody fuel top dashing h = Except.ok h6 := by
  obtain ⟨rb, hbody, _⟩ := MatchFirst_terminates (tagSelector "body") lvl h hwf hlay fuel top
    htop (lt_of_le_of_lt (hK top) hF)
  obtain ⟨found, hfound, _⟩ := MatchFirst_terminates bs.Match lvl h hwf hlay fuel top htop
    (lt_of_le_of_lt (hK top) hF)
  unfold replaceBody
  rw [hbs]
  simp only
  refine bind_ok_exists _ _ rb hbody ?_
  refine bind_ok_exists _ _ found hfound ?_
  cases found with
  | none => exact ⟨h, rfl⟩
  | some bc =>
    simp only
    -- the body
    cases rb with
    | none =>
      obtain ⟨y, hy, hyb⟩ := hB2
      rw [(MatchFirst_none _ h fuel top hbody).2 y hy] at hyb
      cases hyb
    | some b =>
      obtain ⟨hbm, hbcase⟩ := MatchFirst_sound _ h fuel top b hbody
      have hbu : Under h top b := by
        rcases hbcase with rfl | hu
        · rw [hB1] at hbm
          cases hbm
        · exact hu
      obtain ⟨bp, hbpar, hbmem, hbplt, hblt⟩ := Under_parent hwf hbu
      obtain ⟨hcm, hccase⟩ := MatchFirst_sound _ h fuel top bc hfound
      have hcu : Under h top bc := by
        rcases hccase with rfl | hu
        · rw [hM] at hcm
          cases hcm
        · exact hu
      obtain ⟨p, hcpar, _, hplt, hclt⟩ := Under_parent hwf hcu
      have hne : bc ≠ b := by
        intro he
        subst he
        rw [hMb bc hcm] at hbm
        cases hbm
      obtain ⟨bcn, hbcn, hbcp⟩ := (parentOf_eq_some _ _ _).mp hcpar
      refine bind_ok_exists _ _ bcn ((deref_eq_ok _ _ _).mpr hbcn) ?_
      refine bind_ok_exists _ _ p ((nonNil_eq_ok _ _).mpr hbcp) ?_
      obtain ⟨h1, h1ok⟩ := RemoveChild_ok h p bc hcpar hplt
      refine bind_ok_exists _ _ h1 h1ok ?_
      obtain ⟨_, hlen1, _⟩ := RemoveChild_lookup h p bc h1 h1ok
      have hP1 := RemoveChild_parentOf h p bc h1 h1ok
      have hC1 := RemoveChild_childrenOf h p bc h1 h1ok
      obtain ⟨bcn1, hbcn1⟩ : ∃ nd, h1[bc]? = some nd :=
        ⟨_, List.getElem?_eq_some_iff.mpr ⟨by rw [hlen1]; exact hclt, rfl⟩⟩
      refine bind_ok_exists _ _ _ ((deref_eq_ok _ _ _).mpr hbcn1) ?_
      refine bind_ok_exists _ _ b ((nonNil_eq_ok _ _).mpr rfl) ?_
      generalize hAdef : h1.set bc
        { bcn1 with Attr := bcn1.Attr ++ [⟨"", "style", "max-width: 100%;"⟩] } = hA
      have hAlen : hA.length = h.length := by rw [← hAdef, List.length_set, hlen1]
      have hAbc : hA[bc]? = some
          { bcn1 with Attr := bcn1.Attr ++ [⟨"", "style", "max-width: 100%;"⟩] } := by
        rw [← hAdef, List.getElem?_set_self (by rw [hlen1]; exact hclt)]
      have hAne : ∀ i, i ≠ bc → hA[i]? = h1[i]? := by
        intro i hi
        rw [← hAdef, List.getElem?_set_ne (Ne.symm hi)]
      obtain ⟨bn, hbn⟩ : ∃ nd, hA[b]? = some nd :=
        ⟨_, List.getElem?_eq_some_iff.mpr ⟨by rw [hAlen]; exact hblt, rfl⟩⟩
      refine bind_ok_exists _ _ _ ((deref_eq_ok _ _ _).mpr hbn) ?_
      simp only [alloc, hAlen]
      generalize hBdef : hA ++ [(
        { Parent := none, Children := [], Typ := NodeType.ElementNode, Data := "body",
          Attr := bn.Attr } : Node)] = hB
      have hBold : ∀ i, i < h.length → hB[i]? = hA[i]? := by
        intro i hi
        rw [← hBdef, List.getElem?_append_left (by rw [hAlen]; exact hi)]
      have hBnew : hB[h.length]? = some (
          { Parent := none, Children := [], Typ := NodeType.ElementNode, Data := "body",
            Attr := bn.Attr } : Node) := by
        rw [← hBdef, ← hAlen, List.getElem?_append_right (le_refl _)]
        simp
      have hBbc : hB[bc]? = some
          { bcn1 with Attr := bcn1.Attr ++ [⟨"", "style", "max-width: 100%;"⟩] } := by
        rw [hBold bc hclt, hAbc]
      have hbc1par : bcn1.Parent = none := by
        rw [← parentOf_of_lookup hbcn1, hP1, if_pos rfl]
      obtain ⟨h4, h4ok⟩ := AppendChild_ok hB h.length bc _ _ hBbc hbc1par hBnew
      refine bind_ok_exists _ _ h4 h4ok ?_
      have hbcnb : bc ≠ h.length := by omega
      obtain ⟨_, _, _, _, _, hlen4, _, _, _⟩ := AppendChild_lookup hB h4 h.length bc hbcnb h4ok
      have hBlen : hB.length = h.length + 1 := by
        rw [← hBdef, List.length_append, hAlen]
        rfl
      have hP4 := AppendChild_parentOf hB h4 h.length bc hbcnb h4ok
      have hC4 := AppendChild_childrenOf hB h4 h.length bc hbcnb h4ok
      have hPA : ∀ i, parentOf hA i = parentOf h1 i := by
        intro i
        by_cases hi : i = bc
        · subst hi
          rw [parentOf_of_lookup hAbc, parentOf_of_lookup hbcn1]
        · exact parentOf_congr (hAne i hi)
      have hCA : ∀ i, childrenOf hA i = childrenOf h1 i := by
        intro i
        by_cases hi : i = bc
        · subst hi
          rw [childrenOf_eq _ _ _ hAbc, childrenOf_eq _ _ _ hbcn1]
        · exact childrenOf_congr (hAne i hi)
      obtain ⟨bn4, hb4⟩ : ∃ nd, h4[b]? = some nd :=
        ⟨_, List.getElem?_eq_some_iff.mpr ⟨by rw [hlen4, hBlen]; omega, rfl⟩⟩
      have hb4par : bn4.Parent = some bp := by
        rw [← parentOf_of_lookup hb4, hP4, if_neg (Ne.symm hne),
          parentOf_congr (hBold b hblt), hPA, hP1, if_neg (Ne.symm hne)]
        exact hbpar
      refine bind_ok_exists _ _ _ ((deref_eq_ok _ _ _).mpr hb4) ?_
      refine bind_ok_exists _ _ bp ((nonNil_eq_ok _ _).mpr hb4par) ?_
      obtain ⟨nbn4, hnb4⟩ : ∃ nd, h4[h.length]? = some nd :=
        ⟨_, List.getElem?_eq_some_iff.mpr ⟨by rw [hlen4, hBlen]; omega, rfl⟩⟩
      have hnb4par : nbn4.Parent = none := by
        rw [← parentOf_of_lookup hnb4, hP4, if_neg (Ne.symm hbcnb), parentOf_of_lookup hBnew]
      obtain ⟨bpn4, hbp4⟩ : ∃ nd, h4[bp]? = some nd :=
        ⟨_, List.getElem?_eq_some_iff.mpr ⟨by rw [hlen4, hBlen]; omega, rfl⟩⟩
      have hnbbp : h.length ≠ bp := by omega
      have hbmem4 : b ∈ bpn4.Children := by
        rw [← childrenOf_eq _ _ _ hbp4, hC4, if_neg (Ne.symm hnbbp),
          childrenOf_congr (hBold bp hbplt), hCA, hC1]
        split
        · exact (List.mem_erase_of_ne (Ne.symm hne)).mpr hbmem
        · exact hbmem
      obtain ⟨h5, h5ok⟩ := InsertBefore_ok h4 bp h.length b _ _ hnb4 hnb4par hbp4 hbmem4
      refine bind_ok_exists _ _ h5 h5ok ?_
      obtain ⟨_, _, _, _, _, _, _, _, _, hlen5, _, _, _⟩ :=
        InsertBefore_lookup h4 h5 bp h.length b hnbbp h5ok
      have hP5 := InsertBefore_parentOf h4 h5 bp h.length b hnbbp h5ok
      refine RemoveChild_ok h5 bp b ?_ (by rw [hlen5, hlen4, hBlen]; omega)
      rw [hP5, if_neg (by omega), parentOf_of_lookup hb4]
      exact hb4par

theorem replaceBody_terminates (top : Nat) (dashing : Dashing) (bs : cssSelectorYaml)
    (h : Heap) (hbs : dashing.CssSelectorForBody = some bs)
    (hwf : WellFormed h) (hac : Acyclic h) (htop : top < h.length)
    (hM : bs.Match h top = false) (hB1 : tagSelector "body" h top = false)
    (hB2 : ∃ y, Under h top y ∧ tagSelector "body" h y = true)
    (hMb : ∀ y, bs.Match h y = true → tagSelector "body" h y = false) :
    ∃ fuel0, ∀ fuel, fuel0 ≤ fuel → ∃ h6, replaceBody fuel top dashing h = Except.ok h6 := by
  obtain ⟨ht, hht⟩ := hac
  refine ⟨(Finset.range h.length).sum (fun i => ht i) + 1, fun fuel hfuel => ?_⟩
  have hlay : Layered (fun i => if i < h.length then ht i else 0) h := by
    intro c p hcp
    have hc := parentOf_lt _ _ _ hcp
    have hp : p < h.length := by
      have := (hwf c hc).2.2
      rw [hcp] at this
      exact this
    simp only [hc, hp, if_true]
    exact hht c p hcp
  refine replaceBody_total fuel top ((Finset.range h.length).sum (fun i => ht i))
    (fun i => if i < h.length then ht i else 0) dashing bs h hbs hwf hlay ?_ (by omega) htop
    hM hB1 hB2 hMb
  intro i
  by_cases hi : i < h.length
  · simp only [hi, if_true]
    exact Finset.single_le_sum (f := fun i => ht i) (fun _ _ => Nat.zero_le _)
      (Finset.mem_range.mpr hi)
  · simp only [hi, if_false]
    exact Nat.zero_le _

theorem replaceBody_no_match (fuel top : Nat) (dashing : Dashing) (bs : cssSelectorYaml)
    (h : Heap) (rb : Option Nat) (hbs : dashing.CssSelectorForBody = some bs)
    (hbody : MatchFirst (tagSelector "body") h fuel top = Except.ok rb)
    (hfound : MatchFirst bs.Match h fuel top = Except.ok none) :
    replaceBody fuel top dashing h = Except.ok h := by
  unfold replaceBody
  rw [hbs]
  simp only
  exact (bind_eq_ok _ _ _).mpr ⟨rb, hbody, (bind_eq_ok _ _ _).mpr ⟨none, hfound, rfl⟩⟩

theorem replaceBody_wraps (fuel top : Nat) (dashing : Dashing) (bs : cssSelectorYaml)
    (h h6 : Heap) (M b : Nat) (hbs : dashing.CssSelectorForBody = some bs)
    (hwf : WellFormed h)
    (hfound : MatchFirst bs.Match h fuel top = Except.ok (some M))
    (hbody : MatchFirst (tagSelector "body") h fuel top = Except.ok (some b))
    (hne : M ≠ b)
    (hok : replaceBody fuel top dashing h = Except.ok h6) :
    ∃ p bp bcn bnd pre post,
      h[M]? = some bcn ∧ h[b]? = some bnd ∧ parentOf h M = some p ∧ parentOf h b = some bp
      ∧ h6.length = h.length + 1
      ∧ h6[h.length]? = some ⟨some bp, [M], NodeType.ElementNode, "body", bnd.Attr⟩
      ∧ (if bp = p then (childrenOf h bp).erase M else childrenOf h bp) = pre ++ b :: post
      ∧ b ∉ pre
      ∧ childrenOf h6 bp = pre ++ h.length :: post
      ∧ (∃ nd, h6[M]? = some nd ∧ nd.Parent = some h.length ∧ nd.Typ = bcn.Typ
          ∧ nd.Data = bcn.Data
          ∧ nd.Attr = bcn.Attr ++ [⟨"", "style", "max-width: 100%;"⟩])
      ∧ (∀ n, n ≠ h.length → M ∉ childrenOf h6 n)
      ∧ Detached h6 b
      ∧ (∀ (i : Nat) (nd : Node), h[i]? = some nd → i ≠ M →
          ∃ nd6, h6[i]? = some nd6 ∧ nd6.Typ = nd.Typ ∧ nd6.Data = nd.Data
            ∧ nd6.Attr = nd.Attr)
      ∧ (∀ i, i ≠ p → i ≠ bp → i ≠ h.length → childrenOf h6 i = childrenOf h i)
      ∧ ∀ i, i ≠ M → i ≠ b → i ≠ h.length → parentOf h6 i = parentOf h i := by
  obtain ⟨p, bp, bcn, bnd, pre, post, hbcn, hbnd, hbcp, hbndp, hplt, hbplt, hlen, hl, hpre,
    hpar, hkids, ⟨nd, hnd, ht, hd, ha⟩, hpay⟩ :=
    replaceBody_shape fuel top dashing bs h h6 M b hbs hwf hfound hbody hne hok
  have hMlt : M < h.length := (List.getElem?_eq_some_iff.mp hbcn).1
  have hblt : b < h.length := (List.getElem?_eq_some_iff.mp hbnd).1
  have hMp : parentOf h M = some p := (parentOf_eq_some _ _ _).mpr ⟨bcn, hbcn, hbcp⟩
  have hbp : parentOf h b = some bp := (parentOf_eq_some _ _ _).mpr ⟨bnd, hbnd, hbndp⟩
  have hmemP : ∀ n x q, x ∈ childrenOf h n → parentOf h x = some q → n = q := by
    intro n x q hx hq
    have hn : n < h.length := by
      by_contra hge
      rw [childrenOf_of_ge _ _ (by omega)] at hx
      cases hx
    have := ((hwf n hn).2.1 x hx).2
    rw [hq] at this
    exact (Option.some.inj this).symm
  have hnodup : ∀ n, (childrenOf h n).Nodup := by
    intro n
    by_cases hn : n < h.length
    · exact (hwf n hn).1
    · rw [childrenOf_of_ge _ _ (by omega)]
      exact List.nodup_nil
  have hlnd : (pre ++ b :: post).Nodup := by
    rw [← hl]
    split
    · exact (hnodup bp).erase _
    · exact hnodup bp
  have hMl : M ∉ pre ++ b :: post := by
    rw [← hl]
    by_cases hbpp : bp = p
    · rw [if_pos hbpp]
      intro hm
      exact ((List.Nodup.mem_erase_iff (hnodup bp)).mp hm).1 rfl
    · rw [if_neg hbpp]
      intro hm
      exact hbpp (hmemP bp M p hm hMp)
  refine ⟨p, bp, bcn, bnd, pre, post, hbcn, hbnd, hMp, hbp, hlen, ?_, hl, hpre, ?_, ?_, ?_, ?_,
    ?_, ?_, ?_⟩
  · have h1 : nd.Parent = some bp := by
      rw [← parentOf_of_lookup hnd, hpar, if_neg (by omega), if_pos rfl]
    have h2 : nd.Children = [M] := by
      rw [← childrenOf_eq _ _ _ hnd, hkids, if_neg (by omega), if_pos rfl]
    rw [hnd]
    cases nd
    simp only at h1 h2 ht hd ha
    subst h1 h2 ht hd ha
    rfl
  · rw [hkids, if_pos rfl]
  · obtain ⟨nd6, hnd6, t6, d6, a6⟩ := hpay M bcn hbcn
    refine ⟨nd6, hnd6, ?_, t6, d6, by rw [a6, if_pos rfl]⟩
    rw [← parentOf_of_lookup hnd6, hpar, if_neg hne, if_neg (by omega), if_pos rfl]
  · intro n hn hmem
    rw [hkids] at hmem
    by_cases hnbp : n = bp
    · rw [if_pos hnbp] at hmem
      apply hMl
      rw [List.mem_append, List.mem_cons] at hmem ⊢
      rcases hmem with hm | hm | hm
      · exact Or.inl hm
      · omega
      · exact Or.inr (Or.inr hm)
    · rw [if_neg hnbp, if_neg hn] at hmem
      by_cases hnp : n = p
      · subst hnp
        rw [if_pos rfl] at hmem
        exact ((List.Nodup.mem_erase_iff (hnodup n)).mp hmem).1 rfl
      · rw [if_neg hnp] at hmem
        exact hnp (hmemP n M p hmem hMp)
  · refine ⟨by rw [hpar, if_pos rfl], ?_⟩
    intro n hmem
    rw [hkids] at hmem
    by_cases hnbp : n = bp
    · rw [if_pos hnbp] at hmem
      have hbpost : b ∉ post := by
        have := (List.nodup_append.mp hlnd).2.1
        exact (List.nodup_cons.mp this).1
      rw [List.mem_append, List.mem_cons] at hmem
      rcases hmem with hm | hm | hm
      · exact hpre hm
      · omega
      · exact hbpost hm
    · rw [if_neg hnbp] at hmem
      by_cases hn : n = h.length
      · rw [if_pos hn, List.mem_singleton] at hmem
        exact hne hmem.symm
      · rw [if_neg hn] at hmem
        have hold : b ∈ childrenOf h n := by
          split at hmem
          · exact List.mem_of_mem_erase hmem
          · exact hmem
        exact hnbp (hmemP n b bp hold hbp)
  · intro i nd0 hi hiM
    obtain ⟨nd6, hnd6, t6, d6, a6⟩ := hpay i nd0 hi
    exact ⟨nd6, hnd6, t6, d6, by rw [a6, if_neg hiM]⟩
  · intro i h1 h2 h3
    rw [hkids, if_neg h2, if_neg h3, if_neg h1]
  · intro i h1 h2 h3
    rw [hpar, if_neg h2, if_neg h3, if_neg h1]

/-! ## Theorems: the body replacement -/

/-- C12 fails on the code: on the sample page with the body selector `body`,
the first match is the body, node 3, itself. It is taken out of `html` and
put under the new body, node 6, so its parent is then node 6, and the new
body is inserted into itself: afterwards `html` has the head as its only
child, the new body is its own parent and its own only child, it carries the
`style` attribute that the body did not have, the body has no parent, and the
nodes reached from the document node are the document, `html` and the head:
the page has no body. With the body selector `html` the replacement leaves
the document node without children. With the body selector `h2`, on the same
page, the new body stands where the body stood and has the `h2` as its only
child. -/
theorem C12_body_selected_as_content :
    MatchFirst (tagSelector "body") pageDoc 20 0 = Except.ok (some 3)
    ∧ parentOf pageDoc 3 = some 1 ∧ childrenOf pageDoc 1 = [2, 3]
    ∧ (pageDoc[3]?).map (fun nd => nd.Attr) = some []
    ∧ MatchAll (fun _ _ => true) pageDoc 20 0 = Except.ok [0, 1, 2, 3, 4, 5]
    ∧ (replaceBody 20 0 contentIsBody pageDoc).map
        (fun h6 => (h6.length, childrenOf h6 1, h6[6]?, parentOf h6 3, childrenOf h6 3))
      = Except.ok (7, [2],
          some ⟨some 6, [6], NodeType.ElementNode, "body",
            [⟨"", "style", "max-width: 100%;"⟩]⟩,
          none, [4])
    ∧ (replaceBody 20 0 contentIsBody pageDoc).bind
        (fun h6 => MatchAll (fun _ _ => true) h6 20 0) = Except.ok [0, 1, 2]
    ∧ (replaceBody 20 0 contentIsBody pageDoc).bind
        (fun h6 => MatchFirst (tagSelector "body") h6 20 0) = Except.ok none
    ∧ (replaceBody 20 0 contentIsHtml pageDoc).map
        (fun h6 => (childrenOf h6 0, parentOf h6 1, childrenOf h6 1, h6[6]?))
      = Except.ok ([], some 6, [2, 6],
          some ⟨some 1, [1], NodeType.ElementNode, "body", []⟩)
    ∧ (replaceBody 20 0 contentIsHtml pageDoc).bind
        (fun h6 => MatchAll (fun _ _ => true) h6 20 0) = Except.ok [0]
    ∧ (replaceBody 20 0 contentIsH2 pageDoc).map
        (fun h6 => (childrenOf h6 1, h6[6]?, parentOf h6 4, parentOf h6 3))
      = Except.ok ([2, 6], some ⟨some 1, [4], NodeType.ElementNode, "body", []⟩, some 6, none)
    ∧ (replaceBody 20 0 contentIsH2 pageDoc).bind
        (fun h6 => MatchAll (fun _ _ => true) h6 20 0) = Except.ok [0, 1, 2, 6, 4, 5] := by
  refine ⟨by decide!, by decide!, by decide!, by decide!, by decide!, by decide!, by decide!,
    by decide!, by decide!, by decide!, by decide!, by decide!⟩

/-! ## Theorems: the links of the head during the traversal -/

theorem isLink_reflect (h h2 : Heap) (head y : Nat) (hg : Grows h h2) (hy : y < h.length)
    (hl : isLink h2 head y) : isLink h head y := by
  obtain ⟨target, ht⟩ := hl
  have hnd : h[y]? = some h[y] := List.getElem?_eq_some_iff.mpr ⟨hy, rfl⟩
  obtain ⟨nd2, hnd2, hp, hty, hd, ha, hsub⟩ := hg y _ hnd
  rw [ht] at hnd2
  cases hnd2
  refine ⟨target, ?_⟩
  rw [hnd]
  congr 1
  generalize h[y] = nd at hp hty hd ha hsub
  cases nd
  simp only [attachedTo, linkNodeOf] at *
  have hc := List.eq_nil_of_sublist_nil hsub
  simp only [← hp, ← hty, ← hd, ← ha, hc]

theorem childrenAfter_link (head link parent anchor n z : Nat) (cs : List Nat) (hz : z ∈ cs) :
    [z, link].Sublist (childrenAfter head link parent anchor n head cs) := by
  unfold childrenAfter
  simp only [if_true]
  have h1 : [z, link].Sublist (cs ++ [link]) :=
    List.Sublist.append (List.singleton_sublist.mpr hz) (List.Sublist.refl [link])
  split
  · cases hins : insertBeforeIn anchor n (cs ++ [link]) with
    | none => exact h1
    | some r =>
      obtain ⟨pre, post, hl, _, hr⟩ := insertBeforeIn_eq_some _ _ _ _ hins
      simp only
      rw [hl] at h1
      rw [hr]
      exact h1.trans (List.Sublist.append (List.Sublist.refl _)
        (List.Sublist.cons _ (List.Sublist.refl _)))
  · exact h1

theorem inject_linksAfter (h : Heap) (counter : Int) (head c : Nat) (name etype : String)
    (root : Bool) (t : TocNodes) (hhead : head < h.length) (hc : c < h.length)
    (hok : inject h counter (some head) c name etype root = Except.ok t) :
    LinksAfter head h t.heap
      ∧ h.length ≤ t.linkNode ∧ t.linkNode < t.heap.length ∧ isLink t.heap head t.linkNode := by
  have hhead2 : ∀ q, some head = some q → q < h.length := fun q hq => by
    cases hq
    exact hhead
  obtain ⟨head2, nn, p, pre, post, hhn, hnn, hpar, hplt, _, hln, _, hlen, hanchor, hlink, _,
    hold⟩ := inject_lookup h counter (some head) c name etype root t hc hhead2 hok
  cases hhn
  refine ⟨?_, by omega, by omega, ?_⟩
  · intro y hy hylt ⟨target, hl⟩ z hz
    rw [hlen] at hylt
    have hcases : y = h.length ∨ y = h.length + 1 := by omega
    rcases hcases with rfl | rfl
    · rw [hanchor] at hl
      have hd := congrArg Node.Data (Option.some.inj hl)
      simp [anchorNodeOf, attachedTo, linkNodeOf] at hd
    · have hhd : h[head]? = some h[head] := List.getElem?_eq_some_iff.mpr ⟨hhead, rfl⟩
      rw [childrenOf_eq _ _ _ hhd] at hz
      exact ⟨head, _, hold head _ hhd, childrenAfter_link _ _ _ _ _ _ _ hz⟩
  · rw [hln]
    exact ⟨_, hlink⟩

theorem LinksAfter_refl (head : Nat) (h : Heap) : LinksAfter head h h :=
  fun y h1 h2 => by omega

theorem LinksAfter_trans (head : Nat) {h1 h2 h3 : Heap} (g12 : Grows h1 h2) (g23 : Grows h2 h3)
    (l12 : LinksAfter head h1 h2) (l23 : LinksAfter head h2 h3) : LinksAfter head h1 h3 := by
  intro y hy hylt hl z hz
  by_cases hy2 : y < h2.length
  · exact (l12 y hy hy2 (isLink_reflect _ _ _ _ g23 hy2 hl) z hz).sib_grows g23
  · exact l23 y (by omega) hylt hl z (childrenOf_mem_grows _ _ _ _ g12 hz)

theorem HitsMade_grows (head len len2 : Nat) {h2 h3 : Heap} (hits : List Hit)
    (hg : Grows h2 h3) (hleaf : ∀ y, len ≤ y → childrenOf h3 y = []) (hle : len2 ≤ len)
    (hm : HitsMade head len h2 hits) : HitsMade head len2 h3 hits := by
  intro k hk
  obtain ⟨h1, h2lt, hl⟩ := hm k hk
  have := hg.grows_length_le
  exact ⟨by omega, by omega, isLink_grows _ _ _ _ hg (hleaf _ h1) hl⟩

theorem visitRule_tour (n0 : Nat) (lvl : Nat → Nat) (head top F : Nat)
    (titleString filepath : String) (c p idx : Nat) (sel : Transform) (r r2 : Run)
    (hit : Option Hit) (hs : Sound n0 lvl head top r.heap)
    (hp : parentOf r.heap c = some p) (hmem : c ∈ childrenOf r.heap p)
    (hok : visitRule F top titleString filepath (some head) c idx sel r = Except.ok (r2, hit)) :
    Sound n0 lvl head top r2.heap ∧ Extends r.heap r2.heap
      ∧ LinksAfter head r.heap r2.heap
      ∧ HitsMade head r.heap.length r2.heap hit.toList
      ∧ MadeAt head p c r.heap.length r2.heap := by
  have hc : c < r.heap.length := parentOf_lt _ _ _ hp
  have hheadlt : head < r.heap.length := lt_of_lt_of_le hs.2.2.2.2.1 hs.2.2.1
  rcases visitRule_cases _ _ _ _ _ _ _ _ _ _ _ hok with ⟨hn, hr, _⟩ | ⟨_, hcase⟩
  · subst hr
    subst hn
    exact ⟨hs, Extends_refl _, LinksAfter_refl _ _, fun k hk => (by cases hk),
      fun y h1 h2 => by omega⟩
  · obtain ⟨textString, name, pfx, ref2, t, _, _, _, _, _, _, hinj, hr, hh⟩ := hcase
    have hmade := inject_made r.heap r.counter head c p name sel.Typ sel.TOCRoot t hheadlt
      hp hinj
    obtain ⟨hs2, hext, hlen⟩ := inject_sound n0 lvl head top r.heap r.counter c p name sel.Typ
      sel.TOCRoot t hs hp hmem hinj
    obtain ⟨hla, h1, h2, h3⟩ := inject_linksAfter r.heap r.counter head c name sel.Typ
      sel.TOCRoot t hheadlt hc hinj
    subst hr
    subst hh
    refine ⟨hs2, hext, hla, ?_, hmade⟩
    intro k hk
    simp only [Option.toList, List.mem_singleton] at hk
    subst hk
    exact ⟨h1, h2, h3⟩

theorem visitRules_tour (n0 : Nat) (lvl : Nat → Nat) (head top F : Nat)
    (titleString filepath : String) (c p : Nat) :
    ∀ (sels : List Transform) (idx : Nat) (r r2 : Run) (hits : List Hit),
      Sound n0 lvl head top r.heap → parentOf r.heap c = some p → c ∈ childrenOf r.heap p →
      visitRules F top titleString filepath (some head) c idx sels r = Except.ok (r2, hits) →
      Sound n0 lvl head top r2.heap ∧ Extends r.heap r2.heap
        ∧ LinksAfter head r.heap r2.heap ∧ r2.visits = r.visits
        ∧ HitsMade head r.heap.length r2.heap hits
        ∧ MadeAt head p c r.heap.length r2.heap := by
  intro sels
  induction sels with
  | nil =>
    intro idx r r2 hits hs _ _ hok
    unfold visitRules at hok
    rw [pure_eq_ok] at hok
    cases hok
    exact ⟨hs, Extends_refl _, LinksAfter_refl _ _, rfl, fun k hk => (by cases hk),
      fun y h1 h2 => by omega⟩
  | cons sel sels ih =>
    intro idx r r2 hits hs hp hmem hok
    unfold visitRules at hok
    obtain ⟨⟨r1, hit⟩, h1, hok⟩ := (bind_eq_ok _ _ _).mp hok
    obtain ⟨⟨r3, hits3⟩, h3, hok⟩ := (bind_eq_ok _ _ _).mp hok
    rw [pure_eq_ok] at hok
    cases hok
    obtain ⟨hs1, hext1, hla1, hm1, hmade1⟩ := visitRule_tour n0 lvl head top F titleString
      filepath c p idx sel r r1 hit hs hp hmem h1
    have hp1 : parentOf r1.heap c = some p := parentOf_grows_some _ _ _ _ hext1.1 hp
    have hmem1 : c ∈ childrenOf r1.heap p := childrenOf_mem_grows _ _ _ _ hext1.1 hmem
    obtain ⟨hs3, hext3, hla3, hv3, hm3, hmade3⟩ := ih (idx + 1) r1 r2 hits3 hs1 hp1 hmem1 h3
    have hv1 := (visitRule_shape _ _ _ _ _ _ _ _ _ _ _ h1).1
    have hle1 := hext1.1.grows_length_le
    refine ⟨hs3, Extends_trans hext1 hext3, LinksAfter_trans head hext1.1 hext3.1 hla1 hla3,
      hv3.trans hv1, ?_, ?_⟩
    · intro k hk
      rcases List.mem_append.mp hk with hk | hk
      · exact HitsMade_grows head _ _ _ hext3.1
          (fun y hy => hs3.2.2.2.1 y (le_trans hs.2.2.1 hy)) (le_refl _) hm1 k hk
      · obtain ⟨a, b, c3⟩ := hm3 k hk
        exact ⟨by omega, b, c3⟩
    · exact MadeAt_trans head p c _ _ _ hext3.1
        (fun y hy => hs3.2.2.2.1 y (le_trans hs.2.2.1 hy)) hmade1 hmade3

theorem visitNode_tour (n0 : Nat) (lvl : Nat → Nat) (head top F : Nat)
    (titleString filepath : String) (sels : List Transform) (c p : Nat) (r r2 : Run)
    (hs : Sound n0 lvl head top r.heap) (hp : parentOf r.heap c = some p)
    (hmem : c ∈ childrenOf r.heap p)
    (hok : visitNode F top titleString filepath (some head) sels c r = Except.ok r2) :
    Sound n0 lvl head top r2.heap ∧ Extends r.heap r2.heap
      ∧ LinksAfter head r.heap r2.heap
      ∧ MadeAt head p c r.heap.length r2.heap
      ∧ ∃ hits, r2.visits = r.visits ++ [{ node := c, hits := hits }]
          ∧ HitsMade head r.heap.length r2.heap hits := by
  unfold visitNode at hok
  obtain ⟨⟨r1, hits⟩, h1, hok⟩ := (bind_eq_ok _ _ _).mp hok
  rw [pure_eq_ok] at hok
  subst hok
  obtain ⟨hs1, hext1, hla1, hv1, hm1, hmade1⟩ := visitRules_tour n0 lvl head top F titleString
    filepath c p sels 0 r r1 hits hs hp hmem h1
  exact ⟨hs1, hext1, hla1, hmade1, hits, by rw [hv1], hm1⟩

theorem Visited_append {r r2 : Run} {added : List Visit} (hv : r2.visits = r.visits ++ added)
    {y : Nat} (hy : Visited r y) : Visited r2 y := by
  unfold Visited at hy ⊢
  rw [hv, List.map_append]
  exact List.mem_append_left _ hy

theorem InSub_below {h : Heap} {n y : Nat} (hi : InSub h n y) : Below h n y := by
  obtain ⟨c1, hc1, hb⟩ := hi
  exact (Below.below_of_parent hc1).below_trans hb

theorem InSub_reflect {h h2 : Heap} {n y : Nat} (hwf : WellFormed h) (hg : Grows h h2)
    (hi : InSub h2 n y) (hy : y < h.length) : InSub h n y := by
  obtain ⟨c1, hc1, hb⟩ := hi
  have hb0 := Below_reflect hwf hg hb hy
  have hc1lt := Below_lt hwf hb0 hy
  refine ⟨c1, ?_, hb0⟩
  rw [← parentOf_grows _ _ _ hg hc1lt]
  exact hc1

theorem not_InSub_of_above {h : Heap} (hac : Acyclic h) {p c head : Nat}
    (hp : parentOf h c = some p) (hne : p ≠ head) (hb : Below h p head) :
    ¬ InSub h head c := by
  intro ⟨c1, hc1, hb1⟩
  rcases hb1.below_cases_parent with he | ⟨q, hq, hcq⟩
  · subst he
    rw [hp] at hc1
    exact hne (Option.some.inj hc1)
  · rw [hp] at hq
    have hqp : p = q := Option.some.inj hq
    rw [← hqp] at hcq
    exact hne (Below_antisymm hac hb ((Below.below_of_parent hc1).below_trans hcq))

theorem Below_head_of_common {h : Heap} (hac : Acyclic h) {p c head v : Nat}
    (hp : parentOf h c = some p) (hne : p ≠ head) (hb : Below h p head)
    (h1 : InSub h c v) (h2 : InSub h head v) : Below h c head := by
  rcases Below.below_linear (InSub_below h1) (InSub_below h2) with hch | hhc
  · exact hch
  · rcases hhc.below_cases_parent with he | ⟨q, hq, hcq⟩
    · rw [he]
      exact Below.refl c
    · rw [hp] at hq
      have hqp : p = q := Option.some.inj hq
      rw [← hqp] at hcq
      exact absurd (Below_antisymm hac hb hcq) hne

theorem HitsMade_weaken (head len len2 : Nat) (h2 : Heap) (hits : List Hit) (hle : len2 ≤ len)
    (hm : HitsMade head len h2 hits) : HitsMade head len2 h2 hits := by
  intro k hk
  obtain ⟨h1, h2lt, hl⟩ := hm k hk
  exact ⟨by omega, h2lt, hl⟩

theorem traverse_tour (n0 : Nat) (lvl : Nat → Nat) (head top F : Nat)
    (titleString filepath : String) (sels : List Transform) :
    ∀ f,
      (∀ n r r2, Sound n0 lvl head top r.heap → n < r.heap.length →
        descendants (visitNode F top titleString filepath (some head) sels) f n r
          = Except.ok r2 →
        Toured n0 lvl head top n (Under r.heap n) r r2)
      ∧ (∀ c p r r2, Sound n0 lvl head top r.heap →
        parentOf r.heap c = some p → c ∈ childrenOf r.heap p →
        childNodes (visitNode F top titleString filepath (some head) sels) f (some c) r
          = Except.ok r2 →
        Toured n0 lvl head top p (Ahead r.heap c) r r2) := by
  intro f
  induction f with
  | zero =>
    constructor
    · intro n r r2 _ _ hok
      unfold descendants at hok
      exact absurd hok (throw_ne_ok _ _)
    · intro c p r r2 _ _ _ hok
      unfold childNodes at hok
      exact absurd hok (throw_ne_ok _ _)
  | succ f ih =>
    obtain ⟨ihD, ihC⟩ := ih
    constructor
    · intro n r r2 hs hn hok
      unfold descendants at hok
      obtain ⟨fc, hfc, hok⟩ := (bind_eq_ok _ _ _).mp hok
      obtain ⟨fc2, hfc2, hnone, hsome⟩ := FirstChild_total r.heap hs.1 n hn
      rw [hfc] at hfc2
      cases hfc2
      cases fc with
      | none =>
        have hr := childNodes_none _ _ _ _ hok
        subst hr
        refine ⟨hs, Extends_refl _, LinksAfter_refl _ _, ?_, fun _ y h1 h2 => by omega, [],
          by simp, fun v hv => (by cases hv), fun _ v hv => (by cases hv)⟩
        intro y hu
        obtain ⟨c, hc, _⟩ := Under_first hu
        rw [hnone rfl] at hc
        cases hc
      | some c =>
        obtain ⟨hpc, hmem, hall⟩ := hsome c rfl
        obtain ⟨hs2, hext2, hla2, hreg2, hlv2, added, hv2, hadd2, hsub2⟩ :=
          ihC c n r r2 hs hpc hmem hok
        refine ⟨hs2, hext2, hla2, ?_, hlv2, added, hv2, hadd2, hsub2⟩
        intro y hu
        obtain ⟨c1, hc1, hy⟩ := Under_first hu
        exact hreg2 y ⟨c1, hall c1 hc1, hy⟩
    · intro c p r r2 hs hp hmem hok
      have hwf := hs.1
      have hn0 : n0 ≤ r.heap.length := hs.2.2.1
      have hheadlt : head < r.heap.length := lt_of_lt_of_le hs.2.2.2.2.1 hn0
      have hclt : c < r.heap.length := parentOf_lt _ _ _ hp
      unfold childNodes at hok
      obtain ⟨r1, h1, hok⟩ := (bind_eq_ok _ _ _).mp hok
      obtain ⟨r3, h3, hok⟩ := (bind_eq_ok _ _ _).mp hok
      obtain ⟨nx, hnx, hok⟩ := (bind_eq_ok _ _ _).mp hok
      obtain ⟨hs1, hext1, hla1, _, hits, hv1, hm1⟩ := visitNode_tour n0 lvl head top F titleString
        filepath sels c p r r1 hs hp hmem h1
      have hg1 := hext1.1
      have hle1 := hg1.grows_length_le
      have hp1 : parentOf r1.heap c = some p := parentOf_grows_some _ _ _ _ hg1 hp
      obtain ⟨hs3, hext3, hla3, hreg3, _, add3, hv3, hadd3, hsub3⟩ :=
        ihD c r1 r3 hs1 (by omega) h3
      have hg3 := hext3.1
      have hle3 := hg3.grows_length_le
      have hg13 : Grows r.heap r3.heap := hg1.grows_trans hg3
      have hext13 : Extends r.heap r3.heap := Extends_trans hext1 hext3
      have hp3 : parentOf r3.heap c = some p := parentOf_grows_some _ _ _ _ hg13 hp
      have hleaf3 := hs3.2.2.2.1
      have hla13 : LinksAfter head r.heap r3.heap := LinksAfter_trans head hg1 hg3 hla1 hla3
      obtain ⟨nx2, hnx2, hnxp⟩ := NextSibling_total r3.heap hs3.1 c p hp3
      rw [hnx] at hnx2
      cases hnx2
      have hvc : Visited r1 c := by
        unfold Visited
        rw [hv1, List.map_append]
        exact List.mem_append_right _ (by simp)
      have hv13 : r3.visits = r.visits ++ ({ node := c, hits := hits } :: add3) := by
        rw [hv3, hv1, List.append_assoc]
        rfl
      have hsib13 : p = head → ∀ y, r.heap.length ≤ y → y < r3.heap.length →
          isLink r3.heap head y → SibBefore r3.heap c y := by
        intro hph y hy hylt hl
        exact hla13 y hy hylt hl c (hph ▸ hmem)
      have hround13 : ∀ v ∈ ({ node := c, hits := hits } :: add3 : List Visit),
          InSub r3.heap p v.node ∧ HitsMade head r.heap.length r3.heap v.hits := by
        intro v hv
        rcases List.mem_cons.mp hv with rfl | hv
        · exact ⟨⟨c, hp3, Below.refl c⟩, HitsMade_grows head _ _ _ hg3
            (fun y hy => hleaf3 y (le_trans hn0 hy)) (le_refl _) hm1⟩
        · obtain ⟨hin, hm⟩ := hadd3 v hv
          exact ⟨⟨c, hp3, InSub_below hin⟩, HitsMade_weaken head _ _ _ _ hle1 hm⟩
      have hoff13 : p ≠ head → Below r.heap p head →
          ∀ v ∈ ({ node := c, hits := hits } :: add3 : List Visit), InSub r3.heap head v.node →
            ∀ k ∈ v.hits, Visited r3 k.linkNode := by
        intro hne hb v hv hin k hk
        have hb3 : Below r3.heap p head := hb.below_grows hg13
        rcases List.mem_cons.mp hv with rfl | hv
        · exact absurd hin (not_InSub_of_above hs3.acyclic hp3 hne hb3)
        · have hch := Below_head_of_common hs3.acyclic hp3 hne hb3 (hadd3 v hv).1 hin
          exact hsub3 (Below_reflect hs1.1 hg3 hch (by omega)) v hv hin k hk
      have hreg13 : ∀ y x, (x = y ∨ Under r.heap x y) → x = c → Visited r3 y := by
        intro y x hy hx
        subst hx
        rcases hy with rfl | hy
        · exact Visited_append hv3 hvc
        · exact hreg3 y (Under_grows hg1 hy)
      cases nx with
      | none =>
        have hr := childNodes_none _ _ _ _ hok
        subst hr
        have hlinks : p = head → ∀ y, r.heap.length ≤ y → y < r2.heap.length →
            isLink r2.heap head y → Visited r2 y := by
          intro hph y hy hylt hl
          obtain ⟨c2, hc2, _⟩ := NextSibling_complete r2.heap hs3.1 c y none hnx
            (hsib13 hph y hy hylt hl)
          cases hc2
        refine ⟨hs3, hext13, hla13, ?_, hlinks, _, hv13, hround13, ?_⟩
        · intro y ⟨x, hx, hy⟩
          rcases hx with rfl | hx
          · exact hreg13 y x hy rfl
          · obtain ⟨c2, hc2, _⟩ := NextSibling_complete r2.heap hs3.1 c x none hnx
              (hx.sib_grows hg13)
            cases hc2
        · intro hb v hv hin k hk
          by_cases hph : p = head
          · obtain ⟨hk1, hk2, hk3⟩ := (hround13 v hv).2 k hk
            exact hlinks hph _ hk1 hk2 hk3
          · exact hoff13 hph hb v hv hin k hk
      | some c2 =>
        obtain ⟨hpc2, hmem2, hsib⟩ := hnxp c2 rfl
        obtain ⟨hs2, hext2, hla2, hreg2, hlv2, add2, hv2, hadd2, hsub2⟩ :=
          ihC c2 p r3 r2 hs3 hpc2 hmem2 hok
        have hg2 := hext2.1
        have hle2 := hg2.grows_length_le
        have hleaf2 := hs2.2.2.2.1
        have hp2 : parentOf r2.heap c = some p := parentOf_grows_some _ _ _ _ hg2 hp3
        have hv123 : r2.visits = r.visits ++ (({ node := c, hits := hits } :: add3) ++ add2) := by
          rw [hv2, hv13, List.append_assoc]
        have hlinks : p = head → ∀ y, r.heap.length ≤ y → y < r2.heap.length →
            isLink r2.heap head y → Visited r2 y := by
          intro hph y hy hylt hl
          by_cases hy3 : y < r3.heap.length
          · obtain ⟨c3, hc3, hx3⟩ := NextSibling_complete r3.heap hs3.1 c y (some c2) hnx
              (hsib13 hph y hy hy3 (isLink_reflect _ _ _ _ hg2 hy3 hl))
            cases hc3
            exact hreg2 y ⟨y, hx3, Or.inl rfl⟩
          · exact hlv2 hph y (by omega) hylt hl
        have hround : ∀ v ∈ (({ node := c, hits := hits } :: add3) ++ add2 : List Visit),
            InSub r2.heap p v.node ∧ HitsMade head r.heap.length r2.heap v.hits := by
          intro v hv
          rcases List.mem_append.mp hv with hv | hv
          · obtain ⟨hin, hm⟩ := hround13 v hv
            exact ⟨InSub_grows hg2 hin, HitsMade_grows head _ _ _ hg2
              (fun y hy => hleaf2 y (le_trans hn0 hy)) (le_refl _) hm⟩
          · obtain ⟨hin, hm⟩ := hadd2 v hv
            exact ⟨hin, HitsMade_weaken head _ _ _ _ (by omega) hm⟩
        refine ⟨hs2, Extends_trans hext13 hext2, LinksAfter_trans head hg13 hg2 hla13 hla2, ?_,
          hlinks, _, hv123, hround, ?_⟩
        · intro y ⟨x, hx, hy⟩
          rcases hx with rfl | hx
          · exact Visited_append hv2 (hreg13 y x hy rfl)
          · obtain ⟨c3, hc3, hx3⟩ := NextSibling_complete r3.heap hs3.1 c x (some c2) hnx
              (hx.sib_grows hg13)
            cases hc3
            refine hreg2 y ⟨x, hx3, ?_⟩
            rcases hy with rfl | hy
            · exact Or.inl rfl
            · exact Or.inr (Under_grows hg13 hy)
        · intro hb v hv hin k hk
          by_cases hph : p = head
          · obtain ⟨hk1, hk2, hk3⟩ := (hround v hv).2 k hk
            exact hlinks hph _ hk1 hk2 hk3
          · rcases List.mem_append.mp hv with hv | hv
            · have hvlt : v.node < r3.heap.length := by
                obtain ⟨c1, hc1, hb1⟩ := (hround13 v hv).1
                exact Below_right_lt hb1 (parentOf_lt _ _ _ hc1)
              exact Visited_append hv2
                (hoff13 hph hb v hv (InSub_reflect hs3.1 hg2 hin hvlt) k hk)
            · exact hsub2 (hb.below_grows hg13) v hv hin k hk

theorem findRefs_tour (fuel : Nat) (h : Heap) (counter : Int) (top head : Nat)
    (selectors : List Transform) (dashing : Dashing) (filepath : String) (r : Run)
    (hwf : WellFormed h) (hac : Acyclic h) (htop : top < h.length) (hhead : head < h.length)
    (hok : findRefs fuel h counter top selectors dashing filepath (some head) = Except.ok r) :
    WellFormed r.heap ∧ Acyclic r.heap ∧ Extends h r.heap
      ∧ (∀ y, Under h top y → Visited r y)
      ∧ (∀ v ∈ r.visits, InSub r.heap top v.node ∧ HitsMade head h.length r.heap v.hits)
      ∧ (Below h top head → ∀ v ∈ r.visits, InSub r.heap head v.node →
          ∀ k ∈ v.hits, Visited r k.linkNode) := by
  obtain ⟨ht, hht⟩ := hac
  have hs := sound_of_acyclic h head top ht hwf hht htop hhead
  unfold findRefs at hok
  obtain ⟨titleString, _, hok⟩ := (bind_eq_ok _ _ _).mp hok
  obtain ⟨hs2, hext, _, hreg, _, added, hv, hadd, hsub⟩ :=
    (traverse_tour h.length _ head top fuel titleString filepath
      (matchingSelectors selectors filepath) fuel).1 top
      { heap := h, counter := counter, refs := [], visits := [] } r hs htop hok
  simp only [List.nil_append] at hv
  subst hv
  exact ⟨hs2.1, hs2.acyclic, hext, hreg, hadd, hsub⟩

theorem nodup_length_le (l : List Nat) (N : Nat) (hn : l.Nodup) (hlt : ∀ x ∈ l, x < N) :
    l.length ≤ N := by
  have h1 : l.toFinset ⊆ Finset.range N := by
    intro x hx
    exact Finset.mem_range.mpr (hlt x (List.mem_toFinset.mp hx))
  have h2 := Finset.card_le_card h1
  rw [List.toFinset_card_of_nodup hn, Finset.card_range] at h2
  exact h2

theorem findRefs_once (fuel : Nat) (h : Heap) (counter : Int) (top head : Nat)
    (selectors : List Transform) (dashing : Dashing) (filepath : String) (r : Run)
    (hwf : WellFormed h) (hac : Acyclic h) (htop : top < h.length) (hhead : head < h.length)
    (hok : findRefs fuel h counter top selectors dashing filepath (some head) = Except.ok r) :
    (∀ y, Under h top y → (r.visits.map (fun v => v.node)).count y = 1)
      ∧ (r.visits.map (fun v => v.node)).Nodup
      ∧ r.visits.length ≤ r.heap.length := by
  have hhead2 : ∀ q, some head = some q → q < h.length := fun q hq => by
    cases hq
    exact hhead
  obtain ⟨_, _, _, hnd, _⟩ := findRefs_ordered fuel h counter top selectors dashing filepath
    (some head) r hhead2 hwf hac hok
  obtain ⟨_, _, _, hreg, hadd, _⟩ := findRefs_tour fuel h counter top head selectors dashing
    filepath r hwf hac htop hhead hok
  refine ⟨fun y hy => List.count_eq_one_of_mem hnd (hreg y hy), hnd, ?_⟩
  have := nodup_length_le _ r.heap.length hnd (fun x hx => by
    obtain ⟨v, hv, rfl⟩ := List.mem_map.mp hx
    obtain ⟨c1, hc1, hb⟩ := (hadd v hv).1
    exact Below_right_lt hb (parentOf_lt _ _ _ hc1))
  simpa using this

theorem findRefs_bounded (h : Heap) (counter : Int) (top head : Nat)
    (selectors : List Transform) (dashing : Dashing) (filepath : String)
    (hwf : WellFormed h) (hac : Acyclic h) (htop : top < h.length) (hhead : head < h.length)
    (hfresh : Fresh head (matchingSelectors selectors filepath)) :
    ∃ fuel0, ∀ fuel, fuel0 ≤ fuel →
      ∃ r, findRefs fuel h counter top selectors dashing filepath (some head) = Except.ok r
        ∧ r.visits.length
            ≤ h.length + 2 * (matchingSelectors selectors filepath).length * h.length := by
  obtain ⟨fuel0, hf⟩ := findRefs_terminates h counter top head selectors dashing filepath
    hwf hac htop hhead hfresh
  refine ⟨fuel0, fun fuel hfuel => ?_⟩
  obtain ⟨r, hok, _, _, _, hlen, _⟩ := hf fuel hfuel
  exact ⟨r, hok, le_trans (findRefs_once fuel h counter top head selectors dashing filepath r
    hwf hac htop hhead hok).2.2 hlen⟩

/-! ## Theorems: a rule that matches the appended links -/

theorem bind_ok_eq {α β : Type} (x : Except Fault α) (f : α → Except Fault β) (a : α)
    (hx : x = Except.ok a) : (x >>= f) = f a := by
  rw [hx]
  rfl

theorem bind_error_eq {α β : Type} (x : Except Fault α) (f : α → Except Fault β) (e : Fault)
    (hx : x = Except.error e) : (x >>= f) = Except.error e := by
  rw [hx]
  rfl

theorem text_leaf (h : Heap) (F c : Nat) (hc : c < h.length) (hleaf : childrenOf h c = []) :
    ∃ s, text h (F + 1) c = Except.ok s := by
  unfold text
  refine bind_ok_exists _ _ _ (deref_ok_of_lt h c hc) ?_
  have hch : h[c].Children = [] := by
    rw [← childrenOf_eq _ _ _ (List.getElem?_eq_some_iff.mpr ⟨hc, rfl⟩)]
    exact hleaf
  rw [hch]
  exact ⟨_, rfl⟩

theorem tagSelector_grows (tag : String) {h h2 : Heap} (hg : Grows h h2) (x : Nat)
    (hm : tagSelector tag h x = true) : tagSelector tag h2 x = true := by
  unfold tagSelector at hm ⊢
  cases hnd : h[x]? with
  | none => simp [hnd] at hm
  | some nd =>
    obtain ⟨nd2, hnd2, _, hty, hd, _⟩ := hg x nd hnd
    simp only [hnd] at hm
    simp only [hnd2, hty, hd]
    exact hm

theorem visitRule_link_hit (n0 : Nat) (lvl : Nat → Nat) (head top F : Nat)
    (titleString filepath : String) (c idx : Nat) (r : Run)
    (hs : Sound n0 lvl head top r.heap) (hp : parentOf r.heap c = some head)
    (hmem : c ∈ childrenOf r.heap head) (hleaf : childrenOf r.heap c = [])
    (hm : tagSelector "link" r.heap c = true) :
    ∃ r1 k, visitRule (F + 1) top titleString filepath (some head) c idx linkRule r
      = Except.ok (r1, some k) := by
  have hc : c < r.heap.length := parentOf_lt _ _ _ hp
  have hheadlt : head < r.heap.length := lt_of_lt_of_le hs.2.2.2.2.1 hs.2.2.1
  have hex : ∃ x, visitRule (F + 1) top titleString filepath (some head) c idx linkRule r
      = Except.ok x := by
    unfold visitRule
    by_cases hm2 : (!linkRule.CssSelector.Match r.heap c) = true
    · rw [if_pos hm2]
      exact ⟨_, rfl⟩
    · rw [if_neg hm2]
      obtain ⟨textString, htext⟩ := text_leaf r.heap F c hc hleaf
      refine bind_ok_exists _ _ textString htext ?_
      by_cases hreq : (!requireTextOk linkRule textString) = true
      · rw [if_pos hreq]
        exact ⟨_, rfl⟩
      · rw [if_neg hreq]
        by_cases hskip : skipTextHit linkRule textString = true
        · rw [if_pos hskip]
          exact ⟨_, rfl⟩
        · rw [if_neg hskip]
          have hname : ∃ name, (if linkRule.Attribute ≠ "" then attr r.heap c linkRule.Attribute
              else pure textString) = Except.ok name := by
            split
            · exact attr_ok_of_lt _ _ _ hc
            · exact ⟨_, rfl⟩
          obtain ⟨name, hname⟩ := hname
          refine bind_ok_exists _ _ name hname ?_
          refine bind_ok_exists _ _ "" rfl ?_
          have href : ∃ ref, (if !stringsHasSuffix filepath "-2.html" then
                (linkHrefOf r.heap c).map (fun linkHref =>
                  some
                    { selector := linkRule.CssSelector.Str, name := "" ++ name,
                      etype := linkRule.Typ, href := filepath ++ linkHref,
                      menuDescription := titleString : reference })
              else pure none) = Except.ok ref := by
            split
            · obtain ⟨v, hv⟩ := linkHrefOf_ok_of_lt r.heap c hc
              exact ⟨_, (map_eq_ok _ _ _).mpr ⟨v, hv, rfl⟩⟩
            · exact ⟨_, rfl⟩
          obtain ⟨ref, href⟩ := href
          refine bind_ok_exists _ _ ref href ?_
          obtain ⟨t, ht⟩ := inject_succeeds r.heap r.counter head c head name linkRule.Typ
            linkRule.TOCRoot hheadlt hp hheadlt hmem
          exact bind_ok_exists _ _ t ht ⟨_, rfl⟩
  obtain ⟨⟨r1, hit⟩, hok⟩ := hex
  rcases visitRule_cases _ _ _ _ _ _ _ _ _ _ _ hok with ⟨_, _, hno⟩ | ⟨_, hcase⟩
  · exfalso
    rcases hno with hno | ⟨textString, _, hno | hno⟩
    · rw [show linkRule.CssSelector.Match r.heap c = tagSelector "link" r.heap c from rfl,
        hm] at hno
      cases hno
    · cases hno
    · cases hno
  · obtain ⟨_, _, _, _, t, _, _, _, _, _, _, _, _, hh⟩ := hcase
    exact ⟨r1, _, by rw [hok, hh]⟩

theorem visitNode_link_hit (n0 : Nat) (lvl : Nat → Nat) (head top F : Nat)
    (titleString filepath : String) (c : Nat) (r : Run)
    (hs : Sound n0 lvl head top r.heap) (hp : parentOf r.heap c = some head)
    (hmem : c ∈ childrenOf r.heap head) (hleaf : childrenOf r.heap c = [])
    (hm : tagSelector "link" r.heap c = true) :
    ∃ r1 k, visitNode (F + 1) top titleString filepath (some head) [linkRule] c r
        = Except.ok r1
      ∧ r1.visits = r.visits ++ [{ node := c, hits := [k] }] := by
  obtain ⟨r1, k, h1⟩ := visitRule_link_hit n0 lvl head top F titleString filepath c 0 r hs hp
    hmem hleaf hm
  have hv1 := (visitRule_shape _ _ _ _ _ _ _ _ _ _ _ h1).1
  refine ⟨{ r1 with visits := r1.visits ++ [{ node := c, hits := [k] }] }, k, ?_, by rw [hv1]⟩
  unfold visitNode visitRules visitRules
  rw [h1]
  rfl

theorem link_rule_loops (n0 : Nat) (lvl : Nat → Nat) (head top F : Nat)
    (titleString filepath : String) :
    ∀ (f : Nat) (r : Run) (c : Nat), Sound n0 lvl head top r.heap →
      parentOf r.heap c = some head → c ∈ childrenOf r.heap head →
      (∀ x, (x = c ∨ SibBefore r.heap c x) → n0 ≤ x ∧ tagSelector "link" r.heap x = true) →
      childNodes (visitNode (F + 1) top titleString filepath (some head) [linkRule]) f
        (some c) r = Except.error Fault.fuel := by
  intro f
  induction f with
  | zero =>
    intro r c _ _ _ _
    unfold childNodes
    rfl
  | succ f ih =>
    intro r c hs hp hmem hall
    have hclt : c < r.heap.length := parentOf_lt _ _ _ hp
    have hn0 : n0 ≤ r.heap.length := hs.2.2.1
    obtain ⟨hcn0, hcm⟩ := hall c (Or.inl rfl)
    obtain ⟨r1, k, h1, hv1⟩ := visitNode_link_hit n0 lvl head top F titleString filepath c r hs
      hp hmem (hs.2.2.2.1 c hcn0) hcm
    obtain ⟨hs1, hext1, hla1, hmade1, hits, hv1b, hm1⟩ := visitNode_tour n0 lvl head top (F + 1)
      titleString filepath [linkRule] c head r r1 hs hp hmem h1
    have hle1 := hext1.1.grows_length_le
    have hp1 : parentOf r1.heap c = some head := parentOf_grows_some _ _ _ _ hext1.1 hp
    have hhits : hits = [k] := by
      rw [hv1] at hv1b
      have := List.append_cancel_left hv1b
      simp only [List.cons.injEq, Visit.mk.injEq, true_and, and_true] at this
      exact this.symm
    subst hhits
    obtain ⟨hk1, hk2, hk3⟩ := hm1 k (List.mem_singleton.mpr rfl)
    have hsib : SibBefore r1.heap c k.linkNode := hla1 _ hk1 hk2 hk3 c hmem
    obtain ⟨nx, hnx, hnxp⟩ := NextSibling_total r1.heap hs1.1 c head hp1
    obtain ⟨c2, hc2, _⟩ := NextSibling_complete r1.heap hs1.1 c k.linkNode nx hnx hsib
    subst hc2
    obtain ⟨hpc2, hmem2, hsib2⟩ := hnxp c2 rfl
    obtain ⟨fc, hfc, hnone, hsome⟩ := FirstChild_total r1.heap hs1.1 c (by omega)
    have hfcn : fc = none := by
      cases fc with
      | none => rfl
      | some x =>
        have hx := (hsome x rfl).2.1
        rw [hs1.2.2.2.1 c hcn0] at hx
        cases hx
    subst hfcn
    unfold childNodes
    rw [bind_ok_eq _ _ _ h1]
    cases f with
    | zero =>
      unfold descendants
      rfl
    | succ f =>
      unfold descendants
      rw [bind_ok_eq _ _ _ hfc]
      cases f with
      | zero =>
        unfold childNodes
        rfl
      | succ f =>
        rw [childNodes_none_ok, bind_ok_eq _ _ _ rfl, bind_ok_eq _ _ _ hnx]
        refine ih r1 c2 hs1 hpc2 hmem2 ?_
        intro x hx
        have hsx : SibBefore r1.heap c x := by
          rcases hx with rfl | hx
          · exact hsib2
          · exact hsib2.sib_trans hs1.1 hx
        obtain ⟨q, _, _, _, _, _, hqx⟩ := hsx.sib_parents hs1.1
        have hxlt : x < r1.heap.length := parentOf_lt _ _ _ hqx
        by_cases hxo : x < r.heap.length
        · obtain ⟨h4, h5⟩ := hall x (Or.inr (SibBefore_reflect hs.1 hs1.1 hext1 hsx hclt hxo))
          exact ⟨h4, tagSelector_grows _ hext1.1 x h5⟩
        · refine ⟨by omega, ?_⟩
          rcases hmade1 x (by omega) hxlt with hl | ⟨_, hxc⟩
          · rw [tagSelector_isLink _ _ _ _ hl]
            rfl
          · exact absurd rfl ((hsx.sib_trans hs1.1 hxc).sib_ne hs1.1)

theorem descendants_loops (body : Nat → Run → Except Fault Run) (n c : Nat) (r : Run)
    (hfc : FirstChild r.heap n = Except.ok (some c))
    (hc : ∀ f, childNodes body f (some c) r = Except.error Fault.fuel) :
    ∀ f, descendants body f n r = Except.error Fault.fuel := by
  intro f
  cases f with
  | zero =>
    unfold descendants
    rfl
  | succ f =>
    unfold descendants
    rw [bind_ok_eq _ _ _ hfc]
    exact hc f

theorem childNodes_loops (body : Nat → Run → Except Fault Run) (c : Nat) (r r1 : Run)
    (hb : body c r = Except.ok r1)
    (hd : ∀ f, descendants body f c r1 = Except.error Fault.fuel) :
    ∀ f, childNodes body f (some c) r = Except.error Fault.fuel := by
  intro f
  cases f with
  | zero =>
    unfold childNodes
    rfl
  | succ f =>
    unfold childNodes
    rw [bind_ok_eq _ _ _ hb, bind_error_eq _ _ _ (hd f)]

theorem visitRules_no_match (fuel top : Nat) (titleString filepath : String)
    (headNode : Option Nat) (c : Nat) (r : Run) :
    ∀ (sels : List Transform) (idx : Nat),
      (∀ sel ∈ sels, sel.CssSelector.Match r.heap c = false) →
      visitRules fuel top titleString filepath headNode c idx sels r = Except.ok (r, []) := by
  intro sels
  induction sels with
  | nil =>
    intro idx _
    unfold visitRules
    rfl
  | cons sel sels ih =>
    intro idx hno
    have h1 : visitRule fuel top titleString filepath headNode c idx sel r
        = Except.ok (r, none) := by
      unfold visitRule
      rw [if_pos (by rw [hno sel (List.mem_cons_self _ _)]; rfl)]
      rfl
    unfold visitRules
    rw [h1]
    show (visitRules fuel top titleString filepath headNode c (idx + 1) sels r >>= _) = _
    rw [ih (idx + 1) (fun s hs => hno s (List.mem_cons_of_mem _ hs))]
    rfl

theorem visitNode_no_match (fuel top : Nat) (titleString filepath : String)
    (headNode : Option Nat) (sels : List Transform) (c : Nat) (r : Run)
    (hno : ∀ sel ∈ sels, sel.CssSelector.Match r.heap c = false) :
    visitNode fuel top titleString filepath headNode sels c r
      = Except.ok { r with visits := r.visits ++ [{ node := c, hits := [] }] } := by
  unfold visitNode
  rw [visitRules_no_match fuel top titleString filepath headNode c r sels 0 hno]
  rfl

theorem linkedDoc_sound : Sound 4 (fun i => 4 - i) 2 0 linkedDoc := by
  refine ⟨wellFormed_of_check linkedDoc (by decide), ?_, by decide, ?_, by decide, by decide,
    ?_, ?_⟩
  · intro c p hcp
    show 4 - c < 4 - p
    have hc : c < 5 := parentOf_lt _ _ _ hcp
    interval_cases c <;> simp [parentOf, linkedDoc, elementNode, documentNode] at hcp <;> omega
  · intro i hi
    by_cases h4 : i = 4
    · subst h4
      rfl
    · exact childrenOf_of_ge _ _ (by
        show 5 ≤ i
        omega)
  · intro i hi
    show 4 - i = 0
    omega
  · intro i hi
    show 0 < 4 - i
    omega

theorem linkedDoc_links (x : Nat) (hx : x = 4 ∨ SibBefore linkedDoc 4 x) :
    4 ≤ x ∧ tagSelector "link" linkedDoc x = true := by
  rcases hx with rfl | ⟨p, nd, hp, hsub⟩
  · exact ⟨le_refl _, by decide⟩
  · exfalso
    have hplt : p < 5 := (List.getElem?_eq_some_iff.mp hp).1
    have hlen := hsub.length_le
    have hmem : 4 ∈ nd.Children := hsub.subset (List.mem_cons_self _ _)
    interval_cases p <;>
      simp [linkedDoc, elementNode, documentNode] at hp <;> subst hp <;> simp at hlen hmem

theorem findRefs_linkedDoc (fuel : Nat) :
    findRefs fuel linkedDoc 0 0 [linkRule] (rulesOnly [] []) "page.html" (some 2)
      = Except.error Fault.fuel := by
  cases fuel with
  | zero => rfl
  | succ F =>
    have hno : ∀ c : Nat, c = 1 ∨ c = 2 → ∀ sel ∈ [linkRule],
        sel.CssSelector.Match linkedDoc c = false := by
      intro c hc sel hs
      rw [List.mem_singleton] at hs
      subst hs
      rcases hc with rfl | rfl <;> decide
    generalize hbody : visitNode (F + 1) 0 "" "page.html" (some 2) [linkRule] = body
    have h4 : ∀ f, childNodes body f (some 4)
        (⟨linkedDoc, 0, [], [⟨1, []⟩, ⟨2, []⟩]⟩ : Run) = Except.error Fault.fuel := by
      intro f
      rw [← hbody]
      exact link_rule_loops 4 (fun i => 4 - i) 2 0 F "" "page.html" f _ 4 linkedDoc_sound rfl
        (by decide) linkedDoc_links
    have hb2 : body 2 (⟨linkedDoc, 0, [], [⟨1, []⟩]⟩ : Run)
        = Except.ok ⟨linkedDoc, 0, [], [⟨1, []⟩, ⟨2, []⟩]⟩ := by
      rw [← hbody]
      exact visitNode_no_match (F + 1) 0 "" "page.html" (some 2) [linkRule] 2 _
        (hno 2 (Or.inr rfl))
    have hb1 : body 1 (⟨linkedDoc, 0, [], []⟩ : Run)
        = Except.ok ⟨linkedDoc, 0, [], [⟨1, []⟩]⟩ := by
      rw [← hbody]
      exact visitNode_no_match (F + 1) 0 "" "page.html" (some 2) [linkRule] 1 _
        (hno 1 (Or.inl rfl))
    have hd2 := descendants_loops body 2 4 ⟨linkedDoc, 0, [], [⟨1, []⟩, ⟨2, []⟩]⟩ rfl h4
    have hc2 := childNodes_loops body 2 _ _ hb2 hd2
    have hd1 := descendants_loops body 1 2 ⟨linkedDoc, 0, [], [⟨1, []⟩]⟩ rfl hc2
    have hc1 := childNodes_loops body 1 _ _ hb1 hd1
    have hd0 := descendants_loops body 0 1 ⟨linkedDoc, 0, [], []⟩ rfl hc1 (F + 1)
    rw [← hbody] at hd0
    exact hd0

theorem linkRule_not_fresh : ¬ Fresh 2 (matchingSelectors [linkRule] "page.html") := by
  intro hf
  have := hf linkRule (show linkRule ∈ [linkRule] from List.mem_singleton.mpr rfl)
    [attachedTo (linkNodeOf "t") 2] 0 ⟨"t", rfl⟩
  revert this
  decide

/-! ## Theorems: the traversal of findRefs -/

/-- C13: take a finite document (a well-formed acyclic heap `h` with the root
`top`) and a head node `head` in it. If no rule that survives the path filter
matches, in any heap, a `link` element as `findRefs` appends it to the head,
then for every large enough fuel `findRefs` returns, and the number of rounds
of its outer loop is at most the number of nodes of the document times one
plus twice the number of surviving rules. Whenever `findRefs` returns, every
node below `top` in the original document has been the node of exactly one
round of the outer loop, and for every round at a node strictly below the
head each of its hits made a new `link` node that is a node of exactly one
round of the same traversal. Without the precondition the bound is lost: on
the well-formed page `linkedDoc`, whose head holds a `link` element, the rule
`link` matches the appended links, and `findRefs` runs out of fuel for every
amount of fuel. -/
theorem C13_findRefs_visits_each_node_once (h : Heap) (counter : Int) (top head : Nat)
    (selectors : List Transform) (dashing : Dashing) (filepath : String)
    (hwf : WellFormed h) (hac : Acyclic h) (htop : top < h.length) (hhead : head < h.length) :
    (Fresh head (matchingSelectors selectors filepath) →
        ∃ fuel0, ∀ fuel, fuel0 ≤ fuel →
          ∃ r, findRefs fuel h counter top selectors dashing filepath (some head)
              = Except.ok r
            ∧ r.visits.length
                ≤ h.length + 2 * (matchingSelectors selectors filepath).length * h.length)
    ∧ (∀ fuel r,
        findRefs fuel h counter top selectors dashing filepath (some head) = Except.ok r →
        (∀ y, Under h top y → (r.visits.map (fun v => v.node)).count y = 1)
        ∧ (Below h top head → ∀ v ∈ r.visits, InSub r.heap head v.node → ∀ k ∈ v.hits,
            h.length ≤ k.linkNode ∧ isLink r.heap head k.linkNode
              ∧ (r.visits.map (fun v => v.node)).count k.linkNode = 1))
    ∧ (WellFormed linkedDoc ∧ Acyclic linkedDoc
        ∧ ¬ Fresh 2 (matchingSelectors [linkRule] "page.html")
        ∧ ∀ fuel, findRefs fuel linkedDoc 0 0 [linkRule] (rulesOnly [] []) "page.html" (some 2)
            = Except.error Fault.fuel) := by
  refine ⟨fun hfresh => findRefs_bounded h counter top head selectors dashing filepath hwf hac
    htop hhead hfresh, fun fuel r hok => ?_, linkedDoc_sound.1, linkedDoc_sound.acyclic,
    linkRule_not_fresh, findRefs_linkedDoc⟩
  obtain ⟨honce, hnd, _⟩ := findRefs_once fuel h counter top head selectors dashing filepath r
    hwf hac htop hhead hok
  obtain ⟨_, _, _, _, hadd, hsub⟩ := findRefs_tour fuel h counter top head selectors dashing
    filepath r hwf hac htop hhead hok
  refine ⟨honce, fun hb v hv hin k hk => ?_⟩
  obtain ⟨hk1, _, hk3⟩ := (hadd v hv).2 k hk
  exact ⟨hk1, hk3, List.count_eq_one_of_mem hnd (hsub hb v hv hin k hk)⟩

/-- C13 on the page with a title and the rule `title`: `findRefs` returns for
every large enough fuel after at most 30 rounds; with fuel 20 the rounds are
at the nodes 1, 2, 3, 4, 11, 5, 6, 7, 8, 9, where 11 is the link that the hit
at the title (node 3, a child of the head) appended to the head: every node
below the document node has exactly one round, and so has the link. -/
theorem C13_findRefs_visits_each_node_once_witness :
    (∃ fuel0, ∀ fuel, fuel0 ≤ fuel →
        ∃ r, findRefs fuel titledDoc 0 0 [titleRule] (rulesOnly [] []) "page.html" (some 2)
            = Except.ok r
          ∧ r.visits.length ≤ titledDoc.length
              + 2 * (matchingSelectors [titleRule] "page.html").length * titledDoc.length)
    ∧ ∃ r, findRefs 20 titledDoc 0 0 [titleRule] (rulesOnly [] []) "page.html" (some 2)
        = Except.ok r
      ∧ r.visits.map (fun v => (v.node, v.hits.map (fun k => k.linkNode)))
          = [(1, []), (2, []), (3, [11]), (4, []), (11, []), (5, []), (6, []), (7, []),
             (8, []), (9, [])]
      ∧ childrenOf r.heap 2 = [10, 3, 11]
      ∧ (∀ y, Under titledDoc 0 y → (r.visits.map (fun v => v.node)).count y = 1)
      ∧ isLink r.heap 2 11
      ∧ (r.visits.map (fun v => v.node)).count 11 = 1 := by
  obtain ⟨r, hr, hshape⟩ := (map_eq_ok
    (findRefs 20 titledDoc 0 0 [titleRule] (rulesOnly [] []) "page.html" (some 2))
    (fun x => decide (x.visits.map (fun v => (v.node, v.hits.map (fun k => k.linkNode)))
          = [(1, []), (2, []), (3, [11]), (4, []), (11, []), (5, []), (6, []), (7, []),
             (8, []), (9, [])]
      ∧ childrenOf x.heap 2 = [10, 3, 11] ∧ parentOf x.heap 3 = some 2))
    true).mp (by decide!)
  simp only [decide_eq_true_eq] at hshape
  obtain ⟨hvis, hkids, hpar⟩ := hshape
  have hmain := C13_findRefs_visits_each_node_once titledDoc 0 0 2 [titleRule]
    (rulesOnly [] []) "page.html"
    (wellFormed_of_check titledDoc (by decide))
    (acyclic_of_check titledDoc (by decide)) (by decide) (by decide)
  have hfresh : Fresh 2 (matchingSelectors [titleRule] "page.html") := by
    apply fresh_tagged
    intro sel hsel h2 x hm
    rw [matchingSelectors_eq_filter] at hsel
    have hmem := List.mem_of_mem_filter hsel
    simp only [List.mem_singleton] at hmem
    subst hmem
    obtain ⟨nd, hnd, hd⟩ := tagSelector_data "title" h2 x hm
    exact ⟨nd, hnd, by rw [hd]; decide⟩
  obtain ⟨honce, hlinks⟩ := hmain.2.1 20 r hr
  have hmem : (3, [11]) ∈ r.visits.map (fun v => (v.node, v.hits.map (fun k => k.linkNode))) := by
    rw [hvis]
    decide
  obtain ⟨v, hv, hv3⟩ := List.mem_map.mp hmem
  simp only [Prod.mk.injEq] at hv3
  obtain ⟨hvn, hvh⟩ := hv3
  have hk : (11 : Nat) ∈ v.hits.map (fun k => k.linkNode) := by
    rw [hvh]
    decide
  obtain ⟨k, hk, hk11⟩ := List.mem_map.mp hk
  have hbelow : Below titledDoc 0 2 :=
    Below.step (p := 1) rfl (Below.step (p := 0) rfl (Below.refl 0))
  have hin : InSub r.heap 2 v.node := by
    rw [hvn]
    exact ⟨3, hpar, Below.refl 3⟩
  obtain ⟨_, hl, hc⟩ := hlinks hbelow v hv hin k hk
  rw [hk11] at hl hc
  exact ⟨hmain.1 hfresh, r, hr, hvis, hkids, honce, hl, hc⟩

/-! ## Theorems: every rule is tried at every node -/

theorem ruleFires_iff (fuel : Nat) (sel : Transform) (h : Heap) (n : Nat) :
    ruleFires fuel sel h n = true ↔
      (sel.CssSelector.Match h n = true
        ∧ ∃ textString, text h fuel n = Except.ok textString
            ∧ requireTextOk sel textString = true ∧ skipTextHit sel textString = false) := by
  unfold ruleFires
  cases ht : text h fuel n with
  | error e => simp
  | ok t => simp

theorem visitRule_fires (fuel top : Nat) (titleString filepath : String)
    (headNode : Option Nat) (n idx : Nat) (sel : Transform) (r r2 : Run)
    (hitOpt : Option Hit)
    (hhead : ∀ p, headNode = some p → p < r.heap.length)
    (hok : visitRule fuel top titleString filepath headNode n idx sel r
      = Except.ok (r2, hitOpt)) :
    hitOpt.isSome = true ↔ ruleFires fuel sel r.heap n = true := by
  rw [ruleFires_iff]
  exact (visitRule_injects fuel top titleString filepath headNode n idx sel r r2 hitOpt hhead
    hok).1

theorem visitRules_tested (fuel top : Nat) (titleString filepath : String)
    (headNode : Option Nat) (n : Nat) :
    ∀ (sels : List Transform) (idx : Nat) (r r2 : Run) (hits : List Hit),
      (∀ p, headNode = some p → p < r.heap.length) →
      visitRules fuel top titleString filepath headNode n idx sels r = Except.ok (r2, hits) →
      Grows r.heap r2.heap
        ∧ (∀ k ∈ hits, idx ≤ k.rule)
        ∧ ∀ j sel, sels[j]? = some sel →
            ∃ h1, Grows r.heap h1 ∧ Grows h1 r2.heap
              ∧ ((∃ k ∈ hits, k.rule = idx + j) ↔ ruleFires fuel sel h1 n = true) := by
  intro sels
  induction sels with
  | nil =>
    intro idx r r2 hits _ hok
    unfold visitRules at hok
    rw [pure_eq_ok] at hok
    cases hok
    exact ⟨Grows.grows_refl _, fun k hk => (by cases hk), fun j sel hj => (by simp at hj)⟩
  | cons sel sels ih =>
    intro idx r r2 hits hhead hok
    unfold visitRules at hok
    obtain ⟨⟨r1, hit⟩, h1, hok⟩ := (bind_eq_ok _ _ _).mp hok
    obtain ⟨⟨r3, hits3⟩, h3, hok⟩ := (bind_eq_ok _ _ _).mp hok
    rw [pure_eq_ok] at hok
    cases hok
    have hg1 := visitRule_grows _ _ _ _ _ _ _ _ _ _ _ hhead h1
    have hhead1 : ∀ p, headNode = some p → p < r1.heap.length :=
      fun p hp => lt_of_lt_of_le (hhead p hp) hg1.grows_length_le
    obtain ⟨hg3, hidx3, htest3⟩ := ih (idx + 1) r1 r2 hits3 hhead1 h3
    have hrule := (visitRule_shape _ _ _ _ _ _ _ _ _ _ _ h1).2.2
    have hfires := visitRule_fires _ _ _ _ _ _ _ _ _ _ _ hhead h1
    refine ⟨hg1.grows_trans hg3, ?_, ?_⟩
    · intro k hk
      rcases List.mem_append.mp hk with hk | hk
      · have hk2 : hit = some k := by
          cases hit with
          | none => cases hk
          | some k2 =>
            simp only [Option.toList, List.mem_singleton] at hk
            rw [hk]
        rw [hrule k hk2]
      · have := hidx3 k hk
        omega
    · intro j sel2 hj
      cases j with
      | zero =>
        simp only [List.getElem?_cons_zero, Option.some.injEq] at hj
        subst hj
        refine ⟨r.heap, Grows.grows_refl _, hg1.grows_trans hg3, ?_⟩
        rw [← hfires]
        constructor
        · rintro ⟨k, hk, hkr⟩
          rcases List.mem_append.mp hk with hk | hk
          · cases hit with
            | none => cases hk
            | some k2 => rfl
          · have := hidx3 k hk
            omega
        · intro hs
          cases hit with
          | none => cases hs
          | some k2 =>
            exact ⟨k2, List.mem_append_left _ (by simp [Option.toList]), by
              rw [hrule k2 rfl]
              rfl⟩
      | succ j =>
        simp only [List.getElem?_cons_succ] at hj
        obtain ⟨h5, hg5, hg6, hiff⟩ := htest3 j sel2 hj
        refine ⟨h5, hg1.grows_trans hg5, hg6, ?_⟩
        rw [← hiff]
        constructor
        · rintro ⟨k, hk, hkr⟩
          rcases List.mem_append.mp hk with hk | hk
          · exfalso
            cases hit with
            | none => cases hk
            | some k2 =>
              simp only [Option.toList, List.mem_singleton] at hk
              subst hk
              have := hrule k rfl
              omega
          · exact ⟨k, hk, by omega⟩
        · rintro ⟨k, hk, hkr⟩
          exact ⟨k, List.mem_append_right _ hk, by omega⟩

theorem Tested_grows (fuel : Nat) (sels : List Transform) {h0 h2 h3 : Heap} (v : Visit)
    (hg : Grows h2 h3) (ht : Tested fuel sels h0 h2 v) : Tested fuel sels h0 h3 v := by
  obtain ⟨hpw, hlt, hall⟩ := ht
  refine ⟨hpw, hlt, fun i sel hi => ?_⟩
  obtain ⟨h1, hg1, hg2, hiff⟩ := hall i sel hi
  exact ⟨h1, hg1, hg2.grows_trans hg, hiff⟩

theorem findRefs_tested (fuel : Nat) (h : Heap) (counter : Int) (top : Nat)
    (selectors : List Transform) (dashing : Dashing) (filepath : String)
    (headNode : Option Nat) (r : Run) (hhead : ∀ p, headNode = some p → p < h.length)
    (hok : findRefs fuel h counter top selectors dashing filepath headNode = Except.ok r) :
    ∀ v ∈ r.visits, Tested fuel (matchingSelectors selectors filepath) h r.heap v := by
  have hinv := findRefs_inv (fun _ _ _ => True) fuel h counter top selectors dashing filepath
    headNode (fun _ _ _ _ _ _ => trivial) (fun _ _ _ _ _ _ _ _ _ _ => trivial) r hhead hok
  unfold findRefs at hok
  obtain ⟨titleString, _, hok⟩ := (bind_eq_ok _ _ _).mp hok
  have hfin := descendants_invariant
    (fun r => (∀ p, headNode = some p → p < r.heap.length) ∧ Grows h r.heap
      ∧ ∀ v ∈ r.visits, ∀ i sel, (matchingSelectors selectors filepath)[i]? = some sel →
          ∃ h1, Grows h h1 ∧ Grows h1 r.heap
            ∧ ((∃ k ∈ v.hits, k.rule = i) ↔ ruleFires fuel sel h1 v.node = true)) _
    (fun c r1 r2 hP hb => by
      obtain ⟨hh1, hg0, hall⟩ := hP
      unfold visitNode at hb
      obtain ⟨⟨r3, hits⟩, h3, hb⟩ := (bind_eq_ok _ _ _).mp hb
      rw [pure_eq_ok] at hb
      subst hb
      obtain ⟨hg3, _, htest⟩ := visitRules_tested fuel top titleString filepath headNode c
        (matchingSelectors selectors filepath) 0 r1 r3 hits hh1 h3
      have hv3 : r3.visits = r1.visits := by
        have := visitRules_invariant (fun x => x.visits = r1.visits) fuel top titleString
          filepath headNode c
          (fun idx sel a b hit hP hv =>
            ((visitRule_shape _ _ _ _ _ _ _ _ _ _ _ hv).1).trans hP)
          (matchingSelectors selectors filepath) 0 r1 r3 hits rfl h3
        exact this
      refine ⟨fun p hp => lt_of_lt_of_le (hh1 p hp) hg3.grows_length_le,
        hg0.grows_trans hg3, ?_⟩
      intro v hv i sel hi
      simp only [hv3, List.mem_append, List.mem_singleton] at hv
      rcases hv with hv | hv
      · obtain ⟨h1, hg1, hg2, hiff⟩ := hall v hv i sel hi
        exact ⟨h1, hg1, hg2.grows_trans hg3, hiff⟩
      · subst hv
        obtain ⟨h1, hg1, hg2, hiff⟩ := htest i sel hi
        refine ⟨h1, hg0.grows_trans hg1, hg2, ?_⟩
        simpa using hiff)
    fuel top _ r ⟨hhead, Grows.grows_refl _, by simp⟩ hok
  intro v hv
  obtain ⟨_, _, _, hvis⟩ := hinv
  exact ⟨(hvis v hv).2, fun k hk => ((hvis v hv).1 k hk).2, hfin.2.2 v hv⟩

theorem findRefs_placed (fuel : Nat) (h : Heap) (counter : Int) (top : Nat)
    (selectors : List Transform) (dashing : Dashing) (filepath : String) (head : Nat)
    (r : Run) (hhead : head < h.length)
    (hok : findRefs fuel h counter top selectors dashing filepath (some head) = Except.ok r) :
    ∀ v ∈ r.visits, ∀ k ∈ v.hits,
      SibBefore r.heap k.tocAnchor v.node ∧ k.linkNode ∈ childrenOf r.heap head := by
  have hinv := findRefs_inv
    (fun hp n k => SibBefore hp k.tocAnchor n ∧ k.linkNode ∈ childrenOf hp head)
    fuel h counter top selectors dashing filepath (some head)
    (fun h1 h2 n k hg hΦ => ⟨hΦ.1.sib_grows hg, childrenOf_mem_grows _ _ _ _ hg hΦ.2⟩)
    (fun titleString n idx sel r1 r2 k _ hh hv => by
      obtain ⟨head2, parent, rawName, pre, post, pd2, hd2, hhn, _, _, _, _, _, _, hpd2, hkids,
        _, hhd2, hlast⟩ :=
        (visitRule_injects fuel top titleString filepath (some head) n idx sel r1 r2 (some k)
          hh hv).2 k rfl
      cases hhn
      refine ⟨⟨parent, pd2, hpd2, ?_⟩, ?_⟩
      · rw [hkids]
        exact List.Sublist.trans
          (List.Sublist.cons₂ _ (List.Sublist.cons₂ _ (List.nil_sublist _)))
          (List.sublist_append_right pre _)
      · rw [childrenOf_eq _ _ _ hhd2]
        exact List.mem_of_getLast?_eq_some hlast)
    r (fun p hp => by cases hp; exact hhead) hok
  intro v hv k hk
  exact ((hinv.2.2.2 v hv).1 k hk).1

/-! ## Theorems: continuation pages -/

/-- C6 (amended): for a file path that ends in `-2.html`, on a well-formed
document, when no rule in force matches the `link` elements appended to the
head, `findRefs` returns for every large enough fuel. Whenever `findRefs`
returns, its reference list is empty; the number of children of the head has
grown by the number of recorded rule matches plus the number of those at
nodes that are themselves children of the head, whose anchors go into the
head too; every recorded rule match has made no reference and has its anchor
and its link in the heap, the anchor an `a` element among the children of the
parent of the matched node, before that node, and the link a `link` element
among the children of the head. The recorded rule matches are all the rule
matches: every round has at most one match for a rule, in rule order, and
for every round and every rule in force there is a heap between the initial
and the final one on which the rule was tried at the node of the round, and
the round has a match for the rule exactly when the selector matches the
node and the text passes the filters on that heap. On a well-formed document
every node below the document node has exactly one round. -/
theorem C6_continuation_page_injects_only (h : Heap) (counter : Int) (top : Nat)
    (selectors : List Transform) (dashing : Dashing) (filepath : String) (head : Nat)
    (hsuf : stringsHasSuffix filepath "-2.html" = true) (hhead : head < h.length) :
    (top < h.length → WellFormed h → Acyclic h →
        Fresh head (matchingSelectors selectors filepath) →
        ∃ fuel0, ∀ fuel, fuel0 ≤ fuel → ∃ r,
          findRefs fuel h counter top selectors dashing filepath (some head) = Except.ok r)
    ∧ ∀ fuel r,
        findRefs fuel h counter top selectors dashing filepath (some head) = Except.ok r →
        r.refs = []
          ∧ childCount r.heap head
              = childCount h head + totalHits r.visits + hitsUnder r.heap head r.visits
          ∧ (∀ v ∈ r.visits, ∀ k ∈ v.hits,
              k.ref = none
              ∧ (∃ a l, r.heap[k.tocAnchor]? = some a ∧ a.Data = "a"
                  ∧ a.Parent = parentOf r.heap v.node
                  ∧ r.heap[k.linkNode]? = some l ∧ l.Data = "link"
                  ∧ l.Parent = some head)
              ∧ SibBefore r.heap k.tocAnchor v.node ∧ k.linkNode ∈ childrenOf r.heap head)
          ∧ (∀ v ∈ r.visits,
              Tested fuel (matchingSelectors selectors filepath) h r.heap v)
          ∧ (top < h.length → WellFormed h → Acyclic h →
              ∀ y, Under h top y → (r.visits.map (fun v => v.node)).count y = 1) := by
  refine ⟨fun htop hwf hac hfresh =>
      findRefs_returns h counter top head selectors dashing filepath hwf hac htop hhead hfresh,
    fun fuel r hok => ?_⟩
  obtain ⟨hrefs, hcount, hnodes⟩ :=
    findRefs_continuation fuel h counter top selectors dashing filepath head r hsuf hhead hok
  have hplaced := findRefs_placed fuel h counter top selectors dashing filepath head r hhead hok
  refine ⟨hrefs, hcount, fun v hv k hk => ?_, ?_, fun htop hwf hac => ?_⟩
  · obtain ⟨hnone, hex⟩ := hnodes v hv k hk
    obtain ⟨hsib, hmem⟩ := hplaced v hv k hk
    exact ⟨hnone, hex, hsib, hmem⟩
  · exact findRefs_tested fuel h counter top selectors dashing filepath (some head) r
      (fun p hp => by cases hp; exact hhead) hok
  · exact (findRefs_once fuel h counter top head selectors dashing filepath r hwf hac htop hhead
      hok).1

/-- C6 on the page with a title, under the name `page-2.html` and with the
rule `title`: `findRefs` returns for every large enough fuel. With fuel 20
the rule matches at the title (node 3, a child of the head) and at no other
node of the page, the run has rounds at the nodes 1, 2, 3, 4, 11, 5, 6, 7, 8,
9 with the one match at node 3, no reference, the anchor 10 and the link 11
with the target `//dash_ref_0/Guide/T/0`, and the children of the head go
from `[3]` to `[10, 3, 11]`: one match, two more children. -/
theorem C6_continuation_page_injects_only_witness :
    (∃ fuel0, ∀ fuel, fuel0 ≤ fuel → ∃ r,
        findRefs fuel titledDoc 0 0 [titleRule] (rulesOnly [] []) "page-2.html" (some 2)
          = Except.ok r)
    ∧ (List.range titledDoc.length).filter (ruleFires 20 titleRule titledDoc) = [3]
    ∧ childrenOf titledDoc 2 = [3]
    ∧ ∃ r, findRefs 20 titledDoc 0 0 [titleRule] (rulesOnly [] []) "page-2.html" (some 2)
        = Except.ok r
      ∧ r.refs = []
      ∧ r.visits.map (fun v => (v.node, v.hits.map (fun k => (k.rule, k.tocAnchor, k.linkNode))))
          = [(1, []), (2, []), (3, [(0, 10, 11)]), (4, []), (11, []), (5, []), (6, []),
             (7, []), (8, []), (9, [])]
      ∧ childrenOf r.heap 2 = [10, 3, 11]
      ∧ r.heap[10]? = some (attachedTo (anchorNodeOf "//dash_ref_0/Guide/T/0") 2)
      ∧ r.heap[11]? = some (attachedTo (linkNodeOf "//dash_ref_0/Guide/T/0") 2)
      ∧ totalHits r.visits = 1 ∧ hitsUnder r.heap 2 r.visits = 1
      ∧ childCount r.heap 2
          = childCount titledDoc 2 + totalHits r.visits + hitsUnder r.heap 2 r.visits
      ∧ (∀ v ∈ r.visits, ∀ k ∈ v.hits,
          k.ref = none
          ∧ (∃ a l, r.heap[k.tocAnchor]? = some a ∧ a.Data = "a"
              ∧ a.Parent = parentOf r.heap v.node
              ∧ r.heap[k.linkNode]? = some l ∧ l.Data = "link" ∧ l.Parent = some 2)
          ∧ SibBefore r.heap k.tocAnchor v.node ∧ k.linkNode ∈ childrenOf r.heap 2)
      ∧ (∀ v ∈ r.visits, Tested 20 (matchingSelectors [titleRule] "page-2.html") titledDoc
          r.heap v)
      ∧ ∀ y, Under titledDoc 0 y → (r.visits.map (fun v => v.node)).count y = 1 := by
  obtain ⟨r, hr, hshape⟩ := (map_eq_ok
    (findRefs 20 titledDoc 0 0 [titleRule] (rulesOnly [] []) "page-2.html" (some 2))
    (fun x => decide (x.refs = []
      ∧ x.visits.map (fun v => (v.node, v.hits.map (fun k => (k.rule, k.tocAnchor, k.linkNode))))
          = [(1, []), (2, []), (3, [(0, 10, 11)]), (4, []), (11, []), (5, []), (6, []),
             (7, []), (8, []), (9, [])]
      ∧ childrenOf x.heap 2 = [10, 3, 11]
      ∧ x.heap[10]? = some (attachedTo (anchorNodeOf "//dash_ref_0/Guide/T/0") 2)
      ∧ x.heap[11]? = some (attachedTo (linkNodeOf "//dash_ref_0/Guide/T/0") 2)
      ∧ totalHits x.visits = 1 ∧ hitsUnder x.heap 2 x.visits = 1))
    true).mp (by decide!)
  simp only [decide_eq_true_eq] at hshape
  obtain ⟨_, hvis, hkids, ha, hl, htot, hund⟩ := hshape
  have hmain := C6_continuation_page_injects_only titledDoc 0 0 [titleRule] (rulesOnly [] [])
    "page-2.html" 2 (by decide) (by decide)
  have hfresh : Fresh 2 (matchingSelectors [titleRule] "page-2.html") := by
    apply fresh_tagged
    intro sel hsel h2 x hm
    have hs : sel = titleRule := by simpa [matchingSelectors, titleRule, plainRule] using hsel
    subst hs
    obtain ⟨nd, hnd, hd⟩ := tagSelector_data "title" h2 x hm
    exact ⟨nd, hnd, by rw [hd]; decide⟩
  have hwf := wellFormed_of_check titledDoc (by decide)
  have hac := acyclic_of_check titledDoc (by decide)
  obtain ⟨hrefs, hcount, hnodes, htested, honce⟩ := hmain.2 20 r hr
  exact ⟨hmain.1 (by decide) hwf hac hfresh, by decide!, by decide, r, hr, hrefs, hvis, hkids,
    ha, hl, htot, hund, hcount, hnodes, htested, honce (by decide) hwf hac⟩

/-- C6 as stated fails: on the page with a title, under the name
`page-2.html` and with the rule `title`, there is one rule match, and the
head, which has one child before, has three after, not two. -/
theorem C6_head_grows_by_two :
    (findRefs 20 titledDoc 0 0 [titleRule] (rulesOnly [] []) "page-2.html" (some 2)).map
        (fun r => (r.refs, totalHits r.visits, childCount r.heap 2))
      = Except.ok ([], 1, 3)
    ∧ childCount titledDoc 2 = 1 := by
  decide!
end DashDocset
